import Mathlib

/-!
Ruby generator for protocol buffer schemas: embedding and verification.

Shallow embedding of `ext/ruby_generator/RubyGenerator.{h,cpp}`.

* Text is `List Char` (`Str`); string constants of the source are written `"...".toList`.
* The mutable members of the C++ class are the fields of the structure `RubyGenerator`;
  every member function is a state transformer.  `throw 1` is `Except.error`, carrying the
  members as they are when the exception leaves `ValidatePrinter`.
* The descriptor graph of the protobuf library is a tree of plain records; a cross
  reference from a field to a message or enum type is the full name of that type.
* `io::Printer` (protobuf library) is modelled as a record over a byte sink of bounded or
  unbounded room.
* `extended_messages` (`tr1::unordered_map`) is a list of keys with their buckets in
  insertion order; the order in which the table is iterated is a parameter (`HashOrder`).
  `Generate` is given with the loop of `PrintDanglingExtendedMessages` as a build runs it
  that goes on to the keys held at the start of the loop; the same loop followed by
  iterator, where the increment meets the entry the body has erased, is
  `PrintDanglingExtendedMessagesByIterator` and `GenerateBodyByIterator`.
-/

namespace RubyGen

/-- Text: a sequence of characters. -/
abbrev Str := List Char

/-! ## Descriptors (read-only schema model of the protobuf library) -/

/-- The label of a field: `FieldDescriptor::Label`. -/
inductive Label where
  | LABEL_OPTIONAL
  | LABEL_REQUIRED
  | LABEL_REPEATED
  deriving DecidableEq, Repr

/-- The declared type of a field: `FieldDescriptor::Type`. -/
inductive FieldType where
  | TYPE_DOUBLE
  | TYPE_FLOAT
  | TYPE_INT64
  | TYPE_UINT64
  | TYPE_INT32
  | TYPE_FIXED64
  | TYPE_FIXED32
  | TYPE_BOOL
  | TYPE_STRING
  | TYPE_GROUP
  | TYPE_MESSAGE
  | TYPE_BYTES
  | TYPE_UINT32
  | TYPE_ENUM
  | TYPE_SFIXED32
  | TYPE_SFIXED64
  | TYPE_SINT32
  | TYPE_SINT64
  deriving DecidableEq, Repr

/-- The in-memory type of a field: `FieldDescriptor::CppType`. -/
inductive CppType where
  | CPPTYPE_INT32
  | CPPTYPE_INT64
  | CPPTYPE_UINT32
  | CPPTYPE_UINT64
  | CPPTYPE_DOUBLE
  | CPPTYPE_FLOAT
  | CPPTYPE_BOOL
  | CPPTYPE_ENUM
  | CPPTYPE_STRING
  | CPPTYPE_MESSAGE
  deriving DecidableEq, Repr

/-- An enum value: its name, its number and the full name of the enum it belongs to
(`type()->full_name()`). -/
structure EnumValueDescriptor where
  name : Str
  number : Int
  type_full_name : Str
  deriving DecidableEq, Repr

/-- An enum type. -/
structure EnumDescriptor where
  name : Str
  values : List EnumValueDescriptor
  deriving DecidableEq, Repr

/-- A field or extension field.  `type_full_name` is `enum_type()->full_name()` or
`message_type()->full_name()`; `containing_type_full_name` is
`containing_type()->full_name()`.  Of the `default_value_*` members only the one selected
by `cpp_type` is meaningful.  Floating point defaults are carried as the text that
`SimpleDtoa` / `SimpleFtoa` return for them. -/
structure FieldDescriptor where
  lowercase_name : Str
  number : Int
  label : Label
  type : FieldType
  type_full_name : Str := []
  containing_type_full_name : Str := []
  has_default_value : Bool := false
  default_value_int32 : Int := 0
  default_value_int64 : Int := 0
  default_value_uint32 : Int := 0
  default_value_uint64 : Int := 0
  default_value_double_text : Str := []
  default_value_float_text : Str := []
  default_value_bool : Bool := false
  default_value_enum : EnumValueDescriptor := ⟨[], 0, []⟩
  default_value_string : Str := []
  options_has_packed : Bool := false
  options_packed : Bool := false
  options_has_deprecated : Bool := false
  options_deprecated : Bool := false
  is_extension : Bool := false
  deriving DecidableEq, Repr

/-- An extension range `start ... end` of a message. -/
structure ExtensionRange where
  start : Int
  end_ : Int
  deriving DecidableEq, Repr

/-- A message type, with the message types nested in it. -/
inductive Descriptor where
  | mk (name full_name : Str) (fields : List FieldDescriptor)
      (nested_types : List Descriptor) (enum_types : List EnumDescriptor)
      (extensions : List FieldDescriptor) (extension_ranges : List ExtensionRange) :
      Descriptor

/-- A method of a service, with the full names of its request and response types. -/
structure MethodDescriptor where
  name : Str
  input_type_full_name : Str
  output_type_full_name : Str
  deriving DecidableEq, Repr

/-- A service. -/
structure ServiceDescriptor where
  name : Str
  methods : List MethodDescriptor
  deriving DecidableEq, Repr

/-- A schema file; `dependencies` holds the names of the imported files. -/
structure FileDescriptor where
  name : Str
  package : Str
  dependencies : List Str := []
  message_types : List Descriptor := []
  enum_types : List EnumDescriptor := []
  services : List ServiceDescriptor := []
  extensions : List FieldDescriptor := []

namespace Descriptor

def name : Descriptor → Str
  | .mk n _ _ _ _ _ _ => n

def full_name : Descriptor → Str
  | .mk _ fn _ _ _ _ _ => fn

def fields : Descriptor → List FieldDescriptor
  | .mk _ _ fs _ _ _ _ => fs

def nested_types : Descriptor → List Descriptor
  | .mk _ _ _ ns _ _ _ => ns

def enum_types : Descriptor → List EnumDescriptor
  | .mk _ _ _ _ es _ _ => es

def extensions : Descriptor → List FieldDescriptor
  | .mk _ _ _ _ _ xs _ => xs

def extension_ranges : Descriptor → List ExtensionRange
  | .mk _ _ _ _ _ _ rs => rs

end Descriptor

namespace FieldDescriptor

def is_required (f : FieldDescriptor) : Bool := f.label == Label.LABEL_REQUIRED

def is_optional (f : FieldDescriptor) : Bool := f.label == Label.LABEL_OPTIONAL

def is_repeated (f : FieldDescriptor) : Bool := f.label == Label.LABEL_REPEATED

/-- The table `kTypeToCppTypeMap` of the protobuf library. -/
def cpp_type (f : FieldDescriptor) : CppType :=
  match f.type with
  | .TYPE_DOUBLE => .CPPTYPE_DOUBLE
  | .TYPE_FLOAT => .CPPTYPE_FLOAT
  | .TYPE_INT64 => .CPPTYPE_INT64
  | .TYPE_UINT64 => .CPPTYPE_UINT64
  | .TYPE_INT32 => .CPPTYPE_INT32
  | .TYPE_FIXED64 => .CPPTYPE_UINT64
  | .TYPE_FIXED32 => .CPPTYPE_UINT32
  | .TYPE_BOOL => .CPPTYPE_BOOL
  | .TYPE_STRING => .CPPTYPE_STRING
  | .TYPE_GROUP => .CPPTYPE_MESSAGE
  | .TYPE_MESSAGE => .CPPTYPE_MESSAGE
  | .TYPE_BYTES => .CPPTYPE_STRING
  | .TYPE_UINT32 => .CPPTYPE_UINT32
  | .TYPE_ENUM => .CPPTYPE_ENUM
  | .TYPE_SFIXED32 => .CPPTYPE_INT32
  | .TYPE_SFIXED64 => .CPPTYPE_INT64
  | .TYPE_SINT32 => .CPPTYPE_INT32
  | .TYPE_SINT64 => .CPPTYPE_INT64

/-- Library predicate `is_packable`: a repeated field of a scalar numeric, bool or enum
type. -/
def is_packable (f : FieldDescriptor) : Bool :=
  f.is_repeated &&
    (match f.type with
     | .TYPE_STRING => false
     | .TYPE_GROUP => false
     | .TYPE_MESSAGE => false
     | .TYPE_BYTES => false
     | _ => true)

end FieldDescriptor

/-! ## Library string helpers (`google/protobuf/stubs/strutil.h`, `substitute.h`) -/

/-- The decimal digit character of `d < 10`. -/
def digitChar (d : Nat) : Char := Char.ofNat (48 + d)

/-- Modelled from the spec: the integer formatting of the protobuf library (`strutil`) is
not under src/; the spec has integers print as decimal text.  Digits of `n`, most
significant first, by repeated division by ten; `fuel` bounds the number of digits. -/
def decimalDigits : Nat → Nat → Str → Str
  | 0, _, acc => acc
  | fuel + 1, n, acc =>
    if n / 10 = 0 then digitChar (n % 10) :: acc
    else decimalDigits fuel (n / 10) (digitChar (n % 10) :: acc)

/-- Modelled from the spec: decimal text of a natural number (see `decimalDigits`). -/
def SimpleItoaNat (n : Nat) : Str := decimalDigits (n + 1) n []

/-- Modelled from the spec: `SimpleItoa` of the protobuf library (`strutil.h`, all four
integer overloads) is not under src/; the spec has integers and unsigned integers print as
decimal text: the digits of the absolute value, with a leading minus sign for a negative
number. -/
def SimpleItoa (i : Int) : Str :=
  if i < 0 then '-' :: SimpleItoaNat i.natAbs else SimpleItoaNat i.toNat

/-- Library function of the protobuf library (`strutil.h`), not under src/, modelled from
its documented behaviour: the tokens of `SplitStringUsing(full, delim, &result)` for a one
character delimiter are the maximal runs of characters other than the delimiter; empty
tokens are skipped.  `cur` is the token being read. -/
def SplitStringUsingAux (delim : Char) : Str → Str → List Str
  | cur, [] => if cur = [] then [] else [cur]
  | cur, c :: cs =>
    if c = delim then
      (if cur = [] then SplitStringUsingAux delim [] cs
       else cur :: SplitStringUsingAux delim [] cs)
    else SplitStringUsingAux delim (cur ++ [c]) cs

/-- Library function `SplitStringUsing`, appending the tokens to `result`. -/
def SplitStringUsing (full : Str) (delim : Char) (result : List Str) : List Str :=
  result ++ SplitStringUsingAux delim [] full

/-- Position of the first occurrence of `pat` in `s` (`string::find`), if any. -/
def findSubstr (pat : Str) : Str → Option Nat
  | [] => if pat = [] then some 0 else none
  | c :: cs =>
    if pat.isPrefixOf (c :: cs) then some 0
    else (findSubstr pat cs).map (· + 1)

/-- Library function of the protobuf library (`strutil.h`), not under src/, modelled from
its documented behaviour: `StringReplace(s, oldsub, newsub, replace_all)` with
`replace_all = false` replaces the first occurrence of `oldsub` in `s` by `newsub`; `s`
is returned unchanged when `oldsub` is empty or does not occur. -/
def StringReplaceFirst (s oldsub newsub : Str) : Str :=
  if oldsub = [] then s
  else
    match findSubstr oldsub s with
    | none => s
    | some pos => s.take pos ++ newsub ++ s.drop (pos + oldsub.length)

/-! ## Static helpers of `RubyGenerator.h` -/

/-- `CreateRubyFileName(proto_filename, for_require)`. -/
def CreateRubyFileName (proto_filename : Str) (for_require : Bool) : Str :=
  let replacement := if for_require then ".pb".toList else ".pb.rb".toList
  StringReplaceFirst proto_filename ".proto".toList replacement

/-- `ConvertIntToString`: the text `stream << number` produces for an `int`. -/
def ConvertIntToString (number : Int) : Str := SimpleItoa number

/-- The character loop of `Constantize`: `constantized` is the stream filled so far,
`segment_end` the flag of the same name. -/
def ConstantizeLoop : Str → Bool → Str → Str
  | constantized, _, [] => constantized
  | constantized, segment_end, c :: cs =>
    if c.toNat = 46 then
      ConstantizeLoop (constantized ++ [':', ':']) true cs
    else if c.toNat = 95 then
      ConstantizeLoop (constantized ++ [c]) true cs
    else
      ConstantizeLoop (constantized ++ [c]) segment_end cs

/-- `Constantize(full_path, is_top_level)`; the one argument overload is
`Constantize full_path true`. -/
def Constantize (full_path : Str) (is_top_level : Bool) : Str :=
  ConstantizeLoop (if is_top_level then "::".toList else []) true full_path

/-- `FullEnumNamespace`: `Substitute("$0::$1", parent_enum_type, enum_name)`. -/
def FullEnumNamespace (descriptor : EnumValueDescriptor) : Str :=
  Constantize descriptor.type_full_name true ++ "::".toList ++ descriptor.name

/-- `DescriptorHasNestedTypes`. -/
def DescriptorHasNestedTypes (descriptor : Descriptor) : Bool :=
  decide (descriptor.enum_types.length > 0) || decide (descriptor.nested_types.length > 0)

/-! ## The printer (`google/protobuf/io/printer.h`) over a byte sink -/

/-- Modelled from the spec: the output sink and the printer writing to it
(`io::ZeroCopyOutputStream`, `io::Printer` of the protobuf library) are not under src/;
the spec has an append-only text stream whose writes can fail, written at the current
indent depth.  `output` is the text the sink has accepted; `room` is the number of bytes
the sink still accepts before a write fails (`none`: the sink never fails); `indent_`,
`at_start_of_line_` and `failed_` are the members of the printer. -/
structure Printer where
  output : Str := []
  room : Option Nat := none
  indent_ : Str := []
  at_start_of_line_ : Bool := true
  failed_ : Bool := false
  deriving DecidableEq, Repr

namespace Printer

/-- Copy `data` to the sink; a sink without room for all of it takes what fits and the
printer is marked failed. -/
def sinkWrite (p : Printer) (data : Str) : Printer :=
  match p.room with
  | none => { p with output := p.output ++ data }
  | some r =>
    if data.length ≤ r then
      { p with output := p.output ++ data, room := some (r - data.length) }
    else
      { p with output := p.output ++ data.take r, room := some 0, failed_ := true }

/-- `Printer::WriteRaw`: nothing happens on a failed printer or for empty data; the first
data written on a line is preceded by the current indentation. -/
def WriteRaw (p : Printer) (data : Str) : Printer :=
  if p.failed_ then p
  else if data = [] then p
  else if p.at_start_of_line_ then
    let p1 := { p with at_start_of_line_ := false }
    let p2 := p1.sinkWrite p1.indent_
    if p2.failed_ then p2 else p2.sinkWrite data
  else p.sinkWrite data

/-- What the scan of a format text does, in order. -/
inductive Piece where
  | raw (data : Str)
  | eol
  deriving DecidableEq, Repr

/-- The scan of `Printer::Print` over the format text with delimiter `$`: literal text
is written up to and including each newline, after which the next write starts a line;
`$name$` writes the value of the variable, `$$` a single delimiter.  `pending` is the
literal text not yet written, `varname` the variable name being read. -/
def pieces (vars : List (Str × Str)) : Str → Option Str → Str → List Piece
  | pending, none, [] => [Piece.raw pending]
  | _, some _, [] => []
  | pending, none, c :: cs =>
    if c = '\n' then
      Piece.raw (pending ++ [c]) :: Piece.eol :: pieces vars [] none cs
    else if c = '$' then
      Piece.raw pending :: pieces vars [] (some []) cs
    else pieces vars (pending ++ [c]) none cs
  | pending, some varname, c :: cs =>
    if c = '$' then
      (if varname = [] then Piece.raw ['$']
       else match vars.lookup varname with
         | some value => Piece.raw value
         | none => Piece.raw []) :: pieces vars pending none cs
    else pieces vars pending (some (varname ++ [c])) cs

/-- Carry out one piece of a scan. -/
def apply (p : Printer) : Piece → Printer
  | Piece.raw data => p.WriteRaw data
  | Piece.eol => { p with at_start_of_line_ := true }

/-- `Printer::Print(vars, text)`. -/
def Print (p : Printer) (vars : List (Str × Str)) (text : Str) : Printer :=
  (pieces vars [] none text).foldl apply p

/-- `Printer::Indent`. -/
def Indent (p : Printer) : Printer := { p with indent_ := p.indent_ ++ "  ".toList }

/-- `Printer::Outdent`; without a matching `Indent` it only logs. -/
def Outdent (p : Printer) : Printer :=
  if p.indent_ = [] then p
  else { p with indent_ := p.indent_.take (p.indent_.length - 2) }

end Printer

/-! ## The generator -/

/-- The mutable members of `RubyGenerator`.  `extended_messages` lists the entries of the
unordered map in the order in which their keys were inserted. -/
structure RubyGenerator where
  printer_ : Printer := {}
  filename : Str := []
  ns_vector : List Str := []
  extended_messages : List (Str × List FieldDescriptor) := []
  indent_level : Nat := 0
  failed_message : Str := []
  deriving DecidableEq, Repr

/-- Iteration order of the unordered map during one call of `Generate`: how
`begin() .. end()` arranges the keys the table holds, given in insertion order.  Whatever
the hash function, every key is visited once.  The order is that of the table as it is in
that call: it depends on the number of buckets of the table, which `clear()` keeps from
earlier calls, so two calls need not share one order (see `Hashing`). -/
structure HashOrder where
  order : List Str → List Str
  perm : ∀ keys, (order keys).Perm keys

/-- The hash order that happens to agree with insertion order. -/
def HashOrder.insertion : HashOrder := ⟨id, fun _ => List.Perm.refl _⟩

/-- The hash order that reverses insertion order. -/
def HashOrder.reversed : HashOrder := ⟨List.reverse, fun l => List.reverse_perm l⟩

/-- Library behaviour (`tr1::unordered_map`, not under src/): the iteration order of the
table of `extended_messages` in a call of `Generate`, for each number of buckets the table
can have when the call is entered.  `clear()` empties the table and keeps its bucket
array, so that number is what earlier calls left behind. -/
structure Hashing where
  withBuckets : Nat → HashOrder

/-- A hashing whose table iterates in reverse insertion order while it has fewer than 23
buckets, and in insertion order from then on. -/
def flippingHashing : Hashing :=
  ⟨fun bucket_count => if bucket_count < 23 then HashOrder.reversed else HashOrder.insertion⟩

/-- A member function: it either returns with the members updated, or leaves by
`throw 1` with the members as they are then. -/
abbrev Action := RubyGenerator → Except RubyGenerator RubyGenerator

/-- Run `f` `n` times. -/
def iterate {α : Type} (f : α → α) : Nat → α → α
  | 0, a => a
  | n + 1, a => iterate f n (f a)

/-- A `for` loop over the elements of a list. -/
def forEach {α : Type} (body : α → Action) : List α → Action
  | [], g => Except.ok g
  | x :: xs, g =>
    match body x g with
    | Except.ok g1 => forEach body xs g1
    | Except.error e => Except.error e

/-- Sequencing of two member function calls. -/
def andThen (f k : Action) : Action := fun g =>
  match f g with
  | Except.ok g1 => k g1
  | Except.error e => Except.error e

/-- `printer_->Print(...)`. -/
def print (vars : List (Str × Str)) (text : Str) : Action := fun g =>
  Except.ok { g with printer_ := g.printer_.Print vars text }

/-- `ValidatePrinter(fail_message)`. -/
def ValidatePrinter (fail_message : Str) : Action := fun g =>
  if g.printer_.failed_ then Except.error { g with failed_message := fail_message }
  else Except.ok g

/-- `PrintNewLine(num_newlines)`. -/
def PrintNewLineN (num_newlines : Nat) : Action := fun g =>
  let g1 := { g with printer_ := iterate Printer.Outdent g.indent_level g.printer_ }
  match forEach (fun (_ : Unit) => andThen (print [] "\n".toList)
      (ValidatePrinter "Failed printing newline".toList))
      (List.replicate num_newlines ()) g1 with
  | Except.ok g2 =>
    Except.ok { g2 with printer_ := iterate Printer.Indent g2.indent_level g2.printer_ }
  | Except.error e => Except.error e

/-- `PrintNewLine()`. -/
def PrintNewLine : Action := PrintNewLineN 1

/-- `Indent()`. -/
def Indent : Action := fun g =>
  Except.ok { g with printer_ := g.printer_.Indent, indent_level := g.indent_level + 1 }

/-- `Outdent()`. -/
def Outdent : Action := fun g =>
  if g.indent_level > 0 then
    Except.ok { g with printer_ := g.printer_.Outdent, indent_level := g.indent_level - 1 }
  else Except.ok g

/-- `PrintComment(comment, as_header)`. -/
def PrintComment (comment : Str) (as_header : Bool) : Action :=
  let format := if as_header then "##\n# $comment$\n#".toList else "# $comment$".toList
  andThen (print [("comment".toList, comment)] format)
    (andThen (ValidatePrinter "Failed printing comment".toList) PrintNewLine)

/-- `PrintRequire(lib_name)`. -/
def PrintRequire (lib_name : Str) : Action :=
  andThen (print [("lib".toList, lib_name)] "require '$lib$'\n".toList)
    (ValidatePrinter "Failed printing require".toList)

/-- `RubyBlockType`. -/
inductive RubyBlockType where
  | RUBY_CLASS
  | RUBY_MODULE
  deriving DecidableEq, Repr

/-- `RubyClassType`. -/
inductive RubyClassType where
  | CLASS_TYPE_MESSAGE
  | CLASS_TYPE_ENUM
  | CLASS_TYPE_SERVICE
  | CLASS_TYPE_NONE
  deriving DecidableEq, Repr

/-- The format text `PrintBlockDeclaration` assembles. -/
def blockFormat (class_type : RubyClassType) (empty_body : Bool) : Str :=
  "$block_type$ $block_name$".toList
    ++ (if class_type ≠ RubyClassType.CLASS_TYPE_NONE then " < $parent_type$".toList else [])
    ++ (if empty_body then "; end".toList else [])

/-- The variable map `PrintBlockDeclaration` fills. -/
def blockData (block_type : RubyBlockType) (class_type : RubyClassType) (block_name : Str) :
    List (Str × Str) :=
  [("block_name".toList, block_name),
   ("block_type".toList,
      match block_type with
      | .RUBY_CLASS => "class".toList
      | .RUBY_MODULE => "module".toList)]
  ++ (match class_type with
      | .CLASS_TYPE_MESSAGE => [("parent_type".toList, "::Protobuf::Message".toList)]
      | .CLASS_TYPE_ENUM => [("parent_type".toList, "::Protobuf::Enum".toList)]
      | .CLASS_TYPE_SERVICE => [("parent_type".toList, "::Protobuf::Rpc::Service".toList)]
      | .CLASS_TYPE_NONE => [])

/-- `PrintBlockDeclaration(block_type, class_type, block_name, empty_body)`. -/
def PrintBlockDeclaration (block_type : RubyBlockType) (class_type : RubyClassType)
    (block_name : Str) (empty_body : Bool) : Action :=
  andThen (print (blockData block_type class_type block_name) (blockFormat class_type empty_body))
    (andThen (ValidatePrinter "Failed printing block declaration".toList)
      (andThen PrintNewLine (if !empty_body then Indent else Except.ok)))

/-- `PrintClassDeclaration(class_name, class_type, empty_body)`; the two argument
overload passes `empty_body = false`. -/
def PrintClassDeclaration (class_name : Str) (class_type : RubyClassType)
    (empty_body : Bool) : Action :=
  PrintBlockDeclaration RubyBlockType.RUBY_CLASS class_type class_name empty_body

/-- `PrintModuleDeclaration(module_name, empty_body)`; the one argument overload passes
`empty_body = false`. -/
def PrintModuleDeclaration (module_name : Str) (empty_body : Bool) : Action :=
  PrintBlockDeclaration RubyBlockType.RUBY_MODULE RubyClassType.CLASS_TYPE_NONE module_name
    empty_body

/-- `PrintBlockEnd()`. -/
def PrintBlockEnd : Action :=
  andThen Outdent
    (andThen (print [] "end".toList)
      (andThen (ValidatePrinter "Failed printing block end".toList) PrintNewLine))

/-! ### The extension registry `extended_messages` -/

/-- `extended_messages.count(key) > 0`. -/
def mapContains (m : List (Str × List FieldDescriptor)) (key : Str) : Bool :=
  m.any (fun e => e.1 == key)

/-- The value `extended_messages[key]` refers to (empty for a key just created). -/
def mapGet (m : List (Str × List FieldDescriptor)) (key : Str) : List FieldDescriptor :=
  (m.lookup key).getD []

/-- The map after an access `extended_messages[key]`: an absent key is created with an
empty vector. -/
def mapTouch (m : List (Str × List FieldDescriptor)) (key : Str) :
    List (Str × List FieldDescriptor) :=
  if mapContains m key then m else m ++ [(key, [])]

/-- The map after `extended_messages[key].push_back(field)`. -/
def mapPushBack (m : List (Str × List FieldDescriptor)) (key : Str) (field : FieldDescriptor) :
    List (Str × List FieldDescriptor) :=
  (mapTouch m key).map (fun e => if e.1 == key then (e.1, e.2 ++ [field]) else e)

/-- The map after `extended_messages.erase(key)`. -/
def mapErase (m : List (Str × List FieldDescriptor)) (key : Str) :
    List (Str × List FieldDescriptor) :=
  m.filter (fun e => !(e.1 == key))

/-- `StoreExtensionFields(descriptor)`, for a file and for a message alike: `extensions`
are the extension fields declared in the scope of the descriptor. -/
def StoreExtensionFields (extensions : List FieldDescriptor) : Action :=
  forEach (fun extension_field g =>
    let containing := extension_field.containing_type_full_name
    Except.ok
      { g with extended_messages := mapPushBack g.extended_messages containing extension_field })
    extensions

/-- `DescriptorHasExtensions(descriptor)`. -/
def DescriptorHasExtensions (descriptor : Descriptor) (g : RubyGenerator) : Bool :=
  if mapContains g.extended_messages descriptor.full_name then
    decide ((mapGet g.extended_messages descriptor.full_name).length ≠ 0)
  else false

/-! ### Fields -/

/-- The wrapper or type name `PrintMessageField` stores in `data["data_type"]`. -/
def fieldDataType (descriptor : FieldDescriptor) : Str :=
  match descriptor.type with
  | .TYPE_DOUBLE => "::Protobuf::Field::DoubleField".toList
  | .TYPE_FLOAT => "::Protobuf::Field::FloatField".toList
  | .TYPE_INT64 => "::Protobuf::Field::Int64Field".toList
  | .TYPE_UINT64 => "::Protobuf::Field::Uint64Field".toList
  | .TYPE_INT32 => "::Protobuf::Field::Int32Field".toList
  | .TYPE_FIXED64 => "::Protobuf::Field::Fixed64Field".toList
  | .TYPE_FIXED32 => "::Protobuf::Field::Fixed32Field".toList
  | .TYPE_BOOL => "::Protobuf::Field::BoolField".toList
  | .TYPE_STRING => "::Protobuf::Field::StringField".toList
  | .TYPE_BYTES => "::Protobuf::Field::BytesField".toList
  | .TYPE_UINT32 => "::Protobuf::Field::Uint32Field".toList
  | .TYPE_SFIXED32 => "::Protobuf::Field::Sfixed32Field".toList
  | .TYPE_SFIXED64 => "::Protobuf::Field::Sfixed64Field".toList
  | .TYPE_SINT32 => "::Protobuf::Field::Sint32Field".toList
  | .TYPE_SINT64 => "::Protobuf::Field::Sint64Field".toList
  | .TYPE_ENUM => Constantize descriptor.type_full_name true
  | .TYPE_GROUP => Constantize descriptor.type_full_name true
  | .TYPE_MESSAGE => Constantize descriptor.type_full_name true

/-- The keyword `PrintMessageField` stores in `data["field_presence"]`. -/
def fieldPresence (descriptor : FieldDescriptor) : Str :=
  if descriptor.is_required then "required".toList
  else if descriptor.is_optional then "optional".toList
  else if descriptor.is_repeated then "repeated".toList
  else []

/-- The local `value` of `PrintMessageField`: the literal of the default value. -/
def fieldDefaultLiteral (descriptor : FieldDescriptor) : Str :=
  match descriptor.cpp_type with
  | .CPPTYPE_INT32 => SimpleItoa descriptor.default_value_int32
  | .CPPTYPE_INT64 => SimpleItoa descriptor.default_value_int64
  | .CPPTYPE_UINT32 => SimpleItoa descriptor.default_value_uint32
  | .CPPTYPE_UINT64 => SimpleItoa descriptor.default_value_uint64
  | .CPPTYPE_DOUBLE => descriptor.default_value_double_text
  | .CPPTYPE_FLOAT => descriptor.default_value_float_text
  | .CPPTYPE_BOOL => if descriptor.default_value_bool then "true".toList else "false".toList
  | .CPPTYPE_ENUM => FullEnumNamespace descriptor.default_value_enum
  | .CPPTYPE_STRING => "\"".toList ++ descriptor.default_value_string ++ "\"".toList
  | .CPPTYPE_MESSAGE => []

/-- The fragment stored in `data["default_opt"]`
(`Substitute(", :default => $0", value)`). -/
def fieldDefaultOpt (descriptor : FieldDescriptor) : Str :=
  if descriptor.has_default_value then
    ", :default => ".toList ++ fieldDefaultLiteral descriptor
  else []

/-- The fragment stored in `data["packed_opt"]`. -/
def fieldPackedOpt (descriptor : FieldDescriptor) : Str :=
  if descriptor.is_packable && descriptor.options_has_packed then
    ", :packed => ".toList
      ++ (if descriptor.options_packed then "true".toList else "false".toList)
  else []

/-- The fragment stored in `data["deprecated_opt"]`. -/
def fieldDeprecatedOpt (descriptor : FieldDescriptor) : Str :=
  if descriptor.options_has_deprecated then
    ", :deprecated => ".toList
      ++ (if descriptor.options_deprecated then "true".toList else "false".toList)
  else []

/-- The fragment stored in `data["extension_opt"]`. -/
def fieldExtensionOpt (descriptor : FieldDescriptor) : Str :=
  if descriptor.is_extension then ", :extension => true".toList else []

/-- The variable map `data` of `PrintMessageField` when it is printed. -/
def fieldData (descriptor : FieldDescriptor) : List (Str × Str) :=
  [("field_presence".toList, fieldPresence descriptor),
   ("field_name".toList, descriptor.lowercase_name),
   ("tag_number".toList, SimpleItoa descriptor.number),
   ("data_type".toList, fieldDataType descriptor),
   ("default_opt".toList, fieldDefaultOpt descriptor),
   ("packed_opt".toList, fieldPackedOpt descriptor),
   ("deprecated_opt".toList, fieldDeprecatedOpt descriptor),
   ("extension_opt".toList, fieldExtensionOpt descriptor)]

/-- The format text of `PrintMessageField`. -/
def fieldFormat : Str :=
  ("$field_presence$ " ++ "$data_type$, " ++ ":$field_name$, " ++ "$tag_number$"
    ++ "$default_opt$" ++ "$packed_opt$" ++ "$deprecated_opt$" ++ "$extension_opt$").toList

/-- `PrintMessageField(descriptor)`. -/
def PrintMessageField (descriptor : FieldDescriptor) : Action :=
  andThen (print (fieldData descriptor) fieldFormat)
    (andThen (ValidatePrinter "Failed printing message field".toList) PrintNewLine)

/-- `PrintMessageExtensionFields(full_name)`. -/
def PrintMessageExtensionFields (full_name : Str) : Action := fun g =>
  let message_extensions := mapGet g.extended_messages full_name
  let g1 := { g with extended_messages := mapTouch g.extended_messages full_name }
  match forEach PrintMessageField message_extensions g1 with
  | Except.ok g2 =>
    Except.ok { g2 with extended_messages := mapErase g2.extended_messages full_name }
  | Except.error e => Except.error e

/-- `PrintExtensionRangesForDescriptor(descriptor)`, given the extension ranges of the
descriptor. -/
def PrintExtensionRangesForDescriptor (extension_ranges : List ExtensionRange) : Action :=
  if extension_ranges.length > 0 then
    andThen PrintNewLine
      (andThen (PrintComment "Extension Fields".toList false)
        (forEach (fun range =>
          andThen (print [("start".toList, SimpleItoa range.start),
                          ("end".toList, SimpleItoa range.end_)]
                    "extensions $start$...$end$".toList)
            (andThen (ValidatePrinter "Failed printing extension ranges".toList) PrintNewLine))
          extension_ranges))
  else Except.ok

/-! ### Enums -/

/-- `PrintEnumValue(descriptor)`. -/
def PrintEnumValue (descriptor : EnumValueDescriptor) : Action :=
  andThen (print [("name".toList, descriptor.name),
                  ("number".toList, ConvertIntToString descriptor.number)]
            "define :$name$, $number$".toList)
    (andThen (ValidatePrinter "Failed printing enum value".toList) PrintNewLine)

/-- `PrintEnum(descriptor)`. -/
def PrintEnum (descriptor : EnumDescriptor) : Action :=
  andThen (PrintClassDeclaration descriptor.name RubyClassType.CLASS_TYPE_ENUM false)
    (andThen (forEach PrintEnumValue descriptor.values)
      (andThen PrintBlockEnd PrintNewLine))

/-- `PrintEnumsForDescriptor(descriptor, print_values)`, given the enum types of the
descriptor. -/
def PrintEnumsForDescriptor (enum_types : List EnumDescriptor) (_print_values : Bool) :
    Action :=
  forEach PrintEnum enum_types

/-- `PrintEnumsForFileDescriptor(descriptor, print_values)`. -/
def PrintEnumsForFileDescriptor (descriptor : FileDescriptor) (print_values : Bool) :
    Action :=
  if descriptor.enum_types.length > 0 then
    andThen
      (if print_values then PrintComment "Enum Values".toList true
       else PrintComment "Enum Classes".toList true)
      (forEach PrintEnum descriptor.enum_types)
  else Except.ok

/-! ### Messages -/

mutual

/-- `PrintMessage(descriptor, print_fields)`. -/
def PrintMessage : Descriptor → Bool → Action
  | .mk name full_name fields nested_types enum_types extensions extension_ranges, false =>
    let descriptor :=
      Descriptor.mk name full_name fields nested_types enum_types extensions extension_ranges
    andThen
      (if DescriptorHasNestedTypes descriptor then
        andThen (PrintClassDeclaration name RubyClassType.CLASS_TYPE_MESSAGE false)
          (andThen
            (if enum_types.length > 0 then PrintEnumsForDescriptor enum_types true
             else Except.ok)
            (andThen
              (if nested_types.length > 0 then PrintMessagesForDescriptor nested_types false
               else Except.ok)
              PrintBlockEnd))
       else PrintClassDeclaration name RubyClassType.CLASS_TYPE_MESSAGE true)
      (andThen PrintNewLine (StoreExtensionFields extensions))
  | .mk name full_name fields nested_types enum_types extensions extension_ranges, true =>
    fun g =>
    let descriptor :=
      Descriptor.mk name full_name fields nested_types enum_types extensions extension_ranges
    if fields.length > 0 || DescriptorHasExtensions descriptor g then
      andThen (PrintClassDeclaration name RubyClassType.CLASS_TYPE_NONE false)
        (andThen
          (if nested_types.length > 0 then PrintMessagesForDescriptor nested_types true
           else Except.ok)
          (andThen
            (if fields.length > 0 then forEach PrintMessageField fields else Except.ok)
            (andThen (PrintExtensionRangesForDescriptor extension_ranges)
              (andThen
                (fun g1 =>
                  if DescriptorHasExtensions descriptor g1 then
                    PrintMessageExtensionFields full_name g1
                  else Except.ok g1)
                (andThen PrintBlockEnd PrintNewLine))))) g
    else if nested_types.length > 0 then
      andThen (PrintClassDeclaration name RubyClassType.CLASS_TYPE_NONE false)
        (andThen
          (if nested_types.length > 0 then PrintMessagesForDescriptor nested_types true
           else Except.ok)
          (andThen PrintBlockEnd PrintNewLine)) g
    else Except.ok g

/-- `PrintMessagesForDescriptor(descriptor, print_fields)`, given the nested types of the
descriptor. -/
def PrintMessagesForDescriptor : List Descriptor → Bool → Action
  | [], _ => Except.ok
  | d :: ds, print_fields =>
    andThen (PrintMessage d print_fields) (PrintMessagesForDescriptor ds print_fields)

end

/-- `PrintMessagesForFileDescriptor(descriptor, print_fields)`. -/
def PrintMessagesForFileDescriptor (descriptor : FileDescriptor) (print_fields : Bool) :
    Action :=
  if descriptor.message_types.length > 0 then
    andThen
      (if print_fields then PrintComment "Message Fields".toList true
       else andThen (PrintComment "Message Classes".toList true)
              (StoreExtensionFields descriptor.extensions))
      (PrintMessagesForDescriptor descriptor.message_types print_fields)
  else Except.ok

/-! ### Services -/

/-- `PrintServiceMethod(descriptor)`. -/
def PrintServiceMethod (descriptor : MethodDescriptor) : Action :=
  andThen (print [("method_name".toList, descriptor.name),
                  ("request_klass".toList, Constantize descriptor.input_type_full_name true),
                  ("response_klass".toList, Constantize descriptor.output_type_full_name true)]
            "rpc :$method_name$, $request_klass$, $response_klass$".toList)
    (andThen (ValidatePrinter "Failed printing rpc method".toList) PrintNewLine)

/-- `PrintService(descriptor)`. -/
def PrintService (descriptor : ServiceDescriptor) : Action :=
  andThen (PrintClassDeclaration descriptor.name RubyClassType.CLASS_TYPE_SERVICE false)
    (andThen (forEach PrintServiceMethod descriptor.methods) PrintBlockEnd)

/-- `PrintServices()`. -/
def PrintServices (file_ : FileDescriptor) : Action :=
  if file_.services.length > 0 then
    andThen (PrintComment "Services".toList true) (forEach PrintService file_.services)
  else Except.ok

/-! ### General -/

/-- `PrintDanglingExtendedMessages()` as a build runs it in which `it++` still finds the
link of the entry the body has just erased: the loop then visits the keys the map holds
when it starts, in the iteration order of the map.  By the rules of the container that
increment has no defined result; `PrintDanglingExtendedMessagesByIterator` follows the
iterator of the source step by step. -/
def PrintDanglingExtendedMessages (H : HashOrder) : Action := fun g =>
  if g.extended_messages.length > 0 then
    andThen (PrintComment "Extended Messages".toList true)
      (fun g1 =>
        forEach (fun extended_message =>
          andThen
            (PrintClassDeclaration (Constantize extended_message true)
              RubyClassType.CLASS_TYPE_NONE false)
            (andThen (PrintMessageExtensionFields extended_message) PrintBlockEnd))
          (H.order (g1.extended_messages.map Prod.fst)) g1) g
  else Except.ok g

/-- How a member function that walks `extended_messages` by iterator can end: it returns;
it leaves by `throw 1`; or it applies `it++` to an iterator whose entry has been erased,
which the container leaves undefined (`g` holds the members at that point).  `unfinished`
is a run cut off after the number of loop rounds it was allowed. -/
inductive Walk where
  | returned (g : RubyGenerator)
  | threw (g : RubyGenerator)
  | undefined (g : RubyGenerator)
  | unfinished (g : RubyGenerator)
  deriving DecidableEq, Repr

/-- Library behaviour (`tr1::unordered_map`, not under src/): `extended_messages.begin()`,
an iterator to the entry that comes first in iteration order; `none` is `end()`. -/
def mapBegin (H : HashOrder) (m : List (Str × List FieldDescriptor)) : Option Str :=
  (H.order (m.map Prod.fst)).head?

/-- The key that follows `key` in a sequence of keys, if any. -/
def keyAfter (key : Str) : List Str → Option Str
  | [] => none
  | k :: ks => if k = key then ks.head? else keyAfter key ks

/-- Library behaviour (`tr1::unordered_map`, not under src/): `it++` for an iterator that
refers to the entry of `key`.  While the map holds that entry the iterator moves to the
entry that follows in iteration order (`some none` is `end()`); once the entry has been
erased the iterator is invalid and the increment has no defined result (`none`). -/
def mapIncrement (H : HashOrder) (m : List (Str × List FieldDescriptor)) (key : Str) :
    Option (Option Str) :=
  if mapContains m key then some (keyAfter key (H.order (m.map Prod.fst))) else none

/-- The loop `for (it = ...; it != extended_messages.end(); it++)` of
`PrintDanglingExtendedMessages` from the iterator `it` on, for at most `fuel` rounds: the
body copies the key `it->first`, prints the class declaration, calls
`PrintMessageExtensionFields` (which erases the entry of that key) and `PrintBlockEnd`;
then `it` is incremented. -/
def danglingWalk (H : HashOrder) : Nat → Option Str → RubyGenerator → Walk
  | _, none, g => Walk.returned g
  | 0, some _, g => Walk.unfinished g
  | fuel + 1, some extended_message, g =>
    match andThen
        (PrintClassDeclaration (Constantize extended_message true)
          RubyClassType.CLASS_TYPE_NONE false)
        (andThen (PrintMessageExtensionFields extended_message) PrintBlockEnd) g with
    | Except.error e => Walk.threw e
    | Except.ok g1 =>
      match mapIncrement H g1.extended_messages extended_message with
      | none => Walk.undefined g1
      | some it => danglingWalk H fuel it g1

/-- `PrintDanglingExtendedMessages()` with the loop followed by iterator, as the source
has it. -/
def PrintDanglingExtendedMessagesByIterator (H : HashOrder) (fuel : Nat)
    (g : RubyGenerator) : Walk :=
  if g.extended_messages.length > 0 then
    match PrintComment "Extended Messages".toList true g with
    | Except.error e => Walk.threw e
    | Except.ok g1 => danglingWalk H fuel (mapBegin H g1.extended_messages) g1
  else Walk.returned g

/-- `PrintGeneratedFileComment()`. -/
def PrintGeneratedFileComment : Action :=
  PrintComment "This file is auto-generated. DO NOT EDIT!".toList true

/-- `PrintGenericRequires()`. -/
def PrintGenericRequires (file_ : FileDescriptor) : Action :=
  andThen
    (if file_.message_types.length > 0 then PrintRequire "protobuf/message".toList
     else Except.ok)
    (if file_.services.length > 0 then PrintRequire "protobuf/rpc/service".toList
     else Except.ok)

/-- `PrintImportRequires()`. -/
def PrintImportRequires (file_ : FileDescriptor) : Action :=
  if file_.dependencies.length > 0 then
    andThen PrintNewLine
      (andThen (PrintComment "Imports".toList true)
        (forEach (fun dependency => PrintRequire (CreateRubyFileName dependency true))
          file_.dependencies))
  else Except.ok

/-- `PrintEnclosingNamespaceModules()`. -/
def PrintEnclosingNamespaceModules : Action := fun g =>
  andThen PrintNewLine
    (forEach (fun iter => PrintModuleDeclaration (Constantize iter false) false)
      g.ns_vector) g

/-- `PrintEnclosingNamespaceModuleEnds()`. -/
def PrintEnclosingNamespaceModuleEnds : Action := fun g =>
  forEach (fun _ => PrintBlockEnd) g.ns_vector g

/-- The body of the `try` block of `Generate`. -/
def GenerateBody (H : HashOrder) (file_ : FileDescriptor) : Action :=
  andThen PrintGeneratedFileComment
  (andThen (PrintGenericRequires file_)
  (andThen (PrintImportRequires file_)
  (andThen PrintEnclosingNamespaceModules
  (andThen (PrintEnumsForFileDescriptor file_ false)
  (andThen PrintNewLine
  (andThen (PrintMessagesForFileDescriptor file_ false)
  (andThen PrintNewLine
  (andThen (PrintMessagesForFileDescriptor file_ true)
  (andThen (PrintDanglingExtendedMessages H)
  (andThen (PrintServices file_)
    PrintEnclosingNamespaceModuleEnds))))))))))

/-- The calls of the `try` block of `Generate` that come before
`PrintDanglingExtendedMessages`. -/
def GenerateBodyHead (file_ : FileDescriptor) : Action :=
  andThen PrintGeneratedFileComment
  (andThen (PrintGenericRequires file_)
  (andThen (PrintImportRequires file_)
  (andThen PrintEnclosingNamespaceModules
  (andThen (PrintEnumsForFileDescriptor file_ false)
  (andThen PrintNewLine
  (andThen (PrintMessagesForFileDescriptor file_ false)
  (andThen PrintNewLine
    (PrintMessagesForFileDescriptor file_ true))))))))

/-- The calls of the `try` block of `Generate` that come after
`PrintDanglingExtendedMessages`. -/
def GenerateBodyTail (file_ : FileDescriptor) : Action :=
  andThen (PrintServices file_) PrintEnclosingNamespaceModuleEnds

/-- The `try` block of `Generate` with the loop of `PrintDanglingExtendedMessages`
followed by iterator. -/
def GenerateBodyByIterator (H : HashOrder) (fuel : Nat) (file_ : FileDescriptor)
    (g : RubyGenerator) : Walk :=
  match GenerateBodyHead file_ g with
  | Except.error e => Walk.threw e
  | Except.ok g1 =>
    match PrintDanglingExtendedMessagesByIterator H fuel g1 with
    | Walk.returned g2 =>
      (match GenerateBodyTail file_ g2 with
        | Except.ok g3 => Walk.returned g3
        | Except.error e => Walk.threw e)
    | Walk.threw e => Walk.threw e
    | Walk.undefined g2 => Walk.undefined g2
    | Walk.unfinished g2 => Walk.unfinished g2

/-- The members of the generator when the `try` block of `Generate` is entered: the file
name is set, the namespace vector and the extension map are rebuilt, a fresh printer
writes to the stream `context->Open(filename)` returned (a sink with `room`), and the
indent level is zero.  `failed_message` is left as the previous call left it. -/
def GenerateInit (file : FileDescriptor) (room : Option Nat) (g : RubyGenerator) :
    RubyGenerator :=
  { g with
    filename := CreateRubyFileName file.name false
    ns_vector := SplitStringUsing file.package '.' []
    extended_messages := []
    printer_ := { room := room }
    indent_level := 0 }

/-- What a call of `Generate` leaves behind: the value returned, the text assigned to
`*error` (if any), and the members of the generator; the text written to the sink is
`members.printer_.output`. -/
structure GenerateResult where
  returned : Bool
  error : Option Str
  members : RubyGenerator

/-- `Generate(file, parameter, context, error)` called on a generator with members `g`. -/
def Generate (H : HashOrder) (file : FileDescriptor) (room : Option Nat)
    (g : RubyGenerator) : GenerateResult :=
  match GenerateBody H file (GenerateInit file room g) with
  | Except.ok g1 => { returned := true, error := none, members := g1 }
  | Except.error e =>
    if e.failed_message = [] then
      { returned := false,
        error := some ("An unknown error occurred compiling ".toList ++ e.filename),
        members := e }
    else { returned := false, error := some e.failed_message, members := e }

/-- The text `Generate` writes for `file` into a sink that never fails. -/
def generatedText (H : HashOrder) (file : FileDescriptor) : Str :=
  (Generate H file none {}).members.printer_.output

/-- The generator object as a call of `Generate` finds it: the members, and the number of
buckets of the hash table of `extended_messages`, which belongs to the state of that
member and which `clear()` does not reset. -/
structure GeneratorObject where
  members : RubyGenerator := {}
  bucket_count : Nat := 11

/-- `Generate` called on a generator object: the iteration order of `extended_messages`
is the one of a table entered with the number of buckets the object has. -/
def GenerateCall (T : Hashing) (file : FileDescriptor) (room : Option Nat)
    (obj : GeneratorObject) : GenerateResult :=
  Generate (T.withBuckets obj.bucket_count) file room obj.members

/-! ## Reference notions used to state the properties -/

/-- The text `s` with every `.` replaced by `::` and every other character kept in
place. -/
def dotsToColons : Str → Str
  | [] => []
  | c :: cs => (if c = '.' then [':', ':'] else [c]) ++ dotsToColons cs

/-- The value of a decimal digit character. -/
def digitValue (c : Char) : Option Nat :=
  if 48 ≤ c.toNat ∧ c.toNat ≤ 57 then some (c.toNat - 48) else none

/-- Read a run of decimal digits, most significant first, continuing from `acc`. -/
def readDigits : Str → Nat → Option Nat
  | [], acc => some acc
  | c :: cs, acc =>
    match digitValue c with
    | some d => readDigits cs (acc * 10 + d)
    | none => none

/-- Read a decimal integer literal: an optional minus sign and at least one digit. -/
def readDecimal : Str → Option Int
  | [] => none
  | c :: cs =>
    if c = '-' then
      (if cs = [] then none else (readDigits cs 0).map (fun (n : Nat) => -(Int.ofNat n)))
    else (readDigits (c :: cs) 0).map (fun (n : Nat) => Int.ofNat n)

/-- Digits only, at least one, and no leading zero except for the text `0` itself. -/
def canonicalDigits (t : Str) : Bool :=
  !t.isEmpty && t.all (fun c => (digitValue c).isSome) && (t.head? != some '0' || t.length == 1)

/-- Canonical decimal text of an integer: canonical digits, preceded by a minus sign only
in front of a number other than zero. -/
def canonicalDecimal (t : Str) : Bool :=
  match t with
  | [] => false
  | c :: cs => if c = '-' then canonicalDigits cs && cs != ['0'] else canonicalDigits (c :: cs)

/-- The character an escape sequence `\c` of a double quoted literal stands for (the
common single character escapes; any other character stands for itself). -/
def unescape (c : Char) : Char :=
  if c = 'n' then '\n' else if c = 't' then '\t' else if c = 'r' then '\r'
  else if c = '0' then Char.ofNat 0 else c

/-- Read the body of a double quoted string literal of the target language, up to and
including the closing quote, which must be the last character.  A backslash takes the
next character with it; `#{`, `#$` and `#@` start an interpolation, which a plain literal
does not contain; a carriage return directly before a line feed is dropped, as the
reader of the target language takes the two for one line end; any other `#` and any
other carriage return stand for themselves. -/
def readQuotedBody : Str → Option Str
  | [] => none
  | [c] => if c = '"' then some [] else none
  | c :: e :: rest =>
    if c = '"' then none
    else if c = '\\' then (readQuotedBody rest).map (fun t => unescape e :: t)
    else if c = '#' ∧ (e = '{' ∨ e = '$' ∨ e = '@') then none
    else if c = '\r' ∧ e = '\n' then (readQuotedBody rest).map (fun t => '\n' :: t)
    else (readQuotedBody (e :: rest)).map (fun t => c :: t)

/-- Read a double quoted string literal of the target language. -/
def readStringLiteral : Str → Option Str
  | [] => none
  | c :: cs => if c = '"' then readQuotedBody cs else none

/-- A text that a double quoted literal of the target language holds as it stands: it has
no quote and no backslash, no `#` directly before `{`, `$` or `@`, and no carriage return
directly before a line feed. -/
def readsVerbatim : Str → Bool
  | [] => true
  | [c] => c != '"' && c != '\\'
  | c :: e :: rest =>
    c != '"' && c != '\\' && !(c == '#' && (e == '{' || e == '$' || e == '@'))
      && !(c == '\r' && e == '\n') && readsVerbatim (e :: rest)

/-- Read a boolean literal of the target language. -/
def readBool (t : Str) : Option Bool :=
  if t = "true".toList then some true
  else if t = "false".toList then some false
  else none

/-- The lines of a text: the runs of characters between line feeds; after a final line
feed there is no further line. -/
def linesOf : Str → List Str
  | [] => []
  | c :: cs =>
    if c = '\n' then [] :: linesOf cs
    else
      match linesOf cs with
      | [] => [[c]]
      | l :: ls => (c :: l) :: ls

/-- A line without its indentation. -/
def stripIndent (l : Str) : Str := l.dropWhile (fun c => c = ' ')

/-- A field declaration line: it starts with a presence keyword. -/
def isFieldLine (l : Str) : Bool :=
  "required ".toList.isPrefixOf (stripIndent l) || "optional ".toList.isPrefixOf (stripIndent l)
    || "repeated ".toList.isPrefixOf (stripIndent l)

/-- A block header that opens a body: a `module` line, or a `class` line that does not
end in the inline `; end`. -/
def opensBody (l : Str) : Bool :=
  "module ".toList.isPrefixOf (stripIndent l)
    || ("class ".toList.isPrefixOf (stripIndent l) && !("; end".toList.isSuffixOf l))

/-- A block terminator line. -/
def isTerminator (l : Str) : Bool := stripIndent l == "end".toList

/-! ## Sample schemas -/

/-- An `int32` field `count` with default `-42`. -/
def sampleIntField : FieldDescriptor :=
  { lowercase_name := "count".toList, number := 1, label := Label.LABEL_OPTIONAL,
    type := FieldType.TYPE_SINT32, has_default_value := true, default_value_int32 := -42 }

/-- A string field `greeting` with default `hi there`. -/
def sampleStringField : FieldDescriptor :=
  { lowercase_name := "greeting".toList, number := 2, label := Label.LABEL_OPTIONAL,
    type := FieldType.TYPE_STRING, has_default_value := true,
    default_value_string := "hi there".toList }

/-- A string field whose default value `a"b` contains a quote. -/
def quoteDefaultField : FieldDescriptor :=
  { lowercase_name := "s".toList, number := 1, label := Label.LABEL_OPTIONAL,
    type := FieldType.TYPE_STRING, has_default_value := true,
    default_value_string := ['a', '"', 'b'] }

/-- A bytes field whose default value is a backslash followed by `n`. -/
def backslashDefaultField : FieldDescriptor :=
  { lowercase_name := "b".toList, number := 2, label := Label.LABEL_OPTIONAL,
    type := FieldType.TYPE_BYTES, has_default_value := true,
    default_value_string := ['\\', 'n'] }

/-- A string field whose default value is `#{x}`. -/
def hashDefaultField : FieldDescriptor :=
  { lowercase_name := "h".toList, number := 3, label := Label.LABEL_OPTIONAL,
    type := FieldType.TYPE_STRING, has_default_value := true,
    default_value_string := "#{x}".toList }

/-- A string field whose default value is the colour `#ffffff`. -/
def colorDefaultField : FieldDescriptor :=
  { lowercase_name := "c".toList, number := 4, label := Label.LABEL_OPTIONAL,
    type := FieldType.TYPE_STRING, has_default_value := true,
    default_value_string := "#ffffff".toList }

/-- An extension field `tag` of the message `base.Other`, which another file defines. -/
def otherExtension : FieldDescriptor :=
  { lowercase_name := "tag".toList, number := 100, label := Label.LABEL_OPTIONAL,
    type := FieldType.TYPE_INT32, containing_type_full_name := "base.Other".toList,
    is_extension := true }

/-- A schema file that declares nothing but one extension at file scope:
`extend base.Other { optional int32 tag = 100; }`. -/
def extensionOnlyFile : FileDescriptor :=
  { name := "ext.proto".toList, package := [], extensions := [otherExtension] }

/-- The same extension in a file with a package and the import of the file that defines
`base.Other`. -/
def importingExtensionFile : FileDescriptor :=
  { name := "more.proto".toList, package := "app".toList,
    dependencies := ["base.proto".toList], extensions := [otherExtension] }

/-! ## States on a sink that never fails -/

/-- Indentation of depth `n`: two spaces per level. -/
def spaces (n : Nat) : Str := List.replicate (2 * n) ' '

/-- A printer that has not failed, on a sink that never fails. -/
def printerOf (out indent : Str) (atStart : Bool) : Printer :=
  { output := out, room := none, indent_ := indent, at_start_of_line_ := atStart,
    failed_ := false }

/-- The members of a generator whose printer has not failed and writes to a sink that
never fails, `n` blocks deep. -/
def stateOf (out : Str) (atStart : Bool) (n : Nat) (em : List (Str × List FieldDescriptor))
    (fn : Str) (ns : List Str) (fm : Str) : RubyGenerator :=
  { printer_ := printerOf out (spaces n) atStart
    filename := fn
    ns_vector := ns
    extended_messages := em
    indent_level := n
    failed_message := fm }

/-- The text the pieces of a scan put out at indentation `indent`, and whether the next
write starts a line. -/
def expand (indent : Str) : Bool → List Printer.Piece → Str × Bool
  | st, [] => ([], st)
  | st, Printer.Piece.raw d :: ps =>
    if d = [] then expand indent st ps
    else ((if st then indent else []) ++ d ++ (expand indent false ps).1,
          (expand indent false ps).2)
  | _, Printer.Piece.eol :: ps => expand indent true ps

/-- The text of a field declaration line. -/
def fieldLine (descriptor : FieldDescriptor) : Str :=
  fieldPresence descriptor ++ " ".toList ++ fieldDataType descriptor ++ ", ".toList
    ++ ":".toList ++ descriptor.lowercase_name ++ ", ".toList ++ SimpleItoa descriptor.number
    ++ fieldDefaultOpt descriptor ++ fieldPackedOpt descriptor
    ++ fieldDeprecatedOpt descriptor ++ fieldExtensionOpt descriptor

/-! ## The shape of the generated text -/

/-- The text `PrintBlockDeclaration` prints for a block header. -/
def blockLine (block_type : RubyBlockType) (class_type : RubyClassType) (block_name : Str)
    (empty_body : Bool) : Str :=
  (match block_type with
    | .RUBY_CLASS => "class".toList
    | .RUBY_MODULE => "module".toList)
  ++ " ".toList ++ block_name
  ++ (match class_type with
      | .CLASS_TYPE_MESSAGE => " < ::Protobuf::Message".toList
      | .CLASS_TYPE_ENUM => " < ::Protobuf::Enum".toList
      | .CLASS_TYPE_SERVICE => " < ::Protobuf::Rpc::Service".toList
      | .CLASS_TYPE_NONE => [])
  ++ (if empty_body then "; end".toList else [])

/-- The fixed beginnings of the one-line statements the generator prints. -/
inductive Keyword where
  | hashes
  | hash
  | comment
  | require
  | define
  | extensions
  | rpc
  deriving DecidableEq, Repr

/-- The text a line of the given kind begins with. -/
def Keyword.text : Keyword → Str
  | .hashes => "##".toList
  | .hash => "#".toList
  | .comment => "# ".toList
  | .require => "require '".toList
  | .define => "define :".toList
  | .extensions => "extensions ".toList
  | .rpc => "rpc :".toList

/-- A piece of generated text: an empty line, a one-line statement, a field declaration,
an inline class shell `class X < ::Protobuf::Message; end`, or a block with a header, a
body one level deeper, and its `end`. -/
inductive Node where
  | blank
  | text (kw : Keyword) (rest : Str)
  | field (descriptor : FieldDescriptor)
  | shell (name : Str)
  | block (block_type : RubyBlockType) (class_type : RubyClassType) (name : Str)
      (body : List Node)

mutual

/-- The lines of a node at depth `n`. -/
def Node.lines : Nat → Node → List Str
  | _, .blank => [[]]
  | n, .text kw rest => [spaces n ++ (kw.text ++ rest)]
  | n, .field descriptor => [spaces n ++ fieldLine descriptor]
  | n, .shell name =>
    [spaces n ++ blockLine RubyBlockType.RUBY_CLASS RubyClassType.CLASS_TYPE_MESSAGE name true]
  | n, .block block_type class_type name body =>
    (spaces n ++ blockLine block_type class_type name false)
      :: (Node.linesList (n + 1) body ++ [spaces n ++ "end".toList])

/-- The lines of a sequence of nodes at depth `n`. -/
def Node.linesList : Nat → List Node → List Str
  | _, [] => []
  | n, x :: xs => Node.lines n x ++ Node.linesList n xs

end

/-- The text made of the given lines, each ended by a line feed. -/
def renderLines : List Str → Str
  | [] => []
  | l :: ls => l ++ '\n' :: renderLines ls

/-- The text of a sequence of nodes at depth `n`. -/
def render (n : Nat) (nodes : List Node) : Str := renderLines (Node.linesList n nodes)

/-- What `PrintComment` prints. -/
def commentNodes (comment : Str) (as_header : Bool) : List Node :=
  if as_header then
    [Node.text Keyword.hashes [], Node.text Keyword.comment comment, Node.text Keyword.hash []]
  else [Node.text Keyword.comment comment]

/-- What `PrintEnumValue` prints. -/
def enumValueNode (descriptor : EnumValueDescriptor) : Node :=
  Node.text Keyword.define
    (descriptor.name ++ ", ".toList ++ ConvertIntToString descriptor.number)

/-- What `PrintEnum` prints. -/
def enumNodes (descriptor : EnumDescriptor) : List Node :=
  [Node.block RubyBlockType.RUBY_CLASS RubyClassType.CLASS_TYPE_ENUM descriptor.name
      (descriptor.values.map enumValueNode),
   Node.blank]

/-- What `PrintEnumsForFileDescriptor` prints. -/
def enumsFileNodes (file : FileDescriptor) : List Node :=
  if file.enum_types.length > 0 then
    commentNodes "Enum Classes".toList true ++ file.enum_types.flatMap enumNodes
  else []

/-- What `PrintServiceMethod` prints. -/
def methodNode (descriptor : MethodDescriptor) : Node :=
  Node.text Keyword.rpc
    (descriptor.name ++ ", ".toList ++ Constantize descriptor.input_type_full_name true
      ++ ", ".toList ++ Constantize descriptor.output_type_full_name true)

/-- What `PrintService` prints. -/
def serviceNodes (descriptor : ServiceDescriptor) : List Node :=
  [Node.block RubyBlockType.RUBY_CLASS RubyClassType.CLASS_TYPE_SERVICE descriptor.name
      (descriptor.methods.map methodNode)]

/-- What `PrintServices` prints. -/
def servicesNodes (file : FileDescriptor) : List Node :=
  if file.services.length > 0 then
    commentNodes "Services".toList true ++ file.services.flatMap serviceNodes
  else []

/-- The line of one extension range. -/
def rangeNode (range : ExtensionRange) : Node :=
  Node.text Keyword.extensions
    (SimpleItoa range.start ++ "...".toList ++ SimpleItoa range.end_)

/-- What `PrintExtensionRangesForDescriptor` prints. -/
def rangesNodes (extension_ranges : List ExtensionRange) : List Node :=
  if extension_ranges.length > 0 then
    Node.blank :: (commentNodes "Extension Fields".toList false ++ extension_ranges.map rangeNode)
  else []

/-- What `PrintGenericRequires` prints. -/
def genericRequireNodes (file : FileDescriptor) : List Node :=
  (if file.message_types.length > 0 then
      [Node.text Keyword.require ("protobuf/message".toList ++ "'".toList)]
    else [])
  ++ (if file.services.length > 0 then
      [Node.text Keyword.require ("protobuf/rpc/service".toList ++ "'".toList)]
    else [])

/-- What `PrintImportRequires` prints. -/
def importNodes (file : FileDescriptor) : List Node :=
  if file.dependencies.length > 0 then
    Node.blank :: (commentNodes "Imports".toList true
      ++ file.dependencies.map (fun dependency =>
          Node.text Keyword.require (CreateRubyFileName dependency true ++ "'".toList)))
  else []

/-- The registry after `StoreExtensionFields` has recorded `extensions`. -/
def storeAll (extensions : List FieldDescriptor) (em : List (Str × List FieldDescriptor)) :
    List (Str × List FieldDescriptor) :=
  extensions.foldl (fun m f => mapPushBack m f.containing_type_full_name f) em

/-- Whether the registry holds a non-empty bucket for `key`. -/
def hasBucket (em : List (Str × List FieldDescriptor)) (key : Str) : Bool :=
  if mapContains em key then decide ((mapGet em key).length ≠ 0) else false

mutual

/-- What the first pass `PrintMessage(descriptor, false)` prints. -/
def shellNodes : Descriptor → List Node
  | .mk name full_name fields nested_types enum_types extensions extension_ranges =>
    (if DescriptorHasNestedTypes
          (Descriptor.mk name full_name fields nested_types enum_types extensions
            extension_ranges) then
        [Node.block RubyBlockType.RUBY_CLASS RubyClassType.CLASS_TYPE_MESSAGE name
          (enum_types.flatMap enumNodes ++ shellNodesList nested_types)]
      else [Node.shell name])
    ++ [Node.blank]

/-- What the first pass prints for a sequence of messages. -/
def shellNodesList : List Descriptor → List Node
  | [] => []
  | d :: ds => shellNodes d ++ shellNodesList ds

end

mutual

/-- The registry after the first pass over a message. -/
def shellStore : Descriptor → List (Str × List FieldDescriptor) →
    List (Str × List FieldDescriptor)
  | .mk _ _ _ nested_types _ extensions _, em =>
    storeAll extensions (shellStoreList nested_types em)

/-- The registry after the first pass over a sequence of messages. -/
def shellStoreList : List Descriptor → List (Str × List FieldDescriptor) →
    List (Str × List FieldDescriptor)
  | [], em => em
  | d :: ds, em => shellStoreList ds (shellStore d em)

end

mutual

/-- What the second pass `PrintMessage(descriptor, true)` prints, and the registry it
leaves. -/
def bodyNodes : Descriptor → List (Str × List FieldDescriptor) →
    List Node × List (Str × List FieldDescriptor)
  | .mk name full_name fields nested_types _ _ extension_ranges, em =>
    if fields.length > 0 || hasBucket em full_name then
      let r := bodyNodesList nested_types em
      ([Node.block RubyBlockType.RUBY_CLASS RubyClassType.CLASS_TYPE_NONE name
          (r.1 ++ fields.map Node.field ++ rangesNodes extension_ranges
            ++ (if hasBucket r.2 full_name then (mapGet r.2 full_name).map Node.field
                else [])),
        Node.blank],
       if hasBucket r.2 full_name then mapErase (mapTouch r.2 full_name) full_name else r.2)
    else if nested_types.length > 0 then
      let r := bodyNodesList nested_types em
      ([Node.block RubyBlockType.RUBY_CLASS RubyClassType.CLASS_TYPE_NONE name r.1,
        Node.blank], r.2)
    else ([], em)

/-- What the second pass prints for a sequence of messages, and the registry it leaves. -/
def bodyNodesList : List Descriptor → List (Str × List FieldDescriptor) →
    List Node × List (Str × List FieldDescriptor)
  | [], em => ([], em)
  | d :: ds, em =>
    ((bodyNodes d em).1 ++ (bodyNodesList ds (bodyNodes d em).2).1,
     (bodyNodesList ds (bodyNodes d em).2).2)

end

/-- What the loop of `PrintDanglingExtendedMessages` prints for the keys it visits, and
the registry it leaves. -/
def danglingLoopNodes : List Str → List (Str × List FieldDescriptor) →
    List Node × List (Str × List FieldDescriptor)
  | [], em => ([], em)
  | key :: keys, em =>
    (Node.block RubyBlockType.RUBY_CLASS RubyClassType.CLASS_TYPE_NONE (Constantize key true)
        ((mapGet em key).map Node.field)
      :: (danglingLoopNodes keys (mapErase (mapTouch em key) key)).1,
     (danglingLoopNodes keys (mapErase (mapTouch em key) key)).2)

/-- What `PrintDanglingExtendedMessages` prints, and the registry it leaves. -/
def danglingNodes (H : HashOrder) (em : List (Str × List FieldDescriptor)) :
    List Node × List (Str × List FieldDescriptor) :=
  if em.length > 0 then
    (commentNodes "Extended Messages".toList true
        ++ (danglingLoopNodes (H.order (em.map Prod.fst)) em).1,
     (danglingLoopNodes (H.order (em.map Prod.fst)) em).2)
  else ([], em)

/-- The registry when the first pass over the file is done. -/
def registryAfterShells (file : FileDescriptor) : List (Str × List FieldDescriptor) :=
  if file.message_types.length > 0 then
    shellStoreList file.message_types (storeAll file.extensions [])
  else []

/-- What the first pass `PrintMessagesForFileDescriptor(file, false)` prints. -/
def shellsFileNodes (file : FileDescriptor) : List Node :=
  if file.message_types.length > 0 then
    commentNodes "Message Classes".toList true ++ shellNodesList file.message_types
  else []

/-- What the second pass `PrintMessagesForFileDescriptor(file, true)` prints, and the
registry it leaves. -/
def bodiesFileNodes (file : FileDescriptor) :
    List Node × List (Str × List FieldDescriptor) :=
  if file.message_types.length > 0 then
    (commentNodes "Message Fields".toList true
        ++ (bodyNodesList file.message_types (registryAfterShells file)).1,
     (bodyNodesList file.message_types (registryAfterShells file)).2)
  else ([], registryAfterShells file)

/-- What is printed inside the namespace modules: the enums and the class shells. -/
def declarationNodes (file : FileDescriptor) : List Node :=
  enumsFileNodes file ++ [Node.blank] ++ shellsFileNodes file ++ [Node.blank]

/-- What is printed inside the namespace modules after the class shells: the field
bodies, the dangling extensions and the services. -/
def definitionNodes (H : HashOrder) (file : FileDescriptor) : List Node :=
  (bodiesFileNodes file).1 ++ (danglingNodes H (bodiesFileNodes file).2).1
    ++ servicesNodes file

/-- Nested namespace modules around `inner`. -/
def wrapModules : List Str → List Node → List Node
  | [], inner => inner
  | s :: ss, inner =>
    [Node.block RubyBlockType.RUBY_MODULE RubyClassType.CLASS_TYPE_NONE (Constantize s false)
      (wrapModules ss inner)]

/-- What is printed before the namespace modules. -/
def preludeNodes (file : FileDescriptor) : List Node :=
  commentNodes "This file is auto-generated. DO NOT EDIT!".toList true
    ++ genericRequireNodes file ++ importNodes file ++ [Node.blank]

/-- The whole generated file. -/
def fileNodes (H : HashOrder) (file : FileDescriptor) : List Node :=
  preludeNodes file
    ++ wrapModules (SplitStringUsing file.package '.' [])
        (declarationNodes file ++ definitionNodes H file)

/-- The header lines of nested namespace modules, the outermost at depth `n`. -/
def moduleHeads : Nat → List Str → List Str
  | _, [] => []
  | n, s :: ss =>
    (spaces n ++ blockLine RubyBlockType.RUBY_MODULE RubyClassType.CLASS_TYPE_NONE
        (Constantize s false) false) :: moduleHeads (n + 1) ss

/-- The `end` lines of `k` nested blocks, the outermost at depth `n`, innermost first. -/
def moduleTails : Nat → Nat → List Str
  | _, 0 => []
  | n, k + 1 => (spaces (n + k) ++ "end".toList) :: moduleTails n k

/-- The registry when `Generate` returns. -/
def registryAtEnd (H : HashOrder) (file : FileDescriptor) : List (Str × List FieldDescriptor) :=
  (danglingNodes H (bodiesFileNodes file).2).2

/-! ## Well-formed schemas -/

/-- A character of an identifier: a letter, a digit or an underscore. -/
def identChar (c : Char) : Bool := c.isAlphanum || c == '_'

/-- An identifier of the schema language. -/
def nameOK (s : Str) : Bool := s.all identChar

/-- A full name: identifiers joined by periods. -/
def fullNameOK (s : Str) : Bool := s.all (fun c => identChar c || c == '.')

/-- A text without a line feed. -/
def lineOK (s : Str) : Bool := s.all (fun c => c != '\n')

/-- A name that can stand in a block header: no line feed and no semicolon. -/
def headOK (s : Str) : Bool := s.all (fun c => c != '\n' && c != ';')

/-- The names of an enum value are identifiers. -/
def EnumValueDescriptor.wellFormed (v : EnumValueDescriptor) : Bool := nameOK v.name

/-- The names of an enum and of its values are identifiers. -/
def EnumDescriptor.wellFormed (e : EnumDescriptor) : Bool :=
  nameOK e.name && e.values.all EnumValueDescriptor.wellFormed

/-- The names a field carries are identifiers or full names, and its default texts
contain no line feed. -/
def FieldDescriptor.plain (f : FieldDescriptor) : Bool :=
  nameOK f.lowercase_name && fullNameOK f.type_full_name
    && fullNameOK f.containing_type_full_name
    && nameOK f.default_value_enum.name && fullNameOK f.default_value_enum.type_full_name
    && lineOK f.default_value_string && lineOK f.default_value_double_text
    && lineOK f.default_value_float_text

mutual

/-- The names of a message, of its enums and of the messages nested in it are
identifiers, and its fields and extensions satisfy `pf`. -/
def Descriptor.wellFormed (pf : FieldDescriptor → Bool) : Descriptor → Bool
  | .mk name _ fields nested_types enum_types extensions _ =>
    nameOK name && fields.all pf && extensions.all pf
      && enum_types.all EnumDescriptor.wellFormed && Descriptor.wellFormedList pf nested_types

/-- All messages of a sequence are well formed. -/
def Descriptor.wellFormedList (pf : FieldDescriptor → Bool) : List Descriptor → Bool
  | [] => true
  | d :: ds => Descriptor.wellFormed pf d && Descriptor.wellFormedList pf ds

end

/-- The names of a method are an identifier and two full names. -/
def MethodDescriptor.wellFormed (m : MethodDescriptor) : Bool :=
  nameOK m.name && fullNameOK m.input_type_full_name && fullNameOK m.output_type_full_name

/-- The names of a service and of its methods are well formed. -/
def ServiceDescriptor.wellFormed (s : ServiceDescriptor) : Bool :=
  nameOK s.name && s.methods.all MethodDescriptor.wellFormed

/-- A schema file whose package is a full name, whose imported file names contain no
line feed, whose message, enum and service names are identifiers, and whose fields and
extensions satisfy `pf`. -/
def FileDescriptor.wellFormed (pf : FieldDescriptor → Bool) (file : FileDescriptor) : Bool :=
  fullNameOK file.package && file.dependencies.all lineOK
    && Descriptor.wellFormedList pf file.message_types
    && file.enum_types.all EnumDescriptor.wellFormed
    && file.services.all ServiceDescriptor.wellFormed
    && file.extensions.all pf

/-- A schema file whose type names are identifiers; nothing is asked of its fields. -/
def namesWellFormed (file : FileDescriptor) : Bool := file.wellFormed (fun _ => true)

/-- A schema file whose names are identifiers and whose default texts contain no line
feed. -/
def plainFile (file : FileDescriptor) : Bool := file.wellFormed FieldDescriptor.plain

/-! ## Reading the generated text line by line -/

/-- A stack-based reading of the lines of a text: a header that opens a body pushes, a
terminator pops; `none` when a terminator finds the stack empty.  The result is the
depth of the stack at the end, starting from depth `d`. -/
def scanBlocks : List Str → Nat → Option Nat
  | [], d => some d
  | l :: ls, d =>
    if opensBody l then scanBlocks ls (d + 1)
    else if isTerminator l then (if d = 0 then none else scanBlocks ls (d - 1))
    else scanBlocks ls d

mutual

/-- A node the generator prints inside the namespace modules of a plain file: the
variable parts of its lines contain no line feed, field nodes are plain, and blocks are
classes whose names contain no semicolon. -/
def Node.good : Node → Bool
  | .blank => true
  | .text _ rest => lineOK rest
  | .field descriptor => FieldDescriptor.plain descriptor
  | .shell name => lineOK name
  | .block block_type _ name body =>
    (block_type == RubyBlockType.RUBY_CLASS) && headOK name && Node.goodList body

/-- All nodes of a sequence are good. -/
def Node.goodList : List Node → Bool
  | [] => true
  | x :: xs => Node.good x && Node.goodList xs

end

mutual

/-- A node without field declarations. -/
def Node.fieldFree : Node → Bool
  | .field _ => false
  | .block _ _ _ body => Node.fieldFreeList body
  | _ => true

/-- A sequence of nodes without field declarations. -/
def Node.fieldFreeList : List Node → Bool
  | [] => true
  | x :: xs => Node.fieldFree x && Node.fieldFreeList xs

end

/-- Every key of the registry is a full name and every recorded field is plain. -/
def registryOK (em : List (Str × List FieldDescriptor)) : Bool :=
  em.all (fun e => fullNameOK e.1 && e.2.all FieldDescriptor.plain)

/-- A namespace-open line: it starts with `module`. -/
def isModuleLine (l : Str) : Bool := "module ".toList.isPrefixOf (stripIndent l)

/-- The namespace-open lines of the segments of a package, the first at depth `n` and
each one level deeper than the one before. -/
def namespaceOpenLines : Nat → List Str → List Str
  | _, [] => []
  | n, s :: ss => (spaces n ++ "module ".toList ++ s) :: namespaceOpenLines (n + 1) ss

/-- The `end` lines that close `k` nested namespaces, the innermost first. -/
def namespaceCloseLines (k : Nat) : List Str :=
  (List.range k).reverse.map (fun i => spaces i ++ "end".toList)

/-- The package path with the given segments. -/
def packagePath (segments : List Str) : Str := List.intercalate ".".toList segments

/-- The lines up to the end of the class shells: what is printed before the namespace
modules, the namespace-open lines, the enums and the first pass over the messages. -/
def declaredLines (file : FileDescriptor) : List Str :=
  Node.linesList 0 (preludeNodes file)
    ++ (moduleHeads 0 (SplitStringUsing file.package '.' [])
      ++ Node.linesList (SplitStringUsing file.package '.' []).length (declarationNodes file))

/-- The lines after the class shells: the second pass over the messages, the dangling
extensions, the services and the `end` lines of the namespace modules. -/
def definedLines (H : HashOrder) (file : FileDescriptor) : List Str :=
  Node.linesList (SplitStringUsing file.package '.' []).length (definitionNodes H file)
    ++ moduleTails 0 (SplitStringUsing file.package '.' []).length

/-- A schema file with a package, an import, an enum, a message with a nested message,
an extension range and fields with defaults, an extension of an imported message, and a
service. -/
def sampleFile : FileDescriptor :=
  { name := "dir/foo.proto".toList
    package := "foo.bar".toList
    dependencies := ["base.proto".toList]
    message_types :=
      [Descriptor.mk "M".toList "foo.bar.M".toList
        [sampleIntField, sampleStringField]
        [Descriptor.mk "N".toList "foo.bar.M.N".toList [] [] [] [otherExtension] []]
        [{ name := "Color".toList,
           values := [⟨"RED".toList, 0, "foo.bar.M.Color".toList⟩,
                      ⟨"GREEN".toList, 1, "foo.bar.M.Color".toList⟩] }]
        []
        [⟨100, 200⟩]]
    enum_types :=
      [{ name := "Kind".toList, values := [⟨"A".toList, -1, "foo.bar.Kind".toList⟩] }]
    services :=
      [{ name := "S".toList,
         methods := [⟨"Get".toList, "foo.bar.M".toList, "foo.bar.M.N".toList⟩] }] }

/-- A string field whose default value is a line feed, `end`, and a line feed. -/
def multilineDefaultField : FieldDescriptor :=
  { lowercase_name := "s".toList, number := 1, label := Label.LABEL_OPTIONAL,
    type := FieldType.TYPE_STRING, has_default_value := true,
    default_value_string := "\nend\n".toList }

/-- A schema file without package whose only message `M` has the field above. -/
def multilineDefaultFile : FileDescriptor :=
  { name := "m.proto".toList, package := []
    message_types :=
      [Descriptor.mk "M".toList "M".toList [multilineDefaultField] [] [] [] []] }

/-- A string field whose default value is a line feed, `module x`, and a line feed. -/
def moduleDefaultField : FieldDescriptor :=
  { lowercase_name := "s".toList, number := 1, label := Label.LABEL_OPTIONAL,
    type := FieldType.TYPE_STRING, has_default_value := true,
    default_value_string := "\nmodule x\n".toList }

/-- A schema file without package whose only message `M` has the field above. -/
def moduleDefaultFile : FileDescriptor :=
  { name := "m.proto".toList, package := []
    message_types :=
      [Descriptor.mk "M".toList "M".toList [moduleDefaultField] [] [] [] []] }

mutual

/-- A message and all messages nested in it, at any depth. -/
def Descriptor.withNested : Descriptor → List Descriptor
  | .mk name full_name fields nested_types enum_types extensions extension_ranges =>
    Descriptor.mk name full_name fields nested_types enum_types extensions extension_ranges
      :: Descriptor.withNestedList nested_types

/-- The messages of a sequence and all messages nested in them. -/
def Descriptor.withNestedList : List Descriptor → List Descriptor
  | [] => []
  | d :: ds => Descriptor.withNested d ++ Descriptor.withNestedList ds

end

/-- All messages defined in a file, top-level or nested. -/
def FileDescriptor.allMessages (file : FileDescriptor) : List Descriptor :=
  Descriptor.withNestedList file.message_types

/-- All enums defined in a file, at file scope or inside a message. -/
def FileDescriptor.allEnums (file : FileDescriptor) : List EnumDescriptor :=
  file.enum_types ++ file.allMessages.flatMap Descriptor.enum_types

/-- The class shell header of a message: it ends in the inline `; end` when the message
has no nested enums or messages. -/
def messageShellHeader (m : Descriptor) : Str :=
  "class ".toList ++ m.name ++ " < ::Protobuf::Message".toList
    ++ (if DescriptorHasNestedTypes m then [] else "; end".toList)

/-- The class shell header of an enum. -/
def enumShellHeader (e : EnumDescriptor) : Str :=
  "class ".toList ++ e.name ++ " < ::Protobuf::Enum".toList

/-- A class shell header of a message: a `class` line that names the message base class,
with or without the inline `; end`. -/
def isShellHeader (l : Str) : Bool :=
  "class ".toList.isPrefixOf (stripIndent l)
    && (" < ::Protobuf::Message".toList.isSuffixOf l
        || " < ::Protobuf::Message; end".toList.isSuffixOf l)

/-- A message with one field and two extension ranges. -/
def rangedMessage : Descriptor :=
  Descriptor.mk "M".toList "pkg.M".toList [sampleIntField] [] [] [] [⟨100, 200⟩, ⟨300, 400⟩]

/-- A schema file without package whose only message `M` declares the extension range
100 to 200 and nothing else: no field, no nested type, and nothing extends it here. -/
def rangeOnlyFile : FileDescriptor :=
  { name := "r.proto".toList, package := []
    message_types := [Descriptor.mk "M".toList "M".toList [] [] [] [] [⟨100, 200⟩]] }

/-- An extension field `first` of the message `x.A`, which another file defines. -/
def firstDanglingExtension : FieldDescriptor :=
  { lowercase_name := "first".toList, number := 100, label := Label.LABEL_OPTIONAL,
    type := FieldType.TYPE_INT32, containing_type_full_name := "x.A".toList,
    is_extension := true }

/-- An extension field `second` of the message `x.B`, which another file defines. -/
def secondDanglingExtension : FieldDescriptor :=
  { lowercase_name := "second".toList, number := 100, label := Label.LABEL_OPTIONAL,
    type := FieldType.TYPE_INT32, containing_type_full_name := "x.B".toList,
    is_extension := true }

/-- A schema file with one message of its own and, at file scope, an extension of `x.A`
followed by an extension of `x.B`. -/
def twoDanglingFile : FileDescriptor :=
  { name := "d.proto".toList, package := [], dependencies := ["x.proto".toList]
    message_types := [Descriptor.mk "M".toList "M".toList [] [] [] [] []]
    extensions := [firstDanglingExtension, secondDanglingExtension] }

/-- A line that requires a library: it starts with `require '`. -/
def isRequireLine (l : Str) : Bool := "require '".toList.isPrefixOf (stripIndent l)

/-- A line that starts a class. -/
def isClassLine (l : Str) : Bool := "class ".toList.isPrefixOf (stripIndent l)

mutual

/-- No `require` statement in the node. -/
def Node.requireFree : Node → Bool
  | .text .require _ => false
  | .block _ _ _ body => Node.requireFreeList body
  | _ => true

/-- No `require` statement in any of the nodes. -/
def Node.requireFreeList : List Node → Bool
  | [] => true
  | x :: xs => Node.requireFree x && Node.requireFreeList xs

end

/-- The lines in front of the namespace modules: the header comment, the line requiring
the message runtime when the file declares a message, the line requiring the service
runtime when it declares a service, then, when the file has dependencies, an empty line,
the `Imports` header and one `require` line per dependency, and an empty line. -/
def preludeLines (file : FileDescriptor) : List Str :=
  ["##".toList, "# This file is auto-generated. DO NOT EDIT!".toList, "#".toList]
    ++ (if file.message_types.length > 0 then ["require 'protobuf/message'".toList] else [])
    ++ (if file.services.length > 0 then ["require 'protobuf/rpc/service'".toList] else [])
    ++ (if file.dependencies.length > 0 then
          ["".toList, "##".toList, "# Imports".toList, "#".toList]
            ++ file.dependencies.map (fun dependency =>
                "require '".toList ++ CreateRubyFileName dependency true ++ "'".toList)
        else [])
    ++ ["".toList]

/-- A schema file without messages that imports a file named `protobuf/message`. -/
def runtimeNamedFile : FileDescriptor :=
  { name := "n.proto".toList, package := [], dependencies := ["protobuf/message".toList] }

/-! ## States on a sink with room for a number of bytes -/

/-- A printer that has not failed, on a sink that accepts `r` more bytes. -/
def printerOn (r : Nat) (out indent : Str) (atStart : Bool) : Printer :=
  { output := out, room := some r, indent_ := indent, at_start_of_line_ := atStart,
    failed_ := false }

/-- The members of a generator whose printer has not failed and writes to a sink that
accepts `r` more bytes, `n` blocks deep. -/
def stateOn (r : Nat) (out : Str) (atStart : Bool) (n : Nat)
    (em : List (Str × List FieldDescriptor)) (fn : Str) (ns : List Str) (fm : Str) :
    RubyGenerator :=
  { printer_ := printerOn r out (spaces n) atStart
    filename := fn
    ns_vector := ns
    extended_messages := em
    indent_level := n
    failed_message := fm }

/-- The text of a sequence of emission steps; a step is the text one `Print` call writes
together with the reason the validation after it records when the write failed. -/
def stepsText : List (Str × Str) → Str
  | [] => []
  | s :: ss => s.1 ++ stepsText ss

/-- The reason of the first step whose text does not fit into a sink with room for `r`
bytes (the empty text when all steps fit). -/
def failingReason : List (Str × Str) → Nat → Str
  | [], _ => []
  | s :: ss, r => if s.1.length ≤ r then failingReason ss (r - s.1.length) else s.2

/-- The step of `PrintNewLine`. -/
def newlineStep : Str × Str := (['\n'], "Failed printing newline".toList)

/-- The call left by `throw 1` with the sink holding `output`, the reason `why` recorded,
and the printer marked failed. -/
def Fails (result : Except RubyGenerator RubyGenerator) (output why fn : Str) : Prop :=
  ∃ e, result = Except.error e ∧ e.failed_message = why ∧ e.printer_.output = output
    ∧ e.printer_.failed_ = true ∧ e.filename = fn

/-- On a sink with room for `r` bytes, called `n` blocks deep at the start of a line with
registry `em`, the member function carries out `steps`: when their text fits it returns
`n1` blocks deep at the start of a line with registry `em1`, the text appended; otherwise
it leaves by `throw 1` with the reason of the first step that did not fit, the sink
holding the first `r` bytes of the text. -/
def Writes (A : Action) (n n1 : Nat) (em em1 : List (Str × List FieldDescriptor))
    (ns : List Str) (steps : List (Str × Str)) : Prop :=
  ∀ (r : Nat) (out fn fm : Str),
    ((stepsText steps).length ≤ r →
      A (stateOn r out true n em fn ns fm)
        = Except.ok (stateOn (r - (stepsText steps).length) (out ++ stepsText steps) true n1
            em1 fn ns fm))
    ∧ (r < (stepsText steps).length →
      Fails (A (stateOn r out true n em fn ns fm)) (out ++ (stepsText steps).take r)
        (failingReason steps r) fn)

/-- The reason the validation after a one-line statement of the given kind records. -/
def Keyword.reason : Keyword → Str
  | .hashes => "Failed printing comment".toList
  | .hash => "Failed printing comment".toList
  | .comment => "Failed printing comment".toList
  | .require => "Failed printing require".toList
  | .define => "Failed printing enum value".toList
  | .extensions => "Failed printing extension ranges".toList
  | .rpc => "Failed printing rpc method".toList

mutual

/-- The emission steps of a node at depth `n`: each line is printed and validated, and
then ended by `PrintNewLine`; a `require` line is printed together with its line feed. -/
def Node.steps : Nat → Node → List (Str × Str)
  | _, .blank => [newlineStep]
  | n, .text kw rest =>
    if kw = Keyword.require then [(spaces n ++ (kw.text ++ rest) ++ ['\n'], kw.reason)]
    else [(spaces n ++ (kw.text ++ rest), kw.reason), newlineStep]
  | n, .field descriptor =>
    [(spaces n ++ fieldLine descriptor, "Failed printing message field".toList), newlineStep]
  | n, .shell name =>
    [(spaces n ++ blockLine RubyBlockType.RUBY_CLASS RubyClassType.CLASS_TYPE_MESSAGE name true,
      "Failed printing block declaration".toList), newlineStep]
  | n, .block block_type class_type name body =>
    (spaces n ++ blockLine block_type class_type name false,
        "Failed printing block declaration".toList)
      :: newlineStep
      :: (Node.stepsList (n + 1) body
          ++ [(spaces n ++ "end".toList, "Failed printing block end".toList), newlineStep])

/-- The emission steps of a sequence of nodes at depth `n`. -/
def Node.stepsList : Nat → List Node → List (Str × Str)
  | _, [] => []
  | n, x :: xs => Node.steps n x ++ Node.stepsList n xs

end

/-- The emission steps of `PrintComment(comment, true)`: the three lines of the header are
one print. -/
def headerSteps (n : Nat) (comment : Str) : List (Str × Str) :=
  [(spaces n ++ "##".toList ++ ['\n'] ++ (spaces n ++ ("# ".toList ++ comment)) ++ ['\n']
      ++ (spaces n ++ "#".toList), "Failed printing comment".toList),
   newlineStep]

/-- The emission steps of `PrintImportRequires`. -/
def importSteps (file : FileDescriptor) : List (Str × Str) :=
  if file.dependencies.length > 0 then
    newlineStep :: (headerSteps 0 "Imports".toList
      ++ Node.stepsList 0 (file.dependencies.map (fun dependency =>
          Node.text Keyword.require (CreateRubyFileName dependency true ++ "'".toList))))
  else []

/-- The emission steps of the headers of nested namespace modules, the outermost at depth
`n`. -/
def headSteps : Nat → List Str → List (Str × Str)
  | _, [] => []
  | n, s :: ss =>
    (spaces n ++ blockLine RubyBlockType.RUBY_MODULE RubyClassType.CLASS_TYPE_NONE
        (Constantize s false) false, "Failed printing block declaration".toList)
      :: newlineStep :: headSteps (n + 1) ss

/-- The emission steps of the `end` lines of `k` nested blocks, the outermost at depth `n`,
innermost first. -/
def tailSteps : Nat → Nat → List (Str × Str)
  | _, 0 => []
  | n, k + 1 =>
    (spaces (n + k) ++ "end".toList, "Failed printing block end".toList)
      :: newlineStep :: tailSteps n k

/-- The emission steps of a section: a header comment and the nodes under it, or nothing
when the section is absent. -/
def sectionSteps (present : Bool) (n : Nat) (title : Str) (nodes : List Node) :
    List (Str × Str) :=
  if present then headerSteps n title ++ Node.stepsList n nodes else []

/-- The emission steps of the body of `Generate`, in the order of its calls. -/
def fileSteps (H : HashOrder) (file : FileDescriptor) : List (Str × Str) :=
  headerSteps 0 "This file is auto-generated. DO NOT EDIT!".toList
  ++ (Node.stepsList 0 (genericRequireNodes file)
  ++ (importSteps file
  ++ (([newlineStep] ++ headSteps 0 (SplitStringUsing file.package '.' []))
  ++ (sectionSteps (decide (file.enum_types.length > 0))
        (SplitStringUsing file.package '.' []).length "Enum Classes".toList
        (file.enum_types.flatMap enumNodes)
  ++ ([newlineStep]
  ++ (sectionSteps (decide (file.message_types.length > 0))
        (SplitStringUsing file.package '.' []).length "Message Classes".toList
        (shellNodesList file.message_types)
  ++ ([newlineStep]
  ++ (sectionSteps (decide (file.message_types.length > 0))
        (SplitStringUsing file.package '.' []).length "Message Fields".toList
        (bodyNodesList file.message_types (registryAfterShells file)).1
  ++ (sectionSteps (decide ((bodiesFileNodes file).2.length > 0))
        (SplitStringUsing file.package '.' []).length "Extended Messages".toList
        (danglingLoopNodes (H.order ((bodiesFileNodes file).2.map Prod.fst))
          (bodiesFileNodes file).2).1
  ++ (sectionSteps (decide (file.services.length > 0))
        (SplitStringUsing file.package '.' []).length "Services".toList
        (file.services.flatMap serviceNodes)
  ++ tailSteps 0 (SplitStringUsing file.package '.' []).length))))))))))

/-- The reasons `ValidatePrinter` is called with. -/
def reasonStrings : List Str :=
  ["Failed printing extension ranges".toList, "Failed printing message field".toList,
   "Failed printing enum value".toList, "Failed printing rpc method".toList,
   "Failed printing require".toList, "Failed printing comment".toList,
   "Failed printing newline".toList, "Failed printing block declaration".toList,
   "Failed printing block end".toList]

/-- `DescriptorHasExtensions(descriptor)` with the members it leaves behind: the value
returned and the generator after the call.  The map is read with `count`; the bracket
access `extended_messages[full_name]`, which would insert an absent key, is made only in
the branch where the key is present. -/
def DescriptorHasExtensionsCall (descriptor : Descriptor) (g : RubyGenerator) :
    Bool × RubyGenerator :=
  let full_name := descriptor.full_name
  if mapContains g.extended_messages full_name then
    let g1 := { g with extended_messages := mapTouch g.extended_messages full_name }
    (decide ((mapGet g1.extended_messages full_name).length ≠ 0), g1)
  else (false, g)

/-- A line made of whitespace only. -/
def isBlank (l : Str) : Bool := l.all Char.isWhitespace

/-- A string field whose default value holds a line of two spaces. -/
def blankLineDefaultField : FieldDescriptor :=
  { lowercase_name := "s".toList, number := 1, label := Label.LABEL_OPTIONAL,
    type := FieldType.TYPE_STRING, has_default_value := true,
    default_value_string := "a\n  \nb".toList }

/-- A schema file without package whose only message `M` has the field above. -/
def blankLineDefaultFile : FileDescriptor :=
  { name := "m.proto".toList, package := []
    message_types :=
      [Descriptor.mk "M".toList "M".toList [blankLineDefaultField] [] [] [] []] }

/-- The number of spaces a line starts with. -/
def indentOf (l : Str) : Nat := (l.takeWhile (fun c => c = ' ')).length

/-- A reading of the lines of a text that checks the indentation against the blocks that
are open, `d` of them at the start: a line of whitespace is passed over; a terminator must
close an open block and stand at the indentation of its header, two spaces per block that
is open around it; any other line must stand two spaces deep per open block, and a header
that opens a body makes the lines after it one block deeper. -/
def indentScan : List Str → Nat → Bool
  | [], _ => true
  | l :: ls, d =>
    if isBlank l then indentScan ls d
    else if isTerminator l then
      (if d = 0 then false else decide (indentOf l = 2 * (d - 1)) && indentScan ls (d - 1))
    else decide (indentOf l = 2 * d) && indentScan ls (if opensBody l then d + 1 else d)

/-- All extension fields declared in a file: at file scope and in the scope of a message,
at any depth. -/
def FileDescriptor.allExtensions (file : FileDescriptor) : List FieldDescriptor :=
  file.extensions ++ file.allMessages.flatMap Descriptor.extensions

/-- The full names of the messages defined in a file, top-level or nested. -/
def FileDescriptor.definedNames (file : FileDescriptor) : List Str :=
  file.allMessages.map Descriptor.full_name

/-- The fields the registry holds, bucket after bucket. -/
def recorded (em : List (Str × List FieldDescriptor)) : List FieldDescriptor :=
  em.flatMap Prod.snd

/-- A registry as the first pass builds it: no key twice, no empty bucket, and every field
in the bucket of its containing type. -/
def registryInv (em : List (Str × List FieldDescriptor)) : Prop :=
  (em.map Prod.fst).Nodup
    ∧ ∀ e ∈ em, e.2 ≠ [] ∧ ∀ f ∈ e.2, f.containing_type_full_name = e.1

/-- The field declaration a node is, if it is one. -/
def Node.asField : Node → List FieldDescriptor
  | .field descriptor => [descriptor]
  | _ => []

/-- The field declarations that stand directly in a sequence of nodes, in order. -/
def directFields (nodes : List Node) : List FieldDescriptor := nodes.flatMap Node.asField

mutual

/-- The blocks of a node, the outer before the inner, each with its name and the field
declarations that stand directly in its body. -/
def Node.classBodies : Node → List (Str × List FieldDescriptor)
  | .block _ _ name body => (name, directFields body) :: Node.classBodiesList body
  | .blank => []
  | .text _ _ => []
  | .field _ => []
  | .shell _ => []

/-- The blocks of a sequence of nodes. -/
def Node.classBodiesList : List Node → List (Str × List FieldDescriptor)
  | [] => []
  | x :: xs => Node.classBodies x ++ Node.classBodiesList xs

end

mutual

/-- The classes the second pass is to reopen for a message and the messages nested in it,
given the bucket of extension fields of each full name: a message without fields, without
extension fields and without nested messages gets none; any other message gets a class
with its own fields followed by its extension fields, and then the classes of its nested
messages. -/
def expectedBodies (bucket : Str → List FieldDescriptor) :
    Descriptor → List (Str × List FieldDescriptor)
  | .mk name full_name fields nested_types _ _ _ =>
    if fields.length = 0 ∧ (bucket full_name).length = 0 ∧ nested_types.length = 0 then []
    else (name, fields ++ bucket full_name) :: expectedBodiesList bucket nested_types

/-- The classes the second pass is to reopen for a sequence of messages. -/
def expectedBodiesList (bucket : Str → List FieldDescriptor) :
    List Descriptor → List (Str × List FieldDescriptor)
  | [] => []
  | d :: ds => expectedBodies bucket d ++ expectedBodiesList bucket ds

end

/-- The full names of a message and of the messages nested in it. -/
def Descriptor.names (d : Descriptor) : List Str :=
  (Descriptor.withNested d).map Descriptor.full_name

/-- The full names of the messages of a sequence and of the messages nested in them. -/
def Descriptor.namesList (ds : List Descriptor) : List Str :=
  (Descriptor.withNestedList ds).map Descriptor.full_name

mutual

/-- The field declarations of a node, wherever they stand in it, in the order of the
text. -/
def Node.allFields : Node → List FieldDescriptor
  | .field descriptor => [descriptor]
  | .block _ _ _ body => Node.allFieldsList body
  | .blank => []
  | .text _ _ => []
  | .shell _ => []

/-- The field declarations of a sequence of nodes. -/
def Node.allFieldsList : List Node → List FieldDescriptor
  | [] => []
  | x :: xs => Node.allFields x ++ Node.allFieldsList xs

end

/-- The ordinary fields of all messages defined in a file, top-level or nested. -/
def FileDescriptor.allFields (file : FileDescriptor) : List FieldDescriptor :=
  file.allMessages.flatMap Descriptor.fields

/-- An extension field `note` of the message `app.M`. -/
def memberExtension : FieldDescriptor :=
  { lowercase_name := "note".toList, number := 101, label := Label.LABEL_OPTIONAL,
    type := FieldType.TYPE_INT32, containing_type_full_name := "app.M".toList,
    is_extension := true }

/-- An extension field `mark` of the nested message `app.M.N`. -/
def nestedExtension : FieldDescriptor :=
  { lowercase_name := "mark".toList, number := 102, label := Label.LABEL_OPTIONAL,
    type := FieldType.TYPE_INT32, containing_type_full_name := "app.M.N".toList,
    is_extension := true }

/-- A schema file of package `app`: the message `M` has the field `count` and the nested
message `N` without fields; `N` declares the extension `note` of `app.M`; at file scope
stand the extension `mark` of `app.M.N` and the extension `tag` of `base.Other`, which is
defined elsewhere. -/
def extendingFile : FileDescriptor :=
  { name := "app.proto".toList, package := "app".toList
    dependencies := ["base.proto".toList]
    message_types :=
      [Descriptor.mk "M".toList "app.M".toList [sampleIntField]
        [Descriptor.mk "N".toList "app.M.N".toList [] [] [] [memberExtension] []]
        [] [] []]
    extensions := [nestedExtension, otherExtension] }

/-- The text `Generate` has written when it reaches `PrintDanglingExtendedMessages`: the
lines before the namespace modules, the module headers, and inside them the enums, the
class shells and the field bodies. -/
def textBeforeFlush (file : FileDescriptor) : Str :=
  render 0 (preludeNodes file)
    ++ (renderLines (moduleHeads 0 (SplitStringUsing file.package '.' []))
    ++ render (SplitStringUsing file.package '.' []).length
        (declarationNodes file ++ (bodiesFileNodes file).1))

/-- A registry that recorded an extension of `x.A` and then an extension of `x.B`. -/
def twoDanglingRegistry : List (Str × List FieldDescriptor) :=
  [("x.A".toList, [firstDanglingExtension]), ("x.B".toList, [secondDanglingExtension])]

/-- Members as an earlier call of `Generate` for another file may have left them. -/
def usedMembers : RubyGenerator :=
  { filename := "old.pb.rb".toList, ns_vector := ["old".toList],
    extended_messages := [("old.T".toList, [otherExtension])], indent_level := 3,
    failed_message := "Failed printing comment".toList }

/-! # Theorems -/

/-! ## `Constantize` -/

theorem ConstantizeLoop_eq (acc : Str) (b : Bool) (s : Str) :
    ConstantizeLoop acc b s = acc ++ dotsToColons s := by
  induction s generalizing acc b with
  | nil => simp [ConstantizeLoop, dotsToColons]
  | cons c cs ih =>
    have hc : c.toNat = 46 ↔ c = '.' := by
      constructor
      · intro h
        apply Char.ext
        apply UInt32.ext
        simpa [Char.toNat] using h
      · intro h
        subst h
        rfl
    by_cases h : c = '.'
    · subst h
      simp [ConstantizeLoop, dotsToColons, ih]
    · have h46 : ¬ c.toNat = 46 := fun h1 => h (hc.mp h1)
      by_cases h95 : c.toNat = 95
      · simp [ConstantizeLoop, dotsToColons, ih, h, h46, h95]
      · simp [ConstantizeLoop, dotsToColons, ih, h, h46, h95]

theorem dotsToColons_append (a b : Str) :
    dotsToColons (a ++ b) = dotsToColons a ++ dotsToColons b := by
  induction a with
  | nil => simp [dotsToColons]
  | cons c cs ih => simp [dotsToColons, ih]

theorem dot_not_mem_dotsToColons (s : Str) : '.' ∉ dotsToColons s := by
  induction s with
  | nil => simp [dotsToColons]
  | cons c cs ih =>
    by_cases h : c = '.'
    · subst h
      simp [dotsToColons, ih]
    · simp only [dotsToColons, if_neg h, List.singleton_append, List.mem_cons, not_or]
      exact ⟨fun h1 => h h1.symm, ih⟩

/-- C9: `Constantize(s, false)` is `s` with every `.` replaced by `::` and every other
character kept in place; the top-level form puts `::` in front of it; neither result
contains a `.`; and `Constantize` of `a.b` is the results for `a` and `b` joined by `::`. -/
theorem Constantize_replaces_every_dot (s a b : Str) :
    Constantize s false = dotsToColons s
    ∧ Constantize s true = "::".toList ++ Constantize s false
    ∧ '.' ∉ Constantize s false
    ∧ '.' ∉ Constantize s true
    ∧ Constantize (a ++ ".".toList ++ b) false
        = Constantize a false ++ "::".toList ++ Constantize b false := by
  have h0 : ∀ t, Constantize t false = dotsToColons t := by
    intro t
    simp [Constantize, ConstantizeLoop_eq]
  have h1 : ∀ t, Constantize t true = "::".toList ++ dotsToColons t := by
    intro t
    simp [Constantize, ConstantizeLoop_eq]
  refine ⟨h0 s, ?_, ?_, ?_, ?_⟩
  · rw [h1, h0]
  · rw [h0]
    exact dot_not_mem_dotsToColons s
  · rw [h1]
    have := dot_not_mem_dotsToColons s
    simp [this]
  · rw [h0, h0, h0, dotsToColons_append, dotsToColons_append]
    simp [dotsToColons]

/-! ## `CreateRubyFileName` -/

/-- C10 (failing input): for the file name `a.protos/b.proto` the first `.proto` is the
one inside the directory name, and that one is replaced: the result is neither
`a.protos/b.pb.rb` nor, for a require, `a.protos/b.pb`. -/
theorem CreateRubyFileName_replaces_first_occurrence :
    CreateRubyFileName ("a.protos/b".toList ++ ".proto".toList) false = "a.pb.rbs/b.proto".toList
    ∧ CreateRubyFileName ("a.protos/b".toList ++ ".proto".toList) false
        ≠ "a.protos/b".toList ++ ".pb.rb".toList
    ∧ CreateRubyFileName ("a.protos/b".toList ++ ".proto".toList) true = "a.pbs/b.proto".toList
    ∧ CreateRubyFileName ("a.protos/b".toList ++ ".proto".toList) true
        ≠ "a.protos/b".toList ++ ".pb".toList := by
  decide

/-! ## Decimal literals -/

theorem digitValue_digitChar (d : Nat) (h : d < 10) : digitValue (digitChar d) = some d := by
  interval_cases d <;> decide

theorem digitChar_ne_zero (d : Nat) (h : d < 10) (h0 : d ≠ 0) : digitChar d ≠ '0' := by
  interval_cases d <;> first | exact absurd rfl h0 | decide

theorem digitChar_ne_minus (d : Nat) (h : d < 10) : digitChar d ≠ '-' := by
  interval_cases d <;> decide

theorem decimalDigits_acc (fuel n : Nat) (acc : Str) :
    decimalDigits fuel n acc = decimalDigits fuel n [] ++ acc := by
  induction fuel generalizing n acc with
  | zero => simp [decimalDigits]
  | succ k ih =>
    simp only [decimalDigits]
    split
    · simp
    · rw [ih (n / 10) (digitChar (n % 10) :: acc), ih (n / 10) [digitChar (n % 10)]]
      simp

theorem readDigits_append (xs ys : Str) (acc : Nat) :
    readDigits (xs ++ ys) acc = (readDigits xs acc).bind (fun a => readDigits ys a) := by
  induction xs generalizing acc with
  | nil => simp [readDigits]
  | cons c cs ih =>
    simp only [List.cons_append, readDigits]
    cases digitValue c with
    | none => simp
    | some d => simp [ih]

theorem readDigits_decimalDigits (fuel n : Nat) (h : n < fuel) :
    readDigits (decimalDigits fuel n []) 0 = some n := by
  induction fuel generalizing n with
  | zero => omega
  | succ k ih =>
    simp only [decimalDigits]
    have hd : n % 10 < 10 := Nat.mod_lt _ (by omega)
    split
    · rename_i h0
      simp only [readDigits, digitValue_digitChar _ hd]
      congr 1
      omega
    · rename_i h0
      rw [decimalDigits_acc, readDigits_append, ih (n / 10) (by omega)]
      simp only [Option.some_bind, readDigits, digitValue_digitChar _ hd]
      congr 1
      omega

theorem decimalDigits_all_digits (fuel n : Nat) (acc : Str)
    (hacc : ∀ c ∈ acc, (digitValue c).isSome = true) :
    ∀ c ∈ decimalDigits fuel n acc, (digitValue c).isSome = true := by
  induction fuel generalizing n acc with
  | zero => simpa [decimalDigits] using hacc
  | succ k ih =>
    have hd : n % 10 < 10 := Nat.mod_lt _ (by omega)
    have hacc2 : ∀ c ∈ digitChar (n % 10) :: acc, (digitValue c).isSome = true := by
      intro c hc
      rcases List.mem_cons.mp hc with h | h
      · rw [h, digitValue_digitChar _ hd]; rfl
      · exact hacc c h
    simp only [decimalDigits]
    split
    · exact hacc2
    · exact ih _ _ hacc2

/-- The first digit produced is not `0` unless the number is zero. -/
theorem decimalDigits_head (fuel n : Nat) (acc : Str) (h : n < fuel) :
    ∃ c rest, decimalDigits fuel n acc = c :: rest ∧ (∃ d, d < 10 ∧ c = digitChar d)
      ∧ (n ≠ 0 → c ≠ '0') ∧ (n = 0 → rest = acc) := by
  induction fuel generalizing n acc with
  | zero => omega
  | succ k ih =>
    have hd : n % 10 < 10 := Nat.mod_lt _ (by omega)
    simp only [decimalDigits]
    split
    · rename_i h0
      refine ⟨_, _, rfl, ⟨_, hd, rfl⟩, ?_, fun _ => rfl⟩
      intro hn
      exact digitChar_ne_zero _ hd (by omega)
    · rename_i h0
      obtain ⟨c, rest, he, hdig, hnz, _⟩ := ih (n / 10) (digitChar (n % 10) :: acc) (by omega)
      refine ⟨c, rest, he, hdig, fun _ => hnz h0, ?_⟩
      intro hn
      subst hn
      simp at h0

theorem SimpleItoaNat_read (n : Nat) : readDigits (SimpleItoaNat n) 0 = some n :=
  readDigits_decimalDigits (n + 1) n (by omega)

theorem SimpleItoaNat_canonical (n : Nat) :
    canonicalDigits (SimpleItoaNat n) = true
    ∧ (n ≠ 0 → SimpleItoaNat n ≠ ['0'])
    ∧ (∃ c rest, SimpleItoaNat n = c :: rest ∧ c ≠ '-') := by
  obtain ⟨c, rest, he, ⟨d, hd, hc⟩, hnz, hz⟩ := decimalDigits_head (n + 1) n [] (by omega)
  have hall := decimalDigits_all_digits (n + 1) n [] (by simp)
  unfold SimpleItoaNat
  rw [he] at hall ⊢
  refine ⟨?_, ?_, ⟨c, rest, rfl, ?_⟩⟩
  · simp only [canonicalDigits, List.isEmpty_cons, Bool.not_false, Bool.true_and,
      Bool.and_eq_true, Bool.or_eq_true, List.all_eq_true, List.head?_cons, bne_iff_ne, ne_eq,
      Option.some.injEq, beq_iff_eq, List.length_cons]
    refine ⟨hall, ?_⟩
    by_cases h0 : n = 0
    · right
      rw [hz h0]
      rfl
    · left
      exact hnz h0
  · intro h0 h
    injection h with h1 h2
    exact hnz h0 h1
  · rw [hc]
    exact digitChar_ne_minus d hd

/-- Decimal text of an integer reads back as the integer, is canonical, and starts with
a minus sign exactly for a negative integer. -/
theorem SimpleItoa_canonical (v : Int) :
    readDecimal (SimpleItoa v) = some v
    ∧ canonicalDecimal (SimpleItoa v) = true
    ∧ ((SimpleItoa v).head? = some '-' ↔ v < 0) := by
  by_cases hv : v < 0
  · obtain ⟨hcan, hne, c, rest, he, hc⟩ := SimpleItoaNat_canonical v.natAbs
    have hr := SimpleItoaNat_read v.natAbs
    have hpos : v.natAbs ≠ 0 := by omega
    have hne2 : SimpleItoaNat v.natAbs ≠ [] := by rw [he]; simp
    simp only [SimpleItoa, if_pos hv]
    refine ⟨?_, ?_, ?_⟩
    · simp only [readDecimal, if_true, hne2, if_false, hr, Option.map_some']
      congr 1
      simp only [Int.ofNat_eq_coe]
      omega
    · simp only [canonicalDecimal, if_true, hcan, Bool.true_and, bne_iff_ne, ne_eq]
      exact hne hpos
    · simp [hv]
  · obtain ⟨hcan, hne, c, rest, he, hc⟩ := SimpleItoaNat_canonical v.toNat
    have hr := SimpleItoaNat_read v.toNat
    simp only [SimpleItoa, if_neg hv]
    refine ⟨?_, ?_, ?_⟩
    · rw [he] at hr ⊢
      simp only [readDecimal, if_neg hc, hr, Option.map_some']
      congr 1
      simp only [Int.ofNat_eq_coe]
      omega
    · rw [he] at hcan ⊢
      simp only [canonicalDecimal, if_neg hc, hcan]
    · rw [he]
      simp only [List.head?_cons, Option.some.injEq, hc, false_iff]
      exact hv

/-! ## The printer on a sink that never fails -/

theorem foldl_apply_expand (ps : List Printer.Piece) (out indent : Str) (st : Bool) :
    ps.foldl Printer.apply (printerOf out indent st)
      = printerOf (out ++ (expand indent st ps).1) indent (expand indent st ps).2 := by
  induction ps generalizing out st with
  | nil => simp [expand]
  | cons p ps ih =>
    cases p with
    | eol =>
      have h : (printerOf out indent st).apply Printer.Piece.eol = printerOf out indent true := rfl
      simp only [List.foldl, h, expand, ih]
    | raw d =>
      by_cases hd : d = []
      · subst hd
        have h : (printerOf out indent st).apply (Printer.Piece.raw [])
            = printerOf out indent st := by
          simp [Printer.apply, Printer.WriteRaw, printerOf]
        simp only [List.foldl, h, expand, if_true, ih]
      · have h : (printerOf out indent st).apply (Printer.Piece.raw d)
            = printerOf (out ++ ((if st then indent else []) ++ d)) indent false := by
          cases st <;>
            simp [Printer.apply, Printer.WriteRaw, Printer.sinkWrite, printerOf, hd]
        simp only [List.foldl, h, expand, hd, if_false, ih, List.append_assoc]

theorem Print_stateOf (vars : List (Str × Str)) (text out : Str) (st : Bool) (n : Nat)
    (em : List (Str × List FieldDescriptor)) (fn : Str) (ns : List Str) (fm : Str) :
    print vars text (stateOf out st n em fn ns fm)
      = Except.ok (stateOf (out ++ (expand (spaces n) st (Printer.pieces vars [] none text)).1)
          (expand (spaces n) st (Printer.pieces vars [] none text)).2 n em fn ns fm) := by
  simp [print, stateOf, Printer.Print, foldl_apply_expand]

theorem ValidatePrinter_stateOf (msg out : Str) (st : Bool) (n : Nat)
    (em : List (Str × List FieldDescriptor)) (fn : Str) (ns : List Str) (fm : Str) :
    ValidatePrinter msg (stateOf out st n em fn ns fm)
      = Except.ok (stateOf out st n em fn ns fm) := by
  simp [ValidatePrinter, stateOf, printerOf]

theorem spaces_succ (n : Nat) : spaces (n + 1) = spaces n ++ [' ', ' '] := by
  simp only [spaces, Nat.mul_succ, List.replicate_add]
  rfl

theorem spaces_eq_nil (n : Nat) : spaces n = [] ↔ n = 0 := by
  cases n with
  | zero => simp [spaces]
  | succ k => simp [spaces, Nat.mul_succ, List.replicate_succ]

theorem Printer_Outdent_spaces (out : Str) (st : Bool) (n : Nat) :
    Printer.Outdent (printerOf out (spaces (n + 1)) st) = printerOf out (spaces n) st := by
  have h : spaces (n + 1) ≠ [] := by simp [spaces_eq_nil]
  simp only [Printer.Outdent, printerOf, if_neg h]
  congr 1
  simp [spaces]
  omega

theorem Printer_Indent_spaces (out : Str) (st : Bool) (n : Nat) :
    Printer.Indent (printerOf out (spaces n) st) = printerOf out (spaces (n + 1)) st := by
  simp [Printer.Indent, printerOf, spaces_succ]

theorem iterate_Outdent_spaces (out : Str) (st : Bool) (n : Nat) :
    iterate Printer.Outdent n (printerOf out (spaces n) st) = printerOf out [] st := by
  induction n with
  | zero => simp [iterate, spaces]
  | succ k ih => simp [iterate, Printer_Outdent_spaces, ih]

theorem iterate_Indent_spaces (out : Str) (st : Bool) (n k : Nat) :
    iterate Printer.Indent n (printerOf out (spaces k) st)
      = printerOf out (spaces (k + n)) st := by
  induction n generalizing k with
  | zero => simp [iterate]
  | succ m ih =>
    simp only [iterate, Printer_Indent_spaces, ih]
    congr 2
    omega

theorem PrintNewLine_stateOf (out : Str) (st : Bool) (n : Nat)
    (em : List (Str × List FieldDescriptor)) (fn : Str) (ns : List Str) (fm : Str) :
    PrintNewLine (stateOf out st n em fn ns fm)
      = Except.ok (stateOf (out ++ ['\n']) true n em fn ns fm) := by
  have hp : Printer.pieces [] [] none "\n".toList
      = [Printer.Piece.raw ['\n'], Printer.Piece.eol, Printer.Piece.raw []] := by decide
  have h0 := iterate_Indent_spaces (out ++ ['\n']) true n 0
  have hs0 : spaces 0 = [] := rfl
  rw [hs0, Nat.zero_add] at h0
  have hex : ∀ b, expand [] b [Printer.Piece.raw ['\n'], Printer.Piece.eol, Printer.Piece.raw []]
      = (['\n'], true) := by
    intro b
    cases b <;> simp [expand]
  simp only [PrintNewLine, PrintNewLineN, stateOf, iterate_Outdent_spaces, List.replicate,
    forEach, andThen, print, Printer.Print, hp, foldl_apply_expand, ValidatePrinter, hex]
  simp only [printerOf] at h0 ⊢
  simp [h0]

theorem expand_eol (indent : Str) (st : Bool) (ps : List Printer.Piece) :
    expand indent st (Printer.Piece.eol :: ps) = expand indent true ps := by
  cases st <;> rfl

theorem expand_raw_nil (indent : Str) (st : Bool) (ps : List Printer.Piece) :
    expand indent st (Printer.Piece.raw [] :: ps) = expand indent st ps := by
  simp [expand]

theorem expand_raw_false (indent d : Str) (ps : List Printer.Piece) :
    expand indent false (Printer.Piece.raw d :: ps)
      = (d ++ (expand indent false ps).1, (expand indent false ps).2) := by
  by_cases hd : d = []
  · simp [expand, hd]
  · simp [expand, hd]

theorem expand_raw_cons (indent : Str) (c : Char) (cs : Str) (ps : List Printer.Piece) :
    expand indent true (Printer.Piece.raw (c :: cs) :: ps)
      = (indent ++ (c :: cs) ++ (expand indent false ps).1, (expand indent false ps).2) := by
  simp [expand]

theorem expand_nil (indent : Str) (st : Bool) : expand indent st [] = ([], st) := by
  cases st <;> rfl

/-- A print, its validation and the line feed after it, on a sink that never fails. -/
theorem printLine_stateOf (vars : List (Str × Str)) (text msg out : Str) (n : Nat)
    (em : List (Str × List FieldDescriptor)) (fn : Str) (ns : List Str) (fm : Str) :
    andThen (print vars text) (andThen (ValidatePrinter msg) PrintNewLine)
        (stateOf out true n em fn ns fm)
      = Except.ok (stateOf
          (out ++ (expand (spaces n) true (Printer.pieces vars [] none text)).1 ++ ['\n'])
          true n em fn ns fm) := by
  simp only [andThen, Print_stateOf, ValidatePrinter_stateOf, PrintNewLine_stateOf]

theorem fieldPresence_cases (descriptor : FieldDescriptor) :
    fieldPresence descriptor = "required".toList ∨ fieldPresence descriptor = "optional".toList
      ∨ fieldPresence descriptor = "repeated".toList := by
  unfold fieldPresence FieldDescriptor.is_required FieldDescriptor.is_optional
    FieldDescriptor.is_repeated
  cases descriptor.label <;> simp

theorem pieces_field (descriptor : FieldDescriptor) :
    Printer.pieces (fieldData descriptor) [] none fieldFormat
      = [Printer.Piece.raw [], Printer.Piece.raw (fieldPresence descriptor),
         Printer.Piece.raw " ".toList, Printer.Piece.raw (fieldDataType descriptor),
         Printer.Piece.raw ", :".toList, Printer.Piece.raw descriptor.lowercase_name,
         Printer.Piece.raw ", ".toList, Printer.Piece.raw (SimpleItoa descriptor.number),
         Printer.Piece.raw [], Printer.Piece.raw (fieldDefaultOpt descriptor),
         Printer.Piece.raw [], Printer.Piece.raw (fieldPackedOpt descriptor),
         Printer.Piece.raw [], Printer.Piece.raw (fieldDeprecatedOpt descriptor),
         Printer.Piece.raw [], Printer.Piece.raw (fieldExtensionOpt descriptor),
         Printer.Piece.raw []] := by
  rfl

theorem expand_field (descriptor : FieldDescriptor) (indent : Str) :
    expand indent true (Printer.pieces (fieldData descriptor) [] none fieldFormat)
      = (indent ++ fieldLine descriptor, false) := by
  rw [pieces_field]
  rcases fieldPresence_cases descriptor with h | h | h <;>
    · rw [expand_raw_nil]
      simp only [fieldLine, h]
      simp [expand_raw_cons, expand_raw_false, expand_nil]

theorem PrintMessageField_stateOf (descriptor : FieldDescriptor) (out : Str) (n : Nat)
    (em : List (Str × List FieldDescriptor)) (fn : Str) (ns : List Str) (fm : Str) :
    PrintMessageField descriptor (stateOf out true n em fn ns fm)
      = Except.ok (stateOf (out ++ spaces n ++ fieldLine descriptor ++ ['\n']) true n em fn ns fm) := by
  simp only [PrintMessageField, printLine_stateOf, expand_field, List.append_assoc]

/-! ## Simulation: what each member function writes on a sink that never fails -/

theorem renderLines_append (a b : List Str) :
    renderLines (a ++ b) = renderLines a ++ renderLines b := by
  induction a with
  | nil => rfl
  | cons l ls ih => simp [renderLines, ih]

theorem linesList_append (n : Nat) (a b : List Node) :
    Node.linesList n (a ++ b) = Node.linesList n a ++ Node.linesList n b := by
  induction a with
  | nil => simp [Node.linesList]
  | cons x xs ih => simp [Node.linesList, ih]

theorem render_append (n : Nat) (a b : List Node) :
    render n (a ++ b) = render n a ++ render n b := by
  simp [render, linesList_append, renderLines_append]

theorem render_nil (n : Nat) : render n [] = [] := rfl

theorem render_cons (n : Nat) (x : Node) (xs : List Node) :
    render n (x :: xs) = render n [x] ++ render n xs := by
  rw [← render_append]
  rfl

theorem render_blank (n : Nat) : render n [Node.blank] = ['\n'] := rfl

theorem render_text (n : Nat) (kw : Keyword) (rest : Str) :
    render n [Node.text kw rest] = spaces n ++ (kw.text ++ rest) ++ ['\n'] := by
  simp [render, Node.linesList, Node.lines, renderLines]

theorem render_field (n : Nat) (descriptor : FieldDescriptor) :
    render n [Node.field descriptor] = spaces n ++ fieldLine descriptor ++ ['\n'] := by
  simp [render, Node.linesList, Node.lines, renderLines]

theorem render_shell (n : Nat) (name : Str) :
    render n [Node.shell name]
      = spaces n ++ blockLine RubyBlockType.RUBY_CLASS RubyClassType.CLASS_TYPE_MESSAGE name true
          ++ ['\n'] := by
  simp [render, Node.linesList, Node.lines, renderLines]

theorem render_block (n : Nat) (bt : RubyBlockType) (ct : RubyClassType) (name : Str)
    (body : List Node) :
    render n [Node.block bt ct name body]
      = spaces n ++ blockLine bt ct name false ++ ['\n'] ++ render (n + 1) body
          ++ (spaces n ++ "end".toList ++ ['\n']) := by
  simp [render, Node.linesList, Node.lines, renderLines, renderLines_append]

theorem andThen_ok (f k : Action) (g g1 : RubyGenerator) (h : f g = Except.ok g1) :
    andThen f k g = k g1 := by
  simp [andThen, h]

theorem PrintComment_stateOf (comment : Str) (as_header : Bool) (out : Str) (n : Nat)
    (em : List (Str × List FieldDescriptor)) (fn : Str) (ns : List Str) (fm : Str) :
    PrintComment comment as_header (stateOf out true n em fn ns fm)
      = Except.ok (stateOf (out ++ render n (commentNodes comment as_header)) true n em fn ns fm) := by
  cases as_header
  · have hp : Printer.pieces [("comment".toList, comment)] [] none "# $comment$".toList
        = [Printer.Piece.raw "# ".toList, Printer.Piece.raw comment, Printer.Piece.raw []] := rfl
    simp only [PrintComment, Bool.false_eq_true, if_false, printLine_stateOf, hp]
    simp [commentNodes, render, Node.linesList, Node.lines, renderLines, Keyword.text,
      expand_raw_cons, expand_raw_false, expand_nil]
  · have hp : Printer.pieces [("comment".toList, comment)] [] none "##\n# $comment$\n#".toList
        = [Printer.Piece.raw "##\n".toList, Printer.Piece.eol, Printer.Piece.raw "# ".toList,
           Printer.Piece.raw comment, Printer.Piece.raw "\n".toList, Printer.Piece.eol,
           Printer.Piece.raw "#".toList] := rfl
    simp only [PrintComment, if_true, printLine_stateOf, hp]
    simp [commentNodes, render, Node.linesList, Node.lines, renderLines, Keyword.text,
      expand_raw_cons, expand_raw_false, expand_nil, expand_eol]

theorem PrintRequire_stateOf (lib_name : Str) (out : Str) (n : Nat)
    (em : List (Str × List FieldDescriptor)) (fn : Str) (ns : List Str) (fm : Str) :
    PrintRequire lib_name (stateOf out true n em fn ns fm)
      = Except.ok (stateOf
          (out ++ render n [Node.text Keyword.require (lib_name ++ "'".toList)])
          true n em fn ns fm) := by
  have hp : Printer.pieces [("lib".toList, lib_name)] [] none "require '$lib$'\n".toList
      = [Printer.Piece.raw "require '".toList, Printer.Piece.raw lib_name,
         Printer.Piece.raw "'\n".toList, Printer.Piece.eol, Printer.Piece.raw []] := rfl
  simp only [PrintRequire, andThen, Print_stateOf, ValidatePrinter_stateOf, hp]
  simp [render, Node.linesList, Node.lines, renderLines, Keyword.text,
    expand_raw_cons, expand_raw_false, expand_nil, expand_eol, expand_raw_nil]

theorem expand_block (bt : RubyBlockType) (ct : RubyClassType) (name : Str) (empty_body : Bool)
    (indent : Str) :
    (expand indent true
        (Printer.pieces (blockData bt ct name) [] none (blockFormat ct empty_body))).1
      = indent ++ blockLine bt ct name empty_body := by
  cases bt <;> cases ct <;> cases empty_body <;>
    simp [blockData, blockFormat, Printer.pieces, List.lookup, blockLine,
      expand_raw_cons, expand_raw_false, expand_nil, expand_raw_nil]

theorem Indent_stateOf (out : Str) (st : Bool) (n : Nat)
    (em : List (Str × List FieldDescriptor)) (fn : Str) (ns : List Str) (fm : Str) :
    Indent (stateOf out st n em fn ns fm) = Except.ok (stateOf out st (n + 1) em fn ns fm) := by
  simp [Indent, stateOf, Printer_Indent_spaces]

theorem Outdent_stateOf (out : Str) (st : Bool) (n : Nat)
    (em : List (Str × List FieldDescriptor)) (fn : Str) (ns : List Str) (fm : Str) :
    Outdent (stateOf out st (n + 1) em fn ns fm) = Except.ok (stateOf out st n em fn ns fm) := by
  simp [Outdent, stateOf, Printer_Outdent_spaces]

theorem PrintBlockDeclaration_open (bt : RubyBlockType) (ct : RubyClassType) (name : Str)
    (out : Str) (n : Nat)
    (em : List (Str × List FieldDescriptor)) (fn : Str) (ns : List Str) (fm : Str) :
    PrintBlockDeclaration bt ct name false (stateOf out true n em fn ns fm)
      = Except.ok (stateOf (out ++ (spaces n ++ blockLine bt ct name false ++ ['\n']))
          true (n + 1) em fn ns fm) := by
  simp only [PrintBlockDeclaration, andThen, Print_stateOf, ValidatePrinter_stateOf,
    PrintNewLine_stateOf, expand_block, Bool.not_false, if_true, Indent_stateOf,
    List.append_assoc]

theorem PrintBlockDeclaration_inline (bt : RubyBlockType) (ct : RubyClassType) (name : Str)
    (out : Str) (n : Nat)
    (em : List (Str × List FieldDescriptor)) (fn : Str) (ns : List Str) (fm : Str) :
    PrintBlockDeclaration bt ct name true (stateOf out true n em fn ns fm)
      = Except.ok (stateOf (out ++ (spaces n ++ blockLine bt ct name true ++ ['\n']))
          true n em fn ns fm) := by
  simp only [PrintBlockDeclaration, andThen, Print_stateOf, ValidatePrinter_stateOf,
    PrintNewLine_stateOf, expand_block, Bool.not_true, Bool.false_eq_true, if_false,
    List.append_assoc]

theorem PrintBlockEnd_stateOf (out : Str) (n : Nat)
    (em : List (Str × List FieldDescriptor)) (fn : Str) (ns : List Str) (fm : Str) :
    PrintBlockEnd (stateOf out true (n + 1) em fn ns fm)
      = Except.ok (stateOf (out ++ (spaces n ++ "end".toList ++ ['\n'])) true n em fn ns fm) := by
  have hp : Printer.pieces [] [] none "end".toList = [Printer.Piece.raw "end".toList] := rfl
  simp only [PrintBlockEnd, andThen, Outdent_stateOf, Print_stateOf, ValidatePrinter_stateOf,
    PrintNewLine_stateOf, hp]
  simp [expand_raw_cons, expand_nil]

/-- A block: the header, a body that is written one level deeper, and the `end`. -/
theorem block_stateOf (bt : RubyBlockType) (ct : RubyClassType) (name : Str) (inner k : Action)
    (body : List Node) (out : Str) (n : Nat)
    (em em1 : List (Str × List FieldDescriptor)) (fn : Str) (ns : List Str) (fm : Str)
    (hinner : ∀ o, inner (stateOf o true (n + 1) em fn ns fm)
      = Except.ok (stateOf (o ++ render (n + 1) body) true (n + 1) em1 fn ns fm)) :
    andThen (PrintBlockDeclaration bt ct name false) (andThen inner (andThen PrintBlockEnd k))
        (stateOf out true n em fn ns fm)
      = k (stateOf (out ++ render n [Node.block bt ct name body]) true n em1 fn ns fm) := by
  simp only [andThen, PrintBlockDeclaration_open, hinner, PrintBlockEnd_stateOf, render_block,
    List.append_assoc]

theorem block_last_stateOf (bt : RubyBlockType) (ct : RubyClassType) (name : Str)
    (inner : Action) (body : List Node) (out : Str) (n : Nat)
    (em em1 : List (Str × List FieldDescriptor)) (fn : Str) (ns : List Str) (fm : Str)
    (hinner : ∀ o, inner (stateOf o true (n + 1) em fn ns fm)
      = Except.ok (stateOf (o ++ render (n + 1) body) true (n + 1) em1 fn ns fm)) :
    andThen (PrintBlockDeclaration bt ct name false) (andThen inner PrintBlockEnd)
        (stateOf out true n em fn ns fm)
      = Except.ok (stateOf (out ++ render n [Node.block bt ct name body]) true n em1 fn ns fm) := by
  simp only [andThen, PrintBlockDeclaration_open, hinner, PrintBlockEnd_stateOf, render_block,
    List.append_assoc]

theorem forEach_stateOf {α : Type} (body : α → Action) (nodes : α → List Node) (n : Nat)
    (em : List (Str × List FieldDescriptor)) (fn : Str) (ns : List Str) (fm : Str)
    (hbody : ∀ x o, body x (stateOf o true n em fn ns fm)
      = Except.ok (stateOf (o ++ render n (nodes x)) true n em fn ns fm))
    (xs : List α) (out : Str) :
    forEach body xs (stateOf out true n em fn ns fm)
      = Except.ok (stateOf (out ++ render n (xs.flatMap nodes)) true n em fn ns fm) := by
  induction xs generalizing out with
  | nil => simp [forEach, render_nil]
  | cons x xs ih =>
    simp only [forEach, hbody, ih, List.flatMap_cons, render_append, List.append_assoc]

theorem map_eq_flatMap_singleton {α β : Type} (f : α → β) (xs : List α) :
    xs.map f = xs.flatMap (fun x => [f x]) := by
  induction xs with
  | nil => rfl
  | cons x xs ih => simp [List.flatMap_cons, ih]

theorem PrintEnumValue_stateOf (descriptor : EnumValueDescriptor) (out : Str) (n : Nat)
    (em : List (Str × List FieldDescriptor)) (fn : Str) (ns : List Str) (fm : Str) :
    PrintEnumValue descriptor (stateOf out true n em fn ns fm)
      = Except.ok (stateOf (out ++ render n [enumValueNode descriptor]) true n em fn ns fm) := by
  have hp : Printer.pieces [("name".toList, descriptor.name),
        ("number".toList, ConvertIntToString descriptor.number)] [] none
        "define :$name$, $number$".toList
      = [Printer.Piece.raw "define :".toList, Printer.Piece.raw descriptor.name,
         Printer.Piece.raw ", ".toList, Printer.Piece.raw (ConvertIntToString descriptor.number),
         Printer.Piece.raw []] := rfl
  simp only [PrintEnumValue, printLine_stateOf, hp, enumValueNode, render_text]
  simp [Keyword.text, expand_raw_cons, expand_raw_false, expand_nil]

theorem PrintEnum_stateOf (descriptor : EnumDescriptor) (out : Str) (n : Nat)
    (em : List (Str × List FieldDescriptor)) (fn : Str) (ns : List Str) (fm : Str) :
    PrintEnum descriptor (stateOf out true n em fn ns fm)
      = Except.ok (stateOf (out ++ render n (enumNodes descriptor)) true n em fn ns fm) := by
  have hinner : ∀ o, forEach PrintEnumValue descriptor.values (stateOf o true (n + 1) em fn ns fm)
      = Except.ok (stateOf (o ++ render (n + 1) (descriptor.values.map enumValueNode)) true
          (n + 1) em fn ns fm) := by
    intro o
    rw [map_eq_flatMap_singleton]
    exact forEach_stateOf PrintEnumValue (fun v => [enumValueNode v]) (n + 1) em fn ns fm
      (fun x o => PrintEnumValue_stateOf x o (n + 1) em fn ns fm) _ o
  simp only [PrintEnum, PrintClassDeclaration]
  rw [block_stateOf _ _ _ _ _ _ _ _ _ _ _ _ _ hinner, PrintNewLine_stateOf]
  simp only [enumNodes]
  rw [render_cons _ _ [Node.blank], render_blank, List.append_assoc]

theorem forEach_PrintEnum_stateOf (enums : List EnumDescriptor) (out : Str) (n : Nat)
    (em : List (Str × List FieldDescriptor)) (fn : Str) (ns : List Str) (fm : Str) :
    forEach PrintEnum enums (stateOf out true n em fn ns fm)
      = Except.ok (stateOf (out ++ render n (enums.flatMap enumNodes)) true n em fn ns fm) :=
  forEach_stateOf PrintEnum enumNodes n em fn ns fm
    (fun x o => PrintEnum_stateOf x o n em fn ns fm) enums out

theorem PrintEnumsForFileDescriptor_stateOf (file : FileDescriptor) (out : Str) (n : Nat)
    (em : List (Str × List FieldDescriptor)) (fn : Str) (ns : List Str) (fm : Str) :
    PrintEnumsForFileDescriptor file false (stateOf out true n em fn ns fm)
      = Except.ok (stateOf (out ++ render n (enumsFileNodes file)) true n em fn ns fm) := by
  by_cases h : file.enum_types.length > 0
  · simp only [PrintEnumsForFileDescriptor, enumsFileNodes, h, if_true, andThen,
      Bool.false_eq_true, if_false, PrintComment_stateOf, forEach_PrintEnum_stateOf,
      render_append, List.append_assoc]
  · simp [PrintEnumsForFileDescriptor, enumsFileNodes, h, render_nil]

theorem PrintServiceMethod_stateOf (descriptor : MethodDescriptor) (out : Str) (n : Nat)
    (em : List (Str × List FieldDescriptor)) (fn : Str) (ns : List Str) (fm : Str) :
    PrintServiceMethod descriptor (stateOf out true n em fn ns fm)
      = Except.ok (stateOf (out ++ render n [methodNode descriptor]) true n em fn ns fm) := by
  have hp : Printer.pieces [("method_name".toList, descriptor.name),
        ("request_klass".toList, Constantize descriptor.input_type_full_name true),
        ("response_klass".toList, Constantize descriptor.output_type_full_name true)] [] none
        "rpc :$method_name$, $request_klass$, $response_klass$".toList
      = [Printer.Piece.raw "rpc :".toList, Printer.Piece.raw descriptor.name,
         Printer.Piece.raw ", ".toList,
         Printer.Piece.raw (Constantize descriptor.input_type_full_name true),
         Printer.Piece.raw ", ".toList,
         Printer.Piece.raw (Constantize descriptor.output_type_full_name true),
         Printer.Piece.raw []] := rfl
  simp only [PrintServiceMethod, printLine_stateOf, hp, methodNode, render_text]
  simp [Keyword.text, expand_raw_cons, expand_raw_false, expand_nil]

theorem PrintService_stateOf (descriptor : ServiceDescriptor) (out : Str) (n : Nat)
    (em : List (Str × List FieldDescriptor)) (fn : Str) (ns : List Str) (fm : Str) :
    PrintService descriptor (stateOf out true n em fn ns fm)
      = Except.ok (stateOf (out ++ render n (serviceNodes descriptor)) true n em fn ns fm) := by
  have hinner : ∀ o, forEach PrintServiceMethod descriptor.methods
        (stateOf o true (n + 1) em fn ns fm)
      = Except.ok (stateOf (o ++ render (n + 1) (descriptor.methods.map methodNode)) true
          (n + 1) em fn ns fm) := by
    intro o
    rw [map_eq_flatMap_singleton]
    exact forEach_stateOf PrintServiceMethod (fun v => [methodNode v]) (n + 1) em fn ns fm
      (fun x o => PrintServiceMethod_stateOf x o (n + 1) em fn ns fm) _ o
  simp only [PrintService, PrintClassDeclaration, serviceNodes]
  exact block_last_stateOf _ _ _ _ _ out n em em fn ns fm hinner

theorem PrintServices_stateOf (file : FileDescriptor) (out : Str) (n : Nat)
    (em : List (Str × List FieldDescriptor)) (fn : Str) (ns : List Str) (fm : Str) :
    PrintServices file (stateOf out true n em fn ns fm)
      = Except.ok (stateOf (out ++ render n (servicesNodes file)) true n em fn ns fm) := by
  by_cases h : file.services.length > 0
  · simp only [PrintServices, servicesNodes, h, if_true, andThen, PrintComment_stateOf,
      render_append, List.append_assoc]
    rw [forEach_stateOf PrintService serviceNodes n em fn ns fm
      (fun x o => PrintService_stateOf x o n em fn ns fm), List.append_assoc]
  · simp [PrintServices, servicesNodes, h, render_nil]

theorem PrintExtensionRangesForDescriptor_stateOf (ranges : List ExtensionRange) (out : Str)
    (n : Nat) (em : List (Str × List FieldDescriptor)) (fn : Str) (ns : List Str) (fm : Str) :
    PrintExtensionRangesForDescriptor ranges (stateOf out true n em fn ns fm)
      = Except.ok (stateOf (out ++ render n (rangesNodes ranges)) true n em fn ns fm) := by
  have hbody : ∀ (range : ExtensionRange) (o : Str),
      andThen (print [("start".toList, SimpleItoa range.start),
                      ("end".toList, SimpleItoa range.end_)]
                "extensions $start$...$end$".toList)
          (andThen (ValidatePrinter "Failed printing extension ranges".toList) PrintNewLine)
          (stateOf o true n em fn ns fm)
        = Except.ok (stateOf (o ++ render n [rangeNode range]) true n em fn ns fm) := by
    intro range o
    have hp : Printer.pieces [("start".toList, SimpleItoa range.start),
          ("end".toList, SimpleItoa range.end_)] [] none "extensions $start$...$end$".toList
        = [Printer.Piece.raw "extensions ".toList, Printer.Piece.raw (SimpleItoa range.start),
           Printer.Piece.raw "...".toList, Printer.Piece.raw (SimpleItoa range.end_),
           Printer.Piece.raw []] := rfl
    simp only [printLine_stateOf, hp, rangeNode, render_text]
    simp [Keyword.text, expand_raw_cons, expand_raw_false, expand_nil]
  by_cases h : ranges.length > 0
  · simp only [PrintExtensionRangesForDescriptor, rangesNodes, h, if_true]
    rw [andThen_ok _ _ _ _ (PrintNewLine_stateOf _ _ _ _ _ _ _),
      andThen_ok _ _ _ _ (PrintComment_stateOf _ _ _ _ _ _ _ _),
      forEach_stateOf _ (fun r => [rangeNode r]) n em fn ns fm hbody,
      ← map_eq_flatMap_singleton, render_cons, render_blank, render_append]
    simp only [List.append_assoc]
  · simp [PrintExtensionRangesForDescriptor, rangesNodes, h, render_nil]

theorem PrintGenericRequires_stateOf (file : FileDescriptor) (out : Str) (n : Nat)
    (em : List (Str × List FieldDescriptor)) (fn : Str) (ns : List Str) (fm : Str) :
    PrintGenericRequires file (stateOf out true n em fn ns fm)
      = Except.ok (stateOf (out ++ render n (genericRequireNodes file)) true n em fn ns fm) := by
  by_cases h1 : file.message_types.length > 0 <;> by_cases h2 : file.services.length > 0 <;>
    simp only [PrintGenericRequires, genericRequireNodes, h1, h2, if_true, if_false, andThen,
      PrintRequire_stateOf, render_append, render_nil, List.append_nil, List.nil_append,
      List.append_assoc]

theorem PrintImportRequires_stateOf (file : FileDescriptor) (out : Str) (n : Nat)
    (em : List (Str × List FieldDescriptor)) (fn : Str) (ns : List Str) (fm : Str) :
    PrintImportRequires file (stateOf out true n em fn ns fm)
      = Except.ok (stateOf (out ++ render n (importNodes file)) true n em fn ns fm) := by
  by_cases h : file.dependencies.length > 0
  · simp only [PrintImportRequires, importNodes, h, if_true]
    rw [andThen_ok _ _ _ _ (PrintNewLine_stateOf _ _ _ _ _ _ _),
      andThen_ok _ _ _ _ (PrintComment_stateOf _ _ _ _ _ _ _ _),
      forEach_stateOf _
        (fun d => [Node.text Keyword.require (CreateRubyFileName d true ++ "'".toList)])
        n em fn ns fm (fun x o => PrintRequire_stateOf _ o n em fn ns fm),
      ← map_eq_flatMap_singleton, render_cons, render_blank, render_append]
    simp only [List.append_assoc]
  · simp [PrintImportRequires, importNodes, h, render_nil]

theorem StoreExtensionFields_stateOf (extensions : List FieldDescriptor) (out : Str)
    (st : Bool) (n : Nat) (em : List (Str × List FieldDescriptor)) (fn : Str) (ns : List Str)
    (fm : Str) :
    StoreExtensionFields extensions (stateOf out st n em fn ns fm)
      = Except.ok (stateOf out st n (storeAll extensions em) fn ns fm) := by
  induction extensions generalizing em with
  | nil => rfl
  | cons f fs ih =>
    simp only [StoreExtensionFields, forEach, storeAll, List.foldl] at ih ⊢
    exact ih _

theorem DescriptorHasExtensions_stateOf (descriptor : Descriptor) (out : Str) (st : Bool)
    (n : Nat) (em : List (Str × List FieldDescriptor)) (fn : Str) (ns : List Str) (fm : Str) :
    DescriptorHasExtensions descriptor (stateOf out st n em fn ns fm)
      = hasBucket em descriptor.full_name := rfl

theorem PrintMessageExtensionFields_stateOf (key : Str) (out : Str) (n : Nat)
    (em : List (Str × List FieldDescriptor)) (fn : Str) (ns : List Str) (fm : Str) :
    PrintMessageExtensionFields key (stateOf out true n em fn ns fm)
      = Except.ok (stateOf (out ++ render n ((mapGet em key).map Node.field)) true n
          (mapErase (mapTouch em key) key) fn ns fm) := by
  have h := forEach_stateOf PrintMessageField (fun d => [Node.field d]) n (mapTouch em key)
    fn ns fm
    (fun x o => by
      rw [PrintMessageField_stateOf, render_field]
      simp only [List.append_assoc])
    (mapGet em key) out
  rw [← map_eq_flatMap_singleton] at h
  show (match forEach PrintMessageField (mapGet em key)
          (stateOf out true n (mapTouch em key) fn ns fm) with
        | Except.ok g2 =>
          Except.ok { g2 with extended_messages := mapErase g2.extended_messages key }
        | Except.error e => Except.error e) = _
  rw [h]
  rfl

theorem ite_forEach {α : Type} (f : α → Action) (xs : List α) :
    (if xs.length > 0 then forEach f xs else Except.ok) = forEach f xs := by
  cases xs with
  | nil => rfl
  | cons x xs => simp

theorem ite_PrintMessagesForDescriptor (ds : List Descriptor) (print_fields : Bool) :
    (if ds.length > 0 then PrintMessagesForDescriptor ds print_fields else Except.ok)
      = PrintMessagesForDescriptor ds print_fields := by
  cases ds with
  | nil => simp [PrintMessagesForDescriptor]
  | cons x xs => simp

mutual

theorem PrintMessage_shell_stateOf : ∀ (d : Descriptor) (out : Str) (n : Nat)
    (em : List (Str × List FieldDescriptor)) (fn : Str) (ns : List Str) (fm : Str),
    PrintMessage d false (stateOf out true n em fn ns fm)
      = Except.ok (stateOf (out ++ render n (shellNodes d)) true n (shellStore d em) fn ns fm)
  | .mk name full_name fields nested enums exts ranges, out, n, em, fn, ns, fm => by
    have hn := fun o => PrintMessagesForDescriptor_shell_stateOf nested o (n + 1) em fn ns fm
    simp only [PrintMessage, ite_forEach, ite_PrintMessagesForDescriptor, PrintEnumsForDescriptor,
      PrintClassDeclaration, shellNodes, shellStore]
    by_cases h : DescriptorHasNestedTypes (Descriptor.mk name full_name fields nested enums exts ranges) = true
    · simp only [h, if_true, andThen, PrintBlockDeclaration_open, forEach_PrintEnum_stateOf, hn,
        PrintBlockEnd_stateOf, PrintNewLine_stateOf, StoreExtensionFields_stateOf]
      simp only [render_append, render_block, render_blank, List.append_assoc]
    · have hnil : nested = [] := by
        cases nested with
        | nil => rfl
        | cons x xs => simp [DescriptorHasNestedTypes, Descriptor.nested_types] at h
      subst hnil
      simp only [h, Bool.false_eq_true, if_false, andThen, PrintBlockDeclaration_inline,
        PrintNewLine_stateOf, StoreExtensionFields_stateOf, shellStoreList]
      simp only [render_append, render_shell, render_blank, List.append_assoc]

theorem PrintMessagesForDescriptor_shell_stateOf : ∀ (ds : List Descriptor) (out : Str)
    (n : Nat) (em : List (Str × List FieldDescriptor)) (fn : Str) (ns : List Str) (fm : Str),
    PrintMessagesForDescriptor ds false (stateOf out true n em fn ns fm)
      = Except.ok (stateOf (out ++ render n (shellNodesList ds)) true n (shellStoreList ds em)
          fn ns fm)
  | [], out, n, em, fn, ns, fm => by
    simp [PrintMessagesForDescriptor, shellNodesList, shellStoreList, render_nil]
  | d :: ds, out, n, em, fn, ns, fm => by
    simp only [PrintMessagesForDescriptor, andThen, PrintMessage_shell_stateOf d,
      PrintMessagesForDescriptor_shell_stateOf ds, shellNodesList, shellStoreList,
      render_append, List.append_assoc]

end

mutual

theorem PrintMessage_body_stateOf : ∀ (d : Descriptor) (out : Str) (n : Nat)
    (em : List (Str × List FieldDescriptor)) (fn : Str) (ns : List Str) (fm : Str),
    PrintMessage d true (stateOf out true n em fn ns fm)
      = Except.ok (stateOf (out ++ render n (bodyNodes d em).1) true n (bodyNodes d em).2
          fn ns fm)
  | .mk name full_name fields nested enums exts ranges, out, n, em, fn, ns, fm => by
    have hn := fun o => PrintMessagesForDescriptor_body_stateOf nested o (n + 1) em fn ns fm
    have hfields : ∀ o e, forEach PrintMessageField fields (stateOf o true (n + 1) e fn ns fm)
        = Except.ok (stateOf (o ++ render (n + 1) (fields.map Node.field)) true (n + 1) e
            fn ns fm) := by
      intro o e
      rw [map_eq_flatMap_singleton]
      exact forEach_stateOf PrintMessageField (fun d => [Node.field d]) (n + 1) e fn ns fm
        (fun x o => by
          rw [PrintMessageField_stateOf, render_field]
          simp only [List.append_assoc]) fields o
    simp only [PrintMessage, ite_forEach, ite_PrintMessagesForDescriptor, PrintClassDeclaration,
      bodyNodes, DescriptorHasExtensions_stateOf, Descriptor.full_name]
    by_cases h1 : (decide (fields.length > 0) || hasBucket em full_name) = true
    · simp only [h1, if_true, andThen, PrintBlockDeclaration_open, hn, hfields,
        PrintExtensionRangesForDescriptor_stateOf, DescriptorHasExtensions_stateOf,
        Descriptor.full_name]
      by_cases h2 : hasBucket (bodyNodesList nested em).2 full_name = true
      · simp only [h2, if_true, PrintMessageExtensionFields_stateOf, PrintBlockEnd_stateOf,
          PrintNewLine_stateOf]
        simp only [render_append, render_block, render_blank, List.append_assoc,
          render_cons _ _ [Node.blank]]
      · simp only [h2, Bool.false_eq_true, if_false, PrintBlockEnd_stateOf,
          PrintNewLine_stateOf]
        simp only [render_append, render_block, render_blank, List.append_assoc,
          render_cons _ _ [Node.blank], render_nil, List.append_nil]
    · by_cases h3 : nested.length > 0
      · simp only [h1, Bool.false_eq_true, if_false, h3, if_true, andThen,
          PrintBlockDeclaration_open, hn, PrintBlockEnd_stateOf, PrintNewLine_stateOf]
        simp only [render_append, render_block, render_blank, List.append_assoc,
          render_cons _ _ [Node.blank]]
      · simp only [h1, Bool.false_eq_true, if_false, h3, render_nil, List.append_nil]

theorem PrintMessagesForDescriptor_body_stateOf : ∀ (ds : List Descriptor) (out : Str)
    (n : Nat) (em : List (Str × List FieldDescriptor)) (fn : Str) (ns : List Str) (fm : Str),
    PrintMessagesForDescriptor ds true (stateOf out true n em fn ns fm)
      = Except.ok (stateOf (out ++ render n (bodyNodesList ds em).1) true n
          (bodyNodesList ds em).2 fn ns fm)
  | [], out, n, em, fn, ns, fm => by
    simp [PrintMessagesForDescriptor, bodyNodesList, render_nil]
  | d :: ds, out, n, em, fn, ns, fm => by
    simp only [PrintMessagesForDescriptor, andThen, PrintMessage_body_stateOf d,
      PrintMessagesForDescriptor_body_stateOf ds, bodyNodesList, render_append,
      List.append_assoc]

end

theorem PrintMessagesForFileDescriptor_shell_stateOf (file : FileDescriptor) (out : Str)
    (n : Nat) (fn : Str) (ns : List Str) (fm : Str) :
    PrintMessagesForFileDescriptor file false (stateOf out true n [] fn ns fm)
      = Except.ok (stateOf (out ++ render n (shellsFileNodes file)) true n
          (registryAfterShells file) fn ns fm) := by
  by_cases h : file.message_types.length > 0
  · simp only [PrintMessagesForFileDescriptor, shellsFileNodes, registryAfterShells, h, if_true,
      Bool.false_eq_true, if_false, andThen, PrintComment_stateOf, StoreExtensionFields_stateOf,
      PrintMessagesForDescriptor_shell_stateOf, render_append, List.append_assoc]
  · simp [PrintMessagesForFileDescriptor, shellsFileNodes, registryAfterShells, h, render_nil]

theorem PrintMessagesForFileDescriptor_body_stateOf (file : FileDescriptor) (out : Str)
    (n : Nat) (fn : Str) (ns : List Str) (fm : Str) :
    PrintMessagesForFileDescriptor file true
        (stateOf out true n (registryAfterShells file) fn ns fm)
      = Except.ok (stateOf (out ++ render n (bodiesFileNodes file).1) true n
          (bodiesFileNodes file).2 fn ns fm) := by
  by_cases h : file.message_types.length > 0
  · simp only [PrintMessagesForFileDescriptor, bodiesFileNodes, h, if_true, andThen,
      PrintComment_stateOf, PrintMessagesForDescriptor_body_stateOf, render_append,
      List.append_assoc]
  · simp [PrintMessagesForFileDescriptor, bodiesFileNodes, h, render_nil]

theorem danglingLoop_stateOf (keys : List Str) (out : Str) (n : Nat)
    (em : List (Str × List FieldDescriptor)) (fn : Str) (ns : List Str) (fm : Str) :
    forEach (fun extended_message =>
        andThen
          (PrintClassDeclaration (Constantize extended_message true)
            RubyClassType.CLASS_TYPE_NONE false)
          (andThen (PrintMessageExtensionFields extended_message) PrintBlockEnd))
        keys (stateOf out true n em fn ns fm)
      = Except.ok (stateOf (out ++ render n (danglingLoopNodes keys em).1) true n
          (danglingLoopNodes keys em).2 fn ns fm) := by
  induction keys generalizing out em with
  | nil => simp [forEach, danglingLoopNodes, render_nil]
  | cons key keys ih =>
    simp only [PrintClassDeclaration] at ih
    simp only [forEach, PrintClassDeclaration]
    rw [block_last_stateOf _ _ _ _ _ out n em _ fn ns fm
      (fun o => PrintMessageExtensionFields_stateOf key o (n + 1) em fn ns fm)]
    simp only [ih, danglingLoopNodes]
    rw [render_cons _ _ (danglingLoopNodes keys (mapErase (mapTouch em key) key)).1,
      List.append_assoc]

theorem PrintDanglingExtendedMessages_stateOf (H : HashOrder) (out : Str) (n : Nat)
    (em : List (Str × List FieldDescriptor)) (fn : Str) (ns : List Str) (fm : Str) :
    PrintDanglingExtendedMessages H (stateOf out true n em fn ns fm)
      = Except.ok (stateOf (out ++ render n (danglingNodes H em).1) true n
          (danglingNodes H em).2 fn ns fm) := by
  have h1 : ∀ o, (stateOf o true n em fn ns fm).extended_messages = em := fun _ => rfl
  by_cases h : em.length > 0
  · simp only [PrintDanglingExtendedMessages, danglingNodes, h1, h, if_true, andThen,
      PrintComment_stateOf, danglingLoop_stateOf, render_append, List.append_assoc]
  · simp [PrintDanglingExtendedMessages, danglingNodes, h1, h, render_nil]

theorem moduleTails_succ (n k : Nat) :
    moduleTails n (k + 1) = moduleTails (n + 1) k ++ [spaces n ++ "end".toList] := by
  induction k generalizing n with
  | zero => simp [moduleTails]
  | succ k ih =>
    rw [moduleTails, ih n]
    simp only [moduleTails, List.cons_append]
    congr 3
    omega

theorem linesList_wrapModules (segs : List Str) (inner : List Node) (n : Nat) :
    Node.linesList n (wrapModules segs inner)
      = moduleHeads n segs ++ Node.linesList (n + segs.length) inner
          ++ moduleTails n segs.length := by
  induction segs generalizing n with
  | nil => simp [wrapModules, moduleHeads, moduleTails]
  | cons s ss ih =>
    simp only [wrapModules, Node.linesList, Node.lines, ih, moduleHeads, List.length_cons,
      moduleTails_succ, List.append_nil, List.cons_append, List.append_assoc]
    congr 4
    omega

theorem moduleHeads_stateOf (segs : List Str) (out : Str) (n : Nat)
    (em : List (Str × List FieldDescriptor)) (fn : Str) (ns : List Str) (fm : Str) :
    forEach (fun iter => PrintModuleDeclaration (Constantize iter false) false) segs
        (stateOf out true n em fn ns fm)
      = Except.ok (stateOf (out ++ renderLines (moduleHeads n segs)) true (n + segs.length) em
          fn ns fm) := by
  induction segs generalizing out n with
  | nil => simp [forEach, moduleHeads, renderLines]
  | cons s ss ih =>
    have h : n + (s :: ss).length = n + 1 + ss.length := by
      simp only [List.length_cons]
      omega
    simp only [PrintModuleDeclaration] at ih
    simp only [forEach, PrintModuleDeclaration, PrintBlockDeclaration_open, ih, moduleHeads,
      renderLines, h, List.append_assoc, List.cons_append, List.nil_append]

theorem moduleTails_stateOf (segs : List Str) (out : Str) (n : Nat)
    (em : List (Str × List FieldDescriptor)) (fn : Str) (ns : List Str) (fm : Str) :
    forEach (fun _ => PrintBlockEnd) segs (stateOf out true (n + segs.length) em fn ns fm)
      = Except.ok (stateOf (out ++ renderLines (moduleTails n segs.length)) true n em
          fn ns fm) := by
  induction segs generalizing out with
  | nil => simp [forEach, moduleTails, renderLines]
  | cons s ss ih =>
    have h : n + (s :: ss).length = (n + ss.length) + 1 := by
      simp only [List.length_cons]
      omega
    rw [h]
    simp only [forEach, PrintBlockEnd_stateOf, ih, List.length_cons, moduleTails, renderLines,
      List.append_assoc, List.cons_append, List.nil_append]

/-- On a sink that never fails the body of `Generate` returns normally, having written
the text of `fileNodes`; the indent level is back at zero. -/
theorem GenerateBody_stateOf (H : HashOrder) (file : FileDescriptor) (fn fm : Str) :
    GenerateBody H file (stateOf [] true 0 [] fn (SplitStringUsing file.package '.' []) fm)
      = Except.ok (stateOf (render 0 (fileNodes H file)) true 0 (registryAtEnd H file) fn
          (SplitStringUsing file.package '.' []) fm) := by
  have hns : ∀ o k e, (stateOf o true k e fn (SplitStringUsing file.package '.' []) fm).ns_vector
      = SplitStringUsing file.package '.' [] := fun _ _ _ => rfl
  have h0 : 0 + (SplitStringUsing file.package '.' []).length
      = (SplitStringUsing file.package '.' []).length := Nat.zero_add _
  have hm := fun o e => moduleHeads_stateOf (SplitStringUsing file.package '.' []) o 0 e fn
    (SplitStringUsing file.package '.' []) fm
  have ht := fun o e => moduleTails_stateOf (SplitStringUsing file.package '.' []) o 0 e fn
    (SplitStringUsing file.package '.' []) fm
  rw [h0] at hm ht
  simp only [GenerateBody, andThen, PrintGeneratedFileComment, PrintComment_stateOf,
    PrintGenericRequires_stateOf, PrintImportRequires_stateOf, PrintEnclosingNamespaceModules,
    PrintNewLine_stateOf, hns, hm, PrintEnumsForFileDescriptor_stateOf,
    PrintMessagesForFileDescriptor_shell_stateOf, PrintMessagesForFileDescriptor_body_stateOf,
    PrintDanglingExtendedMessages_stateOf, PrintServices_stateOf,
    PrintEnclosingNamespaceModuleEnds, ht]
  simp only [fileNodes, preludeNodes, declarationNodes, definitionNodes, registryAtEnd, render,
    linesList_append, linesList_wrapModules, renderLines_append, h0, List.nil_append,
    List.append_assoc]
  rfl

theorem GenerateInit_stateOf (file : FileDescriptor) (g : RubyGenerator) :
    GenerateInit file none g
      = stateOf [] true 0 [] (CreateRubyFileName file.name false)
          (SplitStringUsing file.package '.' []) g.failed_message := rfl

/-- On a sink that never fails `Generate` returns true, assigns no error, and leaves the
text of `fileNodes` in the sink, whatever the members were before the call. -/
theorem Generate_never_failing (H : HashOrder) (file : FileDescriptor) (g : RubyGenerator) :
    (Generate H file none g).returned = true
    ∧ (Generate H file none g).error = none
    ∧ (Generate H file none g).members
        = stateOf (render 0 (fileNodes H file)) true 0 (registryAtEnd H file)
            (CreateRubyFileName file.name false) (SplitStringUsing file.package '.' [])
            g.failed_message := by
  simp only [Generate, GenerateInit_stateOf, GenerateBody_stateOf, and_self]

theorem generatedText_eq (H : HashOrder) (file : FileDescriptor) :
    generatedText H file = render 0 (fileNodes H file) := by
  simp only [generatedText, (Generate_never_failing H file {}).2.2]
  rfl

/-! ## Lines of a rendered text -/

theorem lineOK_iff (s : Str) : lineOK s = true ↔ '\n' ∉ s := by
  simp only [lineOK, List.all_eq_true, bne_iff_ne, ne_eq]
  constructor
  · intro h hm
    exact h _ hm rfl
  · intro h c hc hcn
    exact h (hcn ▸ hc)

theorem lineOK_append (a b : Str) : lineOK (a ++ b) = (lineOK a && lineOK b) := by
  simp [lineOK, List.all_append]

theorem lineOK_cons (c : Char) (s : Str) : lineOK (c :: s) = (c != '\n' && lineOK s) := by
  simp [lineOK]

theorem lineOK_spaces (n : Nat) : lineOK (spaces n) = true := by
  simp only [lineOK, spaces, List.all_eq_true]
  intro c hc
  rw [List.eq_of_mem_replicate hc]
  decide

theorem linesOf_line (l rest : Str) (h : lineOK l = true) :
    linesOf (l ++ '\n' :: rest) = l :: linesOf rest := by
  induction l with
  | nil => simp [linesOf]
  | cons c cs ih =>
    rw [lineOK_cons, Bool.and_eq_true, bne_iff_ne] at h
    have h2 := ih h.2
    rw [List.cons_append, linesOf, if_neg h.1, h2]

theorem linesOf_renderLines_append (ls : List Str) (rest : Str)
    (h : ∀ l ∈ ls, lineOK l = true) :
    linesOf (renderLines ls ++ rest) = ls ++ linesOf rest := by
  induction ls with
  | nil => rfl
  | cons l ls ih =>
    have hl := h l (List.mem_cons_self _ _)
    have hls := ih (fun x hx => h x (List.mem_cons_of_mem _ hx))
    simp only [renderLines, List.append_assoc, List.cons_append]
    rw [linesOf_line _ _ hl, hls]

theorem linesOf_renderLines (ls : List Str) (h : ∀ l ∈ ls, lineOK l = true) :
    linesOf (renderLines ls) = ls := by
  have := linesOf_renderLines_append ls [] h
  simpa [linesOf] using this

/-! ## Reading block structure -/

theorem stripIndent_spaces_cons (n : Nat) (c : Char) (cs : Str) (hc : c ≠ ' ') :
    stripIndent (spaces n ++ c :: cs) = c :: cs := by
  unfold stripIndent spaces
  induction (2 * n) with
  | zero => simp [List.dropWhile, hc]
  | succ k ih => simp [List.replicate_succ, List.dropWhile, ih]

theorem stripIndent_spaces (n : Nat) : stripIndent (spaces n) = [] := by
  unfold stripIndent spaces
  induction (2 * n) with
  | zero => rfl
  | succ k ih => simp [List.replicate_succ, List.dropWhile, ih]

theorem isSuffixOf_mem {s l : Str} (h : s.isSuffixOf l = true) : ∀ c ∈ s, c ∈ l := by
  intro c hc
  have h1 : s <:+ l := List.isSuffixOf_iff_suffix.mp h
  exact h1.subset hc

theorem headOK_iff (s : Str) : headOK s = true ↔ '\n' ∉ s ∧ ';' ∉ s := by
  simp only [headOK, List.all_eq_true, Bool.and_eq_true, bne_iff_ne, ne_eq]
  constructor
  · intro h
    exact ⟨fun hm => (h _ hm).1 rfl, fun hm => (h _ hm).2 rfl⟩
  · intro h c hc
    exact ⟨fun e => h.1 (e ▸ hc), fun e => h.2 (e ▸ hc)⟩

theorem not_mem_spaces (c : Char) (n : Nat) (hc : c ≠ ' ') : c ∉ spaces n := by
  intro h
  exact hc (List.eq_of_mem_replicate h)

theorem Keyword_text_cases (kw : Keyword) :
    ∃ c cs, kw.text = c :: cs ∧ c ≠ ' ' ∧ c ≠ 'm' ∧ c ≠ 'c' ∧ c ≠ 'o'
      ∧ ((c :: cs) = "##".toList ∨ (c :: cs) = "#".toList ∨ (c :: cs) = "# ".toList
          ∨ (c :: cs) = "require '".toList ∨ (c :: cs) = "define :".toList
          ∨ (c :: cs) = "extensions ".toList ∨ (c :: cs) = "rpc :".toList) := by
  cases kw <;> exact ⟨_, _, rfl, by decide, by decide, by decide, by decide, by decide⟩

theorem text_line_neutral (n : Nat) (kw : Keyword) (rest : Str) :
    opensBody (spaces n ++ (kw.text ++ rest)) = false
    ∧ isTerminator (spaces n ++ (kw.text ++ rest)) = false
    ∧ isFieldLine (spaces n ++ (kw.text ++ rest)) = false := by
  cases kw <;>
    simp [opensBody, isTerminator, isFieldLine, Keyword.text, stripIndent_spaces_cons,
      List.isPrefixOf]

theorem blank_line_neutral :
    opensBody [] = false ∧ isTerminator [] = false ∧ isFieldLine [] = false := by
  decide

theorem field_line_kind (n : Nat) (descriptor : FieldDescriptor) :
    opensBody (spaces n ++ fieldLine descriptor) = false
    ∧ isTerminator (spaces n ++ fieldLine descriptor) = false
    ∧ isFieldLine (spaces n ++ fieldLine descriptor) = true := by
  rcases fieldPresence_cases descriptor with h | h | h <;>
    simp [opensBody, isTerminator, isFieldLine, fieldLine, h, stripIndent_spaces_cons,
      List.isPrefixOf]

theorem end_line_kind (n : Nat) :
    opensBody (spaces n ++ "end".toList) = false
    ∧ isTerminator (spaces n ++ "end".toList) = true
    ∧ isFieldLine (spaces n ++ "end".toList) = false := by
  simp [opensBody, isTerminator, isFieldLine, stripIndent_spaces_cons, List.isPrefixOf]

theorem shell_line_kind (n : Nat) (name : Str) :
    opensBody (spaces n
        ++ blockLine RubyBlockType.RUBY_CLASS RubyClassType.CLASS_TYPE_MESSAGE name true) = false
    ∧ isTerminator (spaces n
        ++ blockLine RubyBlockType.RUBY_CLASS RubyClassType.CLASS_TYPE_MESSAGE name true) = false
    ∧ isFieldLine (spaces n
        ++ blockLine RubyBlockType.RUBY_CLASS RubyClassType.CLASS_TYPE_MESSAGE name true)
        = false := by
  have hs : "; end".toList.isSuffixOf (spaces n
      ++ blockLine RubyBlockType.RUBY_CLASS RubyClassType.CLASS_TYPE_MESSAGE name true) = true := by
    rw [List.isSuffixOf_iff_suffix]
    refine ⟨spaces n ++ ("class".toList ++ " ".toList ++ name ++ " < ::Protobuf::Message".toList),
      ?_⟩
    simp [blockLine]
  refine ⟨?_, ?_, ?_⟩
  · simp only [opensBody, hs, Bool.not_true, Bool.and_false, Bool.or_false]
    simp [blockLine, stripIndent_spaces_cons, List.isPrefixOf]
  · simp [isTerminator, blockLine, stripIndent_spaces_cons]
  · simp [isFieldLine, blockLine, stripIndent_spaces_cons, List.isPrefixOf]

theorem class_header_kind (n : Nat) (ct : RubyClassType) (name : Str) (h : headOK name = true) :
    opensBody (spaces n ++ blockLine RubyBlockType.RUBY_CLASS ct name false) = true
    ∧ isFieldLine (spaces n ++ blockLine RubyBlockType.RUBY_CLASS ct name false) = false := by
  have hn := (headOK_iff name).mp h
  have hs : "; end".toList.isSuffixOf (spaces n
      ++ blockLine RubyBlockType.RUBY_CLASS ct name false) = false := by
    cases hsuf : "; end".toList.isSuffixOf
        (spaces n ++ blockLine RubyBlockType.RUBY_CLASS ct name false) with
    | false => rfl
    | true =>
      exfalso
      have hm := isSuffixOf_mem hsuf ';' (by decide)
      rcases List.mem_append.mp hm with h1 | h1
      · exact not_mem_spaces ';' n (by decide) h1
      · cases ct <;> simp [blockLine, hn.2] at h1
  refine ⟨?_, ?_⟩
  · simp only [opensBody, hs, Bool.not_false, Bool.and_true]
    simp [blockLine, stripIndent_spaces_cons, List.isPrefixOf]
  · simp [isFieldLine, blockLine, stripIndent_spaces_cons, List.isPrefixOf]

theorem module_header_kind (n : Nat) (ct : RubyClassType) (name : Str) :
    opensBody (spaces n ++ blockLine RubyBlockType.RUBY_MODULE ct name false) = true
    ∧ isFieldLine (spaces n ++ blockLine RubyBlockType.RUBY_MODULE ct name false) = false := by
  simp [opensBody, isFieldLine, blockLine, stripIndent_spaces_cons, List.isPrefixOf]

mutual

/-- The stack-based reading passes over the lines of a good node and is back at the
depth at which it started. -/
theorem scanBlocks_node : ∀ (x : Node) (n d : Nat) (rest : List Str), x.good = true →
    scanBlocks (Node.lines n x ++ rest) d = scanBlocks rest d
  | .blank, n, d, rest, _ => by
    simp [Node.lines, scanBlocks, blank_line_neutral]
  | .text kw r, n, d, rest, _ => by
    simp [Node.lines, scanBlocks, text_line_neutral]
  | .field f, n, d, rest, _ => by
    simp [Node.lines, scanBlocks, field_line_kind]
  | .shell name, n, d, rest, _ => by
    simp [Node.lines, scanBlocks, shell_line_kind]
  | .block bt ct name body, n, d, rest, h => by
    simp only [Node.good, Bool.and_eq_true, beq_iff_eq] at h
    obtain ⟨⟨hbt, hname⟩, hbody⟩ := h
    subst hbt
    have ih := scanBlocks_nodes body (n + 1) (d + 1) ((spaces n ++ "end".toList) :: rest) hbody
    have e : Node.lines n (Node.block RubyBlockType.RUBY_CLASS ct name body) ++ rest
        = (spaces n ++ blockLine RubyBlockType.RUBY_CLASS ct name false)
            :: (Node.linesList (n + 1) body ++ (spaces n ++ "end".toList) :: rest) := by
      simp [Node.lines]
    rw [e, scanBlocks, (class_header_kind n ct name hname).1, if_pos rfl, ih, scanBlocks,
      (end_line_kind n).1, (end_line_kind n).2.1]
    simp

theorem scanBlocks_nodes : ∀ (xs : List Node) (n d : Nat) (rest : List Str),
    Node.goodList xs = true → scanBlocks (Node.linesList n xs ++ rest) d = scanBlocks rest d
  | [], n, d, rest, _ => by simp [Node.linesList]
  | x :: xs, n, d, rest, h => by
    simp only [Node.goodList, Bool.and_eq_true] at h
    simp only [Node.linesList, List.append_assoc, scanBlocks_node x n d _ h.1,
      scanBlocks_nodes xs n d rest h.2]

end

/-! ## Names and texts without line feeds -/

theorem identChar_ne (c : Char) (h : (identChar c || c == '.') = true) :
    c ≠ '\n' ∧ c ≠ ';' := by
  constructor
  · rintro rfl
    revert h
    decide
  · rintro rfl
    revert h
    decide

theorem fullNameOK_headOK (s : Str) (h : fullNameOK s = true) : headOK s = true := by
  simp only [fullNameOK, headOK, List.all_eq_true, Bool.and_eq_true, bne_iff_ne, ne_eq] at h ⊢
  intro c hc
  exact identChar_ne c (h c hc)

theorem nameOK_fullNameOK (s : Str) (h : nameOK s = true) : fullNameOK s = true := by
  simp only [fullNameOK, nameOK, List.all_eq_true, Bool.or_eq_true] at h ⊢
  intro c hc
  exact Or.inl (h c hc)

theorem nameOK_headOK (s : Str) (h : nameOK s = true) : headOK s = true :=
  fullNameOK_headOK s (nameOK_fullNameOK s h)

theorem headOK_lineOK (s : Str) (h : headOK s = true) : lineOK s = true := by
  simp only [lineOK, headOK, List.all_eq_true, Bool.and_eq_true, bne_iff_ne, ne_eq] at h ⊢
  intro c hc
  exact (h c hc).1

theorem nameOK_lineOK (s : Str) (h : nameOK s = true) : lineOK s = true :=
  headOK_lineOK s (nameOK_headOK s h)

theorem fullNameOK_lineOK (s : Str) (h : fullNameOK s = true) : lineOK s = true :=
  headOK_lineOK s (fullNameOK_headOK s h)

theorem headOK_append (a b : Str) : headOK (a ++ b) = (headOK a && headOK b) := by
  simp [headOK, List.all_append]

theorem headOK_dotsToColons (s : Str) (h : headOK s = true) : headOK (dotsToColons s) = true := by
  induction s with
  | nil => rfl
  | cons c cs ih =>
    have hc : (c != '\n' && c != ';') = true ∧ headOK cs = true := by
      simpa [headOK] using h
    by_cases hd : c = '.'
    · simp only [dotsToColons, if_pos hd, headOK_append, ih hc.2, Bool.and_true]
      decide
    · simp only [dotsToColons, if_neg hd, headOK_append, ih hc.2, Bool.and_true]
      simpa [headOK] using hc.1

theorem headOK_Constantize (s : Str) (b : Bool) (h : headOK s = true) :
    headOK (Constantize s b) = true := by
  have h1 := headOK_dotsToColons s h
  cases b
  · simp only [Constantize, ConstantizeLoop_eq, Bool.false_eq_true, if_false, List.nil_append, h1]
  · simp only [Constantize, ConstantizeLoop_eq, if_true, headOK_append, h1, Bool.and_true]
    decide

theorem lineOK_SimpleItoaNat (n : Nat) : lineOK (SimpleItoaNat n) = true := by
  have h := decimalDigits_all_digits (n + 1) n [] (by simp)
  simp only [lineOK, List.all_eq_true, bne_iff_ne, ne_eq, SimpleItoaNat]
  intro c hc hcn
  have := h c hc
  rw [hcn] at this
  revert this
  decide

theorem lineOK_SimpleItoa (v : Int) : lineOK (SimpleItoa v) = true := by
  unfold SimpleItoa
  split
  · rw [lineOK_cons, lineOK_SimpleItoaNat]
    decide
  · exact lineOK_SimpleItoaNat _

theorem lineOK_take (s : Str) (k : Nat) (h : lineOK s = true) : lineOK (s.take k) = true := by
  simp only [lineOK, List.all_eq_true] at h ⊢
  intro c hc
  exact h c (List.mem_of_mem_take hc)

theorem lineOK_drop (s : Str) (k : Nat) (h : lineOK s = true) : lineOK (s.drop k) = true := by
  simp only [lineOK, List.all_eq_true] at h ⊢
  intro c hc
  exact h c (List.mem_of_mem_drop hc)

theorem lineOK_CreateRubyFileName (s : Str) (b : Bool) (h : lineOK s = true) :
    lineOK (CreateRubyFileName s b) = true := by
  have hr : lineOK (if b then ".pb".toList else ".pb.rb".toList) = true := by
    cases b <;> decide
  simp only [CreateRubyFileName, StringReplaceFirst]
  split
  · exact h
  · split
    · exact h
    · simp only [lineOK_append, lineOK_take _ _ h, lineOK_drop _ _ h, hr, Bool.and_self]

theorem lineOK_fieldLine (descriptor : FieldDescriptor)
    (h : FieldDescriptor.plain descriptor = true) : lineOK (fieldLine descriptor) = true := by
  simp only [FieldDescriptor.plain, Bool.and_eq_true] at h
  obtain ⟨⟨⟨⟨⟨⟨⟨h1, h2⟩, _⟩, h4⟩, h5⟩, h6⟩, h7⟩, h8⟩ := h
  have hpres : lineOK (fieldPresence descriptor) = true := by
    rcases fieldPresence_cases descriptor with e | e | e <;> rw [e] <;> decide
  have htype : lineOK (fieldDataType descriptor) = true := by
    have hc := headOK_lineOK _ (headOK_Constantize _ true (fullNameOK_headOK _ h2))
    unfold fieldDataType
    split <;> first | exact hc | decide
  have hlit : lineOK (fieldDefaultLiteral descriptor) = true := by
    have henum : lineOK (FullEnumNamespace descriptor.default_value_enum) = true := by
      simp only [FullEnumNamespace, lineOK_append, nameOK_lineOK _ h4,
        headOK_lineOK _ (headOK_Constantize _ true (fullNameOK_headOK _ h5)), Bool.and_true,
        Bool.true_and]
      decide
    have hstr : lineOK ("\"".toList ++ descriptor.default_value_string ++ "\"".toList)
        = true := by
      simp only [lineOK_append, h6, Bool.and_true, Bool.true_and]
      decide
    have hbool : lineOK (if descriptor.default_value_bool = true then "true".toList
        else "false".toList) = true := by
      cases descriptor.default_value_bool <;> decide
    unfold fieldDefaultLiteral
    split <;> first | exact lineOK_SimpleItoa _ | assumption | decide
  have hdef : lineOK (fieldDefaultOpt descriptor) = true := by
    unfold fieldDefaultOpt
    split
    · simp only [lineOK_append, hlit, Bool.and_true]
      decide
    · rfl
  have hpack : lineOK (fieldPackedOpt descriptor) = true := by
    unfold fieldPackedOpt
    split
    · cases descriptor.options_packed <;> decide
    · rfl
  have hdep : lineOK (fieldDeprecatedOpt descriptor) = true := by
    unfold fieldDeprecatedOpt
    split
    · cases descriptor.options_deprecated <;> decide
    · rfl
  have hext : lineOK (fieldExtensionOpt descriptor) = true := by
    unfold fieldExtensionOpt
    split
    · decide
    · rfl
  simp only [fieldLine, lineOK_append, hpres, htype, nameOK_lineOK _ h1, lineOK_SimpleItoa,
    hdef, hpack, hdep, hext, Bool.and_true, Bool.true_and]
  decide

theorem lineOK_blockLine (bt : RubyBlockType) (ct : RubyClassType) (name : Str) (b : Bool)
    (h : lineOK name = true) : lineOK (blockLine bt ct name b) = true := by
  have h1 : ∀ x ∈ name, ¬ x = '\n' := by
    simpa [lineOK] using h
  cases bt <;> cases ct <;> cases b <;>
    simpa [blockLine, lineOK] using h1

theorem lineOK_Keyword_text (kw : Keyword) : lineOK kw.text = true := by
  cases kw <;> decide

mutual

theorem lineOK_lines_node : ∀ (x : Node) (n : Nat), x.good = true →
    ∀ l ∈ Node.lines n x, lineOK l = true
  | .blank, n, _ => by simp [Node.lines, lineOK]
  | .text kw r, n, h => by
    simp only [Node.good] at h
    simp [Node.lines, lineOK_append, lineOK_spaces, lineOK_Keyword_text, h]
  | .field f, n, h => by
    simp only [Node.good] at h
    simp [Node.lines, lineOK_append, lineOK_spaces, lineOK_fieldLine f h]
  | .shell name, n, h => by
    simp only [Node.good] at h
    simp [Node.lines, lineOK_append, lineOK_spaces, lineOK_blockLine _ _ _ _ h]
  | .block bt ct name body, n, h => by
    simp only [Node.good, Bool.and_eq_true, beq_iff_eq] at h
    obtain ⟨⟨_, hname⟩, hbody⟩ := h
    have ih := lineOK_lines_nodes body (n + 1) hbody
    intro l hl
    simp only [Node.lines, List.mem_cons, List.mem_append, List.not_mem_nil, or_false] at hl
    rcases hl with e | hl | e
    · rw [e, lineOK_append, lineOK_spaces, lineOK_blockLine _ _ _ _ (headOK_lineOK _ hname)]
      rfl
    · exact ih l hl
    · rw [e, lineOK_append, lineOK_spaces]
      decide

theorem lineOK_lines_nodes : ∀ (xs : List Node) (n : Nat), Node.goodList xs = true →
    ∀ l ∈ Node.linesList n xs, lineOK l = true
  | [], n, _ => by simp [Node.linesList]
  | x :: xs, n, h => by
    simp only [Node.goodList, Bool.and_eq_true] at h
    intro l hl
    simp only [Node.linesList, List.mem_append] at hl
    rcases hl with hl | hl
    · exact lineOK_lines_node x n h.1 l hl
    · exact lineOK_lines_nodes xs n h.2 l hl

end

/-! ## The nodes of a well-formed schema -/

theorem goodList_append (a b : List Node) :
    Node.goodList (a ++ b) = (Node.goodList a && Node.goodList b) := by
  induction a with
  | nil => simp [Node.goodList]
  | cons x xs ih => simp [Node.goodList, ih, Bool.and_assoc]

theorem fieldFreeList_append (a b : List Node) :
    Node.fieldFreeList (a ++ b) = (Node.fieldFreeList a && Node.fieldFreeList b) := by
  induction a with
  | nil => simp [Node.fieldFreeList]
  | cons x xs ih => simp [Node.fieldFreeList, ih, Bool.and_assoc]

theorem goodList_flatMap {α : Type} (f : α → List Node) (xs : List α)
    (h : ∀ x ∈ xs, Node.goodList (f x) = true) : Node.goodList (xs.flatMap f) = true := by
  induction xs with
  | nil => rfl
  | cons x xs ih =>
    rw [List.flatMap_cons, goodList_append, h x (List.mem_cons_self _ _),
      ih (fun y hy => h y (List.mem_cons_of_mem _ hy))]
    rfl

theorem fieldFreeList_flatMap {α : Type} (f : α → List Node) (xs : List α)
    (h : ∀ x ∈ xs, Node.fieldFreeList (f x) = true) :
    Node.fieldFreeList (xs.flatMap f) = true := by
  induction xs with
  | nil => rfl
  | cons x xs ih =>
    rw [List.flatMap_cons, fieldFreeList_append, h x (List.mem_cons_self _ _),
      ih (fun y hy => h y (List.mem_cons_of_mem _ hy))]
    rfl

theorem goodList_map {α : Type} (f : α → Node) (xs : List α)
    (h : ∀ x ∈ xs, Node.good (f x) = true) : Node.goodList (xs.map f) = true := by
  induction xs with
  | nil => rfl
  | cons x xs ih =>
    simp only [List.map_cons, Node.goodList, h x (List.mem_cons_self _ _),
      ih (fun y hy => h y (List.mem_cons_of_mem _ hy)), Bool.and_self]

theorem fieldFreeList_map {α : Type} (f : α → Node) (xs : List α)
    (h : ∀ x ∈ xs, Node.fieldFree (f x) = true) : Node.fieldFreeList (xs.map f) = true := by
  induction xs with
  | nil => rfl
  | cons x xs ih =>
    simp only [List.map_cons, Node.fieldFreeList, h x (List.mem_cons_self _ _),
      ih (fun y hy => h y (List.mem_cons_of_mem _ hy)), Bool.and_self]

theorem goodList_cons (x : Node) (xs : List Node) :
    Node.goodList (x :: xs) = (Node.good x && Node.goodList xs) := by
  rw [Node.goodList]

theorem fieldFreeList_cons (x : Node) (xs : List Node) :
    Node.fieldFreeList (x :: xs) = (Node.fieldFree x && Node.fieldFreeList xs) := by
  rw [Node.fieldFreeList]

theorem commentNodes_good (comment : Str) (b : Bool) (h : lineOK comment = true) :
    Node.goodList (commentNodes comment b) = true
    ∧ Node.fieldFreeList (commentNodes comment b) = true := by
  have hh : lineOK ([] : Str) = true := rfl
  cases b <;>
    simp only [commentNodes, Node.goodList, Node.good, Node.fieldFreeList, Node.fieldFree, h, hh,
      Bool.false_eq_true, if_false, if_true, Bool.and_self, and_self]

theorem enumNodes_good (e : EnumDescriptor) (h : e.wellFormed = true) :
    Node.goodList (enumNodes e) = true ∧ Node.fieldFreeList (enumNodes e) = true := by
  simp only [EnumDescriptor.wellFormed, Bool.and_eq_true, List.all_eq_true] at h
  have hv : Node.goodList (e.values.map enumValueNode) = true := by
    apply goodList_map
    intro v hv
    have := h.2 v hv
    simp only [EnumValueDescriptor.wellFormed] at this
    simp only [enumValueNode, Node.good, ConvertIntToString, lineOK_append,
      nameOK_lineOK _ this, lineOK_SimpleItoa, Bool.and_true, Bool.true_and]
    decide
  have hf : Node.fieldFreeList (e.values.map enumValueNode) = true :=
    fieldFreeList_map _ _ (fun _ _ => rfl)
  simp [enumNodes, Node.goodList, Node.good, Node.fieldFreeList, Node.fieldFree, hv, hf,
    nameOK_headOK _ h.1]

theorem enumNodes_flatMap_good (es : List EnumDescriptor)
    (h : es.all EnumDescriptor.wellFormed = true) :
    Node.goodList (es.flatMap enumNodes) = true
    ∧ Node.fieldFreeList (es.flatMap enumNodes) = true := by
  rw [List.all_eq_true] at h
  exact ⟨goodList_flatMap _ _ (fun e he => (enumNodes_good e (h e he)).1),
    fieldFreeList_flatMap _ _ (fun e he => (enumNodes_good e (h e he)).2)⟩

mutual

theorem shellNodes_good (pf : FieldDescriptor → Bool) : ∀ (d : Descriptor),
    Descriptor.wellFormed pf d = true →
    Node.goodList (shellNodes d) = true ∧ Node.fieldFreeList (shellNodes d) = true
  | .mk name full_name fields nested enums exts ranges, h => by
    simp only [Descriptor.wellFormed, Bool.and_eq_true] at h
    obtain ⟨⟨⟨⟨hname, _⟩, _⟩, henums⟩, hnested⟩ := h
    have h1 := enumNodes_flatMap_good enums henums
    have h2 := shellNodesList_good pf nested hnested
    simp only [shellNodes]
    split
    · simp [Node.goodList, Node.good, Node.fieldFreeList, Node.fieldFree, goodList_append,
        fieldFreeList_append, h1.1, h1.2, h2.1, h2.2, nameOK_headOK _ hname]
    · simp [Node.goodList, Node.good, Node.fieldFreeList, Node.fieldFree,
        nameOK_lineOK _ hname]

theorem shellNodesList_good (pf : FieldDescriptor → Bool) : ∀ (ds : List Descriptor),
    Descriptor.wellFormedList pf ds = true →
    Node.goodList (shellNodesList ds) = true ∧ Node.fieldFreeList (shellNodesList ds) = true
  | [], _ => by simp [shellNodesList, Node.goodList, Node.fieldFreeList]
  | d :: ds, h => by
    simp only [Descriptor.wellFormedList, Bool.and_eq_true] at h
    have h1 := shellNodes_good pf d h.1
    have h2 := shellNodesList_good pf ds h.2
    simp [shellNodesList, goodList_append, fieldFreeList_append, h1.1, h1.2, h2.1, h2.2]

end

theorem declarationNodes_good (pf : FieldDescriptor → Bool) (file : FileDescriptor)
    (h : file.wellFormed pf = true) :
    Node.goodList (declarationNodes file) = true
    ∧ Node.fieldFreeList (declarationNodes file) = true := by
  simp only [FileDescriptor.wellFormed, Bool.and_eq_true] at h
  obtain ⟨⟨⟨⟨⟨_, _⟩, hmsgs⟩, henums⟩, _⟩, _⟩ := h
  have h1 := enumNodes_flatMap_good _ henums
  have h2 := shellNodesList_good pf _ hmsgs
  have hc1 := commentNodes_good "Enum Classes".toList true (by decide)
  have hc2 := commentNodes_good "Message Classes".toList true (by decide)
  have he : Node.goodList (enumsFileNodes file) = true
      ∧ Node.fieldFreeList (enumsFileNodes file) = true := by
    unfold enumsFileNodes
    split
    · simp only [goodList_append, fieldFreeList_append, h1.1, h1.2, hc1.1, hc1.2, Bool.and_self,
        and_self]
    · exact ⟨rfl, rfl⟩
  have hs : Node.goodList (shellsFileNodes file) = true
      ∧ Node.fieldFreeList (shellsFileNodes file) = true := by
    unfold shellsFileNodes
    split
    · simp only [goodList_append, fieldFreeList_append, h2.1, h2.2, hc2.1, hc2.2, Bool.and_self,
        and_self]
    · exact ⟨rfl, rfl⟩
  refine ⟨?_, ?_⟩
  · rw [declarationNodes, goodList_append, goodList_append, goodList_append, he.1, hs.1]
    rfl
  · rw [declarationNodes, fieldFreeList_append, fieldFreeList_append, fieldFreeList_append,
      he.2, hs.2]
    rfl

theorem preludeNodes_good (pf : FieldDescriptor → Bool) (file : FileDescriptor)
    (h : file.wellFormed pf = true) :
    Node.goodList (preludeNodes file) = true
    ∧ Node.fieldFreeList (preludeNodes file) = true := by
  simp only [FileDescriptor.wellFormed, Bool.and_eq_true] at h
  obtain ⟨⟨⟨⟨⟨_, hdeps⟩, _⟩, _⟩, _⟩, _⟩ := h
  rw [List.all_eq_true] at hdeps
  have hc1 := commentNodes_good "This file is auto-generated. DO NOT EDIT!".toList true
    (by decide)
  have hc2 := commentNodes_good "Imports".toList true (by decide)
  have hg : Node.goodList (genericRequireNodes file) = true
      ∧ Node.fieldFreeList (genericRequireNodes file) = true := by
    unfold genericRequireNodes
    split <;> split <;> exact ⟨by decide, by decide⟩
  have hi : Node.goodList (importNodes file) = true
      ∧ Node.fieldFreeList (importNodes file) = true := by
    unfold importNodes
    split
    · have hm : Node.goodList (file.dependencies.map (fun dependency =>
          Node.text Keyword.require (CreateRubyFileName dependency true ++ "'".toList))) = true := by
        apply goodList_map
        intro d hd
        simp only [Node.good, lineOK_append, lineOK_CreateRubyFileName _ _ (hdeps d hd),
          Bool.true_and]
        decide
      have hm2 : Node.fieldFreeList (file.dependencies.map (fun dependency =>
          Node.text Keyword.require (CreateRubyFileName dependency true ++ "'".toList))) = true :=
        fieldFreeList_map _ _ (fun _ _ => rfl)
      refine ⟨?_, ?_⟩
      · rw [goodList_cons, goodList_append, hc2.1, hm]
        rfl
      · rw [fieldFreeList_cons, fieldFreeList_append, hc2.2, hm2]
        rfl
    · exact ⟨rfl, rfl⟩
  refine ⟨?_, ?_⟩
  · rw [preludeNodes, goodList_append, goodList_append, goodList_append, hc1.1, hg.1, hi.1]
    rfl
  · rw [preludeNodes, fieldFreeList_append, fieldFreeList_append, fieldFreeList_append, hc1.2,
      hg.2, hi.2]
    rfl

/-! ## The registry of a plain schema -/

theorem registryOK_iff (em : List (Str × List FieldDescriptor)) :
    registryOK em = true
      ↔ ∀ e ∈ em, fullNameOK e.1 = true ∧ ∀ f ∈ e.2, FieldDescriptor.plain f = true := by
  simp [registryOK, List.all_eq_true]

theorem mapGet_plain (em : List (Str × List FieldDescriptor)) (key : Str)
    (h : registryOK em = true) : ∀ f ∈ mapGet em key, FieldDescriptor.plain f = true := by
  induction em with
  | nil => simp [mapGet, List.lookup]
  | cons e es ih =>
    rw [registryOK_iff] at h
    have h1 := h e (List.mem_cons_self _ _)
    have h2 : registryOK es = true :=
      (registryOK_iff es).mpr (fun x hx => h x (List.mem_cons_of_mem _ hx))
    obtain ⟨k, v⟩ := e
    simp only [mapGet, List.lookup]
    cases hk : key == k
    · exact ih h2
    · simpa using h1.2

theorem mem_mapTouch (em : List (Str × List FieldDescriptor)) (key : Str)
    (e : Str × List FieldDescriptor) (h : e ∈ mapTouch em key) : e ∈ em ∨ e = (key, []) := by
  unfold mapTouch at h
  split at h
  · exact Or.inl h
  · simpa using h

theorem registryOK_erase_touch (em : List (Str × List FieldDescriptor)) (key : Str)
    (h : registryOK em = true) : registryOK (mapErase (mapTouch em key) key) = true := by
  rw [registryOK_iff] at h ⊢
  intro e he
  simp only [mapErase, List.mem_filter, Bool.not_eq_true', beq_eq_false_iff_ne, ne_eq] at he
  rcases mem_mapTouch em key e he.1 with h1 | h1
  · exact h e h1
  · exact absurd (by rw [h1]) he.2

theorem registryOK_mapPushBack (em : List (Str × List FieldDescriptor)) (key : Str)
    (f : FieldDescriptor) (h : registryOK em = true) (hk : fullNameOK key = true)
    (hf : FieldDescriptor.plain f = true) : registryOK (mapPushBack em key f) = true := by
  rw [registryOK_iff] at h ⊢
  intro e he
  simp only [mapPushBack, List.mem_map] at he
  obtain ⟨e0, he0, rfl⟩ := he
  have h0 : fullNameOK e0.1 = true ∧ ∀ f ∈ e0.2, FieldDescriptor.plain f = true := by
    rcases mem_mapTouch em key e0 he0 with h1 | h1
    · exact h e0 h1
    · rw [h1]
      exact ⟨hk, by simp⟩
  split
  · refine ⟨h0.1, ?_⟩
    intro x hx
    rcases List.mem_append.mp hx with h2 | h2
    · exact h0.2 x h2
    · rw [List.mem_singleton.mp h2]
      exact hf
  · exact h0

theorem plain_containing (f : FieldDescriptor) (h : FieldDescriptor.plain f = true) :
    fullNameOK f.containing_type_full_name = true := by
  simp only [FieldDescriptor.plain, Bool.and_eq_true] at h
  exact h.1.1.1.1.1.2

theorem registryOK_storeAll (exts : List FieldDescriptor) (em : List (Str × List FieldDescriptor))
    (h : registryOK em = true) (hx : exts.all FieldDescriptor.plain = true) :
    registryOK (storeAll exts em) = true := by
  induction exts generalizing em with
  | nil => exact h
  | cons f fs ih =>
    simp only [List.all_cons, Bool.and_eq_true] at hx
    simp only [storeAll, List.foldl]
    exact ih _ (registryOK_mapPushBack em _ f h (plain_containing f hx.1) hx.1) hx.2

mutual

theorem registryOK_shellStore : ∀ (d : Descriptor) (em : List (Str × List FieldDescriptor)),
    Descriptor.wellFormed FieldDescriptor.plain d = true → registryOK em = true →
    registryOK (shellStore d em) = true
  | .mk name full_name fields nested enums exts ranges, em, h, hem => by
    simp only [Descriptor.wellFormed, Bool.and_eq_true] at h
    obtain ⟨⟨⟨⟨_, _⟩, hexts⟩, _⟩, hnested⟩ := h
    simp only [shellStore]
    exact registryOK_storeAll exts _ (registryOK_shellStoreList nested em hnested hem) hexts

theorem registryOK_shellStoreList : ∀ (ds : List Descriptor)
    (em : List (Str × List FieldDescriptor)),
    Descriptor.wellFormedList FieldDescriptor.plain ds = true → registryOK em = true →
    registryOK (shellStoreList ds em) = true
  | [], em, _, hem => by simpa [shellStoreList] using hem
  | d :: ds, em, h, hem => by
    simp only [Descriptor.wellFormedList, Bool.and_eq_true] at h
    simp only [shellStoreList]
    exact registryOK_shellStoreList ds _ h.2 (registryOK_shellStore d em h.1 hem)

end

theorem fieldNodes_good (fs : List FieldDescriptor)
    (h : ∀ f ∈ fs, FieldDescriptor.plain f = true) :
    Node.goodList (fs.map Node.field) = true :=
  goodList_map _ _ (fun f hf => by simpa [Node.good] using h f hf)

theorem rangesNodes_good (ranges : List ExtensionRange) :
    Node.goodList (rangesNodes ranges) = true := by
  have hc := commentNodes_good "Extension Fields".toList false (by decide)
  have hm : Node.goodList (ranges.map rangeNode) = true := by
    apply goodList_map
    intro r _
    simp only [rangeNode, Node.good, lineOK_append, lineOK_SimpleItoa, Bool.and_true,
      Bool.true_and]
    decide
  unfold rangesNodes
  split
  · rw [goodList_cons, goodList_append, hc.1, hm]
    rfl
  · rfl

mutual

theorem bodyNodes_good : ∀ (d : Descriptor) (em : List (Str × List FieldDescriptor)),
    Descriptor.wellFormed FieldDescriptor.plain d = true → registryOK em = true →
    Node.goodList (bodyNodes d em).1 = true ∧ registryOK (bodyNodes d em).2 = true
  | .mk name full_name fields nested enums exts ranges, em, h, hem => by
    simp only [Descriptor.wellFormed, Bool.and_eq_true] at h
    obtain ⟨⟨⟨⟨hname, hfields⟩, _⟩, _⟩, hnested⟩ := h
    rw [List.all_eq_true] at hfields
    have ih := bodyNodesList_good nested em hnested hem
    have hf := fieldNodes_good fields hfields
    have hr := rangesNodes_good ranges
    have hb := fieldNodes_good _ (mapGet_plain (bodyNodesList nested em).2 full_name ih.2)
    have hh := nameOK_headOK _ hname
    simp only [bodyNodes]
    split
    · split
      · refine ⟨?_, registryOK_erase_touch _ _ ih.2⟩
        simp only [goodList_cons, Node.good, goodList_append, ih.1, hf, hr, hb, hh, beq_self_eq_true,
          Bool.and_self]
        rfl
      · refine ⟨?_, ih.2⟩
        simp only [goodList_cons, Node.good, goodList_append, ih.1, hf, hr, hh, beq_self_eq_true,
          Bool.and_self]
        rfl
    · split
      · refine ⟨?_, ih.2⟩
        simp only [goodList_cons, Node.good, ih.1, hh, beq_self_eq_true, Bool.and_self]
        rfl
      · exact ⟨rfl, hem⟩

theorem bodyNodesList_good : ∀ (ds : List Descriptor) (em : List (Str × List FieldDescriptor)),
    Descriptor.wellFormedList FieldDescriptor.plain ds = true → registryOK em = true →
    Node.goodList (bodyNodesList ds em).1 = true ∧ registryOK (bodyNodesList ds em).2 = true
  | [], em, _, hem => by
    simp only [bodyNodesList]
    exact ⟨rfl, hem⟩
  | d :: ds, em, h, hem => by
    simp only [Descriptor.wellFormedList, Bool.and_eq_true] at h
    have h1 := bodyNodes_good d em h.1 hem
    have h2 := bodyNodesList_good ds _ h.2 h1.2
    simp only [bodyNodesList, goodList_append, h1.1, h2.1, h2.2, Bool.and_self, and_self]

end

theorem danglingLoopNodes_good (keys : List Str) (em : List (Str × List FieldDescriptor))
    (hk : ∀ k ∈ keys, fullNameOK k = true) (hem : registryOK em = true) :
    Node.goodList (danglingLoopNodes keys em).1 = true := by
  induction keys generalizing em with
  | nil => rfl
  | cons key keys ih =>
    have h1 := ih (mapErase (mapTouch em key) key)
      (fun k hk1 => hk k (List.mem_cons_of_mem _ hk1)) (registryOK_erase_touch em key hem)
    have h2 := fieldNodes_good _ (mapGet_plain em key hem)
    have h3 := headOK_Constantize key true
      (fullNameOK_headOK key (hk key (List.mem_cons_self _ _)))
    simp only [danglingLoopNodes, goodList_cons, Node.good, h1, h2, h3, beq_self_eq_true,
      Bool.and_self]

theorem danglingNodes_good (H : HashOrder) (em : List (Str × List FieldDescriptor))
    (hem : registryOK em = true) : Node.goodList (danglingNodes H em).1 = true := by
  have hc := commentNodes_good "Extended Messages".toList true (by decide)
  have hk : ∀ k ∈ H.order (em.map Prod.fst), fullNameOK k = true := by
    intro k hk
    have hk2 : k ∈ em.map Prod.fst := (H.perm _).mem_iff.mp hk
    obtain ⟨e, he, rfl⟩ := List.mem_map.mp hk2
    exact ((registryOK_iff em).mp hem e he).1
  unfold danglingNodes
  split
  · simp only [goodList_append, hc.1, danglingLoopNodes_good _ _ hk hem, Bool.and_self]
  · rfl

theorem servicesNodes_good (file : FileDescriptor)
    (h : file.services.all ServiceDescriptor.wellFormed = true) :
    Node.goodList (servicesNodes file) = true := by
  rw [List.all_eq_true] at h
  have hc := commentNodes_good "Services".toList true (by decide)
  have hs : Node.goodList (file.services.flatMap serviceNodes) = true := by
    apply goodList_flatMap
    intro sv hsv
    have h1 := h sv hsv
    simp only [ServiceDescriptor.wellFormed, Bool.and_eq_true, List.all_eq_true] at h1
    have hm : Node.goodList (sv.methods.map methodNode) = true := by
      apply goodList_map
      intro m hm
      have h2 := h1.2 m hm
      simp only [MethodDescriptor.wellFormed, Bool.and_eq_true] at h2
      simp only [methodNode, Node.good, lineOK_append, nameOK_lineOK _ h2.1.1,
        headOK_lineOK _ (headOK_Constantize _ true (fullNameOK_headOK _ h2.1.2)),
        headOK_lineOK _ (headOK_Constantize _ true (fullNameOK_headOK _ h2.2)), Bool.and_true,
        Bool.true_and]
      decide
    simp only [serviceNodes, goodList_cons, Node.good, hm, nameOK_headOK _ h1.1, beq_self_eq_true,
      Bool.and_self]
    rfl
  unfold servicesNodes
  split
  · simp only [goodList_append, hc.1, hs, Bool.and_self]
  · rfl

theorem registryOK_registryAfterShells (file : FileDescriptor) (h : plainFile file = true) :
    registryOK (registryAfterShells file) = true := by
  simp only [plainFile, FileDescriptor.wellFormed, Bool.and_eq_true] at h
  obtain ⟨⟨⟨⟨⟨_, _⟩, hmsgs⟩, _⟩, _⟩, hexts⟩ := h
  unfold registryAfterShells
  split
  · exact registryOK_shellStoreList _ _ hmsgs (registryOK_storeAll _ [] rfl hexts)
  · rfl

theorem definitionNodes_good (H : HashOrder) (file : FileDescriptor)
    (h : plainFile file = true) : Node.goodList (definitionNodes H file) = true := by
  have hreg := registryOK_registryAfterShells file h
  simp only [plainFile, FileDescriptor.wellFormed, Bool.and_eq_true] at h
  obtain ⟨⟨⟨⟨⟨_, _⟩, hmsgs⟩, _⟩, hsv⟩, _⟩ := h
  have hc := commentNodes_good "Message Fields".toList true (by decide)
  have hb := bodyNodesList_good file.message_types (registryAfterShells file) hmsgs hreg
  have hbody : Node.goodList (bodiesFileNodes file).1 = true
      ∧ registryOK (bodiesFileNodes file).2 = true := by
    unfold bodiesFileNodes
    split
    · simp only [goodList_append, hc.1, hb.1, hb.2, Bool.and_self, and_self]
    · exact ⟨rfl, hreg⟩
  simp only [definitionNodes, goodList_append, hbody.1, danglingNodes_good H _ hbody.2,
    servicesNodes_good file hsv, Bool.and_self]

/-! ## The segments of a package -/

theorem SplitStringUsingAux_token (d : Char) (cur t : Str) (hd : d ∉ t) (hne : cur ++ t ≠ []) :
    SplitStringUsingAux d cur t = [cur ++ t] := by
  induction t generalizing cur with
  | nil =>
    have : cur ≠ [] := by simpa using hne
    simp [SplitStringUsingAux, this]
  | cons c cs ih =>
    have hc : c ≠ d := fun e => hd (e ▸ List.mem_cons_self _ _)
    have hcs : d ∉ cs := fun h => hd (List.mem_cons_of_mem _ h)
    simp only [SplitStringUsingAux, if_neg hc]
    rw [ih (cur ++ [c]) hcs (by simp)]
    simp

theorem SplitStringUsingAux_token_delim (d : Char) (cur t rest : Str) (hd : d ∉ t)
    (hne : cur ++ t ≠ []) :
    SplitStringUsingAux d cur (t ++ d :: rest) = (cur ++ t) :: SplitStringUsingAux d [] rest := by
  induction t generalizing cur with
  | nil =>
    have : cur ≠ [] := by simpa using hne
    simp [SplitStringUsingAux, this]
  | cons c cs ih =>
    have hc : c ≠ d := fun e => hd (e ▸ List.mem_cons_self _ _)
    have hcs : d ∉ cs := fun h => hd (List.mem_cons_of_mem _ h)
    rw [List.cons_append, SplitStringUsingAux, if_neg hc, ih (cur ++ [c]) hcs (by simp)]
    simp

/-- Splitting the package path with segments `s1 .. sn` gives back the segments. -/
theorem SplitStringUsing_packagePath (segments : List Str)
    (h : ∀ s ∈ segments, s ≠ [] ∧ '.' ∉ s) :
    SplitStringUsing (packagePath segments) '.' [] = segments := by
  simp only [SplitStringUsing, List.nil_append, packagePath]
  induction segments with
  | nil => rfl
  | cons s ss ih =>
    have hs := h s (List.mem_cons_self _ _)
    have hss := ih (fun x hx => h x (List.mem_cons_of_mem _ hx))
    cases ss with
    | nil =>
      have := SplitStringUsingAux_token '.' [] s hs.2 (by simpa using hs.1)
      simpa [List.intercalate] using this
    | cons s2 ss2 =>
      have e : List.intercalate ".".toList (s :: s2 :: ss2)
          = s ++ '.' :: List.intercalate ".".toList (s2 :: ss2) := by
        simp [List.intercalate, List.intersperse]
      rw [e, SplitStringUsingAux_token_delim '.' [] s _ hs.2 (by simpa using hs.1), hss]
      rfl

theorem dotsToColons_of_no_dot (s : Str) (h : '.' ∉ s) : dotsToColons s = s := by
  induction s with
  | nil => rfl
  | cons c cs ih =>
    have hc : c ≠ '.' := fun e => h (e ▸ List.mem_cons_self _ _)
    simp only [dotsToColons, if_neg hc, ih (fun h1 => h (List.mem_cons_of_mem _ h1)),
      List.singleton_append]

theorem moduleHeads_eq_namespaceOpenLines (segments : List Str) (n : Nat)
    (h : ∀ s ∈ segments, '.' ∉ s) :
    moduleHeads n segments = namespaceOpenLines n segments := by
  induction segments generalizing n with
  | nil => rfl
  | cons s ss ih =>
    have hs := h s (List.mem_cons_self _ _)
    simp only [moduleHeads, namespaceOpenLines, ih (n + 1) (fun x hx => h x (List.mem_cons_of_mem _ hx)),
      blockLine, Constantize, ConstantizeLoop_eq, dotsToColons_of_no_dot s hs]
    simp

theorem moduleTails_eq_namespaceCloseLines (k : Nat) :
    moduleTails 0 k = namespaceCloseLines k := by
  induction k with
  | zero => rfl
  | succ k ih =>
    simp only [moduleTails, ih, namespaceCloseLines, List.range_succ, List.reverse_append,
      List.reverse_singleton, List.singleton_append, List.map_cons, Nat.zero_add]


theorem SplitStringUsingAux_chars (d : Char) : ∀ (rest cur t : Str),
    t ∈ SplitStringUsingAux d cur rest → ∀ c ∈ t, c ∈ cur ∨ c ∈ rest := by
  intro rest
  induction rest with
  | nil =>
    intro cur t ht c hc
    unfold SplitStringUsingAux at ht
    split at ht
    · simp at ht
    · rw [List.mem_singleton.mp ht] at hc
      exact Or.inl hc
  | cons x xs ih =>
    intro cur t ht c hc
    unfold SplitStringUsingAux at ht
    split at ht
    · split at ht
      · rcases ih [] t ht c hc with h | h
        · simp at h
        · exact Or.inr (List.mem_cons_of_mem _ h)
      · rcases List.mem_cons.mp ht with h | h
        · rw [h] at hc
          exact Or.inl hc
        · rcases ih [] t h c hc with h1 | h1
          · simp at h1
          · exact Or.inr (List.mem_cons_of_mem _ h1)
    · rcases ih (cur ++ [x]) t ht c hc with h | h
      · rcases List.mem_append.mp h with h1 | h1
        · exact Or.inl h1
        · rw [List.mem_singleton.mp h1]
          exact Or.inr (List.mem_cons_self _ _)
      · exact Or.inr (List.mem_cons_of_mem _ h)

theorem segments_headOK (package : Str) (h : fullNameOK package = true) :
    ∀ s ∈ SplitStringUsing package '.' [], headOK s = true := by
  intro s hs
  apply fullNameOK_headOK
  simp only [fullNameOK, List.all_eq_true] at h ⊢
  intro c hc
  simp only [SplitStringUsing, List.nil_append] at hs
  rcases SplitStringUsingAux_chars '.' package [] s hs c hc with h1 | h1
  · simp at h1
  · exact h c h1

theorem lineOK_moduleHeads (segments : List Str) (n : Nat)
    (h : ∀ s ∈ segments, headOK s = true) : ∀ l ∈ moduleHeads n segments, lineOK l = true := by
  induction segments generalizing n with
  | nil => simp [moduleHeads]
  | cons s ss ih =>
    intro l hl
    simp only [moduleHeads, List.mem_cons] at hl
    rcases hl with e | hl
    · rw [e, lineOK_append, lineOK_spaces,
        lineOK_blockLine _ _ _ _ (headOK_lineOK _ (headOK_Constantize s false
          (h s (List.mem_cons_self _ _))))]
      rfl
    · exact ih (n + 1) (fun x hx => h x (List.mem_cons_of_mem _ hx)) l hl

theorem lineOK_moduleTails (n k : Nat) : ∀ l ∈ moduleTails n k, lineOK l = true := by
  induction k with
  | zero => simp [moduleTails]
  | succ k ih =>
    intro l hl
    simp only [moduleTails, List.mem_cons] at hl
    rcases hl with e | hl
    · rw [e, lineOK_append, lineOK_spaces]
      decide
    · exact ih l hl

theorem scanBlocks_moduleHeads (segments : List Str) (n d : Nat) (rest : List Str) :
    scanBlocks (moduleHeads n segments ++ rest) d = scanBlocks rest (d + segments.length) := by
  induction segments generalizing n d with
  | nil => rfl
  | cons s ss ih =>
    rw [moduleHeads, List.cons_append, scanBlocks, (module_header_kind n _ _).1, if_pos rfl, ih,
      List.length_cons]
    congr 1
    omega

theorem scanBlocks_moduleTails (k n d : Nat) (rest : List Str) :
    scanBlocks (moduleTails n k ++ rest) (d + k) = scanBlocks rest d := by
  induction k generalizing d with
  | zero => rfl
  | succ k ih =>
    rw [moduleTails, List.cons_append, scanBlocks, (end_line_kind _).1, (end_line_kind _).2.1]
    have h1 : ¬ (d + (k + 1) = 0) := by omega
    have h2 : d + (k + 1) - 1 = d + k := by omega
    simp only [Bool.false_eq_true, if_false, if_true, h1, h2, ih]

theorem fileLines_eq (H : HashOrder) (file : FileDescriptor) :
    Node.linesList 0 (fileNodes H file) = declaredLines file ++ definedLines H file := by
  simp only [fileNodes, declaredLines, definedLines, linesList_append, linesList_wrapModules,
    Nat.zero_add, List.append_assoc]

theorem generatedText_lines (H : HashOrder) (file : FileDescriptor) :
    generatedText H file
      = renderLines (declaredLines file) ++ renderLines (definedLines H file) := by
  rw [generatedText_eq, render, fileLines_eq, renderLines_append]

theorem lineOK_declaredLines (pf : FieldDescriptor → Bool) (file : FileDescriptor)
    (h : file.wellFormed pf = true) : ∀ l ∈ declaredLines file, lineOK l = true := by
  have hp := (preludeNodes_good pf file h).1
  have hd := (declarationNodes_good pf file h).1
  have hpkg : fullNameOK file.package = true := by
    simp only [FileDescriptor.wellFormed, Bool.and_eq_true] at h
    exact h.1.1.1.1.1
  intro l hl
  simp only [declaredLines, List.mem_append] at hl
  rcases hl with hl | hl | hl
  · exact lineOK_lines_nodes _ 0 hp l hl
  · exact lineOK_moduleHeads _ 0 (segments_headOK _ hpkg) l hl
  · exact lineOK_lines_nodes _ _ hd l hl

theorem lineOK_definedLines (H : HashOrder) (file : FileDescriptor)
    (h : plainFile file = true) : ∀ l ∈ definedLines H file, lineOK l = true := by
  intro l hl
  simp only [definedLines, List.mem_append] at hl
  rcases hl with hl | hl
  · exact lineOK_lines_nodes _ _ (definitionNodes_good H file h) l hl
  · exact lineOK_moduleTails _ _ l hl

/-- The lines of the text generated for a plain file. -/
theorem linesOf_generatedText (H : HashOrder) (file : FileDescriptor)
    (h : plainFile file = true) :
    linesOf (generatedText H file) = declaredLines file ++ definedLines H file := by
  rw [generatedText_lines, ← renderLines_append]
  apply linesOf_renderLines
  intro l hl
  rcases List.mem_append.mp hl with h1 | h1
  · exact lineOK_declaredLines _ file h l h1
  · exact lineOK_definedLines H file h l h1

theorem scanBlocks_fileLines (H : HashOrder) (file : FileDescriptor)
    (h : plainFile file = true) :
    scanBlocks (declaredLines file ++ definedLines H file) 0 = some 0 := by
  have hp := (preludeNodes_good _ file h).1
  have hd := (declarationNodes_good _ file h).1
  have hf := definitionNodes_good H file h
  simp only [declaredLines, definedLines, List.append_assoc]
  rw [scanBlocks_nodes _ 0 0 _ hp, scanBlocks_moduleHeads, scanBlocks_nodes _ _ _ _ hd,
    scanBlocks_nodes _ _ _ _ hf]
  have := scanBlocks_moduleTails (SplitStringUsing file.package '.' []).length 0 0 []
  simpa using this

theorem isTerminator_not_opensBody (l : Str) (h : isTerminator l = true) :
    opensBody l = false := by
  simp only [isTerminator, beq_iff_eq] at h
  have h1 : "module ".toList.isPrefixOf "end".toList = false := by decide
  have h2 : "class ".toList.isPrefixOf "end".toList = false := by decide
  simp only [opensBody, h, h1, h2, Bool.false_and, Bool.or_self]

/-- What the stack-based reading says about the counts of headers and terminators. -/
theorem scanBlocks_counts (ls : List Str) : ∀ (d e : Nat), scanBlocks ls d = some e →
    d + ls.countP opensBody = e + ls.countP isTerminator
    ∧ ∀ k, (ls.take k).countP isTerminator ≤ d + (ls.take k).countP opensBody := by
  induction ls with
  | nil =>
    intro d e h
    simp only [scanBlocks, Option.some.injEq] at h
    simp [h]
  | cons l ls ih =>
    intro d e h
    rw [scanBlocks] at h
    by_cases ho : opensBody l = true
    · have ht : isTerminator l = false := by
        cases hh : isTerminator l with
        | false => rfl
        | true => rw [isTerminator_not_opensBody l hh] at ho; exact absurd ho (by decide)
      rw [if_pos ho] at h
      obtain ⟨h1, h2⟩ := ih (d + 1) e h
      refine ⟨?_, ?_⟩
      · simp only [List.countP_cons, ho, ht, if_true, Bool.false_eq_true, if_false]
        omega
      · intro k
        cases k with
        | zero => simp
        | succ k =>
          have := h2 k
          simp only [List.take_succ_cons, List.countP_cons, ho, ht, if_true, Bool.false_eq_true,
            if_false]
          omega
    · rw [if_neg ho] at h
      have ho' : opensBody l = false := by simpa using ho
      by_cases ht : isTerminator l = true
      · rw [if_pos ht] at h
        by_cases hd : d = 0
        · rw [if_pos hd] at h
          exact absurd h (by simp)
        · rw [if_neg hd] at h
          obtain ⟨h1, h2⟩ := ih (d - 1) e h
          refine ⟨?_, ?_⟩
          · simp only [List.countP_cons, ho', ht, if_true, Bool.false_eq_true, if_false]
            omega
          · intro k
            cases k with
            | zero => simp
            | succ k =>
              have := h2 k
              simp only [List.take_succ_cons, List.countP_cons, ho', ht, if_true,
                Bool.false_eq_true, if_false]
              omega
      · rw [if_neg ht] at h
        have ht' : isTerminator l = false := by simpa using ht
        obtain ⟨h1, h2⟩ := ih d e h
        refine ⟨?_, ?_⟩
        · simp only [List.countP_cons, ho', ht', Bool.false_eq_true, if_false]
          omega
        · intro k
          cases k with
          | zero => simp
          | succ k =>
            have := h2 k
            simp only [List.take_succ_cons, List.countP_cons, ho', ht', Bool.false_eq_true,
              if_false]
            omega

/-! ## Block balance -/

/-- C1 (counterexample): the text generated for a message whose string field has, as its
default value, a line feed, `end` and a line feed contains one header that opens a body
and two terminator lines, and the stack-based reading of its lines underflows. -/
theorem multiline_default_unbalances_blocks :
    (linesOf (generatedText HashOrder.insertion multilineDefaultFile)).countP opensBody = 1
    ∧ (linesOf (generatedText HashOrder.insertion multilineDefaultFile)).countP isTerminator = 2
    ∧ scanBlocks (linesOf (generatedText HashOrder.insertion multilineDefaultFile)) 0 = none := by
  rw [generatedText_eq]
  decide

/-- C1 (amended): for a schema file whose names are identifiers and whose default texts
contain no line feed, written to a sink that never fails, `Generate` returns true and
the text is block-balanced: a stack-based reading of its lines never underflows and ends
with an empty stack, the headers that open a body are as many as the `end` terminator
lines, no prefix of the lines has more terminators than opened bodies, and `indent_level`
is 0 when `Generate` returns. -/
theorem Generate_block_balanced (H : HashOrder) (file : FileDescriptor) (g : RubyGenerator)
    (h : plainFile file = true) :
    (Generate H file none g).returned = true
    ∧ scanBlocks (linesOf (Generate H file none g).members.printer_.output) 0 = some 0
    ∧ (linesOf (Generate H file none g).members.printer_.output).countP opensBody
        = (linesOf (Generate H file none g).members.printer_.output).countP isTerminator
    ∧ (∀ k, ((linesOf (Generate H file none g).members.printer_.output).take k).countP isTerminator
        ≤ ((linesOf (Generate H file none g).members.printer_.output).take k).countP opensBody)
    ∧ (Generate H file none g).members.indent_level = 0 := by
  obtain ⟨hr, _, hm⟩ := Generate_never_failing H file g
  have hout : (Generate H file none g).members.printer_.output = generatedText H file := by
    rw [hm, generatedText_eq]
    rfl
  have hscan : scanBlocks (linesOf (generatedText H file)) 0 = some 0 := by
    rw [linesOf_generatedText H file h]
    exact scanBlocks_fileLines H file h
  obtain ⟨h1, h2⟩ := scanBlocks_counts _ 0 0 hscan
  rw [hout]
  refine ⟨hr, hscan, ?_, ?_, ?_⟩
  · omega
  · intro k
    have := h2 k
    omega
  · rw [hm]
    rfl

theorem Generate_block_balanced_witness :
    plainFile sampleFile = true
    ∧ scanBlocks (linesOf (Generate HashOrder.insertion sampleFile none {}).members.printer_.output)
        0 = some 0 :=
  ⟨by decide, (Generate_block_balanced HashOrder.insertion sampleFile {} (by decide)).2.1⟩


/-! ## Namespace modules -/

theorem text_line_not_module (n : Nat) (kw : Keyword) (rest : Str) :
    isModuleLine (spaces n ++ (kw.text ++ rest)) = false := by
  cases kw <;> simp [isModuleLine, Keyword.text, stripIndent_spaces_cons, List.isPrefixOf]

theorem field_line_not_module (n : Nat) (descriptor : FieldDescriptor) :
    isModuleLine (spaces n ++ fieldLine descriptor) = false := by
  rcases fieldPresence_cases descriptor with h | h | h <;>
    simp [isModuleLine, fieldLine, h, stripIndent_spaces_cons, List.isPrefixOf]

theorem class_line_not_module (n : Nat) (ct : RubyClassType) (name : Str) (b : Bool) :
    isModuleLine (spaces n ++ blockLine RubyBlockType.RUBY_CLASS ct name b) = false := by
  simp [isModuleLine, blockLine, stripIndent_spaces_cons, List.isPrefixOf]

theorem end_line_not_module (n : Nat) : isModuleLine (spaces n ++ "end".toList) = false := by
  simp [isModuleLine, stripIndent_spaces_cons, List.isPrefixOf]

theorem module_line_is_module (n : Nat) (s : Str) :
    isModuleLine (spaces n ++ "module ".toList ++ s) = true := by
  simp [isModuleLine, stripIndent_spaces_cons, List.isPrefixOf]

mutual

theorem not_module_lines_node : ∀ (x : Node) (n : Nat), x.good = true →
    ∀ l ∈ Node.lines n x, isModuleLine l = false
  | .blank, n, _ => by
    intro l hl
    rw [Node.lines, List.mem_singleton] at hl
    rw [hl]
    rfl
  | .text kw r, n, _ => by
    intro l hl
    rw [Node.lines, List.mem_singleton] at hl
    rw [hl]
    exact text_line_not_module n kw r
  | .field f, n, _ => by
    intro l hl
    rw [Node.lines, List.mem_singleton] at hl
    rw [hl]
    exact field_line_not_module n f
  | .shell name, n, _ => by
    intro l hl
    rw [Node.lines, List.mem_singleton] at hl
    rw [hl]
    exact class_line_not_module n _ name true
  | .block bt ct name body, n, h => by
    simp only [Node.good, Bool.and_eq_true, beq_iff_eq] at h
    obtain ⟨⟨hbt, _⟩, hbody⟩ := h
    subst hbt
    have ih := not_module_lines_nodes body (n + 1) hbody
    intro l hl
    simp only [Node.lines, List.mem_cons, List.mem_append, List.not_mem_nil, or_false] at hl
    rcases hl with e | hl | e
    · rw [e]
      exact class_line_not_module n ct name false
    · exact ih l hl
    · rw [e]
      exact end_line_not_module n

theorem not_module_lines_nodes : ∀ (xs : List Node) (n : Nat), Node.goodList xs = true →
    ∀ l ∈ Node.linesList n xs, isModuleLine l = false
  | [], n, _ => by simp [Node.linesList]
  | x :: xs, n, h => by
    simp only [Node.goodList, Bool.and_eq_true] at h
    intro l hl
    simp only [Node.linesList, List.mem_append] at hl
    rcases hl with hl | hl
    · exact not_module_lines_node x n h.1 l hl
    · exact not_module_lines_nodes xs n h.2 l hl

end

theorem namespaceOpenLines_all_module (segments : List Str) (n : Nat) :
    (namespaceOpenLines n segments).filter isModuleLine = namespaceOpenLines n segments := by
  induction segments generalizing n with
  | nil => rfl
  | cons s ss ih =>
    simp only [namespaceOpenLines, List.filter_cons, module_line_is_module, if_true, ih]

theorem namespaceCloseLines_not_module (k : Nat) :
    ∀ l ∈ namespaceCloseLines k, isModuleLine l = false := by
  intro l hl
  simp only [namespaceCloseLines, List.mem_map] at hl
  obtain ⟨i, _, rfl⟩ := hl
  exact end_line_not_module i

theorem filter_eq_nil_of_all_false {p : Str → Bool} (ls : List Str)
    (h : ∀ l ∈ ls, p l = false) : ls.filter p = [] := by
  rw [List.filter_eq_nil_iff]
  intro l hl
  rw [h l hl]
  exact Bool.false_ne_true

/-- C5 (counterexample): a file without package (`n = 0`) whose message has a string
field with the default value line feed, `module x`, line feed: the generated text
contains the line `module x`. -/
theorem multiline_default_adds_module_line :
    SplitStringUsing moduleDefaultFile.package '.' [] = []
    ∧ (linesOf (generatedText HashOrder.insertion moduleDefaultFile)).filter isModuleLine
        = ["module x".toList] := by
  rw [generatedText_eq]
  decide

/-- C5 (amended): for a schema file whose names are identifiers and whose default texts
contain no line feed, with package path `s1.s2. ... .sn` (`n` non-empty segments, `n = 0`
for the empty package): the lines of the generated text are some lines without a
`module` line, then the `n` lines `module s1` .. `module sn`, each indented one level
deeper than the one before, then block-balanced lines without a `module` line, then
`n` lines `end`, indented from depth `n - 1` down to 0, which are the last lines of the
text; so the text has exactly these `n` namespace-open lines. -/
theorem namespace_modules_round_trip (H : HashOrder) (file : FileDescriptor)
    (segments : List Str) (h : plainFile file = true)
    (hseg : ∀ s ∈ segments, s ≠ [] ∧ '.' ∉ s)
    (hpkg : file.package = packagePath segments) :
    (∃ before inside, linesOf (generatedText H file)
          = before ++ namespaceOpenLines 0 segments ++ inside
              ++ namespaceCloseLines segments.length
        ∧ (∀ l ∈ before, isModuleLine l = false)
        ∧ (∀ l ∈ inside, isModuleLine l = false)
        ∧ scanBlocks inside 0 = some 0)
    ∧ (linesOf (generatedText H file)).filter isModuleLine = namespaceOpenLines 0 segments := by
  have hsplit : SplitStringUsing file.package '.' [] = segments := by
    rw [hpkg]
    exact SplitStringUsing_packagePath segments hseg
  have hp := (preludeNodes_good _ file h).1
  have hd := (declarationNodes_good _ file h).1
  have hf := definitionNodes_good H file h
  have hheads := moduleHeads_eq_namespaceOpenLines segments 0 (fun s hs => (hseg s hs).2)
  have hlines : linesOf (generatedText H file)
      = Node.linesList 0 (preludeNodes file) ++ namespaceOpenLines 0 segments
          ++ (Node.linesList segments.length (declarationNodes file)
              ++ Node.linesList segments.length (definitionNodes H file))
          ++ namespaceCloseLines segments.length := by
    rw [linesOf_generatedText H file h, declaredLines, definedLines, hsplit, hheads,
      moduleTails_eq_namespaceCloseLines]
    simp only [List.append_assoc]
  have hbefore := not_module_lines_nodes _ 0 hp
  have hinside : ∀ l ∈ Node.linesList segments.length (declarationNodes file)
      ++ Node.linesList segments.length (definitionNodes H file), isModuleLine l = false := by
    intro l hl
    rcases List.mem_append.mp hl with h1 | h1
    · exact not_module_lines_nodes _ _ hd l h1
    · exact not_module_lines_nodes _ _ hf l h1
  refine ⟨⟨_, _, hlines, hbefore, hinside, ?_⟩, ?_⟩
  · have h1 := scanBlocks_nodes (declarationNodes file) segments.length 0
      (Node.linesList segments.length (definitionNodes H file)) hd
    have h2 := scanBlocks_nodes (definitionNodes H file) segments.length 0 [] hf
    rw [List.append_nil] at h2
    rw [h1, h2]
    rfl
  · rw [hlines]
    simp only [List.filter_append, filter_eq_nil_of_all_false _ hbefore,
      filter_eq_nil_of_all_false _ hinside,
      filter_eq_nil_of_all_false _ (namespaceCloseLines_not_module segments.length),
      namespaceOpenLines_all_module, List.nil_append, List.append_nil]

theorem namespace_modules_round_trip_witness :
    plainFile sampleFile = true
    ∧ (∀ s ∈ ["foo".toList, "bar".toList], s ≠ [] ∧ '.' ∉ s)
    ∧ sampleFile.package = packagePath ["foo".toList, "bar".toList]
    ∧ (linesOf (generatedText HashOrder.insertion sampleFile)).filter isModuleLine
        = ["module foo".toList, "  module bar".toList] :=
  ⟨by decide, by decide, by decide,
    (namespace_modules_round_trip HashOrder.insertion sampleFile
      ["foo".toList, "bar".toList] (by decide) (by decide) (by decide)).2⟩


/-! ## Class shells come before field declarations -/

theorem block_header_not_field (n : Nat) (bt : RubyBlockType) (ct : RubyClassType) (name : Str)
    (b : Bool) : isFieldLine (spaces n ++ blockLine bt ct name b) = false := by
  cases bt <;> simp [isFieldLine, blockLine, stripIndent_spaces_cons, List.isPrefixOf]

mutual

theorem no_field_lines_node : ∀ (x : Node) (n : Nat), x.fieldFree = true →
    ∀ l ∈ Node.lines n x, isFieldLine l = false
  | .blank, n, _ => by
    intro l hl
    rw [Node.lines, List.mem_singleton] at hl
    rw [hl]
    rfl
  | .text kw r, n, _ => by
    intro l hl
    rw [Node.lines, List.mem_singleton] at hl
    rw [hl]
    exact (text_line_neutral n kw r).2.2
  | .field f, n, h => by
    simp [Node.fieldFree] at h
  | .shell name, n, _ => by
    intro l hl
    rw [Node.lines, List.mem_singleton] at hl
    rw [hl]
    exact block_header_not_field n _ _ name true
  | .block bt ct name body, n, h => by
    simp only [Node.fieldFree] at h
    have ih := no_field_lines_nodes body (n + 1) h
    intro l hl
    simp only [Node.lines, List.mem_cons, List.mem_append, List.not_mem_nil, or_false] at hl
    rcases hl with e | hl | e
    · rw [e]
      exact block_header_not_field n bt ct name false
    · exact ih l hl
    · rw [e]
      exact (end_line_kind n).2.2

theorem no_field_lines_nodes : ∀ (xs : List Node) (n : Nat), Node.fieldFreeList xs = true →
    ∀ l ∈ Node.linesList n xs, isFieldLine l = false
  | [], n, _ => by simp [Node.linesList]
  | x :: xs, n, h => by
    simp only [Node.fieldFreeList, Bool.and_eq_true] at h
    intro l hl
    simp only [Node.linesList, List.mem_append] at hl
    rcases hl with hl | hl
    · exact no_field_lines_node x n h.1 l hl
    · exact no_field_lines_nodes xs n h.2 l hl

end

theorem no_field_lines_moduleHeads (segments : List Str) (n : Nat) :
    ∀ l ∈ moduleHeads n segments, isFieldLine l = false := by
  induction segments generalizing n with
  | nil => simp [moduleHeads]
  | cons s ss ih =>
    intro l hl
    simp only [moduleHeads, List.mem_cons] at hl
    rcases hl with e | hl
    · rw [e]
      exact block_header_not_field n _ _ _ false
    · exact ih (n + 1) l hl

theorem no_field_lines_declaredLines (pf : FieldDescriptor → Bool) (file : FileDescriptor)
    (h : file.wellFormed pf = true) : ∀ l ∈ declaredLines file, isFieldLine l = false := by
  have hp := (preludeNodes_good pf file h).2
  have hd := (declarationNodes_good pf file h).2
  intro l hl
  simp only [declaredLines, List.mem_append] at hl
  rcases hl with hl | hl | hl
  · exact no_field_lines_nodes _ 0 hp l hl
  · exact no_field_lines_moduleHeads _ 0 l hl
  · exact no_field_lines_nodes _ _ hd l hl

theorem enum_header_mem (es : List EnumDescriptor) (n : Nat) (e : EnumDescriptor)
    (he : e ∈ es) :
    (spaces n ++ enumShellHeader e) ∈ Node.linesList n (es.flatMap enumNodes) := by
  induction es with
  | nil => simp at he
  | cons x xs ih =>
    rw [List.flatMap_cons, linesList_append, List.mem_append]
    rcases List.mem_cons.mp he with h | h
    · left
      subst h
      simp [enumNodes, Node.linesList, Node.lines, enumShellHeader, blockLine]
    · right
      exact ih h

/-- Every message of a sequence, nested ones included, and every enum declared in one of
them has its class shell header among the lines of the first pass. -/
theorem shell_headers_mem : ∀ (ds : List Descriptor) (n : Nat) (m : Descriptor),
    m ∈ Descriptor.withNestedList ds →
    (∃ k, (spaces k ++ messageShellHeader m) ∈ Node.linesList n (shellNodesList ds))
    ∧ ∀ e ∈ m.enum_types,
        ∃ k, (spaces k ++ enumShellHeader e) ∈ Node.linesList n (shellNodesList ds)
  | [], n, m, hm => by simp [Descriptor.withNestedList] at hm
  | (.mk name full_name fields nested enums exts ranges) :: ds, n, m, hm => by
    simp only [Descriptor.withNestedList, Descriptor.withNested, List.cons_append,
      List.mem_cons, List.mem_append] at hm
    simp only [shellNodesList, linesList_append, List.mem_append]
    rcases hm with hm | hm | hm
    · subst hm
      by_cases hn : DescriptorHasNestedTypes
          (Descriptor.mk name full_name fields nested enums exts ranges) = true
      · refine ⟨⟨n, Or.inl ?_⟩, ?_⟩
        · simp [shellNodes, hn, Node.linesList, Node.lines, messageShellHeader, blockLine,
            Descriptor.name]
        · intro e he
          refine ⟨n + 1, Or.inl ?_⟩
          have := enum_header_mem enums (n + 1) e he
          simp only [shellNodes, hn, if_true, Node.linesList, Node.lines, linesList_append,
            List.append_nil, List.cons_append, List.mem_cons, List.mem_append]
          exact Or.inr (Or.inl (Or.inl (Or.inl this)))
      · refine ⟨⟨n, Or.inl ?_⟩, ?_⟩
        · simp [shellNodes, hn, Node.linesList, Node.lines, messageShellHeader, blockLine,
            Descriptor.name]
        · intro e he
          exfalso
          apply hn
          cases enums with
          | nil => simp [Descriptor.enum_types] at he
          | cons x xs => simp [DescriptorHasNestedTypes, Descriptor.enum_types]
    · have hn : DescriptorHasNestedTypes
          (Descriptor.mk name full_name fields nested enums exts ranges) = true := by
        cases nested with
        | nil => simp [Descriptor.withNestedList] at hm
        | cons x xs => simp [DescriptorHasNestedTypes, Descriptor.nested_types]
      have ih := shell_headers_mem nested (n + 1) m hm
      have hsub : ∀ l, l ∈ Node.linesList (n + 1) (shellNodesList nested) →
          l ∈ Node.linesList n
            (shellNodes (Descriptor.mk name full_name fields nested enums exts ranges)) := by
        intro l hl
        simp only [shellNodes, hn, if_true, Node.linesList, Node.lines, linesList_append,
          List.append_nil, List.cons_append, List.mem_cons, List.mem_append]
        exact Or.inr (Or.inl (Or.inl (Or.inr hl)))
      refine ⟨?_, ?_⟩
      · obtain ⟨k, hk⟩ := ih.1
        exact ⟨k, Or.inl (hsub _ hk)⟩
      · intro e he
        obtain ⟨k, hk⟩ := ih.2 e he
        exact ⟨k, Or.inl (hsub _ hk)⟩
    · have ih := shell_headers_mem ds n m hm
      refine ⟨?_, ?_⟩
      · obtain ⟨k, hk⟩ := ih.1
        exact ⟨k, Or.inr hk⟩
      · intro e he
        obtain ⟨k, hk⟩ := ih.2 e he
        exact ⟨k, Or.inr hk⟩


theorem stripIndent_messageShellHeader (k : Nat) (m : Descriptor) :
    stripIndent (spaces k ++ messageShellHeader m) = messageShellHeader m := by
  simp [messageShellHeader, stripIndent_spaces_cons]

theorem stripIndent_enumShellHeader (k : Nat) (e : EnumDescriptor) :
    stripIndent (spaces k ++ enumShellHeader e) = enumShellHeader e := by
  simp [enumShellHeader, stripIndent_spaces_cons]

theorem mem_declaredLines_of_declaration (file : FileDescriptor) (l : Str)
    (h : l ∈ Node.linesList (SplitStringUsing file.package '.' []).length
      (declarationNodes file)) : l ∈ declaredLines file := by
  simp only [declaredLines, List.mem_append]
  exact Or.inr (Or.inr h)

theorem message_header_mem_declaredLines (file : FileDescriptor) (m : Descriptor)
    (hm : m ∈ file.allMessages) :
    (∃ k, (spaces k ++ messageShellHeader m) ∈ declaredLines file)
    ∧ ∀ e ∈ m.enum_types, ∃ k, (spaces k ++ enumShellHeader e) ∈ declaredLines file := by
  have hne : file.message_types.length > 0 := by
    cases hmt : file.message_types with
    | nil => simp [FileDescriptor.allMessages, hmt, Descriptor.withNestedList] at hm
    | cons x xs => simp
  have hsub : ∀ l, l ∈ Node.linesList (SplitStringUsing file.package '.' []).length
        (shellNodesList file.message_types) → l ∈ declaredLines file := by
    intro l hl
    apply mem_declaredLines_of_declaration
    simp only [declarationNodes, shellsFileNodes, hne, if_true, linesList_append,
      List.mem_append]
    exact Or.inl (Or.inr (Or.inr hl))
  have h := shell_headers_mem file.message_types
    (SplitStringUsing file.package '.' []).length m hm
  refine ⟨?_, ?_⟩
  · obtain ⟨k, hk⟩ := h.1
    exact ⟨k, hsub _ hk⟩
  · intro e he
    obtain ⟨k, hk⟩ := h.2 e he
    exact ⟨k, hsub _ hk⟩

theorem enum_header_mem_declaredLines (file : FileDescriptor) (e : EnumDescriptor)
    (he : e ∈ file.allEnums) : ∃ k, (spaces k ++ enumShellHeader e) ∈ declaredLines file := by
  simp only [FileDescriptor.allEnums, List.mem_append, List.mem_flatMap] at he
  rcases he with he | ⟨m, hm, he⟩
  · have hne : file.enum_types.length > 0 := by
      cases het : file.enum_types with
      | nil => simp [het] at he
      | cons x xs => simp
    refine ⟨(SplitStringUsing file.package '.' []).length,
      mem_declaredLines_of_declaration file _ ?_⟩
    simp only [declarationNodes, enumsFileNodes, hne, if_true, linesList_append,
      List.mem_append]
    exact Or.inl (Or.inl (Or.inl (Or.inr (enum_header_mem _ _ e he))))
  · exact (message_header_mem_declaredLines file m hm).2 e he

theorem line_before_fields (H : HashOrder) (file : FileDescriptor)
    (h : namesWellFormed file = true) (line : Str) (hl : line ∈ declaredLines file) :
    ∃ before after, linesOf (generatedText H file) = before ++ line :: after
      ∧ ∀ l ∈ before, isFieldLine l = false := by
  have hlines : linesOf (generatedText H file)
      = declaredLines file ++ linesOf (renderLines (definedLines H file)) := by
    rw [generatedText_lines]
    exact linesOf_renderLines_append _ _ (lineOK_declaredLines _ file h)
  obtain ⟨p, q, hpq⟩ := List.append_of_mem hl
  refine ⟨p, q ++ linesOf (renderLines (definedLines H file)), ?_, ?_⟩
  · rw [hlines, hpq]
    simp
  · intro l hlp
    apply no_field_lines_declaredLines _ file h
    rw [hpq]
    exact List.mem_append_left _ hlp

/-- C4: for a schema file whose names are identifiers, the class shell header of every
message defined in the file (nested ones included) and of every enum defined in the file
(at file scope or inside a message) is a line of the generated text with no
field-declaration line before it: every class shell precedes the first field
declaration. -/
theorem class_shells_precede_field_lines (H : HashOrder) (file : FileDescriptor)
    (h : namesWellFormed file = true) :
    (∀ m ∈ file.allMessages, ∃ before line after,
        linesOf (generatedText H file) = before ++ line :: after
        ∧ stripIndent line = messageShellHeader m
        ∧ ∀ l ∈ before, isFieldLine l = false)
    ∧ (∀ e ∈ file.allEnums, ∃ before line after,
        linesOf (generatedText H file) = before ++ line :: after
        ∧ stripIndent line = enumShellHeader e
        ∧ ∀ l ∈ before, isFieldLine l = false) := by
  refine ⟨?_, ?_⟩
  · intro m hm
    obtain ⟨k, hk⟩ := (message_header_mem_declaredLines file m hm).1
    obtain ⟨before, after, h1, h2⟩ := line_before_fields H file h _ hk
    exact ⟨before, _, after, h1, stripIndent_messageShellHeader k m, h2⟩
  · intro e he
    obtain ⟨k, hk⟩ := enum_header_mem_declaredLines file e he
    obtain ⟨before, after, h1, h2⟩ := line_before_fields H file h _ hk
    exact ⟨before, _, after, h1, stripIndent_enumShellHeader k e, h2⟩

theorem class_shells_precede_field_lines_witness :
    namesWellFormed sampleFile = true
    ∧ ∀ m ∈ sampleFile.allMessages, ∃ before line after,
        linesOf (generatedText HashOrder.insertion sampleFile) = before ++ line :: after
        ∧ stripIndent line = messageShellHeader m
        ∧ ∀ l ∈ before, isFieldLine l = false :=
  ⟨by decide, (class_shells_precede_field_lines HashOrder.insertion sampleFile (by decide)).1⟩

/-! ## Field declaration lines -/

/-- C8: on a sink that never fails, `PrintMessageField` writes one line: the indentation,
then the presence keyword (`required`, `optional` or `repeated`), the wrapper or type
name, the field name as a symbol, the tag number in decimal, and the default, packed,
deprecated and extension fragments, in this order; each fragment is empty unless the
schema attribute is set, and is the attribute's text when the fragment is there. -/
theorem PrintMessageField_line_assembly (descriptor : FieldDescriptor) (out : Str) (n : Nat)
    (em : List (Str × List FieldDescriptor)) (fn : Str) (ns : List Str) (fm : Str) :
    PrintMessageField descriptor (stateOf out true n em fn ns fm)
        = Except.ok (stateOf
            (out ++ spaces n
              ++ (fieldPresence descriptor ++ " ".toList ++ fieldDataType descriptor
                  ++ ", ".toList ++ ":".toList ++ descriptor.lowercase_name ++ ", ".toList
                  ++ SimpleItoa descriptor.number ++ fieldDefaultOpt descriptor
                  ++ fieldPackedOpt descriptor ++ fieldDeprecatedOpt descriptor
                  ++ fieldExtensionOpt descriptor)
              ++ ['\n'])
            true n em fn ns fm)
    ∧ (fieldPresence descriptor = "required".toList
        ∨ fieldPresence descriptor = "optional".toList
        ∨ fieldPresence descriptor = "repeated".toList)
    ∧ readDecimal (SimpleItoa descriptor.number) = some descriptor.number
    ∧ (descriptor.has_default_value = false → fieldDefaultOpt descriptor = [])
    ∧ (descriptor.has_default_value = true →
        fieldDefaultOpt descriptor = ", :default => ".toList ++ fieldDefaultLiteral descriptor)
    ∧ (descriptor.options_has_packed = false → fieldPackedOpt descriptor = [])
    ∧ (fieldPackedOpt descriptor ≠ [] →
        descriptor.options_has_packed = true
        ∧ fieldPackedOpt descriptor = ", :packed => ".toList
            ++ (if descriptor.options_packed then "true".toList else "false".toList))
    ∧ (descriptor.options_has_deprecated = false → fieldDeprecatedOpt descriptor = [])
    ∧ (descriptor.options_has_deprecated = true →
        fieldDeprecatedOpt descriptor = ", :deprecated => ".toList
            ++ (if descriptor.options_deprecated then "true".toList else "false".toList))
    ∧ (descriptor.is_extension = false → fieldExtensionOpt descriptor = [])
    ∧ (descriptor.is_extension = true →
        fieldExtensionOpt descriptor = ", :extension => true".toList) := by
  refine ⟨?_, fieldPresence_cases descriptor, (SimpleItoa_canonical _).1, ?_, ?_, ?_, ?_, ?_,
    ?_, ?_, ?_⟩
  · rw [PrintMessageField_stateOf]
    rfl
  · intro h
    simp [fieldDefaultOpt, h]
  · intro h
    simp [fieldDefaultOpt, h]
  · intro h
    simp [fieldPackedOpt, h]
  · intro h
    by_cases hp : (descriptor.is_packable && descriptor.options_has_packed) = true
    · simp only [Bool.and_eq_true] at hp
      refine ⟨hp.2, ?_⟩
      simp [fieldPackedOpt, hp.1, hp.2]
    · exact absurd (by simp [fieldPackedOpt, hp]) h
  · intro h
    simp [fieldDeprecatedOpt, h]
  · intro h
    simp [fieldDeprecatedOpt, h]
  · intro h
    simp [fieldExtensionOpt, h]
  · intro h
    simp [fieldExtensionOpt, h]

/-! ## Default literals -/

/-- C7: for an `int32`, `int64`, `uint32` or `uint64` default value `v` in the range of
its type, the default fragment carries the canonical decimal text of `v`: it reads back
as `v`, has no leading zeros, and starts with a minus sign exactly when `v` is negative. -/
theorem default_integer_literal_canonical (descriptor : FieldDescriptor) (v : Int)
    (hdefault : descriptor.has_default_value = true)
    (hkind :
      (descriptor.cpp_type = CppType.CPPTYPE_INT32 ∧ descriptor.default_value_int32 = v
          ∧ -2 ^ 31 ≤ v ∧ v < 2 ^ 31)
      ∨ (descriptor.cpp_type = CppType.CPPTYPE_INT64 ∧ descriptor.default_value_int64 = v
          ∧ -2 ^ 63 ≤ v ∧ v < 2 ^ 63)
      ∨ (descriptor.cpp_type = CppType.CPPTYPE_UINT32 ∧ descriptor.default_value_uint32 = v
          ∧ 0 ≤ v ∧ v < 2 ^ 32)
      ∨ (descriptor.cpp_type = CppType.CPPTYPE_UINT64 ∧ descriptor.default_value_uint64 = v
          ∧ 0 ≤ v ∧ v < 2 ^ 64)) :
    fieldDefaultOpt descriptor = ", :default => ".toList ++ fieldDefaultLiteral descriptor
    ∧ readDecimal (fieldDefaultLiteral descriptor) = some v
    ∧ canonicalDecimal (fieldDefaultLiteral descriptor) = true
    ∧ ((fieldDefaultLiteral descriptor).head? = some '-' ↔ v < 0) := by
  have hlit : fieldDefaultLiteral descriptor = SimpleItoa v := by
    rcases hkind with ⟨h1, h2, _⟩ | ⟨h1, h2, _⟩ | ⟨h1, h2, _⟩ | ⟨h1, h2, _⟩ <;>
      simp [fieldDefaultLiteral, h1, h2]
  refine ⟨by simp [fieldDefaultOpt, hdefault], ?_⟩
  rw [hlit]
  exact SimpleItoa_canonical v

theorem default_integer_literal_canonical_witness :
    sampleIntField.has_default_value = true
    ∧ sampleIntField.cpp_type = CppType.CPPTYPE_INT32
    ∧ fieldDefaultLiteral sampleIntField = "-42".toList
    ∧ readDecimal (fieldDefaultLiteral sampleIntField) = some (-42) :=
  ⟨by decide, by decide, by decide,
    (default_integer_literal_canonical sampleIntField (-42) (by decide)
      (Or.inl ⟨by decide, by decide, by decide, by decide⟩)).2.1⟩

theorem readQuotedBody_length : ∀ (n : Nat) (s t : Str), s.length ≤ n →
    readQuotedBody s = some t → t.length < s.length := by
  intro n
  induction n with
  | zero =>
    intro s t hs h
    cases s with
    | nil => simp [readQuotedBody] at h
    | cons c cs => simp at hs
  | succ n ih =>
    intro s t hs h
    match s, hs, h with
    | [], _, h => simp [readQuotedBody] at h
    | [c], _, h =>
      simp only [readQuotedBody] at h
      split at h
      · cases h
        simp
      · cases h
    | c :: e :: rest, hs, h =>
      simp only [List.length_cons] at hs
      simp only [readQuotedBody] at h
      split at h
      · cases h
      · split at h
        · obtain ⟨u, hu, rfl⟩ := Option.map_eq_some'.mp h
          have := ih rest u (by omega) hu
          simp only [List.length_cons]
          omega
        · split at h
          · cases h
          · split at h
            · obtain ⟨u, hu, rfl⟩ := Option.map_eq_some'.mp h
              have := ih rest u (by omega) hu
              simp only [List.length_cons]
              omega
            · obtain ⟨u, hu, rfl⟩ := Option.map_eq_some'.mp h
              have := ih (e :: rest) u (by simp only [List.length_cons]; omega) hu
              simp only [List.length_cons] at this ⊢
              omega

/-- The reader returns the text between the quotes as it stands exactly for the texts
that read verbatim. -/
theorem readQuotedBody_verbatim_iff : ∀ v : Str,
    readQuotedBody (v ++ ['"']) = some v ↔ readsVerbatim v = true
  | [] => by simp [readQuotedBody, readsVerbatim]
  | [c] => by
    by_cases h1 : c = '"' <;> by_cases h2 : c = '\\' <;>
      simp [readQuotedBody, readsVerbatim, h1, h2]
  | c :: e :: rest => by
    have ih := readQuotedBody_verbatim_iff (e :: rest)
    have hshort : ∀ (f : Str → Str), (∀ t, (f t).length = t.length + 1) →
        (readQuotedBody (rest ++ ['"'])).map f ≠ some (c :: e :: rest) := by
      intro f hf h
      obtain ⟨u, hu, he⟩ := Option.map_eq_some'.mp h
      have h1 := readQuotedBody_length _ _ _ (le_refl _) hu
      have h2 := congrArg List.length he
      simp only [hf, List.length_cons, List.length_append, List.length_nil] at h1 h2
      omega
    simp only [List.cons_append] at ih ⊢
    by_cases h1 : c = '"'
    · simp [readQuotedBody, readsVerbatim, h1]
    · by_cases h2 : c = '\\'
      · have := hshort (fun t => unescape e :: t) (fun _ => rfl)
        simp [readQuotedBody, readsVerbatim, h1, h2] at this ⊢
        exact this
      · by_cases h3 : c = '#' ∧ (e = '{' ∨ e = '$' ∨ e = '@')
        · obtain ⟨h3a, h3b⟩ := h3
          rcases h3b with h | h | h <;> simp [readQuotedBody, readsVerbatim, h3a, h]
        · by_cases h4 : c = '\r' ∧ e = '\n'
          · have := hshort (fun t => '\n' :: t) (fun _ => rfl)
            obtain ⟨h4a, h4b⟩ := h4
            simp [readQuotedBody, readsVerbatim, h4a, h4b] at this ⊢
          · have e1 : readQuotedBody (c :: e :: (rest ++ ['"']))
                = (readQuotedBody (e :: (rest ++ ['"']))).map (fun t => c :: t) := by
              simp only [readQuotedBody, h1, h2, h3, h4, if_false]
            have e2 : readsVerbatim (c :: e :: rest) = readsVerbatim (e :: rest) := by
              have a1 : (c != '"') = true := by simpa using h1
              have a2 : (c != '\\') = true := by simpa using h2
              have a3 : (!(c == '#' && (e == '{' || e == '$' || e == '@'))) = true := by
                rw [Bool.not_eq_true', Bool.eq_false_iff]
                intro h
                have h5 : c = '#' ∧ ((e = '{' ∨ e = '$') ∨ e = '@') := by simpa using h
                exact h3 ⟨h5.1, or_assoc.mp h5.2⟩
              have a4 : (!(c == '\r' && e == '\n')) = true := by
                rw [Bool.not_eq_true', Bool.eq_false_iff]
                intro h
                exact h4 (by simpa using h)
              simp only [readsVerbatim, a1, a2, a3, a4, Bool.true_and]
            rw [e1, e2, ← ih]
            constructor
            · intro h
              obtain ⟨u, hu, he⟩ := Option.map_eq_some'.mp h
              rw [hu, (List.cons.inj he).2]
            · intro h
              rw [h]
              rfl

/-- C6 (counterexample): the literal of a string field with default `a"b` is `"a"b"`,
which does not read back as `a"b`; the literal of a bytes field whose default value is a
backslash followed by `n` is `"\n"`, which reads back as a line feed; the literal of a
string field with default `#{x}` is `"#{x}"`, an interpolation and not a literal. -/
theorem default_string_literal_not_escaped :
    fieldDefaultLiteral quoteDefaultField = ['"', 'a', '"', 'b', '"']
    ∧ readStringLiteral (fieldDefaultLiteral quoteDefaultField)
        ≠ some quoteDefaultField.default_value_string
    ∧ fieldDefaultLiteral backslashDefaultField = ['"', '\\', 'n', '"']
    ∧ readStringLiteral (fieldDefaultLiteral backslashDefaultField) = some ['\n']
    ∧ readStringLiteral (fieldDefaultLiteral backslashDefaultField)
        ≠ some backslashDefaultField.default_value_string
    ∧ readStringLiteral (fieldDefaultLiteral hashDefaultField)
        ≠ some hashDefaultField.default_value_string := by
  decide

/-- C6 (amended): the default literal of a field with a default value reads back as that
value for the integer kinds and for bool, and for string and bytes fields whose default
value reads verbatim: it contains no quote and no backslash, no `#` directly before `{`,
`$` or `@`, and no carriage return directly before a line feed.  For string and bytes
fields these are exactly the default values whose literal reads back as the value. -/
theorem default_literal_reads_back (descriptor : FieldDescriptor)
    (hdefault : descriptor.has_default_value = true)
    (hplain : descriptor.cpp_type = CppType.CPPTYPE_STRING →
      readsVerbatim descriptor.default_value_string = true) :
    fieldDefaultOpt descriptor = ", :default => ".toList ++ fieldDefaultLiteral descriptor
    ∧ (descriptor.cpp_type = CppType.CPPTYPE_INT32 →
        readDecimal (fieldDefaultLiteral descriptor) = some descriptor.default_value_int32)
    ∧ (descriptor.cpp_type = CppType.CPPTYPE_INT64 →
        readDecimal (fieldDefaultLiteral descriptor) = some descriptor.default_value_int64)
    ∧ (descriptor.cpp_type = CppType.CPPTYPE_UINT32 →
        readDecimal (fieldDefaultLiteral descriptor) = some descriptor.default_value_uint32)
    ∧ (descriptor.cpp_type = CppType.CPPTYPE_UINT64 →
        readDecimal (fieldDefaultLiteral descriptor) = some descriptor.default_value_uint64)
    ∧ (descriptor.cpp_type = CppType.CPPTYPE_BOOL →
        readBool (fieldDefaultLiteral descriptor) = some descriptor.default_value_bool)
    ∧ (descriptor.cpp_type = CppType.CPPTYPE_STRING →
        readStringLiteral (fieldDefaultLiteral descriptor)
          = some descriptor.default_value_string)
    ∧ (descriptor.cpp_type = CppType.CPPTYPE_STRING →
        (readStringLiteral (fieldDefaultLiteral descriptor)
            = some descriptor.default_value_string
          ↔ readsVerbatim descriptor.default_value_string = true)) := by
  have hiff : descriptor.cpp_type = CppType.CPPTYPE_STRING →
      (readStringLiteral (fieldDefaultLiteral descriptor)
          = some descriptor.default_value_string
        ↔ readsVerbatim descriptor.default_value_string = true) := by
    intro h
    simp only [fieldDefaultLiteral, h]
    have := readQuotedBody_verbatim_iff descriptor.default_value_string
    simpa [readStringLiteral] using this
  refine ⟨by simp [fieldDefaultOpt, hdefault], ?_, ?_, ?_, ?_, ?_, ?_, hiff⟩
  · intro h
    simp only [fieldDefaultLiteral, h]
    exact (SimpleItoa_canonical _).1
  · intro h
    simp only [fieldDefaultLiteral, h]
    exact (SimpleItoa_canonical _).1
  · intro h
    simp only [fieldDefaultLiteral, h]
    exact (SimpleItoa_canonical _).1
  · intro h
    simp only [fieldDefaultLiteral, h]
    exact (SimpleItoa_canonical _).1
  · intro h
    simp only [fieldDefaultLiteral, h]
    cases descriptor.default_value_bool <;> decide
  · intro h
    exact (hiff h).mpr (hplain h)

theorem default_literal_reads_back_witness :
    colorDefaultField.has_default_value = true
    ∧ colorDefaultField.cpp_type = CppType.CPPTYPE_STRING
    ∧ readsVerbatim colorDefaultField.default_value_string = true
    ∧ fieldDefaultLiteral colorDefaultField = "\"#ffffff\"".toList
    ∧ readStringLiteral (fieldDefaultLiteral colorDefaultField) = some "#ffffff".toList :=
  ⟨by decide, by decide, by decide, by decide,
    (default_literal_reads_back colorDefaultField (by decide)
      (fun _ => by decide)).2.2.2.2.2.2.1 (by decide)⟩

/-! ## Extensions of a file without messages -/

/-- C2 (failing input): for a file that declares one extension at file scope and no
message, `Generate` succeeds and writes the header comment and three empty lines; no line
of the output is a field declaration. -/
theorem Generate_extension_only_file (H : HashOrder) :
    (Generate H extensionOnlyFile none {}).returned = true
    ∧ generatedText H extensionOnlyFile
        = "##\n# This file is auto-generated. DO NOT EDIT!\n#\n\n\n\n".toList
    ∧ (linesOf (generatedText H extensionOnlyFile)).filter isFieldLine = [] := by
  refine ⟨rfl, rfl, ?_⟩
  have h : generatedText H extensionOnlyFile
      = "##\n# This file is auto-generated. DO NOT EDIT!\n#\n\n\n\n".toList := rfl
  rw [h]
  decide

/-- C3 (failing input): a file that imports `base.proto` and extends `base.Other` at file
scope, declaring no message of its own: the output has no dangling-extensions section,
no reopened block for `base.Other` and no field declaration. -/
theorem Generate_importing_extension_file (H : HashOrder) :
    generatedText H importingExtensionFile
        = ("##\n# This file is auto-generated. DO NOT EDIT!\n#\n\n"
            ++ "##\n# Imports\n#\nrequire 'base.pb'\n\nmodule app\n\n\nend\n").toList
    ∧ "class ::base::Other".toList ∉ (linesOf (generatedText H importingExtensionFile)).map stripIndent
    ∧ "# Extended Messages".toList ∉ (linesOf (generatedText H importingExtensionFile)).map stripIndent
    ∧ (linesOf (generatedText H importingExtensionFile)).filter isFieldLine = [] := by
  have h : generatedText H importingExtensionFile
      = ("##\n# This file is auto-generated. DO NOT EDIT!\n#\n\n"
            ++ "##\n# Imports\n#\nrequire 'base.pb'\n\nmodule app\n\n\nend\n").toList := rfl
  rw [h]
  decide

/-! ## Enum and service classes -/

theorem linesList_map_text {α : Type} (kw : Keyword) (f : α → Str) (n : Nat) (xs : List α) :
    Node.linesList n (xs.map (fun x => Node.text kw (f x)))
      = xs.map (fun x => spaces n ++ (kw.text ++ f x)) := by
  induction xs with
  | nil => rfl
  | cons x xs ih => simp only [List.map_cons, Node.linesList, Node.lines, ih, List.singleton_append]

theorem linesList_map_field (n : Nat) (fields : List FieldDescriptor) :
    Node.linesList n (fields.map Node.field) = fields.map (fun d => spaces n ++ fieldLine d) := by
  induction fields with
  | nil => rfl
  | cons x xs ih => simp only [List.map_cons, Node.linesList, Node.lines, ih, List.singleton_append]

/-- C16: at depth `n`, `PrintEnum` writes the header `class <EnumName> < ::Protobuf::Enum`,
then one line `define :<name>, <number>` per declared value, in declared order and one level
deeper, then `end` and an empty line; every printed number reads back as the declared
number, negative ones included. -/
theorem PrintEnum_class_lines (descriptor : EnumDescriptor) (out : Str) (n : Nat)
    (em : List (Str × List FieldDescriptor)) (fn : Str) (ns : List Str) (fm : Str) :
    PrintEnum descriptor (stateOf out true n em fn ns fm)
      = Except.ok (stateOf
          (out ++ renderLines
            ([spaces n ++ ("class ".toList ++ descriptor.name ++ " < ::Protobuf::Enum".toList)]
              ++ descriptor.values.map (fun v =>
                  spaces (n + 1)
                    ++ ("define :".toList
                      ++ (v.name ++ ", ".toList ++ ConvertIntToString v.number)))
              ++ [spaces n ++ "end".toList, []]))
          true n em fn ns fm)
    ∧ ∀ v ∈ descriptor.values, readDecimal (ConvertIntToString v.number) = some v.number := by
  refine ⟨?_, fun v _ => (SimpleItoa_canonical v.number).1⟩
  rw [PrintEnum_stateOf]
  have e : Node.linesList n (enumNodes descriptor)
      = [spaces n ++ ("class ".toList ++ descriptor.name ++ " < ::Protobuf::Enum".toList)]
          ++ descriptor.values.map (fun v =>
              spaces (n + 1)
                ++ ("define :".toList
                  ++ (v.name ++ ", ".toList ++ ConvertIntToString v.number)))
          ++ [spaces n ++ "end".toList, []] := by
    have h := linesList_map_text Keyword.define
      (fun v : EnumValueDescriptor => v.name ++ ", ".toList ++ ConvertIntToString v.number)
      (n + 1) descriptor.values
    simp only [enumNodes, Node.linesList, Node.lines, blockLine]
    rw [show descriptor.values.map enumValueNode = descriptor.values.map (fun v =>
      Node.text Keyword.define (v.name ++ ", ".toList ++ ConvertIntToString v.number)) from rfl,
      h]
    simp [Keyword.text]
  rw [render, e]

/-- C17: at depth `n`, `PrintService` writes the header
`class <ServiceName> < ::Protobuf::Rpc::Service`, then one line
`rpc :<method>, <Constantize(input type)>, <Constantize(output type)>` per declared method,
in declared order and one level deeper, then `end`. -/
theorem PrintService_class_lines (descriptor : ServiceDescriptor) (out : Str) (n : Nat)
    (em : List (Str × List FieldDescriptor)) (fn : Str) (ns : List Str) (fm : Str) :
    PrintService descriptor (stateOf out true n em fn ns fm)
      = Except.ok (stateOf
          (out ++ renderLines
            ([spaces n
                ++ ("class ".toList ++ descriptor.name ++ " < ::Protobuf::Rpc::Service".toList)]
              ++ descriptor.methods.map (fun m =>
                  spaces (n + 1)
                    ++ ("rpc :".toList
                      ++ (m.name ++ ", ".toList ++ Constantize m.input_type_full_name true
                        ++ ", ".toList ++ Constantize m.output_type_full_name true)))
              ++ [spaces n ++ "end".toList]))
          true n em fn ns fm) := by
  rw [PrintService_stateOf]
  have e : Node.linesList n (serviceNodes descriptor)
      = [spaces n
            ++ ("class ".toList ++ descriptor.name ++ " < ::Protobuf::Rpc::Service".toList)]
          ++ descriptor.methods.map (fun m =>
              spaces (n + 1)
                ++ ("rpc :".toList
                  ++ (m.name ++ ", ".toList ++ Constantize m.input_type_full_name true
                    ++ ", ".toList ++ Constantize m.output_type_full_name true)))
          ++ [spaces n ++ "end".toList] := by
    have h := linesList_map_text Keyword.rpc
      (fun m : MethodDescriptor => m.name ++ ", ".toList
        ++ Constantize m.input_type_full_name true
        ++ ", ".toList ++ Constantize m.output_type_full_name true)
      (n + 1) descriptor.methods
    simp only [serviceNodes, Node.linesList, Node.lines, blockLine]
    rw [show descriptor.methods.map methodNode = descriptor.methods.map (fun m =>
      Node.text Keyword.rpc (m.name ++ ", ".toList
        ++ Constantize m.input_type_full_name true
        ++ ", ".toList ++ Constantize m.output_type_full_name true)) from rfl, h]
    simp [Keyword.text]
  rw [render, e]

/-! ## Taking a bucket out of the registry -/

theorem mapErase_mapTouch (em : List (Str × List FieldDescriptor)) (key : Str) :
    mapErase (mapTouch em key) key = mapErase em key := by
  unfold mapTouch
  split
  · rfl
  · simp [mapErase, List.filter_append]

theorem mapContains_mapErase_self (em : List (Str × List FieldDescriptor)) (key : Str) :
    mapContains (mapErase em key) key = false := by
  induction em with
  | nil => rfl
  | cons e es ih =>
    by_cases h : e.1 = key
    · simp [mapErase, mapContains, h]
    · simp [mapErase, mapContains, h]

theorem mapGet_mapErase_ne (em : List (Str × List FieldDescriptor)) (key k : Str)
    (h : k ≠ key) : mapGet (mapErase em key) k = mapGet em k := by
  induction em with
  | nil => rfl
  | cons e es ih =>
    obtain ⟨a, b⟩ := e
    simp only [mapGet, mapErase] at ih ⊢
    by_cases h1 : a = key
    · have h2 : (k == a) = false := by
        rw [beq_eq_false_iff_ne]
        exact fun e => h (e.trans h1)
      simp only [List.filter, h1, beq_self_eq_true, Bool.not_true, List.lookup]
      rw [← h1, h2]
      simpa [h1] using ih
    · have h3 : (!(a == key)) = true := by simp [h1]
      simp only [List.filter, h3, List.lookup]
      cases hk : (k == a) with
      | true => rfl
      | false => exact ih

theorem mapContains_mapErase_ne (em : List (Str × List FieldDescriptor)) (key k : Str)
    (h : k ≠ key) : mapContains (mapErase em key) k = mapContains em k := by
  induction em with
  | nil => rfl
  | cons e es ih =>
    simp only [mapContains, mapErase] at ih ⊢
    by_cases h1 : e.1 = key
    · have h2 : (e.1 == k) = false := by
        rw [beq_eq_false_iff_ne]
        exact fun e2 => h (e2.symm.trans h1)
      simp only [List.filter, h1, beq_self_eq_true, Bool.not_true, List.any_cons]
      rw [← h1, h2, Bool.false_or]
      simpa [h1] using ih
    · have h3 : (!(e.1 == key)) = true := by simp [h1]
      simp only [List.filter, h3, List.any_cons, ih]

theorem mapGet_of_not_contains (em : List (Str × List FieldDescriptor)) (key : Str)
    (h : mapContains em key = false) : mapGet em key = [] := by
  induction em with
  | nil => rfl
  | cons e es ih =>
    obtain ⟨a, b⟩ := e
    simp only [mapContains, List.any_cons, Bool.or_eq_false_iff] at h
    have h2 : (key == a) = false := by
      rw [beq_eq_false_iff_ne]
      intro e2
      have := h.1
      rw [beq_eq_false_iff_ne] at this
      exact this e2.symm
    simp only [mapGet, List.lookup, h2]
    exact ih h.2

/-- C20: `PrintMessageExtensionFields(key)` writes the field lines of the bucket of `key`, in
recorded order, and nothing when there is no such bucket; the registry it leaves is the
registry before without the entry of `key`: it has no entry for `key`,
`DescriptorHasExtensions` is false for a message named `key`, and every other key has the
bucket it had. -/
theorem PrintMessageExtensionFields_takes_bucket (key : Str) (out : Str) (n : Nat)
    (em : List (Str × List FieldDescriptor)) (fn : Str) (ns : List Str) (fm : Str) :
    PrintMessageExtensionFields key (stateOf out true n em fn ns fm)
      = Except.ok (stateOf
          (out ++ renderLines ((mapGet em key).map (fun d => spaces n ++ fieldLine d)))
          true n (mapErase em key) fn ns fm)
    ∧ (mapContains em key = false → mapGet em key = [])
    ∧ mapContains (mapErase em key) key = false
    ∧ (∀ (descriptor : Descriptor) (o : Str) (st : Bool) (m : Nat),
        descriptor.full_name = key →
          DescriptorHasExtensions descriptor (stateOf o st m (mapErase em key) fn ns fm) = false)
    ∧ (∀ k, k ≠ key →
        mapContains (mapErase em key) k = mapContains em k
          ∧ mapGet (mapErase em key) k = mapGet em k) := by
  refine ⟨?_, mapGet_of_not_contains em key, mapContains_mapErase_self em key, ?_, ?_⟩
  · rw [PrintMessageExtensionFields_stateOf, mapErase_mapTouch, render, linesList_map_field]
  · intro descriptor o st m hk
    rw [DescriptorHasExtensions_stateOf, hk, hasBucket, mapContains_mapErase_self]
    rfl
  · intro k hk
    exact ⟨mapContains_mapErase_ne em key k hk, mapGet_mapErase_ne em key k hk⟩

/-! ## Class shells of the first pass -/

theorem not_isSuffixOf_of_getLast {s l : Str} (a b : Char) (hs : s.getLast? = some a)
    (hl : l.getLast? = some b) (hab : a ≠ b) : s.isSuffixOf l = false := by
  cases h : s.isSuffixOf l with
  | false => rfl
  | true =>
    exfalso
    obtain ⟨t, ht⟩ := List.isSuffixOf_iff_suffix.mp h
    rw [← ht, List.getLast?_append, hs] at hl
    simp only [Option.or, Option.some.injEq] at hl
    exact hab hl

theorem isShellHeader_message (n : Nat) (name : Str) (empty_body : Bool) :
    isShellHeader (spaces n
      ++ blockLine RubyBlockType.RUBY_CLASS RubyClassType.CLASS_TYPE_MESSAGE name empty_body)
      = true := by
  have hp : "class ".toList.isPrefixOf (stripIndent (spaces n
      ++ blockLine RubyBlockType.RUBY_CLASS RubyClassType.CLASS_TYPE_MESSAGE name empty_body))
      = true := by
    simp [blockLine, stripIndent_spaces_cons, List.isPrefixOf]
  cases empty_body with
  | false =>
    have hs : " < ::Protobuf::Message".toList.isSuffixOf (spaces n
        ++ blockLine RubyBlockType.RUBY_CLASS RubyClassType.CLASS_TYPE_MESSAGE name false)
        = true := by
      rw [List.isSuffixOf_iff_suffix]
      refine ⟨spaces n ++ ("class".toList ++ " ".toList ++ name), ?_⟩
      simp [blockLine]
    simp only [isShellHeader, hp, hs, Bool.true_or, Bool.and_self]
  | true =>
    have hs : " < ::Protobuf::Message; end".toList.isSuffixOf (spaces n
        ++ blockLine RubyBlockType.RUBY_CLASS RubyClassType.CLASS_TYPE_MESSAGE name true)
        = true := by
      rw [List.isSuffixOf_iff_suffix]
      refine ⟨spaces n ++ ("class".toList ++ " ".toList ++ name), ?_⟩
      simp [blockLine]
    simp only [isShellHeader, hp, hs, Bool.or_true, Bool.and_self]

theorem isShellHeader_enum (n : Nat) (name : Str) :
    isShellHeader (spaces n
      ++ blockLine RubyBlockType.RUBY_CLASS RubyClassType.CLASS_TYPE_ENUM name false)
      = false := by
  have hl : (spaces n
      ++ blockLine RubyBlockType.RUBY_CLASS RubyClassType.CLASS_TYPE_ENUM name false).getLast?
      = some 'm' := by
    have e : spaces n
        ++ blockLine RubyBlockType.RUBY_CLASS RubyClassType.CLASS_TYPE_ENUM name false
        = (spaces n ++ ("class".toList ++ " ".toList ++ name))
          ++ " < ::Protobuf::Enum".toList := by
      simp [blockLine]
    rw [e, List.getLast?_append]
    rfl
  have h1 := not_isSuffixOf_of_getLast (s := " < ::Protobuf::Message".toList) 'e' 'm'
    (by decide) hl (by decide)
  have h2 := not_isSuffixOf_of_getLast (s := " < ::Protobuf::Message; end".toList) 'd' 'm'
    (by decide) hl (by decide)
  simp only [isShellHeader, h1, h2, Bool.or_self, Bool.and_false]

theorem isShellHeader_text (n : Nat) (kw : Keyword) (rest : Str) :
    isShellHeader (spaces n ++ (kw.text ++ rest)) = false := by
  cases kw <;>
    simp [isShellHeader, Keyword.text, stripIndent_spaces_cons, List.isPrefixOf]

theorem isShellHeader_end (n : Nat) : isShellHeader (spaces n ++ "end".toList) = false := by
  simp [isShellHeader, stripIndent_spaces_cons, List.isPrefixOf]

theorem countP_shell_enums (n : Nat) (enums : List EnumDescriptor) :
    (Node.linesList n (enums.flatMap enumNodes)).countP isShellHeader = 0 := by
  induction enums with
  | nil => rfl
  | cons e es ih =>
    rw [List.flatMap_cons, linesList_append, List.countP_append, ih]
    have h := linesList_map_text Keyword.define
      (fun v : EnumValueDescriptor => v.name ++ ", ".toList ++ ConvertIntToString v.number)
      (n + 1) e.values
    simp only [enumNodes, Node.linesList, Node.lines]
    rw [show e.values.map enumValueNode = e.values.map (fun v =>
      Node.text Keyword.define (v.name ++ ", ".toList ++ ConvertIntToString v.number)) from rfl,
      h]
    simp only [List.append_nil, List.cons_append, List.countP_cons, List.countP_append,
      isShellHeader_enum, isShellHeader_end, List.countP_nil, List.nil_append]
    have hz : List.countP isShellHeader (e.values.map (fun v =>
        spaces (n + 1) ++ (Keyword.define.text
          ++ (v.name ++ ", ".toList ++ ConvertIntToString v.number)))) = 0 := by
      rw [List.countP_eq_zero]
      intro l hl
      obtain ⟨v, _, rfl⟩ := List.mem_map.mp hl
      simp [isShellHeader_text]
    rw [hz]
    have hb : isShellHeader [] = false := by decide
    simp [hb]

mutual

theorem countP_shellNodes : ∀ (d : Descriptor) (n : Nat),
    (Node.linesList n (shellNodes d)).countP isShellHeader = (Descriptor.withNested d).length
  | .mk name full_name fields nested enums exts ranges, n => by
    have hb : isShellHeader [] = false := by decide
    have hn := countP_shellNodesList nested (n + 1)
    simp only [shellNodes, Descriptor.withNested, List.length_cons]
    by_cases h : DescriptorHasNestedTypes
        (Descriptor.mk name full_name fields nested enums exts ranges) = true
    · simp only [h, if_true, List.cons_append, List.nil_append, Node.linesList, Node.lines,
        List.append_nil, List.countP_cons, List.countP_append, isShellHeader_message,
        isShellHeader_end, linesList_append, countP_shell_enums, hn, hb, List.countP_nil]
      simp
    · have hnil : nested = [] := by
        cases nested with
        | nil => rfl
        | cons x xs => simp [DescriptorHasNestedTypes, Descriptor.nested_types] at h
      subst hnil
      simp only [h, Bool.false_eq_true, if_false, List.cons_append, List.nil_append,
        Node.linesList, Node.lines, List.append_nil, List.countP_cons, isShellHeader_message,
        hb, List.countP_nil, Descriptor.withNestedList, List.length_nil]
      simp

theorem countP_shellNodesList : ∀ (ds : List Descriptor) (n : Nat),
    (Node.linesList n (shellNodesList ds)).countP isShellHeader
      = (Descriptor.withNestedList ds).length
  | [], _ => rfl
  | d :: ds, n => by
    simp only [shellNodesList, Descriptor.withNestedList, linesList_append, List.countP_append,
      List.length_append, countP_shellNodes d n, countP_shellNodesList ds n]

end

/-- C19: in the first pass, at depth `n`, `PrintMessage` writes for a message without
nested enums and nested messages the one line `class <Name> < ::Protobuf::Message; end`,
and for any other message the header `class <Name> < ::Protobuf::Message`, one level deeper
what `PrintEnum` writes for its nested enums followed by what the first pass writes for its
nested messages, and one `end`; an empty line follows in both cases and the depth afterwards
is the depth before.  The lines written hold exactly one shell header for the message and
for each message nested in it at any depth. -/
theorem PrintMessage_first_pass_shell (d : Descriptor) (out : Str) (n : Nat)
    (em : List (Str × List FieldDescriptor)) (fn : Str) (ns : List Str) (fm : Str) :
    PrintMessage d false (stateOf out true n em fn ns fm)
      = Except.ok (stateOf (out ++ renderLines (Node.linesList n (shellNodes d))) true n
          (shellStore d em) fn ns fm)
    ∧ Node.linesList n (shellNodes d)
      = (if d.enum_types.length = 0 ∧ d.nested_types.length = 0 then
          [spaces n ++ ("class ".toList ++ d.name ++ " < ::Protobuf::Message; end".toList), []]
        else
          [spaces n ++ ("class ".toList ++ d.name ++ " < ::Protobuf::Message".toList)]
            ++ Node.linesList (n + 1) (d.enum_types.flatMap enumNodes)
            ++ Node.linesList (n + 1) (shellNodesList d.nested_types)
            ++ [spaces n ++ "end".toList, []])
    ∧ (∀ o e, forEach PrintEnum d.enum_types (stateOf o true (n + 1) e fn ns fm)
        = Except.ok (stateOf
            (o ++ renderLines (Node.linesList (n + 1) (d.enum_types.flatMap enumNodes)))
            true (n + 1) e fn ns fm))
    ∧ (∀ o e, PrintMessagesForDescriptor d.nested_types false
          (stateOf o true (n + 1) e fn ns fm)
        = Except.ok (stateOf
            (o ++ renderLines (Node.linesList (n + 1) (shellNodesList d.nested_types)))
            true (n + 1) (shellStoreList d.nested_types e) fn ns fm))
    ∧ (Node.linesList n (shellNodes d)).countP isShellHeader
        = (Descriptor.withNested d).length := by
  refine ⟨PrintMessage_shell_stateOf d out n em fn ns fm, ?_,
    fun o e => forEach_PrintEnum_stateOf d.enum_types o (n + 1) e fn ns fm,
    fun o e => PrintMessagesForDescriptor_shell_stateOf d.nested_types o (n + 1) e fn ns fm,
    countP_shellNodes d n⟩
  obtain ⟨name, full_name, fields, nested, enums, exts, ranges⟩ := d
  simp only [shellNodes, DescriptorHasNestedTypes, Descriptor.enum_types,
    Descriptor.nested_types, Descriptor.name]
  by_cases h : enums.length = 0 ∧ nested.length = 0
  · have he : enums = [] := List.length_eq_zero.mp h.1
    have hn : nested = [] := List.length_eq_zero.mp h.2
    subst he hn
    simp [Node.linesList, Node.lines, blockLine]
  · have h2 : (decide (enums.length > 0) || decide (nested.length > 0)) = true := by
      simp only [Bool.or_eq_true, decide_eq_true_eq]
      by_contra hc
      exact h ⟨by omega, by omega⟩
    rw [if_neg h, if_pos h2]
    simp [Node.linesList, Node.lines, blockLine, linesList_append]

/-- C11 (failing input): the message `M` of `rangeOnlyFile` declares the extension range
100 to 200 and has no field; `Generate` succeeds, and the generated text has no
`extensions` line at all. -/
theorem range_only_message_has_no_extensions_line :
    rangeOnlyFile.message_types.map Descriptor.extension_ranges = [[⟨100, 200⟩]]
    ∧ (Generate HashOrder.insertion rangeOnlyFile none {}).returned = true
    ∧ ∀ l ∈ linesOf (generatedText HashOrder.insertion rangeOnlyFile),
        "extensions".toList.isPrefixOf (stripIndent l) = false := by
  refine ⟨rfl, ?_, ?_⟩
  · rw [(Generate_never_failing HashOrder.insertion rangeOnlyFile {}).1]
  · rw [generatedText_eq]
    decide

theorem mapGet_of_not_hasBucket (em : List (Str × List FieldDescriptor)) (key : Str)
    (h : hasBucket em key = false) : mapGet em key = [] := by
  unfold hasBucket at h
  by_cases hc : mapContains em key = true
  · rw [if_pos hc] at h
    have : (mapGet em key).length = 0 := by simpa using h
    exact List.length_eq_zero.mp this
  · exact mapGet_of_not_contains em key (by simpa using hc)

/-- In the second pass, at depth `n`, for a message that has a field of its own or a
pending bucket of extension fields, `PrintMessage` writes the header `class <Name>`, one
level deeper what the second pass writes for its nested messages, then its own field lines,
then (when it declares extension ranges) an empty line, the comment `# Extension Fields`
and one line `extensions <start>...<end>` per declared range in declared order, then the
field lines of its bucket of extension fields, and then `end` and an empty line. -/
theorem PrintMessage_second_pass_ranges (d : Descriptor) (out : Str) (n : Nat)
    (em : List (Str × List FieldDescriptor)) (fn : Str) (ns : List Str) (fm : Str)
    (h : d.fields.length > 0 ∨ hasBucket em d.full_name = true) :
    PrintMessage d true (stateOf out true n em fn ns fm)
      = Except.ok (stateOf
          (out ++ renderLines
            ([spaces n ++ ("class ".toList ++ d.name)]
              ++ Node.linesList (n + 1) (bodyNodesList d.nested_types em).1
              ++ d.fields.map (fun f => spaces (n + 1) ++ fieldLine f)
              ++ (if d.extension_ranges.length > 0 then
                    [[], spaces (n + 1) ++ "# Extension Fields".toList]
                      ++ d.extension_ranges.map (fun r =>
                          spaces (n + 1)
                            ++ ("extensions ".toList
                              ++ (SimpleItoa r.start ++ "...".toList ++ SimpleItoa r.end_)))
                  else [])
              ++ (mapGet (bodyNodesList d.nested_types em).2 d.full_name).map
                    (fun f => spaces (n + 1) ++ fieldLine f)
              ++ [spaces n ++ "end".toList, []]))
          true n
          (if hasBucket (bodyNodesList d.nested_types em).2 d.full_name then
              mapErase (bodyNodesList d.nested_types em).2 d.full_name
            else (bodyNodesList d.nested_types em).2)
          fn ns fm)
    ∧ ∀ o, PrintMessagesForDescriptor d.nested_types true (stateOf o true (n + 1) em fn ns fm)
        = Except.ok (stateOf
            (o ++ renderLines (Node.linesList (n + 1) (bodyNodesList d.nested_types em).1))
            true (n + 1) (bodyNodesList d.nested_types em).2 fn ns fm) := by
  refine ⟨?_, fun o => PrintMessagesForDescriptor_body_stateOf d.nested_types o (n + 1) em
    fn ns fm⟩
  rw [PrintMessage_body_stateOf]
  obtain ⟨name, full_name, fields, nested, enums, exts, ranges⟩ := d
  simp only [Descriptor.fields, Descriptor.full_name, Descriptor.nested_types,
    Descriptor.extension_ranges, Descriptor.name] at h ⊢
  have h1 : (decide (fields.length > 0) || hasBucket em full_name) = true := by
    rcases h with h | h
    · simp [h]
    · simp [h]
  have hr : Node.linesList (n + 1) (rangesNodes ranges)
      = (if ranges.length > 0 then
          [[], spaces (n + 1) ++ "# Extension Fields".toList]
            ++ ranges.map (fun r =>
                spaces (n + 1)
                  ++ ("extensions ".toList
                    ++ (SimpleItoa r.start ++ "...".toList ++ SimpleItoa r.end_)))
        else []) := by
    have hm := linesList_map_text Keyword.extensions
      (fun r : ExtensionRange => SimpleItoa r.start ++ "...".toList ++ SimpleItoa r.end_)
      (n + 1) ranges
    unfold rangesNodes
    by_cases hl : ranges.length > 0
    · rw [if_pos hl, if_pos hl]
      rw [show ranges.map rangeNode = ranges.map (fun r =>
        Node.text Keyword.extensions
          (SimpleItoa r.start ++ "...".toList ++ SimpleItoa r.end_)) from rfl]
      have e : ∀ xs : List Node,
          Node.linesList (n + 1)
            (Node.blank :: (commentNodes "Extension Fields".toList false ++ xs))
          = [[], spaces (n + 1) ++ (Keyword.comment.text ++ "Extension Fields".toList)]
              ++ Node.linesList (n + 1) xs := fun _ => rfl
      rw [e, hm]
      simp [Keyword.text]
    · rw [if_neg hl, if_neg hl]
      rfl
  have hx : Node.linesList (n + 1)
        (if hasBucket (bodyNodesList nested em).2 full_name = true then
          (mapGet (bodyNodesList nested em).2 full_name).map Node.field
        else [])
      = (mapGet (bodyNodesList nested em).2 full_name).map
          (fun f => spaces (n + 1) ++ fieldLine f) := by
    by_cases hb : hasBucket (bodyNodesList nested em).2 full_name = true
    · rw [if_pos hb, linesList_map_field]
    · rw [if_neg hb, mapGet_of_not_hasBucket _ _ (by simpa using hb)]
      rfl
  simp only [bodyNodes, h1, if_true, mapErase_mapTouch]
  congr 2
  simp only [render, Node.linesList, Node.lines, linesList_append, hr, hx, linesList_map_field,
    blockLine, List.append_nil]
  simp

theorem PrintMessage_second_pass_ranges_witness :
    (rangedMessage.fields.length > 0 ∨ hasBucket [] rangedMessage.full_name = true)
    ∧ PrintMessage rangedMessage true (stateOf [] true 0 [] [] [] [])
      = Except.ok (stateOf
          ("class M\n  optional ::Protobuf::Field::Sint32Field, :count, 1, :default => -42\n".toList
            ++ "\n  # Extension Fields\n  extensions 100...200\n  extensions 300...400\n".toList
            ++ "end\n\n".toList)
          true 0 [] [] [] []) :=
  ⟨Or.inl (by decide),
    (PrintMessage_second_pass_ranges rangedMessage [] 0 [] [] [] []
      (Or.inl (by decide))).1.trans rfl⟩

/-! ## The order of the dangling blocks -/

theorem danglingLoopNodes_registry (keys : List Str) (em : List (Str × List FieldDescriptor)) :
    (danglingLoopNodes keys em).2 = keys.foldl mapErase em := by
  induction keys generalizing em with
  | nil => rfl
  | cons k ks ih =>
    simp only [danglingLoopNodes, List.foldl_cons, mapErase_mapTouch]
    exact ih _

theorem mem_foldl_mapErase (keys : List Str) (em : List (Str × List FieldDescriptor))
    (e : Str × List FieldDescriptor) (h : e ∈ keys.foldl mapErase em) : e ∈ em ∧ e.1 ∉ keys := by
  induction keys generalizing em with
  | nil => exact ⟨h, List.not_mem_nil _⟩
  | cons k ks ih =>
    obtain ⟨h1, h2⟩ := ih _ h
    simp only [mapErase, List.mem_filter, Bool.not_eq_true', beq_eq_false_iff_ne, ne_eq] at h1
    refine ⟨h1.1, ?_⟩
    intro hm
    rcases List.mem_cons.mp hm with h3 | h3
    · exact h1.2 h3
    · exact h2 h3

theorem danglingLoopNodes_blocks (keys : List Str) (em : List (Str × List FieldDescriptor))
    (h : keys.Nodup) :
    (danglingLoopNodes keys em).1
      = keys.map (fun k =>
          Node.block RubyBlockType.RUBY_CLASS RubyClassType.CLASS_TYPE_NONE (Constantize k true)
            ((mapGet em k).map Node.field)) := by
  induction keys generalizing em with
  | nil => rfl
  | cons k ks ih =>
    obtain ⟨hk, hks⟩ := List.nodup_cons.mp h
    simp only [danglingLoopNodes, List.map_cons, mapErase_mapTouch, ih _ hks]
    congr 1
    apply List.map_congr_left
    intro k2 hk2
    rw [mapGet_mapErase_ne em k k2 (fun e => hk (e ▸ hk2))]

/-- The flush as a build runs it in which the loop goes on to the keys held at its start:
when the registry holds buckets at the end of the file, `PrintDanglingExtendedMessages`
writes the header comment `Extended Messages` and then one block per key of the registry:
the header `class <Constantize(key)>`, the field lines of the bucket of that key in recorded
order, and `end`.  The blocks come in the iteration order of the map, which is a
permutation of the order in which the keys were first recorded; afterwards the registry is
empty. -/
theorem PrintDanglingExtendedMessages_blocks (H : HashOrder) (out : Str) (n : Nat)
    (em : List (Str × List FieldDescriptor)) (fn : Str) (ns : List Str) (fm : Str)
    (hkeys : (em.map Prod.fst).Nodup) :
    PrintDanglingExtendedMessages H (stateOf out true n em fn ns fm)
      = Except.ok (stateOf
          (out ++ renderLines
            (if em.length > 0 then
              [spaces n ++ "##".toList, spaces n ++ "# Extended Messages".toList,
                spaces n ++ "#".toList]
                ++ (H.order (em.map Prod.fst)).flatMap (fun k =>
                    [spaces n ++ ("class ".toList ++ Constantize k true)]
                      ++ (mapGet em k).map (fun f => spaces (n + 1) ++ fieldLine f)
                      ++ [spaces n ++ "end".toList])
            else []))
          true n [] fn ns fm)
    ∧ (H.order (em.map Prod.fst)).Perm (em.map Prod.fst) := by
  refine ⟨?_, H.perm _⟩
  rw [PrintDanglingExtendedMessages_stateOf]
  have hnd : (H.order (em.map Prod.fst)).Nodup := (H.perm _).nodup_iff.mpr hkeys
  by_cases h : em.length > 0
  · have hreg : (danglingLoopNodes (H.order (em.map Prod.fst)) em).2 = [] := by
      rw [danglingLoopNodes_registry]
      apply List.eq_nil_iff_forall_not_mem.mpr
      intro e he
      obtain ⟨h1, h2⟩ := mem_foldl_mapErase _ _ e he
      exact h2 ((H.perm _).mem_iff.mpr (List.mem_map_of_mem Prod.fst h1))
    have hlines : ∀ ks : List Str,
        Node.linesList n (ks.map (fun k =>
          Node.block RubyBlockType.RUBY_CLASS RubyClassType.CLASS_TYPE_NONE
            (Constantize k true) ((mapGet em k).map Node.field)))
        = ks.flatMap (fun k =>
            [spaces n ++ ("class ".toList ++ Constantize k true)]
              ++ (mapGet em k).map (fun f => spaces (n + 1) ++ fieldLine f)
              ++ [spaces n ++ "end".toList]) := by
      intro ks
      induction ks with
      | nil => rfl
      | cons k ks ih =>
        simp only [List.map_cons, List.flatMap_cons, Node.linesList, Node.lines, ih,
          linesList_map_field, blockLine]
        simp
    simp only [danglingNodes, h, if_true, hreg, danglingLoopNodes_blocks _ _ hnd, render,
      linesList_append, hlines]
    have hc : Node.linesList n (commentNodes "Extended Messages".toList true)
        = [spaces n ++ "##".toList, spaces n ++ "# Extended Messages".toList,
            spaces n ++ "#".toList] := by
      simp [commentNodes, Node.linesList, Node.lines, Keyword.text]
    rw [hc]
  · have he : em = [] := by
      cases em with
      | nil => rfl
      | cons x xs => simp at h
    subst he
    simp [danglingNodes, render, Node.linesList, renderLines]

theorem PrintDanglingExtendedMessages_blocks_witness :
    (([("x.A".toList, [firstDanglingExtension]), ("x.B".toList, [secondDanglingExtension])]
        : List (Str × List FieldDescriptor)).map Prod.fst).Nodup
    ∧ PrintDanglingExtendedMessages HashOrder.reversed
        (stateOf [] true 0
          [("x.A".toList, [firstDanglingExtension]), ("x.B".toList, [secondDanglingExtension])]
          [] [] [])
      = Except.ok (stateOf
          ("##\n# Extended Messages\n#\n".toList
            ++ "class ::x::B\n".toList
            ++ "  optional ::Protobuf::Field::Int32Field, :second, 100, :extension => true\n".toList
            ++ "end\n".toList
            ++ "class ::x::A\n".toList
            ++ "  optional ::Protobuf::Field::Int32Field, :first, 100, :extension => true\n".toList
            ++ "end\n".toList)
          true 0 [] [] [] []) :=
  ⟨by decide,
    (PrintDanglingExtendedMessages_blocks HashOrder.reversed [] 0
      [("x.A".toList, [firstDanglingExtension]), ("x.B".toList, [secondDanglingExtension])]
      [] [] [] (by decide)).1.trans rfl⟩

/-! ## The lines requiring libraries -/

theorem requireFreeList_append (a b : List Node) :
    Node.requireFreeList (a ++ b) = (Node.requireFreeList a && Node.requireFreeList b) := by
  induction a with
  | nil => simp [Node.requireFreeList]
  | cons x xs ih => simp [Node.requireFreeList, ih, Bool.and_assoc]

theorem requireFreeList_flatMap {α : Type} (f : α → List Node) (xs : List α)
    (h : ∀ x ∈ xs, Node.requireFreeList (f x) = true) :
    Node.requireFreeList (xs.flatMap f) = true := by
  induction xs with
  | nil => rfl
  | cons x xs ih =>
    rw [List.flatMap_cons, requireFreeList_append, h x (List.mem_cons_self _ _),
      ih (fun y hy => h y (List.mem_cons_of_mem _ hy))]
    rfl

theorem requireFreeList_map {α : Type} (f : α → Node) (xs : List α)
    (h : ∀ x ∈ xs, Node.requireFree (f x) = true) : Node.requireFreeList (xs.map f) = true := by
  induction xs with
  | nil => rfl
  | cons x xs ih =>
    simp only [List.map_cons, Node.requireFreeList, h x (List.mem_cons_self _ _),
      ih (fun y hy => h y (List.mem_cons_of_mem _ hy)), Bool.and_self]

theorem commentNodes_requireFree (comment : Str) (b : Bool) :
    Node.requireFreeList (commentNodes comment b) = true := by
  cases b <;> rfl

theorem enumNodes_requireFree (e : EnumDescriptor) :
    Node.requireFreeList (enumNodes e) = true := by
  have hv : Node.requireFreeList (e.values.map enumValueNode) = true :=
    requireFreeList_map _ _ (fun _ _ => rfl)
  simp [enumNodes, Node.requireFreeList, Node.requireFree, hv]

mutual

theorem shellNodes_requireFree : ∀ (d : Descriptor),
    Node.requireFreeList (shellNodes d) = true
  | .mk name full_name fields nested enums exts ranges => by
    have h1 := requireFreeList_flatMap enumNodes enums (fun e _ => enumNodes_requireFree e)
    have h2 := shellNodesList_requireFree nested
    simp only [shellNodes]
    split
    · simp [Node.requireFreeList, Node.requireFree, requireFreeList_append, h1, h2]
    · simp [Node.requireFreeList, Node.requireFree]

theorem shellNodesList_requireFree : ∀ (ds : List Descriptor),
    Node.requireFreeList (shellNodesList ds) = true
  | [] => rfl
  | d :: ds => by
    simp [shellNodesList, requireFreeList_append, shellNodes_requireFree d,
      shellNodesList_requireFree ds]

end

theorem rangesNodes_requireFree (ranges : List ExtensionRange) :
    Node.requireFreeList (rangesNodes ranges) = true := by
  have hm : Node.requireFreeList (ranges.map rangeNode) = true :=
    requireFreeList_map _ _ (fun _ _ => rfl)
  unfold rangesNodes
  split
  · simp [Node.requireFreeList, Node.requireFree, requireFreeList_append,
      commentNodes_requireFree, hm]
  · rfl

theorem fieldNodes_requireFree (fields : List FieldDescriptor) :
    Node.requireFreeList (fields.map Node.field) = true :=
  requireFreeList_map _ _ (fun _ _ => rfl)

mutual

theorem bodyNodes_requireFree : ∀ (d : Descriptor) (em : List (Str × List FieldDescriptor)),
    Node.requireFreeList (bodyNodes d em).1 = true
  | .mk name full_name fields nested enums exts ranges, em => by
    have hn := bodyNodesList_requireFree nested em
    have hx : Node.requireFreeList
        (if hasBucket (bodyNodesList nested em).2 full_name = true then
          (mapGet (bodyNodesList nested em).2 full_name).map Node.field
        else []) = true := by
      split
      · exact fieldNodes_requireFree _
      · rfl
    simp only [bodyNodes]
    split
    · simp [Node.requireFreeList, Node.requireFree, requireFreeList_append, hn,
        fieldNodes_requireFree, rangesNodes_requireFree, hx]
    · split
      · simp [Node.requireFreeList, Node.requireFree, hn]
      · rfl

theorem bodyNodesList_requireFree : ∀ (ds : List Descriptor)
    (em : List (Str × List FieldDescriptor)),
    Node.requireFreeList (bodyNodesList ds em).1 = true
  | [], _ => rfl
  | d :: ds, em => by
    simp [bodyNodesList, requireFreeList_append, bodyNodes_requireFree d em,
      bodyNodesList_requireFree ds (bodyNodes d em).2]

end

theorem danglingLoopNodes_requireFree (keys : List Str)
    (em : List (Str × List FieldDescriptor)) :
    Node.requireFreeList (danglingLoopNodes keys em).1 = true := by
  induction keys generalizing em with
  | nil => rfl
  | cons k ks ih =>
    simp [danglingLoopNodes, Node.requireFreeList, Node.requireFree, fieldNodes_requireFree,
      ih]

theorem danglingNodes_requireFree (H : HashOrder) (em : List (Str × List FieldDescriptor)) :
    Node.requireFreeList (danglingNodes H em).1 = true := by
  unfold danglingNodes
  split
  · simp [requireFreeList_append, commentNodes_requireFree, danglingLoopNodes_requireFree]
  · rfl

theorem servicesNodes_requireFree (file : FileDescriptor) :
    Node.requireFreeList (servicesNodes file) = true := by
  have hs : ∀ s : ServiceDescriptor, Node.requireFreeList (serviceNodes s) = true := by
    intro s
    have hm : Node.requireFreeList (s.methods.map methodNode) = true :=
      requireFreeList_map _ _ (fun _ _ => rfl)
    simp [serviceNodes, Node.requireFreeList, Node.requireFree, hm]
  unfold servicesNodes
  split
  · simp [requireFreeList_append, commentNodes_requireFree,
      requireFreeList_flatMap serviceNodes _ (fun s _ => hs s)]
  · rfl

theorem declarationNodes_requireFree (file : FileDescriptor) :
    Node.requireFreeList (declarationNodes file) = true := by
  have h1 : Node.requireFreeList (enumsFileNodes file) = true := by
    unfold enumsFileNodes
    split
    · simp [requireFreeList_append, commentNodes_requireFree,
        requireFreeList_flatMap enumNodes _ (fun e _ => enumNodes_requireFree e)]
    · rfl
  have h2 : Node.requireFreeList (shellsFileNodes file) = true := by
    unfold shellsFileNodes
    split
    · simp [requireFreeList_append, commentNodes_requireFree, shellNodesList_requireFree]
    · rfl
  simp [declarationNodes, requireFreeList_append, h1, h2, Node.requireFreeList,
    Node.requireFree]

theorem definitionNodes_requireFree (H : HashOrder) (file : FileDescriptor) :
    Node.requireFreeList (definitionNodes H file) = true := by
  have h1 : Node.requireFreeList (bodiesFileNodes file).1 = true := by
    unfold bodiesFileNodes
    split
    · simp [requireFreeList_append, commentNodes_requireFree, bodyNodesList_requireFree]
    · rfl
  simp [definitionNodes, requireFreeList_append, h1, danglingNodes_requireFree,
    servicesNodes_requireFree]

theorem wrapModules_requireFree (segs : List Str) (inner : List Node)
    (h : Node.requireFreeList inner = true) :
    Node.requireFreeList (wrapModules segs inner) = true := by
  induction segs with
  | nil => exact h
  | cons s ss ih => simp [wrapModules, Node.requireFreeList, Node.requireFree, ih]

theorem block_header_not_require (n : Nat) (bt : RubyBlockType) (ct : RubyClassType)
    (name : Str) (b : Bool) :
    isRequireLine (spaces n ++ blockLine bt ct name b) = false := by
  cases bt <;>
    simp [isRequireLine, blockLine, stripIndent_spaces_cons, List.isPrefixOf]

mutual

theorem no_require_lines_node : ∀ (x : Node) (n : Nat), x.requireFree = true →
    ∀ l ∈ Node.lines n x, isRequireLine l = false
  | .blank, n, _ => by
    intro l hl
    rw [Node.lines, List.mem_singleton] at hl
    rw [hl]
    rfl
  | .text kw r, n, h => by
    intro l hl
    rw [Node.lines, List.mem_singleton] at hl
    rw [hl]
    cases kw <;>
      first
      | (simp [isRequireLine, Keyword.text, stripIndent_spaces_cons, List.isPrefixOf]; done)
      | (simp [Node.requireFree] at h)
  | .field f, n, _ => by
    intro l hl
    rw [Node.lines, List.mem_singleton] at hl
    rw [hl]
    rcases fieldPresence_cases f with h | h | h <;>
      simp [isRequireLine, fieldLine, h, stripIndent_spaces_cons, List.isPrefixOf]
  | .shell name, n, _ => by
    intro l hl
    rw [Node.lines, List.mem_singleton] at hl
    rw [hl]
    exact block_header_not_require n _ _ name true
  | .block bt ct name body, n, h => by
    simp only [Node.requireFree] at h
    have ih := no_require_lines_nodes body (n + 1) h
    intro l hl
    simp only [Node.lines, List.mem_cons, List.mem_append, List.not_mem_nil, or_false] at hl
    rcases hl with e | hl | e
    · rw [e]
      exact block_header_not_require n bt ct name false
    · exact ih l hl
    · rw [e]
      simp [isRequireLine, stripIndent_spaces_cons, List.isPrefixOf]

theorem no_require_lines_nodes : ∀ (xs : List Node) (n : Nat),
    Node.requireFreeList xs = true → ∀ l ∈ Node.linesList n xs, isRequireLine l = false
  | [], n, _ => by simp [Node.linesList]
  | x :: xs, n, h => by
    simp only [Node.requireFreeList, Bool.and_eq_true] at h
    intro l hl
    simp only [Node.linesList, List.mem_append] at hl
    rcases hl with hl | hl
    · exact no_require_lines_node x n h.1 l hl
    · exact no_require_lines_nodes xs n h.2 l hl

end

theorem linesList_preludeNodes (file : FileDescriptor) :
    Node.linesList 0 (preludeNodes file) = preludeLines file := by
  have hs : spaces 0 = [] := rfl
  have hg : Node.linesList 0 (genericRequireNodes file)
      = (if file.message_types.length > 0 then ["require 'protobuf/message'".toList] else [])
        ++ (if file.services.length > 0 then ["require 'protobuf/rpc/service'".toList]
            else []) := by
    unfold genericRequireNodes
    rw [linesList_append]
    congr 1
    · split <;> rfl
    · split <;> rfl
  have hi : Node.linesList 0 (importNodes file)
      = (if file.dependencies.length > 0 then
          ["".toList, "##".toList, "# Imports".toList, "#".toList]
            ++ file.dependencies.map (fun dependency =>
                "require '".toList ++ CreateRubyFileName dependency true ++ "'".toList)
        else []) := by
    unfold importNodes
    split
    · have hm := linesList_map_text Keyword.require
        (fun dependency : Str => CreateRubyFileName dependency true ++ "'".toList) 0
        file.dependencies
      have e : ∀ xs : List Node,
          Node.linesList 0 (Node.blank :: (commentNodes "Imports".toList true ++ xs))
          = ["".toList, "##".toList, "# Imports".toList, "#".toList]
              ++ Node.linesList 0 xs := fun _ => rfl
      rw [e, hm]
      simp [Keyword.text, hs]
    · rfl
  have hc : Node.linesList 0 (commentNodes "This file is auto-generated. DO NOT EDIT!".toList
      true) = ["##".toList, "# This file is auto-generated. DO NOT EDIT!".toList,
        "#".toList] := rfl
  simp only [preludeNodes, preludeLines, linesList_append, hc, hg, hi, List.append_assoc]
  rfl

theorem preludeLines_not_block (file : FileDescriptor) :
    ∀ l ∈ preludeLines file, isModuleLine l = false ∧ isClassLine l = false := by
  intro l hl
  simp only [preludeLines, List.mem_append, List.mem_cons, List.mem_singleton,
    List.not_mem_nil, or_false, List.mem_map] at hl
  have hreq : ∀ t : Str, isModuleLine ("require '".toList ++ t) = false
      ∧ isClassLine ("require '".toList ++ t) = false := by
    intro t
    constructor <;> rfl
  rcases hl with (((hl | hl) | hl) | hl) | hl
  · rcases hl with hl | hl | hl <;> (subst hl; exact ⟨rfl, rfl⟩)
  · split at hl
    · rw [List.mem_singleton] at hl
      subst hl
      exact ⟨rfl, rfl⟩
    · exact absurd hl (List.not_mem_nil _)
  · split at hl
    · rw [List.mem_singleton] at hl
      subst hl
      exact ⟨rfl, rfl⟩
    · exact absurd hl (List.not_mem_nil _)
  · split at hl
    · simp only [List.mem_append, List.mem_cons, List.not_mem_nil, or_false,
        List.mem_map] at hl
      rcases hl with (hl | hl | hl | hl) | ⟨d, _, hl⟩
      · subst hl; exact ⟨rfl, rfl⟩
      · subst hl; exact ⟨rfl, rfl⟩
      · subst hl; exact ⟨rfl, rfl⟩
      · subst hl; exact ⟨rfl, rfl⟩
      · subst hl
        rw [List.append_assoc]
        exact hreq _
    · exact absurd hl (List.not_mem_nil _)
  · subst hl
    exact ⟨rfl, rfl⟩

/-- C18: for a schema file whose names are identifiers and whose default texts hold no
line feed, the lines of the generated text are the header comment, the line
`require 'protobuf/message'` exactly when the file declares a top-level message, the line
`require 'protobuf/rpc/service'` exactly when it declares a service, then, when the file has
dependencies, an empty line, the `Imports` header and one line
`require '<CreateRubyFileName(dependency, true)>'` per dependency in declared order, then an
empty line, and then the namespace modules with all they contain.  None of the lines in
front of the namespace modules is a `module` or `class` line, and no line from the
namespace modules on starts with `require '`. -/
theorem Generate_require_lines (H : HashOrder) (file : FileDescriptor)
    (h : plainFile file = true) :
    linesOf (generatedText H file)
      = preludeLines file
        ++ Node.linesList 0 (wrapModules (SplitStringUsing file.package '.' [])
            (declarationNodes file ++ definitionNodes H file))
    ∧ (∀ l ∈ preludeLines file, isModuleLine l = false ∧ isClassLine l = false)
    ∧ (∀ l ∈ Node.linesList 0 (wrapModules (SplitStringUsing file.package '.' [])
          (declarationNodes file ++ definitionNodes H file)), isRequireLine l = false) := by
  refine ⟨?_, preludeLines_not_block file, ?_⟩
  · rw [linesOf_generatedText H file h, ← fileLines_eq, fileNodes, linesList_append,
      linesList_preludeNodes]
  · apply no_require_lines_nodes
    apply wrapModules_requireFree
    rw [requireFreeList_append, declarationNodes_requireFree, definitionNodes_requireFree]
    rfl

theorem Generate_require_lines_witness :
    plainFile sampleFile = true
    ∧ preludeLines sampleFile
      = ["##".toList, "# This file is auto-generated. DO NOT EDIT!".toList, "#".toList,
          "require 'protobuf/message'".toList, "require 'protobuf/rpc/service'".toList,
          "".toList, "##".toList, "# Imports".toList, "#".toList,
          "require 'base.pb'".toList, "".toList]
    ∧ linesOf (generatedText HashOrder.insertion sampleFile)
      = preludeLines sampleFile
        ++ Node.linesList 0 (wrapModules (SplitStringUsing sampleFile.package '.' [])
            (declarationNodes sampleFile ++ definitionNodes HashOrder.insertion sampleFile)) :=
  ⟨by decide, by decide,
    (Generate_require_lines HashOrder.insertion sampleFile (by decide)).1⟩

/-- C18, counterexample: `runtimeNamedFile` declares no message, and its import of a file
named `protobuf/message` puts the line `require 'protobuf/message'` into the generated
text. -/
theorem require_message_line_without_message :
    runtimeNamedFile.message_types = []
    ∧ "require 'protobuf/message'".toList
        ∈ linesOf (generatedText HashOrder.insertion runtimeNamedFile) := by
  refine ⟨rfl, ?_⟩
  rw [generatedText_eq]
  decide

/-! ## The printer on a sink with room for a number of bytes -/

theorem apply_failed (p : Printer) (x : Printer.Piece) (h : p.failed_ = true) :
    (p.apply x).failed_ = true ∧ (p.apply x).output = p.output := by
  cases x with
  | raw d => simp [Printer.apply, Printer.WriteRaw, h]
  | eol => exact ⟨h, rfl⟩

theorem foldl_apply_failed (ps : List Printer.Piece) (p : Printer) (h : p.failed_ = true) :
    (ps.foldl Printer.apply p).failed_ = true ∧ (ps.foldl Printer.apply p).output = p.output := by
  induction ps generalizing p with
  | nil => exact ⟨h, rfl⟩
  | cons x xs ih =>
    obtain ⟨h1, h2⟩ := apply_failed p x h
    obtain ⟨h3, h4⟩ := ih (p.apply x) h1
    exact ⟨h3, h4.trans h2⟩

theorem apply_raw_on (r : Nat) (out indent d : Str) (st : Bool) (hd : d ≠ []) :
    (((if st then indent else []) ++ d).length ≤ r →
      (printerOn r out indent st).apply (Printer.Piece.raw d)
        = printerOn (r - ((if st then indent else []) ++ d).length)
            (out ++ ((if st then indent else []) ++ d)) indent false)
    ∧ (r < ((if st then indent else []) ++ d).length →
      ((printerOn r out indent st).apply (Printer.Piece.raw d)).failed_ = true
      ∧ ((printerOn r out indent st).apply (Printer.Piece.raw d)).output
          = out ++ ((if st then indent else []) ++ d).take r) := by
  cases st with
  | false =>
    simp only [Bool.false_eq_true, if_false, List.nil_append]
    constructor
    · intro h
      simp [Printer.apply, Printer.WriteRaw, Printer.sinkWrite, printerOn, hd, h]
    · intro h
      have h2 : ¬ d.length ≤ r := by omega
      simp [Printer.apply, Printer.WriteRaw, Printer.sinkWrite, printerOn, hd, h2]
  | true =>
    simp only [if_true, List.length_append]
    constructor
    · intro h
      have h1 : indent.length ≤ r := by omega
      have h2 : d.length ≤ r - indent.length := by omega
      simp only [Printer.apply, Printer.WriteRaw, Printer.sinkWrite, printerOn, hd,
        Bool.false_eq_true, if_false, if_true, h1, h2, List.append_assoc]
      congr 2
      omega
    · intro h
      by_cases h1 : indent.length ≤ r
      · have h2 : ¬ d.length ≤ r - indent.length := by omega
        simp only [Printer.apply, Printer.WriteRaw, Printer.sinkWrite, printerOn, hd,
          Bool.false_eq_true, if_false, if_true, h1, h2, List.append_assoc, true_and]
        rw [List.take_append_eq_append_take, List.take_of_length_le h1]
      · simp only [Printer.apply, Printer.WriteRaw, Printer.sinkWrite, printerOn, hd,
          Bool.false_eq_true, if_false, if_true, h1, true_and]
        rw [List.take_append_eq_append_take]
        have h3 : r - indent.length = 0 := by omega
        rw [h3, List.take_zero, List.append_nil]

theorem foldl_apply_on (ps : List Printer.Piece) (r : Nat) (out indent : Str) (st : Bool) :
    ((expand indent st ps).1.length ≤ r →
      ps.foldl Printer.apply (printerOn r out indent st)
        = printerOn (r - (expand indent st ps).1.length) (out ++ (expand indent st ps).1)
            indent (expand indent st ps).2)
    ∧ (r < (expand indent st ps).1.length →
      (ps.foldl Printer.apply (printerOn r out indent st)).failed_ = true
      ∧ (ps.foldl Printer.apply (printerOn r out indent st)).output
          = out ++ (expand indent st ps).1.take r) := by
  induction ps generalizing r out st with
  | nil => simp [expand]
  | cons p ps ih =>
    cases p with
    | eol =>
      have h : (printerOn r out indent st).apply Printer.Piece.eol = printerOn r out indent true :=
        rfl
      simp only [List.foldl, h, expand]
      exact ih r out true
    | raw d =>
      by_cases hd : d = []
      · subst hd
        have h : (printerOn r out indent st).apply (Printer.Piece.raw [])
            = printerOn r out indent st := by
          simp [Printer.apply, Printer.WriteRaw, printerOn]
        simp only [List.foldl, h, expand, if_true]
        exact ih r out st
      · obtain ⟨a1, a2⟩ := apply_raw_on r out indent d st hd
        simp only [List.foldl, expand, hd, if_false, List.length_append] at a1 a2 ⊢
        constructor
        · intro h
          have h1 : (if st = true then indent else []).length + d.length ≤ r := by omega
          rw [a1 h1]
          have h2 := (ih (r - ((if st = true then indent else []).length + d.length))
            (out ++ ((if st = true then indent else []) ++ d)) false).1 (by omega)
          rw [h2]
          congr 1
          · omega
          · simp only [List.append_assoc]
        · intro h
          by_cases h1 : (if st = true then indent else []).length + d.length ≤ r
          · rw [a1 h1]
            have h2 := (ih (r - ((if st = true then indent else []).length + d.length))
              (out ++ ((if st = true then indent else []) ++ d)) false).2 (by omega)
            refine ⟨h2.1, ?_⟩
            have hX : ((if st = true then indent else []) ++ d).length ≤ r := by
              simpa using h1
            have e1 : List.take r ((if st = true then indent else [])
                  ++ d ++ (expand indent false ps).1)
                = ((if st = true then indent else []) ++ d)
                  ++ List.take (r - ((if st = true then indent else []).length + d.length))
                      (expand indent false ps).1 := by
              rw [List.take_append_eq_append_take, List.take_of_length_le hX,
                List.length_append]
            rw [h2.2, e1]
            simp only [List.append_assoc]
          · have h3 := a2 (by omega)
            obtain ⟨f1, f2⟩ := foldl_apply_failed ps _ h3.1
            refine ⟨f1, ?_⟩
            have h4 : r - ((if st = true then indent else []) ++ d).length = 0 := by
              simp only [List.length_append]
              omega
            have e1 : List.take r ((if st = true then indent else [])
                  ++ d ++ (expand indent false ps).1)
                = List.take r ((if st = true then indent else []) ++ d) := by
              rw [List.take_append_eq_append_take, h4, List.take_zero, List.append_nil]
            rw [f2, h3.2, e1]

theorem Printer_Outdent_on (r : Nat) (out : Str) (st : Bool) (n : Nat) :
    Printer.Outdent (printerOn r out (spaces (n + 1)) st) = printerOn r out (spaces n) st := by
  have h : spaces (n + 1) ≠ [] := by simp [spaces_eq_nil]
  simp only [Printer.Outdent, printerOn, if_neg h]
  congr 1
  simp [spaces]
  omega

theorem Printer_Indent_on (r : Nat) (out : Str) (st : Bool) (n : Nat) :
    Printer.Indent (printerOn r out (spaces n) st) = printerOn r out (spaces (n + 1)) st := by
  simp [Printer.Indent, printerOn, spaces_succ]

theorem iterate_Outdent_on (r : Nat) (out : Str) (st : Bool) (n : Nat) :
    iterate Printer.Outdent n (printerOn r out (spaces n) st) = printerOn r out [] st := by
  induction n with
  | zero => simp [iterate, spaces]
  | succ k ih => simp [iterate, Printer_Outdent_on, ih]

theorem iterate_Indent_on (r : Nat) (out : Str) (st : Bool) (n k : Nat) :
    iterate Printer.Indent n (printerOn r out (spaces k) st)
      = printerOn r out (spaces (k + n)) st := by
  induction n generalizing k with
  | zero => simp [iterate]
  | succ m ih =>
    simp only [iterate, Printer_Indent_on, ih]
    congr 2
    omega

theorem Fails_error (e : RubyGenerator) (output why fn : Str) (h1 : e.failed_message = why)
    (h2 : e.printer_.output = output) (h3 : e.printer_.failed_ = true) (h4 : e.filename = fn) :
    Fails (Except.error e) output why fn :=
  ⟨e, rfl, h1, h2, h3, h4⟩

/-- A print and its validation, followed by `K`, on a sink with room for `r` bytes. -/
theorem printValidate_on (vars : List (Str × Str)) (text msg : Str) (K : Action) (r : Nat)
    (out : Str) (st : Bool) (n : Nat) (em : List (Str × List FieldDescriptor)) (fn : Str)
    (ns : List Str) (fm : Str) :
    ((expand (spaces n) st (Printer.pieces vars [] none text)).1.length ≤ r →
      andThen (print vars text) (andThen (ValidatePrinter msg) K)
          (stateOn r out st n em fn ns fm)
        = K (stateOn (r - (expand (spaces n) st (Printer.pieces vars [] none text)).1.length)
            (out ++ (expand (spaces n) st (Printer.pieces vars [] none text)).1)
            (expand (spaces n) st (Printer.pieces vars [] none text)).2 n em fn ns fm))
    ∧ (r < (expand (spaces n) st (Printer.pieces vars [] none text)).1.length →
      Fails (andThen (print vars text) (andThen (ValidatePrinter msg) K)
          (stateOn r out st n em fn ns fm))
        (out ++ (expand (spaces n) st (Printer.pieces vars [] none text)).1.take r) msg fn) := by
  obtain ⟨a1, a2⟩ := foldl_apply_on (Printer.pieces vars [] none text) r out (spaces n) st
  constructor
  · intro h
    simp only [andThen, print, stateOn, Printer.Print, ValidatePrinter]
    rw [a1 h]
    simp only [printerOn, Bool.false_eq_true, if_false]
  · intro h
    obtain ⟨f1, f2⟩ := a2 h
    simp only [andThen, print, stateOn, Printer.Print, ValidatePrinter, f1, if_true]
    exact Fails_error _ _ _ _ rfl f2 f1 rfl

/-- A print and its validation alone, on a sink with room for `r` bytes. -/
theorem printValidate_last_on (vars : List (Str × Str)) (text msg : Str) (r : Nat)
    (out : Str) (st : Bool) (n : Nat) (em : List (Str × List FieldDescriptor)) (fn : Str)
    (ns : List Str) (fm : Str) :
    ((expand (spaces n) st (Printer.pieces vars [] none text)).1.length ≤ r →
      andThen (print vars text) (ValidatePrinter msg) (stateOn r out st n em fn ns fm)
        = Except.ok
          (stateOn (r - (expand (spaces n) st (Printer.pieces vars [] none text)).1.length)
            (out ++ (expand (spaces n) st (Printer.pieces vars [] none text)).1)
            (expand (spaces n) st (Printer.pieces vars [] none text)).2 n em fn ns fm))
    ∧ (r < (expand (spaces n) st (Printer.pieces vars [] none text)).1.length →
      Fails (andThen (print vars text) (ValidatePrinter msg) (stateOn r out st n em fn ns fm))
        (out ++ (expand (spaces n) st (Printer.pieces vars [] none text)).1.take r) msg fn) := by
  obtain ⟨a1, a2⟩ := foldl_apply_on (Printer.pieces vars [] none text) r out (spaces n) st
  constructor
  · intro h
    simp only [andThen, print, stateOn, Printer.Print, ValidatePrinter]
    rw [a1 h]
    simp only [printerOn, Bool.false_eq_true, if_false]
  · intro h
    obtain ⟨f1, f2⟩ := a2 h
    simp only [andThen, print, stateOn, Printer.Print, ValidatePrinter, f1, if_true]
    exact Fails_error _ _ _ _ rfl f2 f1 rfl

theorem PrintNewLine_on (r : Nat) (out : Str) (st : Bool) (n : Nat)
    (em : List (Str × List FieldDescriptor)) (fn : Str) (ns : List Str) (fm : Str) :
    (1 ≤ r → PrintNewLine (stateOn r out st n em fn ns fm)
        = Except.ok (stateOn (r - 1) (out ++ ['\n']) true n em fn ns fm))
    ∧ (r = 0 → Fails (PrintNewLine (stateOn r out st n em fn ns fm)) out
        "Failed printing newline".toList fn) := by
  have hp : Printer.pieces [] [] none "\n".toList
      = [Printer.Piece.raw ['\n'], Printer.Piece.eol, Printer.Piece.raw []] := by decide
  have hex : ∀ b, expand [] b [Printer.Piece.raw ['\n'], Printer.Piece.eol, Printer.Piece.raw []]
      = (['\n'], true) := by
    intro b
    cases b <;> simp [expand]
  obtain ⟨a1, a2⟩ := foldl_apply_on
    [Printer.Piece.raw ['\n'], Printer.Piece.eol, Printer.Piece.raw []] r out [] st
  rw [hex] at a1 a2
  have h0 := iterate_Indent_on (r - 1) (out ++ ['\n']) true n 0
  have hs0 : spaces 0 = [] := rfl
  rw [hs0, Nat.zero_add] at h0
  constructor
  · intro h
    have a := a1 (by simpa using h)
    simp only [PrintNewLine, PrintNewLineN, stateOn, iterate_Outdent_on, List.replicate,
      forEach, andThen, print, Printer.Print, hp, ValidatePrinter]
    rw [a]
    simp only [printerOn, List.length_singleton] at h0 ⊢
    simp [h0]
  · intro h
    obtain ⟨f1, f2⟩ := a2 (by simp [h])
    simp only [PrintNewLine, PrintNewLineN, stateOn, iterate_Outdent_on, List.replicate,
      forEach, andThen, print, Printer.Print, hp, ValidatePrinter, f1, if_true]
    refine Fails_error _ _ _ _ rfl ?_ f1 rfl
    rw [f2, h]
    simp

/-! ## Carrying out emission steps -/

theorem stepsText_append (a b : List (Str × Str)) :
    stepsText (a ++ b) = stepsText a ++ stepsText b := by
  induction a with
  | nil => rfl
  | cons s ss ih => simp [stepsText, ih]

theorem failingReason_append (a b : List (Str × Str)) (r : Nat) :
    failingReason (a ++ b) r
      = if (stepsText a).length ≤ r then failingReason b (r - (stepsText a).length)
        else failingReason a r := by
  induction a generalizing r with
  | nil => simp [stepsText, failingReason]
  | cons s ss ih =>
    show (if s.1.length ≤ r then failingReason (ss ++ b) (r - s.1.length) else s.2)
      = if (s.1 ++ stepsText ss).length ≤ r then
          failingReason b (r - (s.1 ++ stepsText ss).length)
        else (if s.1.length ≤ r then failingReason ss (r - s.1.length) else s.2)
    rw [List.length_append]
    by_cases h1 : s.1.length ≤ r
    · rw [if_pos h1, if_pos h1, ih]
      by_cases h2 : (stepsText ss).length ≤ r - s.1.length
      · have h3 : s.1.length + (stepsText ss).length ≤ r := by omega
        rw [if_pos h2, if_pos h3]
        congr 1
        omega
      · have h3 : ¬ s.1.length + (stepsText ss).length ≤ r := by omega
        rw [if_neg h2, if_neg h3]
    · have h3 : ¬ s.1.length + (stepsText ss).length ≤ r := by omega
      rw [if_neg h1, if_neg h3, if_neg h1]

theorem Writes_skip (n : Nat) (em : List (Str × List FieldDescriptor)) (ns : List Str) :
    Writes Except.ok n n em em ns [] := by
  intro r out fn fm
  constructor
  · intro _
    simp [stepsText]
  · intro h
    simp [stepsText] at h

theorem Writes_andThen {f k : Action} {n n1 n2 : Nat}
    {em em1 em2 : List (Str × List FieldDescriptor)} {ns : List Str} {s1 s2 : List (Str × Str)}
    (hf : Writes f n n1 em em1 ns s1) (hk : Writes k n1 n2 em1 em2 ns s2) :
    Writes (andThen f k) n n2 em em2 ns (s1 ++ s2) := by
  intro r out fn fm
  rw [stepsText_append, List.length_append]
  constructor
  · intro h
    have h1 := (hf r out fn fm).1 (by omega)
    have h2 := (hk (r - (stepsText s1).length) (out ++ stepsText s1) fn fm).1 (by omega)
    simp only [andThen, h1, h2, List.append_assoc]
    congr 2
    omega
  · intro h
    rw [failingReason_append]
    by_cases h0 : (stepsText s1).length ≤ r
    · have h1 := (hf r out fn fm).1 h0
      obtain ⟨e, he, q1, q2, q3, q4⟩ :=
        (hk (r - (stepsText s1).length) (out ++ stepsText s1) fn fm).2 (by omega)
      refine ⟨e, ?_, ?_, ?_, q3, q4⟩
      · simp only [andThen, h1, he]
      · rw [if_pos h0, q1]
      · rw [q2, List.take_append_eq_append_take, List.take_of_length_le h0, List.append_assoc]
    · obtain ⟨e, he, q1, q2, q3, q4⟩ := (hf r out fn fm).2 (by omega)
      refine ⟨e, ?_, ?_, ?_, q3, q4⟩
      · simp only [andThen, he]
      · rw [if_neg h0, q1]
      · have h4 : r - (stepsText s1).length = 0 := by omega
        rw [q2, List.take_append_eq_append_take, h4, List.take_zero, List.append_nil]

theorem Writes_forEach {α : Type} (f : α → Action) (s : α → List (Str × Str)) (n : Nat)
    (em : List (Str × List FieldDescriptor)) (ns : List Str) (xs : List α)
    (h : ∀ x ∈ xs, Writes (f x) n n em em ns (s x)) :
    Writes (forEach f xs) n n em em ns (xs.flatMap s) := by
  induction xs with
  | nil => exact Writes_skip n em ns
  | cons x xs ih =>
    have h1 := h x (List.mem_cons_self _ _)
    have h2 := ih (fun y hy => h y (List.mem_cons_of_mem _ hy))
    have h3 := Writes_andThen h1 h2
    rw [List.flatMap_cons]
    intro r out fn fm
    have e : forEach f (x :: xs) = andThen (f x) (forEach f xs) := by
      funext g
      simp only [forEach, andThen]
    rw [e]
    exact h3 r out fn fm

theorem Writes_steps {A : Action} {n n1 : Nat} {em em1 : List (Str × List FieldDescriptor)}
    {ns : List Str} {s1 s2 : List (Str × Str)} (h : Writes A n n1 em em1 ns s1)
    (e : s1 = s2) : Writes A n n1 em em1 ns s2 := e ▸ h

theorem Writes_ext {A B : Action} {n n1 : Nat} {em em1 : List (Str × List FieldDescriptor)}
    {ns : List Str} {s : List (Str × Str)} (h : Writes B n n1 em em1 ns s)
    (e : ∀ r out fn fm, A (stateOn r out true n em fn ns fm)
      = B (stateOn r out true n em fn ns fm)) : Writes A n n1 em em1 ns s := by
  intro r out fn fm
  rw [e]
  exact h r out fn fm

theorem Writes_PrintNewLine (n : Nat) (em : List (Str × List FieldDescriptor))
    (ns : List Str) : Writes PrintNewLine n n em em ns [newlineStep] := by
  intro r out fn fm
  obtain ⟨a1, a2⟩ := PrintNewLine_on r out true n em fn ns fm
  have ht : stepsText [newlineStep] = ['\n'] := rfl
  rw [ht]
  constructor
  · intro h
    exact a1 (by simpa using h)
  · intro h
    have h0 : r = 0 := by
      simp only [List.length_singleton] at h
      omega
    subst h0
    have := a2 rfl
    simpa [failingReason, newlineStep] using this

/-- A print, its validation and the line feed after it, as two emission steps. -/
theorem Writes_printLine (vars : List (Str × Str)) (text msg : Str) (n : Nat)
    (em : List (Str × List FieldDescriptor)) (ns : List Str) (x : Str)
    (hx : (expand (spaces n) true (Printer.pieces vars [] none text)).1 = x) :
    Writes (andThen (print vars text) (andThen (ValidatePrinter msg) PrintNewLine)) n n em em ns
      [(x, msg), newlineStep] := by
  intro r out fn fm
  obtain ⟨a1, a2⟩ := printValidate_on vars text msg PrintNewLine r out true n em fn ns fm
  rw [hx] at a1 a2
  have ht : stepsText [(x, msg), newlineStep] = x ++ ['\n'] := by
    simp [stepsText, newlineStep]
  rw [ht, List.length_append, List.length_singleton]
  constructor
  · intro h
    rw [a1 (by omega), (PrintNewLine_on _ _ _ _ _ _ _ _).1 (by omega)]
    have e : r - x.length - 1 = r - (x.length + 1) := by omega
    rw [e, List.append_assoc]
  · intro h
    by_cases h0 : x.length ≤ r
    · rw [a1 h0]
      have hr : r - x.length = 0 := by omega
      have := (PrintNewLine_on (r - x.length) (out ++ x)
        (expand (spaces n) true (Printer.pieces vars [] none text)).2 n em fn ns fm).2 hr
      have e1 : List.take r (x ++ ['\n']) = x := by
        rw [List.take_append_eq_append_take, List.take_of_length_le h0, hr, List.take_zero,
          List.append_nil]
      have e2 : failingReason [(x, msg), newlineStep] r = "Failed printing newline".toList := by
        simp [failingReason, h0, hr, newlineStep]
      rw [e1, e2]
      exact this
    · have := a2 (by omega)
      have e1 : List.take r (x ++ ['\n']) = List.take r x := by
        have hr : r - x.length = 0 := by omega
        rw [List.take_append_eq_append_take, hr, List.take_zero, List.append_nil]
      have e2 : failingReason [(x, msg), newlineStep] r = msg := by
        simp [failingReason, h0]
      rw [e1, e2]
      exact this

/-- A print that ends its line itself, and its validation, as one emission step. -/
theorem Writes_printOnly (vars : List (Str × Str)) (text msg : Str) (n : Nat)
    (em : List (Str × List FieldDescriptor)) (ns : List Str) (x : Str)
    (hx : (expand (spaces n) true (Printer.pieces vars [] none text)).1 = x)
    (hst : (expand (spaces n) true (Printer.pieces vars [] none text)).2 = true) :
    Writes (andThen (print vars text) (ValidatePrinter msg)) n n em em ns [(x, msg)] := by
  intro r out fn fm
  obtain ⟨a1, a2⟩ := printValidate_last_on vars text msg r out true n em fn ns fm
  rw [hx, hst] at a1
  rw [hx] at a2
  have ht : stepsText [(x, msg)] = x := by simp [stepsText]
  rw [ht]
  constructor
  · intro h
    exact a1 h
  · intro h
    have e2 : failingReason [(x, msg)] r = msg := by
      have h0 : ¬ x.length ≤ r := by omega
      simp [failingReason, h0]
    rw [e2]
    exact a2 h

theorem andThen_assoc (a b c : Action) : andThen (andThen a b) c = andThen a (andThen b c) := by
  funext g
  simp only [andThen]
  cases a g <;> rfl

theorem Writes_Indent (n : Nat) (em : List (Str × List FieldDescriptor)) (ns : List Str) :
    Writes Indent n (n + 1) em em ns [] := by
  intro r out fn fm
  constructor
  · intro _
    simp only [Indent, stateOn, Printer_Indent_on, stepsText, List.length_nil, Nat.sub_zero,
      List.append_nil]
  · intro h
    simp [stepsText] at h

theorem Writes_Outdent (n : Nat) (em : List (Str × List FieldDescriptor)) (ns : List Str) :
    Writes Outdent (n + 1) n em em ns [] := by
  intro r out fn fm
  constructor
  · intro _
    simp only [Outdent, stateOn, Printer_Outdent_on, stepsText, List.length_nil, Nat.sub_zero,
      List.append_nil]
    simp
  · intro h
    simp [stepsText] at h

theorem StoreExtensionFields_on (extensions : List FieldDescriptor) (r : Nat) (out : Str)
    (st : Bool) (n : Nat) (em : List (Str × List FieldDescriptor)) (fn : Str) (ns : List Str)
    (fm : Str) :
    StoreExtensionFields extensions (stateOn r out st n em fn ns fm)
      = Except.ok (stateOn r out st n (storeAll extensions em) fn ns fm) := by
  induction extensions generalizing em with
  | nil => rfl
  | cons x xs ih =>
    simp only [StoreExtensionFields, forEach, storeAll, List.foldl_cons] at ih ⊢
    exact ih _

theorem Writes_StoreExtensionFields (extensions : List FieldDescriptor) (n : Nat)
    (em : List (Str × List FieldDescriptor)) (ns : List Str) :
    Writes (StoreExtensionFields extensions) n n em (storeAll extensions em) ns [] := by
  intro r out fn fm
  constructor
  · intro _
    simp only [StoreExtensionFields_on, stepsText, List.length_nil, Nat.sub_zero,
      List.append_nil]
  · intro h
    simp [stepsText] at h

/-! ## The emission steps of each member function -/

theorem stepsList_append (n : Nat) (a b : List Node) :
    Node.stepsList n (a ++ b) = Node.stepsList n a ++ Node.stepsList n b := by
  induction a with
  | nil => rfl
  | cons x xs ih => simp [Node.stepsList, ih]

theorem stepsList_flatMap {α : Type} (n : Nat) (f : α → List Node) (xs : List α) :
    Node.stepsList n (xs.flatMap f) = xs.flatMap (fun x => Node.stepsList n (f x)) := by
  induction xs with
  | nil => rfl
  | cons x xs ih => simp [List.flatMap_cons, stepsList_append, ih]

theorem stepsList_map {α : Type} (n : Nat) (f : α → Node) (xs : List α) :
    Node.stepsList n (xs.map f) = xs.flatMap (fun x => Node.steps n (f x)) := by
  induction xs with
  | nil => rfl
  | cons x xs ih => simp [Node.stepsList, List.flatMap_cons, ih]

theorem stepsList_singleton (n : Nat) (x : Node) : Node.stepsList n [x] = Node.steps n x := by
  simp [Node.stepsList]

theorem Writes_PrintComment_plain (comment : Str) (n : Nat)
    (em : List (Str × List FieldDescriptor)) (ns : List Str) :
    Writes (PrintComment comment false) n n em em ns
      (Node.steps n (Node.text Keyword.comment comment)) := by
  have hp : Printer.pieces [("comment".toList, comment)] [] none "# $comment$".toList
      = [Printer.Piece.raw "# ".toList, Printer.Piece.raw comment, Printer.Piece.raw []] := rfl
  have hx : (expand (spaces n) true
      (Printer.pieces [("comment".toList, comment)] [] none "# $comment$".toList)).1
      = spaces n ++ (Keyword.comment.text ++ comment) := by
    rw [hp]
    simp [Keyword.text, expand_raw_cons, expand_raw_false, expand_nil]
  exact Writes_printLine _ _ _ n em ns _ hx

theorem Writes_PrintComment_header (comment : Str) (n : Nat)
    (em : List (Str × List FieldDescriptor)) (ns : List Str) :
    Writes (PrintComment comment true) n n em em ns (headerSteps n comment) := by
  have hp : Printer.pieces [("comment".toList, comment)] [] none "##\n# $comment$\n#".toList
      = [Printer.Piece.raw "##\n".toList, Printer.Piece.eol, Printer.Piece.raw "# ".toList,
         Printer.Piece.raw comment, Printer.Piece.raw "\n".toList, Printer.Piece.eol,
         Printer.Piece.raw "#".toList] := rfl
  have hx : (expand (spaces n) true
      (Printer.pieces [("comment".toList, comment)] [] none "##\n# $comment$\n#".toList)).1
      = spaces n ++ "##".toList ++ ['\n'] ++ (spaces n ++ ("# ".toList ++ comment)) ++ ['\n']
          ++ (spaces n ++ "#".toList) := by
    rw [hp]
    simp [expand_raw_cons, expand_raw_false, expand_nil, expand_eol]
  exact Writes_printLine _ _ _ n em ns _ hx

theorem Writes_PrintRequire (lib_name : Str) (n : Nat)
    (em : List (Str × List FieldDescriptor)) (ns : List Str) :
    Writes (PrintRequire lib_name) n n em em ns
      (Node.steps n (Node.text Keyword.require (lib_name ++ "'".toList))) := by
  have hp : Printer.pieces [("lib".toList, lib_name)] [] none "require '$lib$'\n".toList
      = [Printer.Piece.raw "require '".toList, Printer.Piece.raw lib_name,
         Printer.Piece.raw "'\n".toList, Printer.Piece.eol, Printer.Piece.raw []] := rfl
  have hx : (expand (spaces n) true
      (Printer.pieces [("lib".toList, lib_name)] [] none "require '$lib$'\n".toList)).1
      = spaces n ++ (Keyword.require.text ++ (lib_name ++ "'".toList)) ++ ['\n'] := by
    rw [hp]
    simp [Keyword.text, expand_raw_cons, expand_raw_false, expand_nil, expand_eol,
      expand_raw_nil]
  have hst : (expand (spaces n) true
      (Printer.pieces [("lib".toList, lib_name)] [] none "require '$lib$'\n".toList)).2
      = true := by
    rw [hp]
    simp [expand_raw_cons, expand_raw_false, expand_nil, expand_eol, expand_raw_nil]
  exact Writes_printOnly _ _ _ n em ns _ hx hst

theorem Writes_PrintBlockDeclaration_open (bt : RubyBlockType) (ct : RubyClassType)
    (name : Str) (n : Nat) (em : List (Str × List FieldDescriptor)) (ns : List Str) :
    Writes (PrintBlockDeclaration bt ct name false) n (n + 1) em em ns
      [(spaces n ++ blockLine bt ct name false, "Failed printing block declaration".toList),
        newlineStep] := by
  have h1 := Writes_printLine (blockData bt ct name) (blockFormat ct false)
    "Failed printing block declaration".toList n em ns _ (expand_block bt ct name false _)
  have h2 := Writes_andThen h1 (Writes_Indent n em ns)
  rw [andThen_assoc, andThen_assoc] at h2
  simpa [PrintBlockDeclaration] using h2

theorem Writes_PrintBlockDeclaration_inline (bt : RubyBlockType) (ct : RubyClassType)
    (name : Str) (n : Nat) (em : List (Str × List FieldDescriptor)) (ns : List Str) :
    Writes (PrintBlockDeclaration bt ct name true) n n em em ns
      [(spaces n ++ blockLine bt ct name true, "Failed printing block declaration".toList),
        newlineStep] := by
  have h1 := Writes_printLine (blockData bt ct name) (blockFormat ct true)
    "Failed printing block declaration".toList n em ns _ (expand_block bt ct name true _)
  have h2 := Writes_andThen h1 (Writes_skip n em ns)
  rw [andThen_assoc, andThen_assoc] at h2
  simpa [PrintBlockDeclaration] using h2

theorem Writes_PrintBlockEnd (n : Nat) (em : List (Str × List FieldDescriptor))
    (ns : List Str) :
    Writes PrintBlockEnd (n + 1) n em em ns
      [(spaces n ++ "end".toList, "Failed printing block end".toList), newlineStep] := by
  have hp : Printer.pieces [] [] none "end".toList = [Printer.Piece.raw "end".toList] := rfl
  have hx : (expand (spaces n) true (Printer.pieces [] [] none "end".toList)).1
      = spaces n ++ "end".toList := by
    rw [hp]
    simp [expand_raw_cons, expand_nil]
  have h1 := Writes_printLine [] "end".toList "Failed printing block end".toList n em ns _ hx
  have h2 := Writes_andThen (Writes_Outdent n em ns) h1
  simpa [PrintBlockEnd] using h2

/-- A block: the header, a body one level deeper, and the `end`. -/
theorem Writes_block (bt : RubyBlockType) (ct : RubyClassType) (name : Str) (inner : Action)
    (body : List Node) (n : Nat) (em em1 : List (Str × List FieldDescriptor)) (ns : List Str)
    (hinner : Writes inner (n + 1) (n + 1) em em1 ns (Node.stepsList (n + 1) body)) :
    Writes (andThen (PrintBlockDeclaration bt ct name false) (andThen inner PrintBlockEnd))
      n n em em1 ns (Node.steps n (Node.block bt ct name body)) := by
  have h := Writes_andThen (Writes_PrintBlockDeclaration_open bt ct name n em ns)
    (Writes_andThen hinner (Writes_PrintBlockEnd n em1 ns))
  exact Writes_steps h (by simp [Node.steps])

theorem Writes_PrintMessageField (descriptor : FieldDescriptor) (n : Nat)
    (em : List (Str × List FieldDescriptor)) (ns : List Str) :
    Writes (PrintMessageField descriptor) n n em em ns
      (Node.steps n (Node.field descriptor)) := by
  have hx : (expand (spaces n) true
      (Printer.pieces (fieldData descriptor) [] none fieldFormat)).1
      = spaces n ++ fieldLine descriptor := by
    rw [expand_field]
  exact Writes_printLine _ _ _ n em ns _ hx

theorem Writes_fields (fields : List FieldDescriptor) (n : Nat)
    (em : List (Str × List FieldDescriptor)) (ns : List Str) :
    Writes (forEach PrintMessageField fields) n n em em ns
      (Node.stepsList n (fields.map Node.field)) := by
  rw [stepsList_map]
  exact Writes_forEach _ _ n em ns fields (fun x _ => Writes_PrintMessageField x n em ns)

theorem Writes_PrintEnumValue (descriptor : EnumValueDescriptor) (n : Nat)
    (em : List (Str × List FieldDescriptor)) (ns : List Str) :
    Writes (PrintEnumValue descriptor) n n em em ns
      (Node.steps n (enumValueNode descriptor)) := by
  have hp : Printer.pieces [("name".toList, descriptor.name),
        ("number".toList, ConvertIntToString descriptor.number)] [] none
        "define :$name$, $number$".toList
      = [Printer.Piece.raw "define :".toList, Printer.Piece.raw descriptor.name,
         Printer.Piece.raw ", ".toList, Printer.Piece.raw (ConvertIntToString descriptor.number),
         Printer.Piece.raw []] := rfl
  have hx : (expand (spaces n) true (Printer.pieces [("name".toList, descriptor.name),
        ("number".toList, ConvertIntToString descriptor.number)] [] none
        "define :$name$, $number$".toList)).1
      = spaces n ++ (Keyword.define.text
          ++ (descriptor.name ++ ", ".toList ++ ConvertIntToString descriptor.number)) := by
    rw [hp]
    simp [Keyword.text, expand_raw_cons, expand_raw_false, expand_nil]
  exact Writes_printLine _ _ _ n em ns _ hx

theorem Writes_PrintEnum (descriptor : EnumDescriptor) (n : Nat)
    (em : List (Str × List FieldDescriptor)) (ns : List Str) :
    Writes (PrintEnum descriptor) n n em em ns (Node.stepsList n (enumNodes descriptor)) := by
  have hinner : Writes (forEach PrintEnumValue descriptor.values) (n + 1) (n + 1) em em ns
      (Node.stepsList (n + 1) (descriptor.values.map enumValueNode)) := by
    rw [stepsList_map]
    exact Writes_forEach _ _ (n + 1) em ns _ (fun x _ => Writes_PrintEnumValue x (n + 1) em ns)
  have h := Writes_andThen
    (Writes_block RubyBlockType.RUBY_CLASS RubyClassType.CLASS_TYPE_ENUM descriptor.name _ _ n
      em em ns hinner)
    (Writes_PrintNewLine n em ns)
  rw [andThen_assoc, andThen_assoc] at h
  exact Writes_steps h (by simp [enumNodes, Node.stepsList, Node.steps])

theorem Writes_enums (enums : List EnumDescriptor) (n : Nat)
    (em : List (Str × List FieldDescriptor)) (ns : List Str) :
    Writes (forEach PrintEnum enums) n n em em ns
      (Node.stepsList n (enums.flatMap enumNodes)) := by
  rw [stepsList_flatMap]
  exact Writes_forEach _ _ n em ns enums (fun x _ => Writes_PrintEnum x n em ns)

theorem Writes_PrintServiceMethod (descriptor : MethodDescriptor) (n : Nat)
    (em : List (Str × List FieldDescriptor)) (ns : List Str) :
    Writes (PrintServiceMethod descriptor) n n em em ns
      (Node.steps n (methodNode descriptor)) := by
  have hp : Printer.pieces [("method_name".toList, descriptor.name),
        ("request_klass".toList, Constantize descriptor.input_type_full_name true),
        ("response_klass".toList, Constantize descriptor.output_type_full_name true)] [] none
        "rpc :$method_name$, $request_klass$, $response_klass$".toList
      = [Printer.Piece.raw "rpc :".toList, Printer.Piece.raw descriptor.name,
         Printer.Piece.raw ", ".toList,
         Printer.Piece.raw (Constantize descriptor.input_type_full_name true),
         Printer.Piece.raw ", ".toList,
         Printer.Piece.raw (Constantize descriptor.output_type_full_name true),
         Printer.Piece.raw []] := rfl
  have hx : (expand (spaces n) true (Printer.pieces [("method_name".toList, descriptor.name),
        ("request_klass".toList, Constantize descriptor.input_type_full_name true),
        ("response_klass".toList, Constantize descriptor.output_type_full_name true)] [] none
        "rpc :$method_name$, $request_klass$, $response_klass$".toList)).1
      = spaces n ++ (Keyword.rpc.text
          ++ (descriptor.name ++ ", ".toList ++ Constantize descriptor.input_type_full_name true
            ++ ", ".toList ++ Constantize descriptor.output_type_full_name true)) := by
    rw [hp]
    simp [Keyword.text, expand_raw_cons, expand_raw_false, expand_nil]
  exact Writes_printLine _ _ _ n em ns _ hx

theorem Writes_PrintService (descriptor : ServiceDescriptor) (n : Nat)
    (em : List (Str × List FieldDescriptor)) (ns : List Str) :
    Writes (PrintService descriptor) n n em em ns
      (Node.stepsList n (serviceNodes descriptor)) := by
  have hinner : Writes (forEach PrintServiceMethod descriptor.methods) (n + 1) (n + 1) em em ns
      (Node.stepsList (n + 1) (descriptor.methods.map methodNode)) := by
    rw [stepsList_map]
    exact Writes_forEach _ _ (n + 1) em ns _
      (fun x _ => Writes_PrintServiceMethod x (n + 1) em ns)
  have h := Writes_block RubyBlockType.RUBY_CLASS RubyClassType.CLASS_TYPE_SERVICE
    descriptor.name _ _ n em em ns hinner
  exact Writes_steps h (by simp [serviceNodes, Node.stepsList])

theorem Writes_PrintExtensionRangesForDescriptor (ranges : List ExtensionRange) (n : Nat)
    (em : List (Str × List FieldDescriptor)) (ns : List Str) :
    Writes (PrintExtensionRangesForDescriptor ranges) n n em em ns
      (Node.stepsList n (rangesNodes ranges)) := by
  have hrange : ∀ range : ExtensionRange,
      Writes (andThen (print [("start".toList, SimpleItoa range.start),
                      ("end".toList, SimpleItoa range.end_)]
                "extensions $start$...$end$".toList)
        (andThen (ValidatePrinter "Failed printing extension ranges".toList) PrintNewLine))
        n n em em ns (Node.steps n (rangeNode range)) := by
    intro range
    have hp : Printer.pieces [("start".toList, SimpleItoa range.start),
          ("end".toList, SimpleItoa range.end_)] [] none "extensions $start$...$end$".toList
        = [Printer.Piece.raw "extensions ".toList, Printer.Piece.raw (SimpleItoa range.start),
           Printer.Piece.raw "...".toList, Printer.Piece.raw (SimpleItoa range.end_),
           Printer.Piece.raw []] := rfl
    have hx : (expand (spaces n) true (Printer.pieces [("start".toList, SimpleItoa range.start),
          ("end".toList, SimpleItoa range.end_)] [] none "extensions $start$...$end$".toList)).1
        = spaces n ++ (Keyword.extensions.text
            ++ (SimpleItoa range.start ++ "...".toList ++ SimpleItoa range.end_)) := by
      rw [hp]
      simp [Keyword.text, expand_raw_cons, expand_raw_false, expand_nil]
    exact Writes_printLine _ _ _ n em ns _ hx
  unfold PrintExtensionRangesForDescriptor rangesNodes
  by_cases h : ranges.length > 0
  · rw [if_pos h, if_pos h]
    have h2 := Writes_andThen (Writes_PrintNewLine n em ns)
      (Writes_andThen (Writes_PrintComment_plain "Extension Fields".toList n em ns)
        (Writes_forEach _ _ n em ns ranges (fun x _ => hrange x)))
    refine Writes_steps h2 ?_
    have e : Node.stepsList n
          (Node.blank :: (commentNodes "Extension Fields".toList false ++ ranges.map rangeNode))
        = [newlineStep] ++ (Node.steps n (Node.text Keyword.comment "Extension Fields".toList)
            ++ Node.stepsList n (ranges.map rangeNode)) := rfl
    rw [e, stepsList_map]
  · rw [if_neg h, if_neg h]
    exact Writes_skip n em ns

theorem Writes_PrintMessageExtensionFields (key : Str) (n : Nat)
    (em : List (Str × List FieldDescriptor)) (ns : List Str) :
    Writes (PrintMessageExtensionFields key) n n em (mapErase (mapTouch em key) key) ns
      (Node.stepsList n ((mapGet em key).map Node.field)) := by
  have h := Writes_fields (mapGet em key) n (mapTouch em key) ns
  intro r out fn fm
  obtain ⟨a1, a2⟩ := h r out fn fm
  have e : PrintMessageExtensionFields key (stateOn r out true n em fn ns fm)
      = (match forEach PrintMessageField (mapGet em key)
            (stateOn r out true n (mapTouch em key) fn ns fm) with
        | Except.ok g2 =>
          Except.ok { g2 with extended_messages := mapErase g2.extended_messages key }
        | Except.error e => Except.error e) := rfl
  rw [e]
  constructor
  · intro hle
    rw [a1 hle]
    rfl
  · intro hlt
    obtain ⟨e1, he, q⟩ := a2 hlt
    rw [he]
    exact ⟨e1, rfl, q⟩

theorem forEach_cons_andThen {α : Type} (f : α → Action) (x : α) (xs : List α) :
    forEach f (x :: xs) = andThen (f x) (forEach f xs) := by
  funext g
  simp only [forEach, andThen]

mutual

theorem Writes_PrintMessage_shell : ∀ (d : Descriptor) (n : Nat)
    (em : List (Str × List FieldDescriptor)) (ns : List Str),
    Writes (PrintMessage d false) n n em (shellStore d em) ns (Node.stepsList n (shellNodes d))
  | .mk name full_name fields nested enums exts ranges, n, em, ns => by
    have hn := Writes_PrintMessagesForDescriptor_shell nested (n + 1) em ns
    have he := Writes_enums enums (n + 1) em ns
    have htail := Writes_andThen (Writes_PrintNewLine n (shellStoreList nested em) ns)
      (Writes_StoreExtensionFields exts n (shellStoreList nested em) ns)
    simp only [PrintMessage, ite_forEach, ite_PrintMessagesForDescriptor, PrintEnumsForDescriptor,
      PrintClassDeclaration, shellNodes, shellStore]
    by_cases h : DescriptorHasNestedTypes (Descriptor.mk name full_name fields nested enums exts ranges) = true
    · simp only [h, if_true]
      have hb := Writes_block RubyBlockType.RUBY_CLASS RubyClassType.CLASS_TYPE_MESSAGE name
        (andThen (forEach PrintEnum enums) (PrintMessagesForDescriptor nested false))
        (enums.flatMap enumNodes ++ shellNodesList nested) n em (shellStoreList nested em) ns
        (Writes_steps (Writes_andThen he hn) (stepsList_append _ _ _).symm)
      have h2 := Writes_andThen hb htail
      simp only [andThen_assoc] at h2 ⊢
      exact Writes_steps h2 (by simp [Node.stepsList, Node.steps, stepsList_append])
    · have hnil : nested = [] := by
        cases nested with
        | nil => rfl
        | cons x xs => simp [DescriptorHasNestedTypes, Descriptor.nested_types] at h
      subst hnil
      simp only [h, Bool.false_eq_true, if_false]
      have h2 := Writes_andThen
        (Writes_PrintBlockDeclaration_inline RubyBlockType.RUBY_CLASS
          RubyClassType.CLASS_TYPE_MESSAGE name n em ns) htail
      simp only [andThen_assoc, shellStoreList] at h2 ⊢
      exact Writes_steps h2 (by simp [Node.stepsList, Node.steps])

theorem Writes_PrintMessagesForDescriptor_shell : ∀ (ds : List Descriptor) (n : Nat)
    (em : List (Str × List FieldDescriptor)) (ns : List Str),
    Writes (PrintMessagesForDescriptor ds false) n n em (shellStoreList ds em) ns
      (Node.stepsList n (shellNodesList ds))
  | [], n, em, ns => by
    simp only [PrintMessagesForDescriptor, shellStoreList, shellNodesList, Node.stepsList]
    exact Writes_skip n em ns
  | d :: ds, n, em, ns => by
    have h1 := Writes_PrintMessage_shell d n em ns
    have h2 := Writes_PrintMessagesForDescriptor_shell ds n (shellStore d em) ns
    simp only [PrintMessagesForDescriptor, shellStoreList, shellNodesList, stepsList_append]
    exact Writes_andThen h1 h2

end

theorem Writes_extension_fields (descriptor : Descriptor) (n : Nat)
    (em : List (Str × List FieldDescriptor)) (ns : List Str) :
    Writes (fun g1 =>
        if DescriptorHasExtensions descriptor g1 then
          PrintMessageExtensionFields descriptor.full_name g1
        else Except.ok g1) n n em
      (if hasBucket em descriptor.full_name then
        mapErase (mapTouch em descriptor.full_name) descriptor.full_name else em) ns
      (Node.stepsList n
        (if hasBucket em descriptor.full_name then
          (mapGet em descriptor.full_name).map Node.field else [])) := by
  have hc : ∀ r out fn fm, DescriptorHasExtensions descriptor (stateOn r out true n em fn ns fm)
      = hasBucket em descriptor.full_name := fun _ _ _ _ => rfl
  by_cases h : hasBucket em descriptor.full_name = true
  · simp only [h, if_true]
    refine Writes_ext (Writes_PrintMessageExtensionFields descriptor.full_name n em ns) ?_
    intro r out fn fm
    simp only [hc, h, if_true]
  · simp only [h, Bool.false_eq_true, if_false]
    refine Writes_ext (Writes_skip n em ns) ?_
    intro r out fn fm
    simp only [hc, h, Bool.false_eq_true, if_false]

mutual

theorem Writes_PrintMessage_body : ∀ (d : Descriptor) (n : Nat)
    (em : List (Str × List FieldDescriptor)) (ns : List Str),
    Writes (PrintMessage d true) n n em (bodyNodes d em).2 ns
      (Node.stepsList n (bodyNodes d em).1)
  | .mk name full_name fields nested enums exts ranges, n, em, ns => by
    have hn := Writes_PrintMessagesForDescriptor_body nested (n + 1) em ns
    have hc : ∀ r out fn fm, DescriptorHasExtensions
        (Descriptor.mk name full_name fields nested enums exts ranges)
        (stateOn r out true n em fn ns fm) = hasBucket em full_name := fun _ _ _ _ => rfl
    by_cases h1 : (decide (fields.length > 0) || hasBucket em full_name) = true
    · have hx := Writes_extension_fields
        (Descriptor.mk name full_name fields nested enums exts ranges) (n + 1)
        (bodyNodesList nested em).2 ns
      simp only [Descriptor.full_name] at hx
      have hinner := Writes_andThen hn
        (Writes_andThen (Writes_fields fields (n + 1) (bodyNodesList nested em).2 ns)
          (Writes_andThen
            (Writes_PrintExtensionRangesForDescriptor ranges (n + 1)
              (bodyNodesList nested em).2 ns) hx))
      have hb := Writes_block RubyBlockType.RUBY_CLASS RubyClassType.CLASS_TYPE_NONE name _
        ((bodyNodesList nested em).1 ++ fields.map Node.field ++ rangesNodes ranges
          ++ (if hasBucket (bodyNodesList nested em).2 full_name then
                (mapGet (bodyNodesList nested em).2 full_name).map Node.field
              else [])) n em _ ns
        (Writes_steps hinner (by simp only [stepsList_append, List.append_assoc]))
      have h2 := Writes_andThen hb (Writes_PrintNewLine n _ ns)
      simp only [bodyNodes, h1, if_true]
      refine Writes_steps (Writes_ext h2 ?_) (by simp [Node.stepsList, Node.steps, stepsList_append])
      intro r out fn fm
      simp only [PrintMessage, hc, h1, if_true, ite_forEach, ite_PrintMessagesForDescriptor,
        PrintClassDeclaration, andThen_assoc]
    · by_cases h3 : nested.length > 0
      · have hb := Writes_block RubyBlockType.RUBY_CLASS RubyClassType.CLASS_TYPE_NONE name _
          (bodyNodesList nested em).1 n em _ ns hn
        have h2 := Writes_andThen hb (Writes_PrintNewLine n _ ns)
        simp only [bodyNodes, h1, h3, if_true, Bool.false_eq_true, if_false]
        refine Writes_steps (Writes_ext h2 ?_) (by simp [Node.stepsList, Node.steps, stepsList_append])
        intro r out fn fm
        simp only [PrintMessage, hc, h1, h3, if_true, Bool.false_eq_true, if_false,
          ite_PrintMessagesForDescriptor, PrintClassDeclaration, andThen_assoc]
      · have h4 : Writes (PrintMessage
            (Descriptor.mk name full_name fields nested enums exts ranges) true) n n em
            em ns [] := by
          refine Writes_ext (Writes_skip n em ns) ?_
          intro r out fn fm
          simp only [PrintMessage, hc, h1, h3, Bool.false_eq_true, if_false]
        simp only [bodyNodes, h1, h3, Bool.false_eq_true, if_false]
        exact h4

theorem Writes_PrintMessagesForDescriptor_body : ∀ (ds : List Descriptor) (n : Nat)
    (em : List (Str × List FieldDescriptor)) (ns : List Str),
    Writes (PrintMessagesForDescriptor ds true) n n em (bodyNodesList ds em).2 ns
      (Node.stepsList n (bodyNodesList ds em).1)
  | [], n, em, ns => by
    simp only [PrintMessagesForDescriptor, bodyNodesList, Node.stepsList]
    exact Writes_skip n em ns
  | d :: ds, n, em, ns => by
    have h1 := Writes_PrintMessage_body d n em ns
    have h2 := Writes_PrintMessagesForDescriptor_body ds n (bodyNodes d em).2 ns
    simp only [PrintMessagesForDescriptor, bodyNodesList, stepsList_append]
    exact Writes_andThen h1 h2

end

theorem Writes_danglingLoop (keys : List Str) (n : Nat)
    (em : List (Str × List FieldDescriptor)) (ns : List Str) :
    Writes (forEach (fun extended_message =>
        andThen
          (PrintClassDeclaration (Constantize extended_message true)
            RubyClassType.CLASS_TYPE_NONE false)
          (andThen (PrintMessageExtensionFields extended_message) PrintBlockEnd)) keys)
      n n em (danglingLoopNodes keys em).2 ns
      (Node.stepsList n (danglingLoopNodes keys em).1) := by
  induction keys generalizing em with
  | nil =>
    exact Writes_skip n em ns
  | cons key keys ih =>
    have hb := Writes_block RubyBlockType.RUBY_CLASS RubyClassType.CLASS_TYPE_NONE
      (Constantize key true) _ _ n em _ ns
      (Writes_PrintMessageExtensionFields key (n + 1) em ns)
    have h2 := Writes_andThen hb (ih (mapErase (mapTouch em key) key))
    rw [forEach_cons_andThen]
    simp only [danglingLoopNodes, PrintClassDeclaration] at h2 ⊢
    exact Writes_steps h2 (by simp [Node.stepsList, Node.steps, stepsList_append])

theorem Writes_PrintGenericRequires (file : FileDescriptor) (n : Nat)
    (em : List (Str × List FieldDescriptor)) (ns : List Str) :
    Writes (PrintGenericRequires file) n n em em ns
      (Node.stepsList n (genericRequireNodes file)) := by
  have h1 : Writes (if file.message_types.length > 0 then PrintRequire "protobuf/message".toList
      else Except.ok) n n em em ns
      (Node.stepsList n (if file.message_types.length > 0 then
        [Node.text Keyword.require ("protobuf/message".toList ++ "'".toList)] else [])) := by
    split
    · rw [stepsList_singleton]
      exact Writes_PrintRequire _ n em ns
    · exact Writes_skip n em ns
  have h2 : Writes (if file.services.length > 0 then PrintRequire "protobuf/rpc/service".toList
      else Except.ok) n n em em ns
      (Node.stepsList n (if file.services.length > 0 then
        [Node.text Keyword.require ("protobuf/rpc/service".toList ++ "'".toList)] else [])) := by
    split
    · rw [stepsList_singleton]
      exact Writes_PrintRequire _ n em ns
    · exact Writes_skip n em ns
  have h := Writes_andThen h1 h2
  rw [← stepsList_append] at h
  exact h

theorem Writes_PrintImportRequires (file : FileDescriptor)
    (em : List (Str × List FieldDescriptor)) (ns : List Str) :
    Writes (PrintImportRequires file) 0 0 em em ns (importSteps file) := by
  unfold PrintImportRequires importSteps
  split
  · have h := Writes_andThen (Writes_PrintNewLine 0 em ns)
      (Writes_andThen (Writes_PrintComment_header "Imports".toList 0 em ns)
        (Writes_forEach (fun dependency => PrintRequire (CreateRubyFileName dependency true))
          _ 0 em ns file.dependencies
          (fun x _ => Writes_PrintRequire (CreateRubyFileName x true) 0 em ns)))
    exact Writes_steps h (by simp [stepsList_map])
  · exact Writes_skip 0 em ns

theorem Writes_heads (segs : List Str) (n : Nat) (em : List (Str × List FieldDescriptor))
    (ns : List Str) :
    Writes (forEach (fun iter => PrintModuleDeclaration (Constantize iter false) false) segs)
      n (n + segs.length) em em ns (headSteps n segs) := by
  induction segs generalizing n with
  | nil => exact Writes_skip n em ns
  | cons s ss ih =>
    have h : n + (s :: ss).length = n + 1 + ss.length := by
      simp only [List.length_cons]
      omega
    rw [forEach_cons_andThen, h]
    have h2 := Writes_andThen
      (Writes_PrintBlockDeclaration_open RubyBlockType.RUBY_MODULE
        RubyClassType.CLASS_TYPE_NONE (Constantize s false) n em ns) (ih (n + 1))
    exact Writes_steps h2 (by simp [headSteps])

theorem Writes_tails (segs : List Str) (n : Nat) (em : List (Str × List FieldDescriptor))
    (ns : List Str) :
    Writes (forEach (fun _ => PrintBlockEnd) segs) (n + segs.length) n em em ns
      (tailSteps n segs.length) := by
  induction segs with
  | nil => exact Writes_skip n em ns
  | cons s ss ih =>
    have h : n + (s :: ss).length = (n + ss.length) + 1 := by
      simp only [List.length_cons]
      omega
    rw [forEach_cons_andThen, h]
    have h2 := Writes_andThen (Writes_PrintBlockEnd (n + ss.length) em ns) ih
    exact Writes_steps h2 (by simp [tailSteps])

theorem Writes_PrintEnclosingNamespaceModules (em : List (Str × List FieldDescriptor))
    (ns : List Str) :
    Writes PrintEnclosingNamespaceModules 0 ns.length em em ns
      ([newlineStep] ++ headSteps 0 ns) := by
  have h := Writes_andThen (Writes_PrintNewLine 0 em ns) (Writes_heads ns 0 em ns)
  rw [Nat.zero_add] at h
  exact Writes_ext h (fun _ _ _ _ => rfl)

theorem Writes_PrintEnclosingNamespaceModuleEnds (em : List (Str × List FieldDescriptor))
    (ns : List Str) :
    Writes PrintEnclosingNamespaceModuleEnds ns.length 0 em em ns (tailSteps 0 ns.length) := by
  have h := Writes_tails ns 0 em ns
  rw [Nat.zero_add] at h
  exact Writes_ext h (fun _ _ _ _ => rfl)

theorem Writes_PrintEnumsForFileDescriptor (file : FileDescriptor) (n : Nat)
    (em : List (Str × List FieldDescriptor)) (ns : List Str) :
    Writes (PrintEnumsForFileDescriptor file false) n n em em ns
      (sectionSteps (decide (file.enum_types.length > 0)) n "Enum Classes".toList
        (file.enum_types.flatMap enumNodes)) := by
  unfold PrintEnumsForFileDescriptor sectionSteps
  by_cases h : file.enum_types.length > 0
  · simp only [h, if_true, decide_True, Bool.false_eq_true, if_false]
    exact Writes_andThen (Writes_PrintComment_header _ n em ns)
      (Writes_enums file.enum_types n em ns)
  · simp only [h, if_false, decide_False, Bool.false_eq_true]
    exact Writes_skip n em ns

theorem Writes_PrintMessagesForFileDescriptor_shell (file : FileDescriptor) (n : Nat)
    (ns : List Str) :
    Writes (PrintMessagesForFileDescriptor file false) n n [] (registryAfterShells file) ns
      (sectionSteps (decide (file.message_types.length > 0)) n "Message Classes".toList
        (shellNodesList file.message_types)) := by
  unfold PrintMessagesForFileDescriptor sectionSteps registryAfterShells
  by_cases h : file.message_types.length > 0
  · simp only [h, if_true, decide_True, Bool.false_eq_true, if_false]
    have h2 := Writes_andThen
      (Writes_andThen (Writes_PrintComment_header "Message Classes".toList n [] ns)
        (Writes_StoreExtensionFields file.extensions n [] ns))
      (Writes_PrintMessagesForDescriptor_shell file.message_types n
        (storeAll file.extensions []) ns)
    exact Writes_steps h2 (by simp)
  · simp only [h, if_false, decide_False, Bool.false_eq_true]
    exact Writes_skip n [] ns

theorem Writes_PrintMessagesForFileDescriptor_body (file : FileDescriptor) (n : Nat)
    (ns : List Str) :
    Writes (PrintMessagesForFileDescriptor file true) n n (registryAfterShells file)
      (bodiesFileNodes file).2 ns
      (sectionSteps (decide (file.message_types.length > 0)) n "Message Fields".toList
        (bodyNodesList file.message_types (registryAfterShells file)).1) := by
  unfold PrintMessagesForFileDescriptor sectionSteps bodiesFileNodes
  by_cases h : file.message_types.length > 0
  · simp only [h, if_true, decide_True]
    exact Writes_andThen (Writes_PrintComment_header "Message Fields".toList n _ ns)
      (Writes_PrintMessagesForDescriptor_body file.message_types n _ ns)
  · simp only [h, if_false, decide_False, Bool.false_eq_true]
    exact Writes_skip n _ ns

theorem Writes_PrintDanglingExtendedMessages (H : HashOrder) (n : Nat)
    (em : List (Str × List FieldDescriptor)) (ns : List Str) :
    Writes (PrintDanglingExtendedMessages H) n n em (danglingNodes H em).2 ns
      (sectionSteps (decide (em.length > 0)) n "Extended Messages".toList
        (danglingLoopNodes (H.order (em.map Prod.fst)) em).1) := by
  unfold sectionSteps danglingNodes
  by_cases h : em.length > 0
  · simp only [h, if_true, decide_True]
    have hloop := Writes_danglingLoop (H.order (em.map Prod.fst)) n em ns
    have hloop2 : Writes (fun g1 =>
        forEach (fun extended_message =>
          andThen
            (PrintClassDeclaration (Constantize extended_message true)
              RubyClassType.CLASS_TYPE_NONE false)
            (andThen (PrintMessageExtensionFields extended_message) PrintBlockEnd))
          (H.order (g1.extended_messages.map Prod.fst)) g1) n n em
        (danglingLoopNodes (H.order (em.map Prod.fst)) em).2 ns
        (Node.stepsList n (danglingLoopNodes (H.order (em.map Prod.fst)) em).1) :=
      Writes_ext hloop (fun _ _ _ _ => rfl)
    have h2 := Writes_andThen (Writes_PrintComment_header "Extended Messages".toList n em ns)
      hloop2
    refine Writes_ext h2 ?_
    intro r out fn fm
    have hem : (stateOn r out true n em fn ns fm).extended_messages = em := rfl
    simp only [PrintDanglingExtendedMessages, hem, h, if_true]
  · simp only [h, if_false, decide_False, Bool.false_eq_true]
    refine Writes_ext (Writes_skip n em ns) ?_
    intro r out fn fm
    have hem : (stateOn r out true n em fn ns fm).extended_messages = em := rfl
    simp only [PrintDanglingExtendedMessages, hem, h, if_false]

theorem Writes_PrintServices (file : FileDescriptor) (n : Nat)
    (em : List (Str × List FieldDescriptor)) (ns : List Str) :
    Writes (PrintServices file) n n em em ns
      (sectionSteps (decide (file.services.length > 0)) n "Services".toList
        (file.services.flatMap serviceNodes)) := by
  unfold PrintServices sectionSteps
  by_cases h : file.services.length > 0
  · simp only [h, if_true, decide_True]
    have h2 := Writes_andThen (Writes_PrintComment_header "Services".toList n em ns)
      (Writes_forEach PrintService _ n em ns file.services
        (fun x _ => Writes_PrintService x n em ns))
    rw [← stepsList_flatMap] at h2
    exact h2
  · simp only [h, if_false, decide_False, Bool.false_eq_true]
    exact Writes_skip n em ns

/-- On a sink with room for a number of bytes the body of `Generate` carries out the steps
of `fileSteps`. -/
theorem Writes_GenerateBody (H : HashOrder) (file : FileDescriptor) :
    Writes (GenerateBody H file) 0 0 [] (registryAtEnd H file)
      (SplitStringUsing file.package '.' []) (fileSteps H file) := by
  unfold GenerateBody fileSteps registryAtEnd
  exact Writes_andThen (Writes_PrintComment_header _ 0 _ _)
    (Writes_andThen (Writes_PrintGenericRequires file 0 _ _)
    (Writes_andThen (Writes_PrintImportRequires file _ _)
    (Writes_andThen (Writes_PrintEnclosingNamespaceModules _ _)
    (Writes_andThen (Writes_PrintEnumsForFileDescriptor file _ _ _)
    (Writes_andThen (Writes_PrintNewLine _ _ _)
    (Writes_andThen (Writes_PrintMessagesForFileDescriptor_shell file _ _)
    (Writes_andThen (Writes_PrintNewLine _ _ _)
    (Writes_andThen (Writes_PrintMessagesForFileDescriptor_body file _ _)
    (Writes_andThen (Writes_PrintDanglingExtendedMessages H _ _ _)
    (Writes_andThen (Writes_PrintServices file _ _ _)
      (Writes_PrintEnclosingNamespaceModuleEnds _ _)))))))))))

/-! ## The text and the reasons of the emission steps -/

mutual

theorem stepsText_steps : ∀ (x : Node) (n : Nat),
    stepsText (Node.steps n x) = renderLines (Node.lines n x)
  | .blank, n => rfl
  | .text kw rest, n => by
    by_cases h : kw = Keyword.require
    · simp [Node.steps, h, stepsText, Node.lines, renderLines]
    · simp [Node.steps, h, stepsText, Node.lines, renderLines, newlineStep]
  | .field d, n => by
    simp [Node.steps, stepsText, Node.lines, renderLines, newlineStep]
  | .shell name, n => by
    simp [Node.steps, stepsText, Node.lines, renderLines, newlineStep]
  | .block bt ct name body, n => by
    have ih := stepsText_stepsList body (n + 1)
    simp only [render] at ih
    simp only [Node.steps, stepsText, Node.lines, renderLines, stepsText_append, ih,
      renderLines_append, newlineStep]
    simp

theorem stepsText_stepsList : ∀ (xs : List Node) (n : Nat),
    stepsText (Node.stepsList n xs) = render n xs
  | [], n => rfl
  | x :: xs, n => by
    rw [Node.stepsList, stepsText_append, stepsText_steps x n, stepsText_stepsList xs n]
    simp only [render, Node.linesList, renderLines_append]

end

theorem stepsText_headerSteps (n : Nat) (comment : Str) :
    stepsText (headerSteps n comment) = render n (commentNodes comment true) := by
  simp [headerSteps, stepsText, newlineStep, commentNodes, render, Node.linesList, Node.lines,
    renderLines, Keyword.text]

theorem stepsText_sectionSteps (c : Prop) [Decidable c] (n : Nat) (title : Str)
    (nodes : List Node) :
    stepsText (sectionSteps (decide c) n title nodes)
      = render n (if c then commentNodes title true ++ nodes else []) := by
  unfold sectionSteps
  by_cases h : c
  · simp only [h, decide_True, if_true, stepsText_append, stepsText_headerSteps,
      stepsText_stepsList, render_append]
  · simp only [h, decide_False, Bool.false_eq_true, if_false]
    rfl

theorem stepsText_headSteps (segs : List Str) (n : Nat) :
    stepsText (headSteps n segs) = renderLines (moduleHeads n segs) := by
  induction segs generalizing n with
  | nil => rfl
  | cons s ss ih =>
    simp only [headSteps, stepsText, moduleHeads, renderLines, ih, newlineStep]
    simp

theorem stepsText_tailSteps (n k : Nat) :
    stepsText (tailSteps n k) = renderLines (moduleTails n k) := by
  induction k with
  | zero => rfl
  | succ k ih =>
    simp only [tailSteps, stepsText, moduleTails, renderLines, ih, newlineStep]
    simp

theorem stepsText_importSteps (file : FileDescriptor) :
    stepsText (importSteps file) = render 0 (importNodes file) := by
  unfold importSteps importNodes
  split
  · rw [show (Node.blank :: (commentNodes "Imports".toList true
        ++ file.dependencies.map (fun dependency =>
          Node.text Keyword.require (CreateRubyFileName dependency true ++ "'".toList))))
        = [Node.blank] ++ (commentNodes "Imports".toList true
        ++ file.dependencies.map (fun dependency =>
          Node.text Keyword.require (CreateRubyFileName dependency true ++ "'".toList)))
        from rfl, render_append, render_append, render_blank]
    have hn : stepsText [newlineStep] = ['\n'] := rfl
    show stepsText ([newlineStep] ++ (headerSteps 0 "Imports".toList
      ++ Node.stepsList 0 (file.dependencies.map (fun dependency =>
          Node.text Keyword.require (CreateRubyFileName dependency true ++ "'".toList))))) = _
    simp only [stepsText_append, stepsText_headerSteps, stepsText_stepsList, hn]
  · rfl

/-- The text of the emission steps of a file is the text `Generate` writes into a sink that
never fails. -/
theorem stepsText_fileSteps (H : HashOrder) (file : FileDescriptor) :
    stepsText (fileSteps H file) = generatedText H file := by
  have h0 : 0 + (SplitStringUsing file.package '.' []).length
      = (SplitStringUsing file.package '.' []).length := Nat.zero_add _
  have hb : (bodiesFileNodes file).1
      = if file.message_types.length > 0 then
          commentNodes "Message Fields".toList true
            ++ (bodyNodesList file.message_types (registryAfterShells file)).1
        else [] := by
    unfold bodiesFileNodes
    split <;> rfl
  have hd : (danglingNodes H (bodiesFileNodes file).2).1
      = if (bodiesFileNodes file).2.length > 0 then
          commentNodes "Extended Messages".toList true
            ++ (danglingLoopNodes (H.order ((bodiesFileNodes file).2.map Prod.fst))
                (bodiesFileNodes file).2).1
        else [] := by
    unfold danglingNodes
    split <;> rfl
  have hn : stepsText [newlineStep] = ['\n'] := rfl
  rw [generatedText_eq]
  simp only [fileSteps, stepsText_append, stepsText_headerSteps, stepsText_stepsList,
    stepsText_importSteps, stepsText_headSteps, stepsText_tailSteps, stepsText_sectionSteps, hn]
  simp only [fileNodes, preludeNodes, declarationNodes, definitionNodes, enumsFileNodes,
    shellsFileNodes, servicesNodes, hb, hd, render, linesList_append, linesList_wrapModules,
    renderLines_append, h0, List.append_assoc]
  rfl

theorem reason_mem_keyword (kw : Keyword) : kw.reason ∈ reasonStrings := by
  cases kw <;> decide

theorem reason_mem_newline : newlineStep.2 ∈ reasonStrings := by decide

theorem reason_mem_field : "Failed printing message field".toList ∈ reasonStrings := by decide

theorem reason_mem_declaration :
    "Failed printing block declaration".toList ∈ reasonStrings := by decide

theorem reason_mem_end : "Failed printing block end".toList ∈ reasonStrings := by decide

theorem reason_mem_comment : "Failed printing comment".toList ∈ reasonStrings := by decide

mutual

theorem reason_mem_steps : ∀ (x : Node) (n : Nat), ∀ s ∈ Node.steps n x, s.2 ∈ reasonStrings
  | .blank, n => by
    intro s hs
    simp only [Node.steps, List.mem_singleton] at hs
    subst hs
    exact reason_mem_newline
  | .text kw rest, n => by
    intro s hs
    simp only [Node.steps] at hs
    split at hs
    · simp only [List.mem_singleton] at hs
      subst hs
      exact reason_mem_keyword kw
    · simp only [List.mem_cons, List.mem_singleton, List.not_mem_nil, or_false] at hs
      rcases hs with hs | hs
      · subst hs
        exact reason_mem_keyword kw
      · subst hs
        exact reason_mem_newline
  | .field d, n => by
    intro s hs
    simp only [Node.steps, List.mem_cons, List.mem_singleton, List.not_mem_nil, or_false] at hs
    rcases hs with hs | hs
    · subst hs
      exact reason_mem_field
    · subst hs
      exact reason_mem_newline
  | .shell name, n => by
    intro s hs
    simp only [Node.steps, List.mem_cons, List.mem_singleton, List.not_mem_nil, or_false] at hs
    rcases hs with hs | hs
    · subst hs
      exact reason_mem_declaration
    · subst hs
      exact reason_mem_newline
  | .block bt ct name body, n => by
    intro s hs
    simp only [Node.steps, List.mem_cons, List.mem_append, List.mem_singleton,
      List.not_mem_nil, or_false] at hs
    rcases hs with hs | hs | hs | hs | hs
    · subst hs
      exact reason_mem_declaration
    · subst hs
      exact reason_mem_newline
    · exact reason_mem_stepsList body (n + 1) s hs
    · subst hs
      exact reason_mem_end
    · subst hs
      exact reason_mem_newline

theorem reason_mem_stepsList : ∀ (xs : List Node) (n : Nat),
    ∀ s ∈ Node.stepsList n xs, s.2 ∈ reasonStrings
  | [], n => by
    intro s hs
    simp [Node.stepsList] at hs
  | x :: xs, n => by
    intro s hs
    simp only [Node.stepsList, List.mem_append] at hs
    rcases hs with hs | hs
    · exact reason_mem_steps x n s hs
    · exact reason_mem_stepsList xs n s hs

end

theorem reason_mem_headerSteps (n : Nat) (comment : Str) :
    ∀ s ∈ headerSteps n comment, s.2 ∈ reasonStrings := by
  intro s hs
  simp only [headerSteps, List.mem_cons, List.mem_singleton, List.not_mem_nil, or_false] at hs
  rcases hs with hs | hs
  · subst hs
    exact reason_mem_comment
  · subst hs
    exact reason_mem_newline

theorem reason_mem_sectionSteps (b : Bool) (n : Nat) (title : Str) (nodes : List Node) :
    ∀ s ∈ sectionSteps b n title nodes, s.2 ∈ reasonStrings := by
  intro s hs
  unfold sectionSteps at hs
  split at hs
  · rcases List.mem_append.mp hs with h | h
    · exact reason_mem_headerSteps n title s h
    · exact reason_mem_stepsList nodes n s h
  · exact absurd hs (List.not_mem_nil _)

theorem reason_mem_headSteps (segs : List Str) (n : Nat) :
    ∀ s ∈ headSteps n segs, s.2 ∈ reasonStrings := by
  induction segs generalizing n with
  | nil =>
    intro s hs
    exact absurd hs (List.not_mem_nil _)
  | cons x xs ih =>
    intro s hs
    simp only [headSteps, List.mem_cons] at hs
    rcases hs with hs | hs | hs
    · subst hs
      exact reason_mem_declaration
    · subst hs
      exact reason_mem_newline
    · exact ih (n + 1) s hs

theorem reason_mem_tailSteps (n k : Nat) : ∀ s ∈ tailSteps n k, s.2 ∈ reasonStrings := by
  induction k with
  | zero =>
    intro s hs
    exact absurd hs (List.not_mem_nil _)
  | succ k ih =>
    intro s hs
    simp only [tailSteps, List.mem_cons] at hs
    rcases hs with hs | hs | hs
    · subst hs
      exact reason_mem_end
    · subst hs
      exact reason_mem_newline
    · exact ih s hs

theorem reason_mem_fileSteps (H : HashOrder) (file : FileDescriptor) :
    ∀ s ∈ fileSteps H file, s.2 ∈ reasonStrings := by
  intro s hs
  simp only [fileSteps, importSteps, List.mem_append, List.mem_singleton] at hs
  rcases hs with h | h | h | (h | h) | h | h | h | h | h | h | h | h
  · exact reason_mem_headerSteps _ _ s h
  · exact reason_mem_stepsList _ _ s h
  · split at h
    · simp only [List.mem_cons, List.mem_append] at h
      rcases h with h | h | h
      · subst h
        exact reason_mem_newline
      · exact reason_mem_headerSteps _ _ s h
      · exact reason_mem_stepsList _ _ s h
    · exact absurd h (List.not_mem_nil _)
  · subst h
    exact reason_mem_newline
  · exact reason_mem_headSteps _ _ s h
  · exact reason_mem_sectionSteps _ _ _ _ s h
  · subst h
    exact reason_mem_newline
  · exact reason_mem_sectionSteps _ _ _ _ s h
  · subst h
    exact reason_mem_newline
  · exact reason_mem_sectionSteps _ _ _ _ s h
  · exact reason_mem_sectionSteps _ _ _ _ s h
  · exact reason_mem_sectionSteps _ _ _ _ s h
  · exact reason_mem_tailSteps _ _ s h

theorem failingReason_mem (steps : List (Str × Str)) (r : Nat)
    (h : r < (stepsText steps).length) :
    ∃ s ∈ steps, failingReason steps r = s.2 := by
  induction steps generalizing r with
  | nil => simp [stepsText] at h
  | cons s ss ih =>
    simp only [stepsText, List.length_append] at h
    by_cases h1 : s.1.length ≤ r
    · obtain ⟨t, ht, he⟩ := ih (r - s.1.length) (by omega)
      refine ⟨t, List.mem_cons_of_mem _ ht, ?_⟩
      simp only [failingReason, h1, if_true, he]
    · refine ⟨s, List.mem_cons_self _ _, ?_⟩
      simp only [failingReason, h1, if_false]

/-! ## `Generate` on a sink with room for a number of bytes -/

theorem GenerateInit_on (file : FileDescriptor) (r : Nat) (g : RubyGenerator) :
    GenerateInit file (some r) g
      = stateOn r [] true 0 [] (CreateRubyFileName file.name false)
          (SplitStringUsing file.package '.' []) g.failed_message := rfl

theorem reasonStrings_ne_nil : ∀ m ∈ reasonStrings, m ≠ [] := by decide

theorem reasonStrings_not_generic (fn : Str) :
    ∀ m ∈ reasonStrings, m ≠ "An unknown error occurred compiling ".toList ++ fn := by
  intro m hm
  simp only [reasonStrings, List.mem_cons, List.mem_singleton, List.not_mem_nil, or_false] at hm
  rcases hm with h | h | h | h | h | h | h | h | h <;>
    · subst h
      intro e
      have := congrArg List.head? e
      simp at this

theorem failingReason_fileSteps (H : HashOrder) (file : FileDescriptor) (r : Nat)
    (h : r < (generatedText H file).length) :
    failingReason (fileSteps H file) r ∈ reasonStrings := by
  rw [← stepsText_fileSteps] at h
  obtain ⟨s, hs, he⟩ := failingReason_mem _ _ h
  rw [he]
  exact reason_mem_fileSteps H file s hs

/-- What `Generate` does on a sink with room for `r` bytes: when the text for the file fits,
it returns true with the whole text written; otherwise it returns false, the error is the
reason of the first emission step that did not fit, and the sink holds the first `r` bytes
of the text. -/
theorem Generate_on (H : HashOrder) (file : FileDescriptor) (r : Nat) (g : RubyGenerator) :
    ((generatedText H file).length ≤ r →
      (Generate H file (some r) g).returned = true
      ∧ (Generate H file (some r) g).error = none
      ∧ (Generate H file (some r) g).members
          = stateOn (r - (generatedText H file).length) (generatedText H file) true 0
              (registryAtEnd H file) (CreateRubyFileName file.name false)
              (SplitStringUsing file.package '.' []) g.failed_message)
    ∧ (r < (generatedText H file).length →
      (Generate H file (some r) g).returned = false
      ∧ (Generate H file (some r) g).error = some (failingReason (fileSteps H file) r)
      ∧ (Generate H file (some r) g).members.printer_.output = (generatedText H file).take r
      ∧ (Generate H file (some r) g).members.printer_.failed_ = true
      ∧ (Generate H file (some r) g).members.failed_message
          = failingReason (fileSteps H file) r
      ∧ (Generate H file (some r) g).members.filename = CreateRubyFileName file.name false) := by
  obtain ⟨a1, a2⟩ := Writes_GenerateBody H file r [] (CreateRubyFileName file.name false)
    g.failed_message
  rw [stepsText_fileSteps] at a1 a2
  constructor
  · intro h
    simp only [Generate, GenerateInit_on, a1 h, List.nil_append, and_self]
  · intro h
    obtain ⟨e, he, q1, q2, q3, q4⟩ := a2 h
    have hne : e.failed_message ≠ [] := by
      rw [q1]
      exact reasonStrings_ne_nil _ (failingReason_fileSteps H file r h)
    simp only [Generate, GenerateInit_on, he, if_neg hne]
    exact ⟨trivial, congrArg some q1, q2, q3, q1, q4⟩

/-! ## Failed writes -/

theorem stateOn_output (r : Nat) (out : Str) (st : Bool) (n : Nat)
    (em : List (Str × List FieldDescriptor)) (fn : Str) (ns : List Str) (fm : Str) :
    (stateOn r out st n em fn ns fm).printer_.output = out := rfl

theorem stepsText_cons_length (s : Str × Str) (ss : List (Str × Str)) :
    (stepsText (s :: ss)).length = s.1.length + (stepsText ss).length := by
  simp only [stepsText, List.length_append]

/-- On a sink whose room ends inside the text of the steps there is a first step that does
not fit: the steps before it fit, it does not, and its reason is the failing reason. -/
theorem failingReason_split (steps : List (Str × Str)) (r : Nat)
    (h : r < (stepsText steps).length) :
    ∃ before step after, steps = before ++ step :: after
      ∧ (stepsText before).length ≤ r
      ∧ r < (stepsText before).length + step.1.length
      ∧ failingReason steps r = step.2 := by
  induction steps generalizing r with
  | nil => simp [stepsText] at h
  | cons s ss ih =>
    rw [stepsText_cons_length] at h
    by_cases h1 : s.1.length ≤ r
    · obtain ⟨before, step, after, e1, e2, e3, e4⟩ := ih (r - s.1.length) (by omega)
      refine ⟨s :: before, step, after, by rw [e1]; rfl, ?_, ?_, ?_⟩
      · rw [stepsText_cons_length]
        omega
      · rw [stepsText_cons_length]
        omega
      · simp only [failingReason, h1, if_true, e4]
    · refine ⟨[], s, ss, rfl, Nat.zero_le _, ?_, ?_⟩
      · simp only [stepsText, List.length_nil, Nat.zero_add]
        omega
      · simp only [failingReason, h1, if_false]

/-- C12: when a write to the sink fails during `Generate`, that is when the sink has room
for fewer bytes than the text for the file, `Generate` returns false and the error it
hands back is the reason of the emission step whose write failed: the emission steps of
the file split into the steps before it, whose text fits into the sink, the step itself,
whose text goes beyond the room of the sink, and the steps after it, and the error is the
reason that step hands to `ValidatePrinter`.  It is one of the nine `Failed printing ...`
texts of the source; the message that names the file is not produced. -/
theorem Generate_error_is_step_reason (H : HashOrder) (file : FileDescriptor) (r : Nat)
    (g : RubyGenerator) (h : r < (generatedText H file).length) :
    (Generate H file (some r) g).returned = false
    ∧ stepsText (fileSteps H file) = generatedText H file
    ∧ (∃ before step after, fileSteps H file = before ++ step :: after
        ∧ (stepsText before).length ≤ r
        ∧ r < (stepsText before).length + step.1.length
        ∧ (Generate H file (some r) g).error = some step.2
        ∧ (Generate H file (some r) g).members.failed_message = step.2
        ∧ step.2 ∈ reasonStrings)
    ∧ (Generate H file (some r) g).error = some (failingReason (fileSteps H file) r)
    ∧ (Generate H file (some r) g).members.printer_.output = (generatedText H file).take r
    ∧ (∃ m ∈ reasonStrings, (Generate H file (some r) g).error = some m)
    ∧ (Generate H file (some r) g).error
        ≠ some ("An unknown error occurred compiling ".toList
            ++ CreateRubyFileName file.name false) := by
  obtain ⟨h1, h2, h3, _, h5, _⟩ := (Generate_on H file r g).2 h
  have hm := failingReason_fileSteps H file r h
  have hs := h
  rw [← stepsText_fileSteps] at hs
  obtain ⟨before, step, after, e1, e2, e3, e4⟩ := failingReason_split _ _ hs
  refine ⟨h1, stepsText_fileSteps H file,
    ⟨before, step, after, e1, e2, e3, h2.trans (congrArg some e4), h5.trans e4, e4 ▸ hm⟩,
    h2, h3, ⟨_, hm, h2⟩, ?_⟩
  rw [h2]
  intro e
  exact reasonStrings_not_generic _ _ hm (Option.some.inj e)

set_option maxRecDepth 100000 in
theorem Generate_error_is_step_reason_witness :
    154 < (generatedText HashOrder.insertion sampleFile).length
    ∧ (Generate HashOrder.insertion sampleFile (some 154) {}).returned = false
    ∧ (Generate HashOrder.insertion sampleFile (some 154) {}).error
        = some "Failed printing block declaration".toList
    ∧ (Generate HashOrder.insertion sampleFile (some 154) {}).members.printer_.output
        = ("##\n# This file is auto-generated. DO NOT EDIT!\n#\n".toList
            ++ "require 'protobuf/message'\nrequire 'protobuf/rpc/service'\n\n".toList
            ++ "##\n# Imports\n#\nrequire 'base.pb'\n\nmodule foo\n ".toList) :=
  ⟨by rw [generatedText_eq]; decide,
    (Generate_error_is_step_reason HashOrder.insertion sampleFile 154 {}
      (by rw [generatedText_eq]; decide)).1,
    (Generate_error_is_step_reason HashOrder.insertion sampleFile 154 {}
      (by rw [generatedText_eq]; decide)).2.2.2.1.trans (congrArg some (by decide)),
    (Generate_error_is_step_reason HashOrder.insertion sampleFile 154 {}
      (by rw [generatedText_eq]; decide)).2.2.2.2.1.trans
        (by rw [generatedText_eq]; decide)⟩

/-- C12, counterexample: on a sink with room for ten bytes, `Generate` for `sampleFile`
writes `##`, a line feed and `# This `, returns false, and hands back the error
`Failed printing comment`, in which the name of the generated file `dir/foo.pb.rb` does
not occur. -/
theorem failed_write_error_does_not_name_file :
    (Generate HashOrder.insertion sampleFile (some 10) {}).returned = false
    ∧ (Generate HashOrder.insertion sampleFile (some 10) {}).error
        = some "Failed printing comment".toList
    ∧ (Generate HashOrder.insertion sampleFile (some 10) {}).members.filename
        = "dir/foo.pb.rb".toList
    ∧ (Generate HashOrder.insertion sampleFile (some 10) {}).members.printer_.output
        = "##\n# This ".toList
    ∧ findSubstr "dir/foo.pb.rb".toList "Failed printing comment".toList = none := by
  refine ⟨by decide, by decide, by decide, by decide, by decide⟩

/-- C13: on a sink with room for `r` bytes `Generate` returns true exactly when no write
fails, that is when the text for the file fits, and then the whole text is written and no
error is assigned.  Otherwise the run ends at the validation after the first emission step
whose text did not fit: the sink holds the first `r` bytes of the text, and the error is
the reason that step hands to `ValidatePrinter`, one of the nine reasons of the source,
not empty and not the generic message naming the file.  On a sink that never fails
`Generate` returns true. -/
theorem Generate_returns_true_iff_no_write_fails (H : HashOrder) (file : FileDescriptor)
    (r : Nat) (g : RubyGenerator) :
    stepsText (fileSteps H file) = generatedText H file
    ∧ ((Generate H file (some r) g).returned = true
        ↔ (Generate H file (some r) g).members.printer_.failed_ = false)
    ∧ ((Generate H file (some r) g).returned = true ↔ (generatedText H file).length ≤ r)
    ∧ ((generatedText H file).length ≤ r →
        (Generate H file (some r) g).error = none
        ∧ (Generate H file (some r) g).members.printer_.output = generatedText H file)
    ∧ (r < (generatedText H file).length →
        (Generate H file (some r) g).members.printer_.output = (generatedText H file).take r
        ∧ (Generate H file (some r) g).error = some (failingReason (fileSteps H file) r)
        ∧ failingReason (fileSteps H file) r ∈ reasonStrings
        ∧ failingReason (fileSteps H file) r ≠ []
        ∧ failingReason (fileSteps H file) r
            ≠ "An unknown error occurred compiling ".toList
              ++ (Generate H file (some r) g).members.filename)
    ∧ (Generate H file none g).returned = true := by
  obtain ⟨a1, a2⟩ := Generate_on H file r g
  refine ⟨stepsText_fileSteps H file, ?_, ?_, ?_, ?_, (Generate_never_failing H file g).1⟩
  · by_cases h : (generatedText H file).length ≤ r
    · obtain ⟨b1, _, b3⟩ := a1 h
      rw [b1, b3]
      exact ⟨fun _ => rfl, fun _ => rfl⟩
    · obtain ⟨b1, _, _, b4, _⟩ := a2 (by omega)
      rw [b1, b4]
      exact ⟨fun e => absurd e (by decide), fun e => absurd e (by decide)⟩
  · by_cases h : (generatedText H file).length ≤ r
    · exact ⟨fun _ => h, fun _ => (a1 h).1⟩
    · obtain ⟨b1, _⟩ := a2 (by omega)
      rw [b1]
      exact ⟨fun e => absurd e (by decide), fun e => absurd e h⟩
  · intro h
    obtain ⟨_, b2, b3⟩ := a1 h
    exact ⟨b2, (congrArg (fun m : RubyGenerator => m.printer_.output) b3).trans
      (stateOn_output _ _ _ _ _ _ _ _)⟩
  · intro h
    obtain ⟨_, b2, b3, _, _, b6⟩ := a2 h
    have hm := failingReason_fileSteps H file r h
    exact ⟨b3, b2, hm, reasonStrings_ne_nil _ hm, reasonStrings_not_generic _ _ hm⟩

/-- With one iteration order of the map in both calls: the value `Generate` returns, the
error it assigns and the text it writes are the same whatever members an earlier call has left in the generator (file name, namespace
vector, extension map, indent level, printer, failure message), on a sink that never
fails and on a sink with room for any number of bytes. -/
theorem Generate_independent_of_prior_state (H : HashOrder) (file : FileDescriptor)
    (room : Option Nat) (g1 g2 : RubyGenerator) :
    (Generate H file room g1).returned = (Generate H file room g2).returned
    ∧ (Generate H file room g1).error = (Generate H file room g2).error
    ∧ (Generate H file room g1).members.printer_.output
        = (Generate H file room g2).members.printer_.output := by
  cases room with
  | none =>
    obtain ⟨a1, a2, a3⟩ := Generate_never_failing H file g1
    obtain ⟨b1, b2, b3⟩ := Generate_never_failing H file g2
    have c1 := congrArg (fun m : RubyGenerator => m.printer_.output) a3
    have c2 := congrArg (fun m : RubyGenerator => m.printer_.output) b3
    exact ⟨a1.trans b1.symm, a2.trans b2.symm, c1.trans c2.symm⟩
  | some r =>
    by_cases h : (generatedText H file).length ≤ r
    · obtain ⟨a1, a2, a3⟩ := (Generate_on H file r g1).1 h
      obtain ⟨b1, b2, b3⟩ := (Generate_on H file r g2).1 h
      have c1 := congrArg (fun m : RubyGenerator => m.printer_.output) a3
      have c2 := congrArg (fun m : RubyGenerator => m.printer_.output) b3
      exact ⟨a1.trans b1.symm, a2.trans b2.symm, c1.trans c2.symm⟩
    · obtain ⟨a1, a2, a3, _⟩ := (Generate_on H file r g1).2 (by omega)
      obtain ⟨b1, b2, b3, _⟩ := (Generate_on H file r g2).2 (by omega)
      exact ⟨a1.trans b1.symm, a2.trans b2.symm, a3.trans b3.symm⟩

/-! ## Asking the registry -/

theorem mapContains_iff_lookup (em : List (Str × List FieldDescriptor)) (key : Str) :
    mapContains em key = true ↔ ∃ bucket, em.lookup key = some bucket := by
  induction em with
  | nil => simp [mapContains]
  | cons e es ih =>
    obtain ⟨a, b⟩ := e
    simp only [mapContains, List.any_cons, Bool.or_eq_true, beq_iff_eq] at ih ⊢
    by_cases h : key = a
    · subst h
      simp [List.lookup]
    · have h2 : (key == a) = false := by simpa using h
      have h3 : ¬ a = key := fun e => h e.symm
      simp only [h3, false_or, List.lookup, h2]
      exact ih

/-- C21: `DescriptorHasExtensions` returns true exactly when the registry holds a bucket
for the full name of the message and that bucket is not empty; the members of the generator
after the call are the members before it, so the registry has the entries it had and no
entry is created for an absent key.  The value is the one `DescriptorHasExtensions`
computes from the registry. -/
theorem DescriptorHasExtensions_reads_only (descriptor : Descriptor) (g : RubyGenerator) :
    (DescriptorHasExtensionsCall descriptor g).2 = g
    ∧ ((DescriptorHasExtensionsCall descriptor g).1 = true
        ↔ ∃ bucket, g.extended_messages.lookup descriptor.full_name = some bucket
            ∧ bucket ≠ [])
    ∧ (DescriptorHasExtensionsCall descriptor g).1 = DescriptorHasExtensions descriptor g
    ∧ ∀ key, mapContains (DescriptorHasExtensionsCall descriptor g).2.extended_messages key
        = mapContains g.extended_messages key := by
  have hstate : (DescriptorHasExtensionsCall descriptor g).2 = g := by
    unfold DescriptorHasExtensionsCall
    by_cases h : mapContains g.extended_messages descriptor.full_name = true
    · simp only [h, if_true, mapTouch]
    · simp only [h, Bool.false_eq_true, if_false]
  have hval : (DescriptorHasExtensionsCall descriptor g).1
      = DescriptorHasExtensions descriptor g := by
    unfold DescriptorHasExtensionsCall DescriptorHasExtensions
    by_cases h : mapContains g.extended_messages descriptor.full_name = true
    · simp only [h, if_true, mapTouch]
    · simp only [h, Bool.false_eq_true, if_false]
  refine ⟨hstate, ?_, hval, fun key => by rw [hstate]⟩
  rw [hval]
  unfold DescriptorHasExtensions
  by_cases h : mapContains g.extended_messages descriptor.full_name = true
  · obtain ⟨b, hb⟩ := (mapContains_iff_lookup _ _).mp h
    simp only [h, if_true, mapGet, hb, Option.getD_some, decide_eq_true_eq]
    constructor
    · intro hl
      exact ⟨b, rfl, fun e => hl (by rw [e]; rfl)⟩
    · rintro ⟨b2, h2, h3⟩
      have : b2 = b := (Option.some.inj h2).symm
      subst this
      intro hl
      exact h3 (List.length_eq_zero.mp hl)
  · simp only [h, Bool.false_eq_true, if_false, false_iff]
    rintro ⟨b, hb, _⟩
    exact h ((mapContains_iff_lookup _ _).mpr ⟨b, hb⟩)

/-! ## Empty lines -/

theorem newlines_stateOf (k : Nat) (out : Str) (st : Bool) (n : Nat)
    (em : List (Str × List FieldDescriptor)) (fn : Str) (ns : List Str) (fm : Str) :
    forEach (fun (_ : Unit) => andThen (print [] "\n".toList)
        (ValidatePrinter "Failed printing newline".toList)) (List.replicate k ())
        { printer_ := printerOf out [] st, filename := fn, ns_vector := ns,
          extended_messages := em, indent_level := n, failed_message := fm }
      = Except.ok { printer_ := printerOf (out ++ List.replicate k '\n') []
                      (if k = 0 then st else true),
                    filename := fn, ns_vector := ns, extended_messages := em,
                    indent_level := n, failed_message := fm } := by
  have hp : Printer.pieces [] [] none "\n".toList
      = [Printer.Piece.raw ['\n'], Printer.Piece.eol, Printer.Piece.raw []] := by decide
  have hex : ∀ b, expand [] b [Printer.Piece.raw ['\n'], Printer.Piece.eol, Printer.Piece.raw []]
      = (['\n'], true) := by
    intro b
    cases b <;> simp [expand]
  induction k generalizing out st with
  | zero => simp [forEach]
  | succ k ih =>
    have hstep : List.foldl Printer.apply (printerOf out [] st)
        [Printer.Piece.raw ['\n'], Printer.Piece.eol, Printer.Piece.raw []]
        = printerOf (out ++ ['\n']) [] true := by
      rw [foldl_apply_expand, hex]
    have hf : (printerOf (out ++ ['\n']) [] true).failed_ = false := rfl
    simp only [List.replicate, forEach, andThen, print, Printer.Print, hp, hstep,
      ValidatePrinter, hf, Bool.false_eq_true, if_false]
    rw [ih]
    cases k with
    | zero => simp
    | succ j => simp [List.replicate]

theorem PrintNewLineN_stateOf (k : Nat) (out : Str) (st : Bool) (n : Nat)
    (em : List (Str × List FieldDescriptor)) (fn : Str) (ns : List Str) (fm : Str) :
    PrintNewLineN k (stateOf out st n em fn ns fm)
      = Except.ok (stateOf (out ++ List.replicate k '\n') (if k = 0 then st else true) n em
          fn ns fm) := by
  have h0 := iterate_Indent_spaces (out ++ List.replicate k '\n') (if k = 0 then st else true)
    n 0
  have hs0 : spaces 0 = [] := rfl
  rw [hs0, Nat.zero_add] at h0
  simp only [PrintNewLineN, stateOf, iterate_Outdent_spaces, newlines_stateOf, h0]

theorem not_isBlank_spaces_cons (n : Nat) (c : Char) (cs : Str)
    (hc : c.isWhitespace = false) : isBlank (spaces n ++ c :: cs) = false := by
  simp [isBlank, hc]

mutual

theorem blank_lines_node : ∀ (x : Node) (n : Nat),
    ∀ l ∈ Node.lines n x, isBlank l = true → l = []
  | .blank, n => by
    intro l hl _
    simpa [Node.lines] using hl
  | .text kw r, n => by
    intro l hl hb
    rw [Node.lines, List.mem_singleton] at hl
    subst hl
    exfalso
    cases kw <;> simp [isBlank, Keyword.text, Char.isWhitespace] at hb
  | .field f, n => by
    intro l hl hb
    rw [Node.lines, List.mem_singleton] at hl
    subst hl
    exfalso
    rcases fieldPresence_cases f with h | h | h <;>
      simp [isBlank, fieldLine, h, Char.isWhitespace] at hb
  | .shell name, n => by
    intro l hl hb
    rw [Node.lines, List.mem_singleton] at hl
    subst hl
    exfalso
    simp [isBlank, blockLine, Char.isWhitespace] at hb
  | .block bt ct name body, n => by
    intro l hl hb
    simp only [Node.lines, List.mem_cons, List.mem_append, List.not_mem_nil, or_false] at hl
    rcases hl with e | hl | e
    · subst e
      exfalso
      cases bt <;> simp [isBlank, blockLine, Char.isWhitespace] at hb
    · exact blank_lines_nodes body (n + 1) l hl hb
    · subst e
      exfalso
      simp [isBlank, Char.isWhitespace] at hb

theorem blank_lines_nodes : ∀ (xs : List Node) (n : Nat),
    ∀ l ∈ Node.linesList n xs, isBlank l = true → l = []
  | [], n => by simp [Node.linesList]
  | x :: xs, n => by
    intro l hl hb
    simp only [Node.linesList, List.mem_append] at hl
    rcases hl with hl | hl
    · exact blank_lines_node x n l hl hb
    · exact blank_lines_nodes xs n l hl hb

end

/-- C23: on a sink that never fails, `PrintNewLine(k)` called `n` blocks deep appends
exactly `k` line feeds and nothing else, and returns with the indent level and the
indentation of the printer as they were.  For a schema file whose names are identifiers
and whose default texts hold no line feed, every line of the generated text that is made
of whitespace only is empty. -/
theorem PrintNewLine_keeps_indentation_out_of_blank_lines (H : HashOrder)
    (file : FileDescriptor) (h : plainFile file = true) :
    (∀ (k : Nat) (out : Str) (st : Bool) (n : Nat) (em : List (Str × List FieldDescriptor))
        (fn : Str) (ns : List Str) (fm : Str),
        PrintNewLineN k (stateOf out st n em fn ns fm)
          = Except.ok (stateOf (out ++ List.replicate k '\n') (if k = 0 then st else true) n
              em fn ns fm)
        ∧ (stateOf (out ++ List.replicate k '\n') (if k = 0 then st else true) n
              em fn ns fm).indent_level = n
        ∧ (stateOf (out ++ List.replicate k '\n') (if k = 0 then st else true) n
              em fn ns fm).printer_.indent_ = (stateOf out st n em fn ns fm).printer_.indent_)
    ∧ ∀ l ∈ linesOf (generatedText H file), isBlank l = true → l = [] := by
  refine ⟨fun k out st n em fn ns fm => ⟨PrintNewLineN_stateOf k out st n em fn ns fm, rfl, rfl⟩,
    ?_⟩
  rw [linesOf_generatedText H file h, ← fileLines_eq]
  exact blank_lines_nodes _ 0

theorem PrintNewLine_keeps_indentation_out_of_blank_lines_witness :
    plainFile sampleFile = true
    ∧ ∀ l ∈ linesOf (generatedText HashOrder.insertion sampleFile), isBlank l = true → l = [] :=
  ⟨by decide,
    (PrintNewLine_keeps_indentation_out_of_blank_lines HashOrder.insertion sampleFile
      (by decide)).2⟩

/-- C23, counterexample: the string default of the field of `blankLineDefaultFile` holds a
line of two spaces, which is printed as it is, so the generated text has a line that is
made of whitespace and is not empty. -/
theorem default_text_adds_whitespace_line :
    "  ".toList ∈ linesOf (generatedText HashOrder.insertion blankLineDefaultFile)
    ∧ isBlank "  ".toList = true ∧ "  ".toList ≠ [] := by
  refine ⟨?_, by decide, by decide⟩
  rw [generatedText_eq]
  decide

/-! ## Indentation -/

theorem indentOf_spaces_cons (n : Nat) (c : Char) (cs : Str) (hc : c ≠ ' ') :
    indentOf (spaces n ++ c :: cs) = 2 * n := by
  unfold indentOf spaces
  induction (2 * n) with
  | zero => simp [List.takeWhile, hc]
  | succ k ih =>
    simp only [List.replicate_succ, List.cons_append, List.takeWhile, decide_True,
      List.length_cons]
    exact congrArg (· + 1) ih

theorem indentScan_plain (l : Str) (ls : List Str) (d : Nat) (hb : isBlank l = false)
    (ht : isTerminator l = false) (ho : opensBody l = false) (hi : indentOf l = 2 * d) :
    indentScan (l :: ls) d = indentScan ls d := by
  simp [indentScan, hb, ht, ho, hi]

theorem indentScan_open (l : Str) (ls : List Str) (d : Nat) (hb : isBlank l = false)
    (ho : opensBody l = true) (hi : indentOf l = 2 * d) :
    indentScan (l :: ls) d = indentScan ls (d + 1) := by
  have ht : isTerminator l = false := by
    cases h : isTerminator l with
    | false => rfl
    | true =>
      rw [isTerminator_not_opensBody l h] at ho
      exact absurd ho (by decide)
  simp [indentScan, hb, ht, ho, hi]

theorem indentScan_end (n : Nat) (ls : List Str) :
    indentScan ((spaces n ++ "end".toList) :: ls) (n + 1) = indentScan ls n := by
  have hb : isBlank (spaces n ++ "end".toList) = false :=
    not_isBlank_spaces_cons n 'e' _ (by decide)
  have hi : indentOf (spaces n ++ "end".toList) = 2 * n :=
    indentOf_spaces_cons n 'e' _ (by decide)
  rw [indentScan, hb, (end_line_kind n).2.1, hi]
  simp

theorem indentScan_blank (ls : List Str) (d : Nat) : indentScan ([] :: ls) d = indentScan ls d := by
  simp [indentScan, isBlank]

theorem text_line_indent (n : Nat) (kw : Keyword) (rest : Str) :
    isBlank (spaces n ++ (kw.text ++ rest)) = false
    ∧ indentOf (spaces n ++ (kw.text ++ rest)) = 2 * n := by
  cases kw <;>
    exact ⟨not_isBlank_spaces_cons n _ _ (by decide), indentOf_spaces_cons n _ _ (by decide)⟩

theorem field_line_indent (n : Nat) (descriptor : FieldDescriptor) :
    isBlank (spaces n ++ fieldLine descriptor) = false
    ∧ indentOf (spaces n ++ fieldLine descriptor) = 2 * n := by
  rcases fieldPresence_cases descriptor with h | h | h <;>
    · simp only [fieldLine, h, List.append_assoc]
      exact ⟨not_isBlank_spaces_cons n _ _ (by decide),
        indentOf_spaces_cons n _ _ (by decide)⟩

theorem block_line_indent (n : Nat) (bt : RubyBlockType) (ct : RubyClassType) (name : Str)
    (b : Bool) :
    isBlank (spaces n ++ blockLine bt ct name b) = false
    ∧ indentOf (spaces n ++ blockLine bt ct name b) = 2 * n := by
  cases bt <;>
    · simp only [blockLine, List.append_assoc]
      exact ⟨not_isBlank_spaces_cons n _ _ (by decide),
        indentOf_spaces_cons n _ _ (by decide)⟩

mutual

/-- The indentation reading passes over the lines of a good node printed `n` blocks
deep. -/
theorem indentScan_node : ∀ (x : Node) (n : Nat) (rest : List Str), x.good = true →
    indentScan (Node.lines n x ++ rest) n = indentScan rest n
  | .blank, n, rest, _ => by
    simp only [Node.lines, List.singleton_append, indentScan_blank]
  | .text kw r, n, rest, _ => by
    simp only [Node.lines, List.singleton_append]
    exact indentScan_plain _ _ _ (text_line_indent n kw r).1 (text_line_neutral n kw r).2.1
      (text_line_neutral n kw r).1 (text_line_indent n kw r).2
  | .field f, n, rest, _ => by
    simp only [Node.lines, List.singleton_append]
    exact indentScan_plain _ _ _ (field_line_indent n f).1 (field_line_kind n f).2.1
      (field_line_kind n f).1 (field_line_indent n f).2
  | .shell name, n, rest, _ => by
    simp only [Node.lines, List.singleton_append]
    exact indentScan_plain _ _ _ (block_line_indent n _ _ name true).1
      (shell_line_kind n name).2.1 (shell_line_kind n name).1
      (block_line_indent n _ _ name true).2
  | .block bt ct name body, n, rest, h => by
    simp only [Node.good, Bool.and_eq_true, beq_iff_eq] at h
    obtain ⟨⟨hbt, hname⟩, hbody⟩ := h
    subst hbt
    have ih := indentScan_nodes body (n + 1) ((spaces n ++ "end".toList) :: rest) hbody
    have e : Node.lines n (Node.block RubyBlockType.RUBY_CLASS ct name body) ++ rest
        = (spaces n ++ blockLine RubyBlockType.RUBY_CLASS ct name false)
            :: (Node.linesList (n + 1) body ++ (spaces n ++ "end".toList) :: rest) := by
      simp [Node.lines]
    rw [e, indentScan_open _ _ _ (block_line_indent n _ ct name false).1
      (class_header_kind n ct name hname).1 (block_line_indent n _ ct name false).2, ih,
      indentScan_end]

theorem indentScan_nodes : ∀ (xs : List Node) (n : Nat) (rest : List Str),
    Node.goodList xs = true → indentScan (Node.linesList n xs ++ rest) n = indentScan rest n
  | [], n, rest, _ => by simp [Node.linesList]
  | x :: xs, n, rest, h => by
    simp only [Node.goodList, Bool.and_eq_true] at h
    simp only [Node.linesList, List.append_assoc, indentScan_node x n _ h.1,
      indentScan_nodes xs n rest h.2]

end

theorem indentScan_moduleHeads (segments : List Str) (n : Nat) (rest : List Str) :
    indentScan (moduleHeads n segments ++ rest) n = indentScan rest (n + segments.length) := by
  induction segments generalizing n with
  | nil => rfl
  | cons s ss ih =>
    rw [moduleHeads, List.cons_append,
      indentScan_open _ _ _ (block_line_indent n _ _ _ false).1 (module_header_kind n _ _).1
        (block_line_indent n _ _ _ false).2, ih, List.length_cons]
    congr 1
    omega

theorem indentScan_moduleTails (k n : Nat) (rest : List Str) :
    indentScan (moduleTails n k ++ rest) (n + k) = indentScan rest n := by
  induction k with
  | zero => rfl
  | succ k ih =>
    rw [moduleTails, List.cons_append]
    have e : n + (k + 1) = (n + k) + 1 := by omega
    rw [e, indentScan_end, ih]

/-- C22: for a schema file whose names are identifiers and whose default texts hold no
line feed, the indentation of the generated text follows the blocks: read from the top
with no block open, every line that is not blank stands two spaces deep per open block,
the header of a block and its `end` stand at the same depth, and the lines between them
one level deeper. -/
theorem Generate_indentation_follows_blocks (H : HashOrder) (file : FileDescriptor)
    (h : plainFile file = true) :
    indentScan (linesOf (generatedText H file)) 0 = true := by
  have hp := (preludeNodes_good _ file h).1
  have hd := (declarationNodes_good _ file h).1
  have hf := definitionNodes_good H file h
  rw [linesOf_generatedText H file h]
  simp only [declaredLines, definedLines, List.append_assoc]
  rw [indentScan_nodes _ 0 _ hp, indentScan_moduleHeads, Nat.zero_add,
    indentScan_nodes _ _ _ hd]
  have ht := indentScan_moduleTails (SplitStringUsing file.package '.' []).length 0 []
  rw [Nat.zero_add] at ht
  have hf2 := indentScan_nodes _ (SplitStringUsing file.package '.' []).length
    (moduleTails 0 (SplitStringUsing file.package '.' []).length) hf
  rw [hf2]
  simpa [indentScan] using ht

theorem Generate_indentation_follows_blocks_witness :
    plainFile sampleFile = true
    ∧ indentScan (linesOf (generatedText HashOrder.insertion sampleFile)) 0 = true :=
  ⟨by decide, Generate_indentation_follows_blocks HashOrder.insertion sampleFile (by decide)⟩

/-- C22, counterexample: in the text generated for `blankLineDefaultFile` the last line of
the string default, `b"`, stands at the left margin inside the body of `class M`, one
block deep. -/
theorem default_text_line_is_not_indented :
    indentScan (linesOf (generatedText HashOrder.insertion blankLineDefaultFile)) 0 = false
    ∧ "b\"".toList ∈ linesOf (generatedText HashOrder.insertion blankLineDefaultFile)
    ∧ "class M".toList ∈ linesOf (generatedText HashOrder.insertion blankLineDefaultFile) := by
  rw [generatedText_eq]
  refine ⟨by decide, by decide, by decide⟩

/-! ## What the registry holds after the first pass -/

theorem mapContains_iff_mem_keys (em : List (Str × List FieldDescriptor)) (key : Str) :
    mapContains em key = true ↔ key ∈ em.map Prod.fst := by
  simp only [mapContains, List.any_eq_true, beq_iff_eq, List.mem_map]

theorem map_update_of_not_mem (em : List (Str × List FieldDescriptor)) (key : Str)
    (f : FieldDescriptor) (h : key ∉ em.map Prod.fst) :
    em.map (fun e => if e.1 == key then (e.1, e.2 ++ [f]) else e) = em := by
  induction em with
  | nil => rfl
  | cons e es ih =>
    simp only [List.map_cons, List.mem_cons, not_or] at h
    have h1 : (e.1 == key) = false := by
      rw [beq_eq_false_iff_ne]
      exact fun e2 => h.1 e2.symm
    simp only [List.map_cons, h1, Bool.false_eq_true, if_false, ih h.2]

theorem keys_map_update (em : List (Str × List FieldDescriptor)) (key : Str)
    (f : FieldDescriptor) :
    (em.map (fun e => if e.1 == key then (e.1, e.2 ++ [f]) else e)).map Prod.fst
      = em.map Prod.fst := by
  induction em with
  | nil => rfl
  | cons e es ih =>
    simp only [List.map_cons, ih]
    congr 1
    split <;> rfl

theorem recorded_map_update (em : List (Str × List FieldDescriptor)) (key : Str)
    (f : FieldDescriptor) (hn : (em.map Prod.fst).Nodup) (hk : key ∈ em.map Prod.fst) :
    (recorded (em.map (fun e => if e.1 == key then (e.1, e.2 ++ [f]) else e))).Perm
      (recorded em ++ [f]) := by
  induction em with
  | nil => simp at hk
  | cons e es ih =>
    simp only [List.map_cons, List.nodup_cons] at hn
    by_cases h1 : e.1 = key
    · have h2 : key ∉ es.map Prod.fst := h1 ▸ hn.1
      have h3 : (e.1 == key) = true := by simpa using h1
      simp only [recorded, List.map_cons, h3, if_true, List.flatMap_cons,
        map_update_of_not_mem es key f h2]
      rw [List.append_assoc, List.append_assoc]
      exact List.Perm.append_left _ List.perm_append_comm
    · have h3 : (e.1 == key) = false := by simpa using h1
      have hk2 : key ∈ es.map Prod.fst := by
        simp only [List.map_cons, List.mem_cons] at hk
        rcases hk with hk | hk
        · exact absurd hk.symm h1
        · exact hk
      simp only [recorded, List.map_cons, h3, Bool.false_eq_true, if_false, List.flatMap_cons,
        List.append_assoc]
      exact List.Perm.append_left _ (ih hn.2 hk2)

theorem registryInv_mapPushBack (em : List (Str × List FieldDescriptor)) (f : FieldDescriptor)
    (h : registryInv em) :
    registryInv (mapPushBack em f.containing_type_full_name f)
    ∧ (recorded (mapPushBack em f.containing_type_full_name f)).Perm (recorded em ++ [f]) := by
  obtain ⟨hn, hb⟩ := h
  by_cases hc : mapContains em f.containing_type_full_name = true
  · have hk := (mapContains_iff_mem_keys _ _).mp hc
    simp only [mapPushBack, mapTouch, hc, if_true]
    refine ⟨⟨by rw [keys_map_update]; exact hn, ?_⟩, recorded_map_update em _ f hn hk⟩
    intro e he
    obtain ⟨e0, he0, rfl⟩ := List.mem_map.mp he
    obtain ⟨b1, b2⟩ := hb e0 he0
    by_cases h1 : e0.1 = f.containing_type_full_name
    · have h3 : (e0.1 == f.containing_type_full_name) = true := by simpa using h1
      simp only [h3, if_true]
      refine ⟨by simp, ?_⟩
      intro x hx
      rcases List.mem_append.mp hx with h2 | h2
      · exact b2 x h2
      · rw [List.mem_singleton.mp h2]
        exact h1.symm
    · have h3 : (e0.1 == f.containing_type_full_name) = false := by simpa using h1
      simp only [h3, Bool.false_eq_true, if_false]
      exact ⟨b1, b2⟩
  · have hk : f.containing_type_full_name ∉ em.map Prod.fst :=
      fun hm => hc ((mapContains_iff_mem_keys _ _).mpr hm)
    have e : mapPushBack em f.containing_type_full_name f
        = em ++ [(f.containing_type_full_name, [f])] := by
      simp only [mapPushBack, mapTouch, hc, Bool.false_eq_true, if_false, List.map_append,
        map_update_of_not_mem em _ f hk]
      simp
    rw [e]
    refine ⟨⟨?_, ?_⟩, ?_⟩
    · rw [List.map_append, List.nodup_append]
      refine ⟨hn, by simp, ?_⟩
      intro a ha hb2
      simp only [List.map_cons, List.map_nil, List.mem_singleton] at hb2
      exact hk (hb2 ▸ ha)
    · intro x hx
      rcases List.mem_append.mp hx with h2 | h2
      · exact hb x h2
      · rw [List.mem_singleton.mp h2]
        refine ⟨by simp, ?_⟩
        intro y hy
        rw [List.mem_singleton.mp hy]
    · simp [recorded]

theorem registryInv_storeAll (exts : List FieldDescriptor)
    (em : List (Str × List FieldDescriptor)) (h : registryInv em) :
    registryInv (storeAll exts em) ∧ (recorded (storeAll exts em)).Perm (recorded em ++ exts) := by
  induction exts generalizing em with
  | nil => exact ⟨h, by simp [storeAll]⟩
  | cons f fs ih =>
    obtain ⟨h1, h2⟩ := registryInv_mapPushBack em f h
    obtain ⟨h3, h4⟩ := ih _ h1
    simp only [storeAll, List.foldl] at h3 h4 ⊢
    refine ⟨h3, h4.trans ?_⟩
    have := List.Perm.append_right fs h2
    simpa using this

mutual

theorem registryInv_shellStore : ∀ (d : Descriptor) (em : List (Str × List FieldDescriptor)),
    registryInv em →
    registryInv (shellStore d em)
    ∧ (recorded (shellStore d em)).Perm
        (recorded em ++ (Descriptor.withNested d).flatMap Descriptor.extensions)
  | .mk name full_name fields nested enums exts ranges, em, h => by
    obtain ⟨h1, h2⟩ := registryInv_shellStoreList nested em h
    obtain ⟨h3, h4⟩ := registryInv_storeAll exts _ h1
    simp only [shellStore, Descriptor.withNested, List.flatMap_cons, Descriptor.extensions]
    refine ⟨h3, h4.trans ?_⟩
    refine (List.Perm.append_right exts h2).trans ?_
    rw [List.append_assoc]
    exact List.Perm.append_left _ List.perm_append_comm

theorem registryInv_shellStoreList : ∀ (ds : List Descriptor)
    (em : List (Str × List FieldDescriptor)), registryInv em →
    registryInv (shellStoreList ds em)
    ∧ (recorded (shellStoreList ds em)).Perm
        (recorded em ++ (Descriptor.withNestedList ds).flatMap Descriptor.extensions)
  | [], em, h => by
    simp only [shellStoreList, Descriptor.withNestedList, List.flatMap_nil, List.append_nil]
    exact ⟨h, List.Perm.refl _⟩
  | d :: ds, em, h => by
    obtain ⟨h1, h2⟩ := registryInv_shellStore d em h
    obtain ⟨h3, h4⟩ := registryInv_shellStoreList ds _ h1
    simp only [shellStoreList, Descriptor.withNestedList, List.flatMap_append]
    refine ⟨h3, h4.trans ?_⟩
    rw [← List.append_assoc]
    exact List.Perm.append_right _ h2

end

theorem registryInv_nil : registryInv [] :=
  ⟨List.nodup_nil, fun _ h => absurd h (List.not_mem_nil _)⟩

theorem registryAfterShells_holds_all (file : FileDescriptor)
    (h : file.message_types.length > 0) :
    registryInv (registryAfterShells file)
    ∧ (recorded (registryAfterShells file)).Perm file.allExtensions := by
  obtain ⟨h1, h2⟩ := registryInv_storeAll file.extensions [] registryInv_nil
  obtain ⟨h3, h4⟩ := registryInv_shellStoreList file.message_types _ h1
  simp only [registryAfterShells, h, if_true, FileDescriptor.allExtensions,
    FileDescriptor.allMessages]
  refine ⟨h3, h4.trans (List.Perm.append_right _ ?_)⟩
  simpa [recorded] using h2

/-! ## What the second pass takes from the registry -/

theorem directFields_append (a b : List Node) :
    directFields (a ++ b) = directFields a ++ directFields b := by
  simp [directFields]

theorem classBodiesList_append (a b : List Node) :
    Node.classBodiesList (a ++ b) = Node.classBodiesList a ++ Node.classBodiesList b := by
  induction a with
  | nil => rfl
  | cons x xs ih => simp [Node.classBodiesList, ih]

theorem directFields_fields (fields : List FieldDescriptor) :
    directFields (fields.map Node.field) = fields := by
  induction fields with
  | nil => rfl
  | cons f fs ih =>
    simp only [directFields, List.map_cons, List.flatMap_cons, Node.asField] at ih ⊢
    rw [ih]
    rfl

theorem classBodiesList_fields (fields : List FieldDescriptor) :
    Node.classBodiesList (fields.map Node.field) = [] := by
  induction fields with
  | nil => rfl
  | cons f fs ih => simp [Node.classBodiesList, Node.classBodies, ih]

theorem rangesNodes_no_fields (ranges : List ExtensionRange) :
    directFields (rangesNodes ranges) = [] ∧ Node.classBodiesList (rangesNodes ranges) = [] := by
  have h1 : ∀ rs : List ExtensionRange, directFields (rs.map rangeNode) = []
      ∧ Node.classBodiesList (rs.map rangeNode) = [] := by
    intro rs
    induction rs with
    | nil => exact ⟨rfl, rfl⟩
    | cons r rs ih =>
      constructor
      · have := ih.1
        simp only [directFields, List.map_cons, List.flatMap_cons] at this ⊢
        rw [this]
        rfl
      · simp [Node.classBodiesList, Node.classBodies, rangeNode, ih.2]
  unfold rangesNodes
  split
  · have e : Node.blank :: (commentNodes "Extension Fields".toList false ++ ranges.map rangeNode)
        = [Node.blank, Node.text Keyword.comment "Extension Fields".toList]
          ++ ranges.map rangeNode := rfl
    rw [e, directFields_append, classBodiesList_append, (h1 ranges).1, (h1 ranges).2]
    exact ⟨rfl, rfl⟩
  · exact ⟨rfl, rfl⟩

theorem commentNodes_no_fields (comment : Str) (b : Bool) :
    directFields (commentNodes comment b) = []
    ∧ Node.classBodiesList (commentNodes comment b) = [] := by
  cases b <;> exact ⟨rfl, rfl⟩

theorem hasBucket_iff (em : List (Str × List FieldDescriptor)) (key : Str) :
    hasBucket em key = true ↔ mapGet em key ≠ [] := by
  unfold hasBucket
  by_cases h : mapContains em key = true
  · simp only [h, if_true, decide_eq_true_eq, ne_eq, List.length_eq_zero]
  · simp only [h, Bool.false_eq_true, if_false, false_iff, ne_eq, not_not]
    exact mapGet_of_not_contains em key (by simpa using h)

theorem mapGet_filter (em : List (Str × List FieldDescriptor)) (q : Str → Bool) (key : Str) :
    mapGet (em.filter (fun e => q e.1)) key = if q key then mapGet em key else [] := by
  induction em with
  | nil => simp [mapGet]
  | cons e es ih =>
    obtain ⟨a, b⟩ := e
    simp only [mapGet] at ih ⊢
    by_cases h1 : key = a
    · subst h1
      cases hq : q key with
      | true => simp [List.filter, hq, List.lookup]
      | false =>
        simp only [List.filter, hq, Bool.false_eq_true, if_false]
        rw [ih]
        simp [hq]
    · have h2 : (key == a) = false := by simpa using h1
      cases hq : q a with
      | true =>
        simp only [List.filter, hq, List.lookup, h2]
        exact ih
      | false =>
        simp only [List.filter, hq, List.lookup, h2]
        exact ih

theorem mapContains_of_mapGet (em : List (Str × List FieldDescriptor)) (key : Str)
    (h : ∀ e ∈ em, e.2 ≠ []) (hc : mapContains em key = true) : mapGet em key ≠ [] := by
  induction em with
  | nil => simp [mapContains] at hc
  | cons e es ih =>
    obtain ⟨a, b⟩ := e
    by_cases h1 : key = a
    · subst h1
      simp only [mapGet, List.lookup, beq_self_eq_true, Option.getD_some]
      exact h (key, b) (List.mem_cons_self _ _)
    · have h2 : (key == a) = false := by simpa using h1
      have h3 : ¬ a = key := fun e => h1 e.symm
      simp only [mapContains, List.any_cons, Bool.or_eq_true, beq_iff_eq, h3, false_or] at hc
      simp only [mapGet, List.lookup, h2]
      exact ih (fun e he => h e (List.mem_cons_of_mem _ he)) hc

theorem mapErase_of_empty_bucket (em : List (Str × List FieldDescriptor)) (key : Str)
    (h : ∀ e ∈ em, e.2 ≠ []) (hg : mapGet em key = []) : mapErase em key = em := by
  have hc : mapContains em key = false := by
    cases hcc : mapContains em key with
    | false => rfl
    | true => exact absurd hg (mapContains_of_mapGet em key h hcc)
  unfold mapErase
  rw [List.filter_eq_self]
  intro e he
  simp only [mapContains, List.any_eq_false, beq_iff_eq] at hc
  simpa using hc e he

theorem bodyNodes_no_direct_fields (d : Descriptor) (em : List (Str × List FieldDescriptor)) :
    directFields (bodyNodes d em).1 = [] := by
  obtain ⟨name, full_name, fields, nested, enums, exts, ranges⟩ := d
  simp only [bodyNodes]
  split
  · rfl
  · split <;> rfl

theorem bodyNodesList_no_direct_fields (ds : List Descriptor) :
    ∀ em : List (Str × List FieldDescriptor), directFields (bodyNodesList ds em).1 = [] := by
  induction ds with
  | nil =>
    intro em
    rfl
  | cons d ds ih =>
    intro em
    simp only [bodyNodesList, directFields_append, bodyNodes_no_direct_fields, ih,
      List.append_nil]

theorem filter_names_cons (em : List (Str × List FieldDescriptor)) (key : Str)
    (names : List Str) :
    em.filter (fun e => !((key :: names).contains e.1))
      = mapErase (em.filter (fun e => !(names.contains e.1))) key := by
  unfold mapErase
  rw [List.filter_filter]
  congr 1
  funext e
  simp only [List.contains_cons, Bool.not_or]

theorem filter_names_append (em : List (Str × List FieldDescriptor)) (a b : List Str) :
    em.filter (fun e => !((a ++ b).contains e.1))
      = (em.filter (fun e => !(a.contains e.1))).filter (fun e => !(b.contains e.1)) := by
  rw [List.filter_filter]
  congr 1
  funext e
  simp only [List.contains_eq_any_beq, List.any_append, Bool.not_or, Bool.and_comm]

theorem names_mk (name full_name : Str) (fields : List FieldDescriptor)
    (nested : List Descriptor) (enums : List EnumDescriptor) (exts : List FieldDescriptor)
    (ranges : List ExtensionRange) :
    Descriptor.names (Descriptor.mk name full_name fields nested enums exts ranges)
      = full_name :: Descriptor.namesList nested := by
  simp [Descriptor.names, Descriptor.namesList, Descriptor.withNested, Descriptor.full_name]

theorem namesList_cons (d : Descriptor) (ds : List Descriptor) :
    Descriptor.namesList (d :: ds) = Descriptor.names d ++ Descriptor.namesList ds := by
  simp [Descriptor.names, Descriptor.namesList, Descriptor.withNestedList]

mutual

/-- The second pass over a message whose names are distinct, from a registry without empty
buckets that holds the bucket `bucket k` for every name `k` of the message: it reopens
the expected classes and takes the buckets of these names out of the registry. -/
theorem bodyNodes_bodies : ∀ (d : Descriptor) (em : List (Str × List FieldDescriptor))
    (bucket : Str → List FieldDescriptor), (∀ e ∈ em, e.2 ≠ []) → (Descriptor.names d).Nodup →
    (∀ k ∈ Descriptor.names d, mapGet em k = bucket k) →
    Node.classBodiesList (bodyNodes d em).1 = expectedBodies bucket d
    ∧ (bodyNodes d em).2 = em.filter (fun e => !((Descriptor.names d).contains e.1))
  | .mk name full_name fields nested enums exts ranges, em, bucket, hne, hnd, hag => by
    rw [names_mk] at hnd hag ⊢
    obtain ⟨hfull, hnn⟩ := List.nodup_cons.mp hnd
    obtain ⟨l1, l2⟩ := bodyNodesList_bodies nested em bucket hne hnn
      (fun k hk => hag k (List.mem_cons_of_mem _ hk))
    have hb : mapGet em full_name = bucket full_name := hag full_name (List.mem_cons_self _ _)
    have hq : (!(Descriptor.namesList nested).contains full_name) = true := by
      simpa using hfull
    have hget : mapGet (bodyNodesList nested em).2 full_name = mapGet em full_name := by
      rw [l2, mapGet_filter em (fun k => !(Descriptor.namesList nested).contains k), hq,
        if_pos rfl]
    have hne2 : ∀ e ∈ (bodyNodesList nested em).2, e.2 ≠ [] := by
      rw [l2]
      intro e he
      exact hne e (List.mem_filter.mp he).1
    have hhas : hasBucket (bodyNodesList nested em).2 full_name = hasBucket em full_name := by
      have a := hasBucket_iff (bodyNodesList nested em).2 full_name
      have b := hasBucket_iff em full_name
      rw [hget] at a
      cases h1 : hasBucket em full_name with
      | true => exact a.mpr (b.mp h1)
      | false =>
        cases h2 : hasBucket (bodyNodesList nested em).2 full_name with
        | false => rfl
        | true => rw [b.mpr (a.mp h2)] at h1; exact absurd h1 (by decide)
    have hreg : (if hasBucket (bodyNodesList nested em).2 full_name = true then
          mapErase (mapTouch (bodyNodesList nested em).2 full_name) full_name
        else (bodyNodesList nested em).2)
        = em.filter (fun e => !((full_name :: Descriptor.namesList nested).contains e.1)) := by
      rw [filter_names_cons, ← l2]
      by_cases h1 : hasBucket (bodyNodesList nested em).2 full_name = true
      · rw [if_pos h1, mapErase_mapTouch]
      · rw [if_neg h1]
        have hg : mapGet (bodyNodesList nested em).2 full_name = [] := by
          by_contra hc
          exact h1 ((hasBucket_iff _ _).mpr hc)
        exact (mapErase_of_empty_bucket _ _ hne2 hg).symm
    have hext : directFields (if hasBucket (bodyNodesList nested em).2 full_name = true then
          (mapGet (bodyNodesList nested em).2 full_name).map Node.field else [])
        = bucket full_name
        ∧ Node.classBodiesList (if hasBucket (bodyNodesList nested em).2 full_name = true then
          (mapGet (bodyNodesList nested em).2 full_name).map Node.field else []) = [] := by
      by_cases h1 : hasBucket (bodyNodesList nested em).2 full_name = true
      · rw [if_pos h1, directFields_fields, classBodiesList_fields, hget, hb]
        exact ⟨rfl, rfl⟩
      · rw [if_neg h1]
        have hg : mapGet (bodyNodesList nested em).2 full_name = [] := by
          by_contra hc
          exact h1 ((hasBucket_iff _ _).mpr hc)
        rw [hget, hb] at hg
        rw [hg]
        exact ⟨rfl, rfl⟩
    by_cases c1 : (decide (fields.length > 0) || hasBucket em full_name) = true
    · have hexp : ¬ (fields.length = 0 ∧ (bucket full_name).length = 0 ∧ nested.length = 0) := by
        rintro ⟨e1, e2, _⟩
        simp only [Bool.or_eq_true, decide_eq_true_eq] at c1
        rcases c1 with c | c
        · omega
        · have := (hasBucket_iff em full_name).mp c
          rw [hb] at this
          exact this (List.length_eq_zero.mp e2)
      simp only [bodyNodes, c1, if_true, expectedBodies, hexp, if_false, hreg]
      refine ⟨?_, trivial⟩
      simp only [Node.classBodiesList, Node.classBodies, directFields_append,
        classBodiesList_append, bodyNodesList_no_direct_fields, directFields_fields,
        classBodiesList_fields, (rangesNodes_no_fields ranges).1,
        (rangesNodes_no_fields ranges).2, hext.1, hext.2, l1, List.nil_append,
        List.append_nil]
    · have hf0 : fields.length = 0 := by
        simp only [Bool.or_eq_true, decide_eq_true_eq, not_or] at c1
        omega
      have hnb : hasBucket em full_name = false := by
        simp only [Bool.or_eq_true, decide_eq_true_eq, not_or] at c1
        simpa using c1.2
      have hg0 : bucket full_name = [] := by
        rw [← hb]
        by_contra hc
        rw [(hasBucket_iff em full_name).mpr hc] at hnb
        exact absurd hnb (by decide)
      have hfn : fields = [] := List.length_eq_zero.mp hf0
      have hreg2 : (bodyNodesList nested em).2
          = em.filter (fun e => !((full_name :: Descriptor.namesList nested).contains e.1)) := by
        rw [← hreg, hhas, hnb]
        rfl
      by_cases c3 : nested.length > 0
      · have hexp : ¬ (fields.length = 0 ∧ (bucket full_name).length = 0
            ∧ nested.length = 0) := by
          rintro ⟨_, _, e3⟩
          omega
        simp only [bodyNodes, c1, c3, if_true, Bool.false_eq_true, if_false, expectedBodies,
          hexp]
        refine ⟨?_, hreg2⟩
        simp only [Node.classBodiesList, Node.classBodies, bodyNodesList_no_direct_fields, l1,
          hfn, hg0, List.append_nil]
      · have hn0 : nested = [] := by
          cases nested with
          | nil => rfl
          | cons x xs => simp at c3
        subst hn0
        subst hfn
        have hreg3 := hreg2
        simp only [bodyNodesList] at hreg3
        simp only [bodyNodes, expectedBodies, hnb, hg0, List.length_nil, gt_iff_lt,
          lt_self_iff_false, decide_False, Bool.or_false, Bool.false_eq_true, if_false,
          and_self, if_true]
        exact ⟨rfl, hreg3⟩

theorem bodyNodesList_bodies : ∀ (ds : List Descriptor)
    (em : List (Str × List FieldDescriptor)) (bucket : Str → List FieldDescriptor),
    (∀ e ∈ em, e.2 ≠ []) → (Descriptor.namesList ds).Nodup →
    (∀ k ∈ Descriptor.namesList ds, mapGet em k = bucket k) →
    Node.classBodiesList (bodyNodesList ds em).1 = expectedBodiesList bucket ds
    ∧ (bodyNodesList ds em).2 = em.filter (fun e => !((Descriptor.namesList ds).contains e.1))
  | [], em, bucket, _, _, _ => by
    simp [bodyNodesList, Node.classBodiesList, expectedBodiesList, Descriptor.namesList,
      Descriptor.withNestedList]
  | d :: ds, em, bucket, hne, hnd, hag => by
    rw [namesList_cons] at hnd hag ⊢
    obtain ⟨n1, n2, hdis⟩ := List.nodup_append.mp hnd
    obtain ⟨a1, a2⟩ := bodyNodes_bodies d em bucket hne n1
      (fun k hk => hag k (List.mem_append_left _ hk))
    have hne2 : ∀ e ∈ (bodyNodes d em).2, e.2 ≠ [] := by
      rw [a2]
      intro e he
      exact hne e (List.mem_filter.mp he).1
    have hag2 : ∀ k ∈ Descriptor.namesList ds, mapGet (bodyNodes d em).2 k = bucket k := by
      intro k hk
      have hq : (!(Descriptor.names d).contains k) = true := by
        have : k ∉ Descriptor.names d := fun hm => hdis hm hk
        simpa using this
      rw [a2, mapGet_filter em (fun k => !(Descriptor.names d).contains k), hq, if_pos rfl]
      exact hag k (List.mem_append_right _ hk)
    obtain ⟨b1, b2⟩ := bodyNodesList_bodies ds (bodyNodes d em).2 bucket hne2 n2 hag2
    simp only [bodyNodesList, classBodiesList_append, expectedBodiesList, a1, b1, b2]
    refine ⟨trivial, ?_⟩
    rw [a2, filter_names_append]

end

/-! ## Counting the field declarations of the generated file -/

theorem allFieldsList_append (a b : List Node) :
    Node.allFieldsList (a ++ b) = Node.allFieldsList a ++ Node.allFieldsList b := by
  induction a with
  | nil => rfl
  | cons x xs ih =>
    show Node.allFields x ++ Node.allFieldsList (xs ++ b) = _
    rw [ih, Node.allFieldsList, List.append_assoc]

theorem allFieldsList_map {α : Type} (f : α → Node) (xs : List α)
    (h : ∀ x, Node.allFields (f x) = []) : Node.allFieldsList (xs.map f) = [] := by
  induction xs with
  | nil => rfl
  | cons x xs ih => simp only [List.map_cons, Node.allFieldsList, h x, ih, List.append_nil]

theorem allFieldsList_flatMap {α : Type} (f : α → List Node) (xs : List α)
    (h : ∀ x, Node.allFieldsList (f x) = []) : Node.allFieldsList (xs.flatMap f) = [] := by
  induction xs with
  | nil => rfl
  | cons x xs ih => simp only [List.flatMap_cons, allFieldsList_append, h x, ih, List.append_nil]

theorem perm_swap_middle {α : Type} (a b c d : List α) :
    ((a ++ b) ++ (c ++ d)).Perm ((a ++ c) ++ (b ++ d)) := by
  simp only [List.append_assoc]
  apply List.Perm.append_left
  rw [← List.append_assoc, ← List.append_assoc]
  exact List.Perm.append_right _ List.perm_append_comm

mutual

theorem allFields_perm_bodies : ∀ x : Node,
    (Node.allFields x).Perm (Node.asField x ++ (Node.classBodies x).flatMap Prod.snd)
  | .blank => by simp [Node.allFields, Node.asField, Node.classBodies]
  | .text _ _ => by simp [Node.allFields, Node.asField, Node.classBodies]
  | .field _ => by simp [Node.allFields, Node.asField, Node.classBodies]
  | .shell _ => by simp [Node.allFields, Node.asField, Node.classBodies]
  | .block _ _ name body => by
    have ih := allFieldsList_perm_bodies body
    simpa [Node.allFields, Node.asField, Node.classBodies, List.flatMap_cons] using ih

theorem allFieldsList_perm_bodies : ∀ xs : List Node,
    (Node.allFieldsList xs).Perm (directFields xs ++ (Node.classBodiesList xs).flatMap Prod.snd)
  | [] => by simp [Node.allFieldsList, directFields, Node.classBodiesList]
  | x :: xs => by
    have h1 := allFields_perm_bodies x
    have h2 := allFieldsList_perm_bodies xs
    simp only [Node.allFieldsList, directFields, List.flatMap_cons, Node.classBodiesList,
      List.flatMap_append] at h2 ⊢
    exact (List.Perm.append h1 h2).trans (perm_swap_middle _ _ _ _)

end

mutual

theorem expectedBodies_flat : ∀ (bucket : Str → List FieldDescriptor) (d : Descriptor),
    (expectedBodies bucket d).flatMap Prod.snd
      = (Descriptor.withNested d).flatMap (fun m => m.fields ++ bucket m.full_name)
  | bucket, .mk name full_name fields nested enums exts ranges => by
    have ih := expectedBodiesList_flat bucket nested
    simp only [expectedBodies, Descriptor.withNested]
    split
    · rename_i h
      obtain ⟨e1, e2, e3⟩ := h
      have f0 := List.length_eq_zero.mp e1
      have b0 := List.length_eq_zero.mp e2
      have n0 := List.length_eq_zero.mp e3
      subst f0 n0
      show [] = ([] ++ bucket full_name) ++ (Descriptor.withNestedList []).flatMap _
      rw [b0]
      rfl
    · show (fields ++ bucket full_name) ++ (expectedBodiesList bucket nested).flatMap Prod.snd
        = (fields ++ bucket full_name) ++ (Descriptor.withNestedList nested).flatMap _
      rw [ih]

theorem expectedBodiesList_flat : ∀ (bucket : Str → List FieldDescriptor)
    (ds : List Descriptor),
    (expectedBodiesList bucket ds).flatMap Prod.snd
      = (Descriptor.withNestedList ds).flatMap (fun m => m.fields ++ bucket m.full_name)
  | _, [] => rfl
  | bucket, d :: ds => by
    simp only [expectedBodiesList, Descriptor.withNestedList, List.flatMap_append,
      expectedBodies_flat bucket d, expectedBodiesList_flat bucket ds]

end

theorem flatMap_congr_mem {α β : Type} (f g : α → List β) (l : List α)
    (h : ∀ x ∈ l, f x = g x) : l.flatMap f = l.flatMap g := by
  induction l with
  | nil => rfl
  | cons x xs ih =>
    rw [List.flatMap_cons, List.flatMap_cons, h x (List.mem_cons_self _ _),
      ih (fun y hy => h y (List.mem_cons_of_mem _ hy))]

theorem flatMap_filter_of_nil {α β : Type} (p : α → Bool) (f : α → List β) (l : List α)
    (h : ∀ x ∈ l, p x = false → f x = []) : l.flatMap f = (l.filter p).flatMap f := by
  induction l with
  | nil => rfl
  | cons x xs ih =>
    have ih2 := ih (fun y hy => h y (List.mem_cons_of_mem _ hy))
    cases hp : p x with
    | true => simp only [List.filter, hp, List.flatMap_cons, ih2]
    | false =>
      simp only [List.filter, hp, List.flatMap_cons, ih2, h x (List.mem_cons_self _ _) hp,
        List.nil_append]

theorem mapGet_cons_self (k : Str) (v : List FieldDescriptor)
    (em : List (Str × List FieldDescriptor)) : mapGet ((k, v) :: em) k = v := by
  simp [mapGet, List.lookup]

theorem mapGet_cons_ne (k key : Str) (v : List FieldDescriptor)
    (em : List (Str × List FieldDescriptor)) (h : key ≠ k) :
    mapGet ((k, v) :: em) key = mapGet em key := by
  have h2 : (key == k) = false := by simpa using h
  simp only [mapGet, List.lookup, h2]

theorem keys_flatMap_mapGet (em : List (Str × List FieldDescriptor))
    (h : (em.map Prod.fst).Nodup) : (em.map Prod.fst).flatMap (mapGet em) = recorded em := by
  induction em with
  | nil => rfl
  | cons e em ih =>
    obtain ⟨k, v⟩ := e
    simp only [List.map_cons, List.nodup_cons] at h
    have h2 : (em.map Prod.fst).flatMap (mapGet ((k, v) :: em))
        = (em.map Prod.fst).flatMap (mapGet em) :=
      flatMap_congr_mem _ _ _ (fun x hx => mapGet_cons_ne k x v em (fun e => h.1 (e ▸ hx)))
    simp only [List.map_cons, List.flatMap_cons, mapGet_cons_self, h2, ih h.2, recorded]

theorem names_flatMap_mapGet (names : List Str) (em : List (Str × List FieldDescriptor))
    (hn : names.Nodup) (hk : (em.map Prod.fst).Nodup) :
    (names.flatMap (mapGet em)).Perm (recorded (em.filter (fun e => names.contains e.1))) := by
  have hk2 : ((em.filter (fun e => names.contains e.1)).map Prod.fst).Nodup :=
    List.Nodup.sublist (List.Sublist.map _ (List.filter_sublist _)) hk
  rw [← keys_flatMap_mapGet _ hk2,
    flatMap_filter_of_nil (fun n => mapContains em n) (mapGet em) names
      (fun n _ h => mapGet_of_not_contains em n h)]
  have hp : (names.filter (fun n => mapContains em n)).Perm
      ((em.filter (fun e => names.contains e.1)).map Prod.fst) := by
    rw [List.perm_ext_iff_of_nodup (hn.filter _) hk2]
    intro a
    have hc : ∀ x, names.contains x = true ↔ x ∈ names := fun x => by simp
    simp only [List.mem_filter, mapContains_iff_mem_keys, List.mem_map, hc]
    constructor
    · rintro ⟨h1, e, h2, h3⟩
      exact ⟨e, ⟨h2, h3 ▸ h1⟩, h3⟩
    · rintro ⟨e, ⟨h2, h4⟩, h3⟩
      exact ⟨h3 ▸ h4, e, h2, h3⟩
  refine (List.Perm.flatMap_right _ hp).trans (List.Perm.of_eq ?_)
  apply flatMap_congr_mem
  intro k hkm
  obtain ⟨e, he, rfl⟩ := List.mem_map.mp hkm
  have hq : names.contains e.1 = true := (List.mem_filter.mp he).2
  rw [mapGet_filter em (fun k => names.contains k), hq, if_pos rfl]

theorem recorded_split (em : List (Str × List FieldDescriptor)) (p : Str → Bool) :
    (recorded (em.filter (fun e => p e.1)) ++ recorded (em.filter (fun e => !(p e.1)))).Perm
      (recorded em) := by
  unfold recorded
  rw [← List.flatMap_append]
  exact List.Perm.flatMap_right _ (List.filter_append_perm (fun e => p e.1) em)

/-- In a registry as the first pass builds it, the bucket of a key holds exactly the
recorded fields whose containing type is that key. -/
theorem filter_recorded (em : List (Str × List FieldDescriptor)) (h : registryInv em)
    (key : Str) :
    (recorded em).filter (fun f => f.containing_type_full_name == key) = mapGet em key := by
  induction em with
  | nil => rfl
  | cons e em ih =>
    obtain ⟨k, v⟩ := e
    obtain ⟨h1, h2⟩ := h
    simp only [List.map_cons, List.nodup_cons] at h1
    have ih2 := ih ⟨h1.2, fun e he => h2 e (List.mem_cons_of_mem _ he)⟩
    have hv := (h2 (k, v) (List.mem_cons_self _ _)).2
    simp only [recorded, List.flatMap_cons, List.filter_append] at ih2 ⊢
    by_cases hkk : key = k
    · subst hkk
      have hc : mapContains em key = false := by
        cases hcc : mapContains em key with
        | false => rfl
        | true => exact absurd ((mapContains_iff_mem_keys em key).mp hcc) h1.1
      rw [ih2, mapGet_of_not_contains em key hc, mapGet_cons_self, List.append_nil,
        List.filter_eq_self]
      intro f hf
      simp [hv f hf]
    · rw [ih2, mapGet_cons_ne k key v em hkk]
      have : v.filter (fun f => f.containing_type_full_name == key) = [] := by
        rw [List.filter_eq_nil_iff]
        intro f hf
        simp only [beq_iff_eq, hv f hf]
        exact fun e => hkk e.symm
      rw [this, List.nil_append]

/-! ## Every extension field is written once -/

theorem allFieldsList_commentNodes (comment : Str) (b : Bool) :
    Node.allFieldsList (commentNodes comment b) = [] := by
  cases b <;> rfl

theorem allFieldsList_enumNodes (e : EnumDescriptor) :
    Node.allFieldsList (enumNodes e) = [] := by
  simp only [enumNodes, Node.allFieldsList, Node.allFields,
    allFieldsList_map enumValueNode e.values (fun _ => rfl), List.append_nil]

theorem allFieldsList_serviceNodes (s : ServiceDescriptor) :
    Node.allFieldsList (serviceNodes s) = [] := by
  simp only [serviceNodes, Node.allFieldsList, Node.allFields,
    allFieldsList_map methodNode s.methods (fun _ => rfl), List.append_nil]

mutual

theorem allFieldsList_shellNodes : ∀ d : Descriptor, Node.allFieldsList (shellNodes d) = []
  | .mk name full_name fields nested enums exts ranges => by
    have ih := allFieldsList_shellNodesList nested
    simp only [shellNodes]
    split
    · simp only [allFieldsList_append, Node.allFieldsList, Node.allFields,
        allFieldsList_flatMap enumNodes enums allFieldsList_enumNodes, ih, List.append_nil]
    · rfl

theorem allFieldsList_shellNodesList : ∀ ds : List Descriptor,
    Node.allFieldsList (shellNodesList ds) = []
  | [] => rfl
  | d :: ds => by
    simp only [shellNodesList, allFieldsList_append, allFieldsList_shellNodes d,
      allFieldsList_shellNodesList ds, List.append_nil]

end

theorem allFieldsList_declarationNodes (file : FileDescriptor) :
    Node.allFieldsList (declarationNodes file) = [] := by
  have he : Node.allFieldsList (enumsFileNodes file) = [] := by
    unfold enumsFileNodes
    split
    · rw [allFieldsList_append, allFieldsList_commentNodes,
        allFieldsList_flatMap _ _ allFieldsList_enumNodes]
      rfl
    · rfl
  have hs : Node.allFieldsList (shellsFileNodes file) = [] := by
    unfold shellsFileNodes
    split
    · rw [allFieldsList_append, allFieldsList_commentNodes, allFieldsList_shellNodesList]
      rfl
    · rfl
  rw [declarationNodes, allFieldsList_append, allFieldsList_append, allFieldsList_append, he,
    hs]
  rfl

theorem allFieldsList_preludeNodes (file : FileDescriptor) :
    Node.allFieldsList (preludeNodes file) = [] := by
  have hg : Node.allFieldsList (genericRequireNodes file) = [] := by
    unfold genericRequireNodes
    split <;> split <;> rfl
  have hi : Node.allFieldsList (importNodes file) = [] := by
    unfold importNodes
    split
    · rw [Node.allFieldsList, allFieldsList_append, allFieldsList_commentNodes,
        allFieldsList_map (fun dependency =>
          Node.text Keyword.require (CreateRubyFileName dependency true ++ "'".toList))
          file.dependencies (fun _ => rfl)]
      rfl
    · rfl
  rw [preludeNodes, allFieldsList_append, allFieldsList_append, allFieldsList_append,
    allFieldsList_commentNodes, hg, hi]
  rfl

theorem allFieldsList_servicesNodes (file : FileDescriptor) :
    Node.allFieldsList (servicesNodes file) = [] := by
  unfold servicesNodes
  split
  · rw [allFieldsList_append, allFieldsList_commentNodes,
      allFieldsList_flatMap _ _ allFieldsList_serviceNodes]
    rfl
  · rfl

theorem allFieldsList_wrapModules (segs : List Str) (inner : List Node) :
    Node.allFieldsList (wrapModules segs inner) = Node.allFieldsList inner := by
  induction segs with
  | nil => rfl
  | cons s ss ih => simp only [wrapModules, Node.allFieldsList, Node.allFields, ih,
      List.append_nil]

theorem classBodiesList_blocks (keys : List Str) (name : Str → Str)
    (b : Str → List FieldDescriptor) :
    Node.classBodiesList (keys.map (fun k =>
        Node.block RubyBlockType.RUBY_CLASS RubyClassType.CLASS_TYPE_NONE (name k)
          ((b k).map Node.field)))
      = keys.map (fun k => (name k, b k))
    ∧ directFields (keys.map (fun k =>
        Node.block RubyBlockType.RUBY_CLASS RubyClassType.CLASS_TYPE_NONE (name k)
          ((b k).map Node.field))) = [] := by
  induction keys with
  | nil => exact ⟨rfl, rfl⟩
  | cons k ks ih =>
    refine ⟨?_, ?_⟩
    · simp only [List.map_cons, Node.classBodiesList, Node.classBodies, directFields_fields,
        classBodiesList_fields, ih.1, List.cons_append, List.nil_append]
    · have h2 := ih.2
      simp only [directFields, List.map_cons, List.flatMap_cons, Node.asField,
        List.nil_append] at h2 ⊢
      exact h2

theorem flatMap_map_eq {α β γ : Type} (f : α → β) (g : β → List γ) (l : List α) :
    (l.map f).flatMap g = l.flatMap (fun x => g (f x)) := by
  induction l with
  | nil => rfl
  | cons x xs ih => simp only [List.map_cons, List.flatMap_cons, ih]

/-- The dangling flush of a registry without repeated keys: one class per key in the
iteration order of the map, with the bucket of that key; no bucket is left. -/
theorem danglingNodes_bodies (H : HashOrder) (em : List (Str × List FieldDescriptor))
    (hk : (em.map Prod.fst).Nodup) :
    Node.classBodiesList (danglingNodes H em).1
      = (H.order (em.map Prod.fst)).map (fun k => (Constantize k true, mapGet em k))
    ∧ directFields (danglingNodes H em).1 = []
    ∧ (danglingNodes H em).2 = [] := by
  have hk2 : (H.order (em.map Prod.fst)).Nodup := (H.perm _).nodup_iff.mpr hk
  by_cases h : em.length > 0
  · simp only [danglingNodes, h, if_true, danglingLoopNodes_blocks _ _ hk2,
      danglingLoopNodes_registry, classBodiesList_append, directFields_append,
      (commentNodes_no_fields _ _).1, (commentNodes_no_fields _ _).2, List.nil_append]
    refine ⟨(classBodiesList_blocks _ (fun k => Constantize k true) (mapGet em)).1,
      (classBodiesList_blocks _ (fun k => Constantize k true) (mapGet em)).2, ?_⟩
    rw [List.eq_nil_iff_forall_not_mem]
    intro e he
    obtain ⟨h1, h2⟩ := mem_foldl_mapErase _ _ e he
    exact h2 ((H.perm _).mem_iff.mpr (List.mem_map_of_mem _ h1))
  · have h0 : em = [] := by
      cases em with
      | nil => rfl
      | cons x xs => simp at h
    subst h0
    have h1 : H.order [] = [] := (H.perm []).eq_nil
    simp only [danglingNodes, List.length_nil, gt_iff_lt, lt_self_iff_false, if_false,
      List.map_nil, h1]
    exact ⟨rfl, rfl, trivial⟩

theorem definedNames_eq (file : FileDescriptor) :
    file.definedNames = Descriptor.namesList file.message_types := rfl

/-- The second pass over a file whose messages have distinct full names. -/
theorem bodiesFileNodes_bodies (file : FileDescriptor) (hm : file.message_types.length > 0)
    (hn : file.definedNames.Nodup) :
    Node.classBodiesList (bodiesFileNodes file).1
      = expectedBodiesList (mapGet (registryAfterShells file)) file.message_types
    ∧ directFields (bodiesFileNodes file).1 = []
    ∧ (bodiesFileNodes file).2
      = (registryAfterShells file).filter (fun e => !(file.definedNames.contains e.1)) := by
  have hinv := (registryAfterShells_holds_all file hm).1
  obtain ⟨b1, b2⟩ := bodyNodesList_bodies file.message_types (registryAfterShells file)
    (mapGet (registryAfterShells file)) (fun e he => (hinv.2 e he).1) hn (fun _ _ => rfl)
  simp only [bodiesFileNodes, hm, if_true, classBodiesList_append, directFields_append,
    (commentNodes_no_fields _ _).1, (commentNodes_no_fields _ _).2, List.nil_append,
    bodyNodesList_no_direct_fields, definedNames_eq]
  exact ⟨b1, trivial, b2⟩

theorem keys_filter_nodup (em : List (Str × List FieldDescriptor))
    (p : Str × List FieldDescriptor → Bool) (hk : (em.map Prod.fst).Nodup) :
    ((em.filter p).map Prod.fst).Nodup :=
  List.Nodup.sublist (List.Sublist.map _ (List.filter_sublist _)) hk

/-- The field declarations of the whole generated file are the ordinary fields of its
messages and its extension fields, each once. -/
theorem fileNodes_fields (H : HashOrder) (file : FileDescriptor)
    (hm : file.message_types.length > 0) (hn : file.definedNames.Nodup) :
    (Node.allFieldsList (fileNodes H file)).Perm (file.allFields ++ file.allExtensions) := by
  obtain ⟨hinv, hperm⟩ := registryAfterShells_holds_all file hm
  obtain ⟨b1, b2, b3⟩ := bodiesFileNodes_bodies file hm hn
  have hk1 : (((bodiesFileNodes file).2).map Prod.fst).Nodup := by
    rw [b3]
    exact keys_filter_nodup _ _ hinv.1
  obtain ⟨d1, d2, _⟩ := danglingNodes_bodies H (bodiesFileNodes file).2 hk1
  have e0 : Node.allFieldsList (fileNodes H file)
      = Node.allFieldsList (bodiesFileNodes file).1
        ++ Node.allFieldsList (danglingNodes H (bodiesFileNodes file).2).1 := by
    simp only [fileNodes, definitionNodes, allFieldsList_append, allFieldsList_wrapModules,
      allFieldsList_preludeNodes, allFieldsList_declarationNodes, allFieldsList_servicesNodes,
      List.nil_append, List.append_nil]
  have pa : (Node.allFieldsList (bodiesFileNodes file).1).Perm
      (file.allFields ++ recorded ((registryAfterShells file).filter
        (fun e => file.definedNames.contains e.1))) := by
    refine (allFieldsList_perm_bodies _).trans ?_
    rw [b1, b2, List.nil_append, expectedBodiesList_flat]
    refine (List.flatMap_append_perm _ _ _).symm.trans ?_
    refine List.Perm.append (List.Perm.refl _) ?_
    have e1 : (Descriptor.withNestedList file.message_types).flatMap
          (fun m => mapGet (registryAfterShells file) m.full_name)
        = file.definedNames.flatMap (mapGet (registryAfterShells file)) :=
      (flatMap_map_eq Descriptor.full_name (mapGet (registryAfterShells file)) _).symm
    rw [e1]
    exact names_flatMap_mapGet _ _ hn hinv.1
  have pb : (Node.allFieldsList (danglingNodes H (bodiesFileNodes file).2).1).Perm
      (recorded ((registryAfterShells file).filter
        (fun e => !(file.definedNames.contains e.1)))) := by
    refine (allFieldsList_perm_bodies _).trans ?_
    rw [d1, d2, List.nil_append,
      flatMap_map_eq (fun k => (Constantize k true, mapGet (bodiesFileNodes file).2 k)) Prod.snd]
    refine (List.Perm.flatMap_right _ (H.perm _)).trans ?_
    rw [keys_flatMap_mapGet _ hk1, b3]
  rw [e0]
  refine (List.Perm.append pa pb).trans ?_
  rw [List.append_assoc]
  refine List.Perm.append (List.Perm.refl _) ?_
  exact (recorded_split _ (fun k => file.definedNames.contains k)).trans hperm

/-- With the flush as a build runs it in which the loop goes on to the keys held at its
start: for a schema file that declares at least one top-level message and whose messages
(top-level or nested) have distinct full names, on a sink that never fails:
the first pass, started with an empty registry, leaves a registry without repeated keys
and without empty buckets, in which every field stands in the bucket of its containing
type and whose buckets together hold the extension fields of the file (declared at file
scope or in a message at any depth), each once, so that the bucket of a key is the
extension fields with that containing type; the second pass reopens for every message
defined in the file that has fields, extension fields or nested messages a class whose
body holds its own fields followed by the bucket of its full name, and takes exactly the
buckets of the defined messages out of the registry; the dangling flush writes one class
per remaining key with the bucket of that key and leaves the registry empty; the field
declarations of the whole generated text are the ordinary fields and the extension fields
of the file, each once; and when `Generate` returns the registry is empty. -/
theorem Generate_writes_every_extension_once (H : HashOrder) (file : FileDescriptor)
    (hm : file.message_types.length > 0) (hn : file.definedNames.Nodup) :
    (∀ (out : Str) (n : Nat) (fn : Str) (ns : List Str) (fm : Str),
      PrintMessagesForFileDescriptor file false (stateOf out true n [] fn ns fm)
        = Except.ok (stateOf (out ++ render n (shellsFileNodes file)) true n
            (registryAfterShells file) fn ns fm))
    ∧ registryInv (registryAfterShells file)
    ∧ (recorded (registryAfterShells file)).Perm file.allExtensions
    ∧ (∀ key, (mapGet (registryAfterShells file) key).Perm
        (file.allExtensions.filter (fun f => f.containing_type_full_name == key)))
    ∧ (∀ (out : Str) (n : Nat) (fn : Str) (ns : List Str) (fm : Str),
      PrintMessagesForFileDescriptor file true
          (stateOf out true n (registryAfterShells file) fn ns fm)
        = Except.ok (stateOf (out ++ render n (bodiesFileNodes file).1) true n
            ((registryAfterShells file).filter
              (fun e => !(file.definedNames.contains e.1))) fn ns fm))
    ∧ Node.classBodiesList (bodiesFileNodes file).1
        = expectedBodiesList (mapGet (registryAfterShells file)) file.message_types
    ∧ (∀ (out : Str) (n : Nat) (fn : Str) (ns : List Str) (fm : Str),
      PrintDanglingExtendedMessages H (stateOf out true n (bodiesFileNodes file).2 fn ns fm)
        = Except.ok (stateOf (out ++ render n (danglingNodes H (bodiesFileNodes file).2).1)
            true n [] fn ns fm))
    ∧ Node.classBodiesList (danglingNodes H (bodiesFileNodes file).2).1
        = (H.order (((registryAfterShells file).filter
              (fun e => !(file.definedNames.contains e.1))).map Prod.fst)).map
            (fun k => (Constantize k true, mapGet (registryAfterShells file) k))
    ∧ generatedText H file = render 0 (fileNodes H file)
    ∧ fileNodes H file
        = preludeNodes file
          ++ wrapModules (SplitStringUsing file.package '.' [])
              (declarationNodes file
                ++ ((bodiesFileNodes file).1 ++ (danglingNodes H (bodiesFileNodes file).2).1
                  ++ servicesNodes file))
    ∧ (Node.allFieldsList (fileNodes H file)).Perm (file.allFields ++ file.allExtensions)
    ∧ ∀ g, (Generate H file none g).members.extended_messages = [] := by
  obtain ⟨hinv, hperm⟩ := registryAfterShells_holds_all file hm
  obtain ⟨b1, _, b3⟩ := bodiesFileNodes_bodies file hm hn
  have hk1 : (((bodiesFileNodes file).2).map Prod.fst).Nodup := by
    rw [b3]
    exact keys_filter_nodup _ _ hinv.1
  obtain ⟨d1, _, d3⟩ := danglingNodes_bodies H (bodiesFileNodes file).2 hk1
  refine ⟨PrintMessagesForFileDescriptor_shell_stateOf file, hinv, hperm, ?_, ?_, b1, ?_, ?_,
    generatedText_eq H file, rfl, fileNodes_fields H file hm hn, ?_⟩
  · intro key
    rw [← filter_recorded _ hinv key]
    exact List.Perm.filter _ hperm
  · intro out n fn ns fm
    rw [PrintMessagesForFileDescriptor_body_stateOf, b3]
  · intro out n fn ns fm
    rw [PrintDanglingExtendedMessages_stateOf, d3]
  · rw [d1, b3]
    apply List.map_congr_left
    intro k hk
    have hk2 : k ∈ ((registryAfterShells file).filter
        (fun e => !(file.definedNames.contains e.1))).map Prod.fst :=
      (H.perm _).mem_iff.mp hk
    obtain ⟨e, he, rfl⟩ := List.mem_map.mp hk2
    have hq : (!(file.definedNames.contains e.1)) = true := (List.mem_filter.mp he).2
    rw [mapGet_filter (registryAfterShells file) (fun k => !(file.definedNames.contains k)),
      hq, if_pos rfl]
  · intro g
    have h1 := (Generate_never_failing H file g).2.2
    have h2 := congrArg RubyGenerator.extended_messages h1
    exact h2.trans d3

theorem Generate_writes_every_extension_once_witness :
    extendingFile.message_types.length > 0 ∧ extendingFile.definedNames.Nodup
    ∧ Node.classBodiesList (bodiesFileNodes extendingFile).1
        = [("M".toList, [sampleIntField, memberExtension]),
           ("N".toList, [nestedExtension])]
    ∧ Node.classBodiesList
        (danglingNodes HashOrder.insertion (bodiesFileNodes extendingFile).2).1
        = [("::base::Other".toList, [otherExtension])] :=
  ⟨by decide, by decide,
    (Generate_writes_every_extension_once HashOrder.insertion extendingFile
      (by decide) (by decide)).2.2.2.2.2.1.trans (by decide),
    (Generate_writes_every_extension_once HashOrder.insertion extendingFile
      (by decide) (by decide)).2.2.2.2.2.2.2.1.trans (by decide)⟩

/-! ## The dangling flush, followed by iterator -/

theorem danglingBody_stateOf (key : Str) (out : Str) (n : Nat)
    (em : List (Str × List FieldDescriptor)) (fn : Str) (ns : List Str) (fm : Str) :
    andThen
        (PrintClassDeclaration (Constantize key true) RubyClassType.CLASS_TYPE_NONE false)
        (andThen (PrintMessageExtensionFields key) PrintBlockEnd)
        (stateOf out true n em fn ns fm)
      = Except.ok (stateOf
          (out ++ render n
            [Node.block RubyBlockType.RUBY_CLASS RubyClassType.CLASS_TYPE_NONE
              (Constantize key true) ((mapGet em key).map Node.field)])
          true n (mapErase em key) fn ns fm) := by
  have h := danglingLoop_stateOf [key] out n em fn ns fm
  simp only [forEach, danglingLoopNodes, mapErase_mapTouch] at h
  cases hb : andThen
      (PrintClassDeclaration (Constantize key true) RubyClassType.CLASS_TYPE_NONE false)
      (andThen (PrintMessageExtensionFields key) PrintBlockEnd)
      (stateOf out true n em fn ns fm) with
  | error e =>
    rw [hb] at h
    cases h
  | ok g1 =>
    rw [hb] at h
    exact h

/-- On a sink that never fails, with a registry that is not empty, the flush followed by
iterator writes the header comment and the block of the key that comes first in iteration
order, whose entry the body erases; the increment of the loop then meets the erased entry. -/
theorem PrintDanglingExtendedMessagesByIterator_stateOf (H : HashOrder) (fuel : Nat)
    (out : Str) (n : Nat) (em : List (Str × List FieldDescriptor)) (fn : Str)
    (ns : List Str) (fm : Str) (h : em ≠ []) :
    ∃ key rest, H.order (em.map Prod.fst) = key :: rest
      ∧ PrintDanglingExtendedMessagesByIterator H (fuel + 1) (stateOf out true n em fn ns fm)
        = Walk.undefined (stateOf
            (out ++ render n (commentNodes "Extended Messages".toList true
              ++ [Node.block RubyBlockType.RUBY_CLASS RubyClassType.CLASS_TYPE_NONE
                    (Constantize key true) ((mapGet em key).map Node.field)]))
            true n (mapErase em key) fn ns fm) := by
  have hlen : em.length > 0 := List.length_pos.mpr h
  have hk : H.order (em.map Prod.fst) ≠ [] := by
    intro e
    have h1 := (H.perm (em.map Prod.fst)).length_eq
    rw [e] at h1
    simp only [List.length_nil, List.length_map] at h1
    omega
  obtain ⟨key, rest, hkr⟩ := List.exists_cons_of_ne_nil hk
  refine ⟨key, rest, hkr, ?_⟩
  have h1 : ∀ o, (stateOf o true n em fn ns fm).extended_messages = em := fun _ => rfl
  have h2 : ∀ o e, (stateOf o true n e fn ns fm).extended_messages = e := fun _ _ => rfl
  simp only [PrintDanglingExtendedMessagesByIterator, h1, hlen, if_true, PrintComment_stateOf,
    mapBegin, hkr, List.head?_cons, danglingWalk, danglingBody_stateOf, mapIncrement, h2,
    mapContains_mapErase_self, Bool.false_eq_true, if_false, render_append,
    List.append_assoc]

theorem PrintDanglingExtendedMessagesByIterator_empty (H : HashOrder) (fuel : Nat)
    (g : RubyGenerator) (h : g.extended_messages = []) :
    PrintDanglingExtendedMessagesByIterator H fuel g = Walk.returned g
    ∧ PrintDanglingExtendedMessages H g = Except.ok g := by
  simp [PrintDanglingExtendedMessagesByIterator, PrintDanglingExtendedMessages, h]

theorem GenerateBody_split (H : HashOrder) (file : FileDescriptor) :
    GenerateBody H file
      = andThen (GenerateBodyHead file)
          (andThen (PrintDanglingExtendedMessages H) (GenerateBodyTail file)) := by
  simp only [GenerateBody, GenerateBodyHead, GenerateBodyTail, andThen_assoc]

theorem GenerateBodyHead_stateOf (file : FileDescriptor) (fn fm : Str) :
    GenerateBodyHead file
        (stateOf [] true 0 [] fn (SplitStringUsing file.package '.' []) fm)
      = Except.ok (stateOf (textBeforeFlush file) true
          (SplitStringUsing file.package '.' []).length (bodiesFileNodes file).2 fn
          (SplitStringUsing file.package '.' []) fm) := by
  have hns : ∀ o k e, (stateOf o true k e fn (SplitStringUsing file.package '.' []) fm).ns_vector
      = SplitStringUsing file.package '.' [] := fun _ _ _ => rfl
  have h0 : 0 + (SplitStringUsing file.package '.' []).length
      = (SplitStringUsing file.package '.' []).length := Nat.zero_add _
  have hm := fun o e => moduleHeads_stateOf (SplitStringUsing file.package '.' []) o 0 e fn
    (SplitStringUsing file.package '.' []) fm
  rw [h0] at hm
  simp only [GenerateBodyHead, andThen, PrintGeneratedFileComment, PrintComment_stateOf,
    PrintGenericRequires_stateOf, PrintImportRequires_stateOf, PrintEnclosingNamespaceModules,
    PrintNewLine_stateOf, hns, hm, PrintEnumsForFileDescriptor_stateOf,
    PrintMessagesForFileDescriptor_shell_stateOf, PrintMessagesForFileDescriptor_body_stateOf]
  simp only [textBeforeFlush, preludeNodes, declarationNodes, render_append, render_blank,
    List.nil_append, List.append_assoc]

/-- The `try` block of `Generate` on a sink that never fails, with the loop of the flush
followed by iterator: when the second pass leaves no bucket, the block returns with the
members `Generate` leaves; when it leaves a bucket, the block writes everything up to the
first dangling class and then meets the increment of an iterator whose entry is erased. -/
theorem GenerateBodyByIterator_stateOf (H : HashOrder) (fuel : Nat) (file : FileDescriptor)
    (g : RubyGenerator) :
    ((bodiesFileNodes file).2 = [] →
      GenerateBodyByIterator H fuel file (GenerateInit file none g)
        = Walk.returned (Generate H file none g).members)
    ∧ ((bodiesFileNodes file).2 ≠ [] →
      ∃ key rest, H.order ((bodiesFileNodes file).2.map Prod.fst) = key :: rest
        ∧ GenerateBodyByIterator H (fuel + 1) file (GenerateInit file none g)
          = Walk.undefined (stateOf
              (textBeforeFlush file
                ++ render (SplitStringUsing file.package '.' []).length
                  (commentNodes "Extended Messages".toList true
                    ++ [Node.block RubyBlockType.RUBY_CLASS RubyClassType.CLASS_TYPE_NONE
                          (Constantize key true)
                          ((mapGet (bodiesFileNodes file).2 key).map Node.field)]))
              true (SplitStringUsing file.package '.' []).length
              (mapErase (bodiesFileNodes file).2 key) (CreateRubyFileName file.name false)
              (SplitStringUsing file.package '.' []) g.failed_message)) := by
  constructor
  · intro h
    have hb := GenerateBody_stateOf H file (CreateRubyFileName file.name false)
      g.failed_message
    rw [GenerateBody_split] at hb
    have hh := GenerateBodyHead_stateOf file (CreateRubyFileName file.name false)
      g.failed_message
    simp only [andThen, hh] at hb
    have he := PrintDanglingExtendedMessagesByIterator_empty H fuel
      (stateOf (textBeforeFlush file) true (SplitStringUsing file.package '.' []).length
        (bodiesFileNodes file).2 (CreateRubyFileName file.name false)
        (SplitStringUsing file.package '.' []) g.failed_message)
      (by simpa [stateOf] using h)
    rw [he.2] at hb
    simp only [GenerateBodyByIterator, GenerateInit_stateOf, hh, he.1]
    simp only at hb
    rw [hb, (Generate_never_failing H file g).2.2]
  · intro h
    obtain ⟨key, rest, hkr, hres⟩ := PrintDanglingExtendedMessagesByIterator_stateOf H fuel
      (textBeforeFlush file) (SplitStringUsing file.package '.' []).length
      (bodiesFileNodes file).2 (CreateRubyFileName file.name false)
      (SplitStringUsing file.package '.' []) g.failed_message h
    refine ⟨key, rest, hkr, ?_⟩
    simp only [GenerateBodyByIterator, GenerateInit_stateOf, GenerateBodyHead_stateOf, hres]

theorem order_singleton (H : HashOrder) (key : Str) : H.order [key] = [key] :=
  List.perm_singleton.mp (H.perm [key])

set_option maxRecDepth 100000 in
theorem render_extendingFile :
    render 0 (fileNodes HashOrder.insertion extendingFile)
      = textBeforeFlush extendingFile
          ++ ("  ##\n  # Extended Messages\n  #\n  class ::base::Other\n".toList
          ++ "    optional ::Protobuf::Field::Int32Field, :tag, 100, :extension => true\n".toList
          ++ "  end\n".toList) ++ "end\n".toList := by
  decide

/-- C24: the file `extendingFile` has a message of its own and, at file scope, the
extension `tag` of `base.Other`, a type defined elsewhere; the second pass leaves the
bucket of `base.Other` in the registry.  On a sink that never fails, whatever the
iteration order of the map, the `try` block of `Generate` writes the file up to and
including the dangling class of `base.Other`, whose entry `PrintMessageExtensionFields`
erases, and then increments the iterator of that erased entry: the run has no defined
continuation, and the `end` of the namespace module, which the text `Generate` is taken
to write ends with, has not been written.  For `twoDanglingFile`, with a map that
iterates in insertion order, the extension of `x.B` is still in the registry, unwritten,
when the iterator of the erased entry of `x.A` is incremented. -/
theorem Generate_flush_increments_erased_iterator (H : HashOrder) (fuel : Nat)
    (g : RubyGenerator) :
    (bodiesFileNodes extendingFile).2 = [("base.Other".toList, [otherExtension])]
    ∧ GenerateBodyByIterator H (fuel + 1) extendingFile (GenerateInit extendingFile none g)
        = Walk.undefined (stateOf
            (textBeforeFlush extendingFile
              ++ ("  ##\n  # Extended Messages\n  #\n  class ::base::Other\n".toList
              ++ "    optional ::Protobuf::Field::Int32Field, :tag, 100, :extension => true\n".toList
              ++ "  end\n".toList))
            true 1 [] "app.pb.rb".toList ["app".toList] g.failed_message)
    ∧ mapIncrement H [] "base.Other".toList = none
    ∧ generatedText H extendingFile
        = textBeforeFlush extendingFile
              ++ ("  ##\n  # Extended Messages\n  #\n  class ::base::Other\n".toList
              ++ "    optional ::Protobuf::Field::Int32Field, :tag, 100, :extension => true\n".toList
              ++ "  end\n".toList) ++ "end\n".toList
    ∧ GenerateBodyByIterator HashOrder.insertion (fuel + 1) twoDanglingFile
          (GenerateInit twoDanglingFile none g)
        = Walk.undefined (stateOf
            (textBeforeFlush twoDanglingFile
              ++ ("##\n# Extended Messages\n#\nclass ::x::A\n".toList
              ++ "  optional ::Protobuf::Field::Int32Field, :first, 100, :extension => true\n".toList
              ++ "end\n".toList))
            true 0 [("x.B".toList, [secondDanglingExtension])] "d.pb.rb".toList []
            g.failed_message) := by
  have hr : (bodiesFileNodes extendingFile).2 = [("base.Other".toList, [otherExtension])] := by
    decide
  have hr2 : (bodiesFileNodes twoDanglingFile).2 = twoDanglingRegistry := by decide
  refine ⟨hr, ?_, rfl, ?_, ?_⟩
  · obtain ⟨key, rest, hkr, hres⟩ :=
      (GenerateBodyByIterator_stateOf H fuel extendingFile g).2 (by rw [hr]; decide)
    rw [hr] at hkr hres
    have hk : "base.Other".toList = key :=
      (List.cons.inj ((order_singleton H "base.Other".toList).symm.trans hkr)).1
    subst hk
    rw [hres]
    rfl
  · rw [generatedText_eq]
    have e1 : danglingNodes H (bodiesFileNodes extendingFile).2
        = danglingNodes HashOrder.insertion (bodiesFileNodes extendingFile).2 := by
      rw [hr]
      simp only [danglingNodes, List.map_cons, List.map_nil, order_singleton]
    have e2 : fileNodes H extendingFile = fileNodes HashOrder.insertion extendingFile := by
      simp only [fileNodes, definitionNodes, e1]
    rw [e2]
    exact render_extendingFile
  · obtain ⟨key, rest, hkr, hres⟩ :=
      (GenerateBodyByIterator_stateOf HashOrder.insertion fuel twoDanglingFile g).2
        (by rw [hr2]; decide)
    rw [hr2] at hkr hres
    have hk : "x.A".toList = key := (List.cons.inj hkr).1
    subst hk
    rw [hres]
    rfl

/-! ## Calls of `Generate` on a generator that has been used before -/

theorem order_short (H : HashOrder) (keys : List Str) (h : keys.length ≤ 1) :
    H.order keys = keys := by
  match keys, h with
  | [], _ => exact (H.perm []).eq_nil
  | [k], _ => exact List.perm_singleton.mp (H.perm [k])
  | _ :: _ :: _, h => simp at h

theorem fileNodes_congr (H1 H2 : HashOrder) (file : FileDescriptor)
    (h : H1.order ((bodiesFileNodes file).2.map Prod.fst)
      = H2.order ((bodiesFileNodes file).2.map Prod.fst)) :
    fileNodes H1 file = fileNodes H2 file := by
  simp only [fileNodes, definitionNodes, danglingNodes, h]

theorem fileSteps_congr (H1 H2 : HashOrder) (file : FileDescriptor)
    (h : H1.order ((bodiesFileNodes file).2.map Prod.fst)
      = H2.order ((bodiesFileNodes file).2.map Prod.fst)) :
    fileSteps H1 file = fileSteps H2 file := by
  simp only [fileSteps, h]

/-- Two iteration orders that arrange the keys left after the second pass alike give the
same run of `Generate`. -/
theorem Generate_congr_order (H1 H2 : HashOrder) (file : FileDescriptor) (room : Option Nat)
    (g : RubyGenerator)
    (h : H1.order ((bodiesFileNodes file).2.map Prod.fst)
      = H2.order ((bodiesFileNodes file).2.map Prod.fst)) :
    (Generate H1 file room g).returned = (Generate H2 file room g).returned
    ∧ (Generate H1 file room g).error = (Generate H2 file room g).error
    ∧ (Generate H1 file room g).members.printer_.output
        = (Generate H2 file room g).members.printer_.output := by
  have ht : generatedText H1 file = generatedText H2 file := by
    rw [generatedText_eq, generatedText_eq, fileNodes_congr H1 H2 file h]
  have hs := fileSteps_congr H1 H2 file h
  cases room with
  | none =>
    obtain ⟨a1, a2, a3⟩ := Generate_never_failing H1 file g
    obtain ⟨b1, b2, b3⟩ := Generate_never_failing H2 file g
    have c1 := congrArg (fun m : RubyGenerator => m.printer_.output) a3
    have c2 := congrArg (fun m : RubyGenerator => m.printer_.output) b3
    refine ⟨a1.trans b1.symm, a2.trans b2.symm, c1.trans (Eq.trans ?_ c2.symm)⟩
    show render 0 (fileNodes H1 file) = render 0 (fileNodes H2 file)
    rw [fileNodes_congr H1 H2 file h]
  | some r =>
    by_cases hr : (generatedText H1 file).length ≤ r
    · obtain ⟨a1, a2, a3⟩ := (Generate_on H1 file r g).1 hr
      obtain ⟨b1, b2, b3⟩ := (Generate_on H2 file r g).1 (ht ▸ hr)
      have c1 := (congrArg (fun m : RubyGenerator => m.printer_.output) a3).trans
        (stateOn_output _ _ _ _ _ _ _ _)
      have c2 := (congrArg (fun m : RubyGenerator => m.printer_.output) b3).trans
        (stateOn_output _ _ _ _ _ _ _ _)
      exact ⟨a1.trans b1.symm, a2.trans b2.symm, c1.trans (ht.trans c2.symm)⟩
    · obtain ⟨a1, a2, a3, _⟩ := (Generate_on H1 file r g).2 (by omega)
      obtain ⟨b1, b2, b3, _⟩ := (Generate_on H2 file r g).2 (by rw [← ht]; omega)
      refine ⟨a1.trans b1.symm, a2.trans ?_, a3.trans ?_⟩
      · rw [b2, hs]
      · rw [b3, ht]

theorem twoDanglingFile_class_lines :
    (linesOf (generatedText HashOrder.reversed twoDanglingFile)).filter
        (fun l => "class ::".toList.isPrefixOf l)
      = ["class ::x::B".toList, "class ::x::A".toList]
    ∧ (linesOf (generatedText HashOrder.insertion twoDanglingFile)).filter
        (fun l => "class ::".toList.isPrefixOf l)
      = ["class ::x::A".toList, "class ::x::B".toList] := by
  constructor
  · rw [generatedText_eq]
    decide
  · rw [generatedText_eq]
    decide

theorem flippingHashing_small : flippingHashing.withBuckets 11 = HashOrder.reversed := rfl

theorem flippingHashing_large : flippingHashing.withBuckets 23 = HashOrder.insertion := rfl

theorem GenerateCall_eq (T : Hashing) (file : FileDescriptor) (room : Option Nat)
    (members : RubyGenerator) (bucket_count : Nat) :
    GenerateCall T file room { members := members, bucket_count := bucket_count }
      = Generate (T.withBuckets bucket_count) file room members := rfl

/-- C14, counterexample: `twoDanglingFile` leaves the buckets of `x.A` and `x.B` for the
flush.  With a table that iterates in reverse insertion order while it has fewer than 23
buckets and in insertion order from then on, `Generate` called on a generator whose table
has 11 buckets writes the class of `x.B` before the class of `x.A`, and called on a
generator whose table an earlier call has left with 23 buckets it writes the class of
`x.A` first: both calls return true, and the two texts differ. -/
theorem earlier_call_changes_dangling_order :
    (GenerateCall flippingHashing twoDanglingFile none { bucket_count := 11 }).returned = true
    ∧ (GenerateCall flippingHashing twoDanglingFile none { bucket_count := 23 }).returned
        = true
    ∧ (linesOf (GenerateCall flippingHashing twoDanglingFile none
          { bucket_count := 11 }).members.printer_.output).filter
        (fun l => "class ::".toList.isPrefixOf l)
      = ["class ::x::B".toList, "class ::x::A".toList]
    ∧ (linesOf (GenerateCall flippingHashing twoDanglingFile none
          { bucket_count := 23 }).members.printer_.output).filter
        (fun l => "class ::".toList.isPrefixOf l)
      = ["class ::x::A".toList, "class ::x::B".toList]
    ∧ (GenerateCall flippingHashing twoDanglingFile none
          { bucket_count := 11 }).members.printer_.output
      ≠ (GenerateCall flippingHashing twoDanglingFile none
          { bucket_count := 23 }).members.printer_.output := by
  have e1 : (GenerateCall flippingHashing twoDanglingFile none
        { bucket_count := 11 }).members.printer_.output
      = generatedText HashOrder.reversed twoDanglingFile := by
    rw [GenerateCall_eq, flippingHashing_small, generatedText]
  have e2 : (GenerateCall flippingHashing twoDanglingFile none
        { bucket_count := 23 }).members.printer_.output
      = generatedText HashOrder.insertion twoDanglingFile := by
    rw [GenerateCall_eq, flippingHashing_large, generatedText]
  have r1 : (GenerateCall flippingHashing twoDanglingFile none
        { bucket_count := 11 }).returned = true := by
    rw [GenerateCall_eq, flippingHashing_small]
    exact (Generate_never_failing HashOrder.reversed twoDanglingFile {}).1
  have r2 : (GenerateCall flippingHashing twoDanglingFile none
        { bucket_count := 23 }).returned = true := by
    rw [GenerateCall_eq, flippingHashing_large]
    exact (Generate_never_failing HashOrder.insertion twoDanglingFile {}).1
  obtain ⟨h1, h2⟩ := twoDanglingFile_class_lines
  refine ⟨r1, r2, ?_, ?_, ?_⟩
  · rw [e1]
    exact h1
  · rw [e2]
    exact h2
  · rw [e1, e2]
    intro h
    rw [h, h2] at h1
    exact absurd h1 (by decide)

/-- C14 (amended): the value `Generate` returns, the error it assigns and the text it
writes do not depend on the members an earlier call has left in the generator (file name,
namespace vector, contents of the extension map, indent level, printer, failure message),
on a sink that never fails and on a sink with room for any number of bytes, as long as the
table of the extension map has the same number of buckets in both generators, or the file
leaves at most one key for the flush.  The number of buckets is the one thing an earlier
call leaves behind that `Generate` does not reset; it can change the order in which the
flush visits the keys. -/
theorem Generate_independent_of_prior_members (T : Hashing) (file : FileDescriptor)
    (room : Option Nat) (obj1 obj2 : GeneratorObject)
    (h : obj1.bucket_count = obj2.bucket_count ∨ (bodiesFileNodes file).2.length ≤ 1) :
    (GenerateCall T file room obj1).returned = (GenerateCall T file room obj2).returned
    ∧ (GenerateCall T file room obj1).error = (GenerateCall T file room obj2).error
    ∧ (GenerateCall T file room obj1).members.printer_.output
        = (GenerateCall T file room obj2).members.printer_.output := by
  have ho : (T.withBuckets obj1.bucket_count).order ((bodiesFileNodes file).2.map Prod.fst)
      = (T.withBuckets obj2.bucket_count).order ((bodiesFileNodes file).2.map Prod.fst) := by
    rcases h with h | h
    · rw [h]
    · rw [order_short _ _ (by simpa using h), order_short _ _ (by simpa using h)]
  obtain ⟨a1, a2, a3⟩ := Generate_independent_of_prior_state
    (T.withBuckets obj1.bucket_count) file room obj1.members obj2.members
  obtain ⟨b1, b2, b3⟩ := Generate_congr_order (T.withBuckets obj1.bucket_count)
    (T.withBuckets obj2.bucket_count) file room obj2.members ho
  exact ⟨a1.trans b1, a2.trans b2, a3.trans b3⟩

theorem Generate_independent_of_prior_members_witness :
    (bodiesFileNodes extendingFile).2.length ≤ 1
    ∧ (GenerateCall flippingHashing extendingFile none { bucket_count := 11 }).returned
      = (GenerateCall flippingHashing extendingFile none
          { members := usedMembers, bucket_count := 23 }).returned
    ∧ (GenerateCall flippingHashing extendingFile none
          { bucket_count := 11 }).members.printer_.output
      = (GenerateCall flippingHashing extendingFile none
          { members := usedMembers, bucket_count := 23 }).members.printer_.output :=
  ⟨by decide,
    (Generate_independent_of_prior_members flippingHashing extendingFile none
      { bucket_count := 11 } { members := usedMembers, bucket_count := 23 }
      (Or.inr (by decide))).1,
    (Generate_independent_of_prior_members flippingHashing extendingFile none
      { bucket_count := 11 } { members := usedMembers, bucket_count := 23 }
      (Or.inr (by decide))).2.2⟩

end RubyGen
